import Mathlib

/-!
# Tubes and slices of tubex-lib

A shallow embedding of `src/core/dynamics/tube/tubex_Tube.cpp` (the tube kept as a
chain of slices) and the properties of its slicing, sampling, evaluation, inversion and
integration, of `src/core/geometry/tubex_GrahamScan.cpp` (the convex hull of points) and
`src/core/geometry/tubex_Edge.cpp` (edges and their intersections), and of
`src/tube/Tube_serialization.cpp` (binary files of tubes), `src/tube/tubex_Trajectory.cpp`
(trajectories) and `src/tube/tubex_Tube.cpp` (the tube kept as a tree, sampled at a vector of
times), with the contractor `CtcDeriv` that the tubes call.

* `Dbl` stands for `double` with exact arithmetic: a rational or one of the two infinities.
* `Interval` stands for `ibex::Interval`: the empty set or a pair of bounds.
* `Slice` and `Tube` hold the chain of slices; a gate between two slices is stored once,
  as the output gate of the slice on its left, as the two slices point to one gate object.
* `Point` is a pair of intervals; a vector of points is a list, a stack is the list of its
  points from the top down.
* `GrahamScan.sort` is the `std::sort` of libstdc++ on a list, with no result when a cell is
  read or written outside of the vector; `GrahamScan.convex_hull` has no result then.
* `Value` stands for the `double` that `Trajectory::operator[]` computes: a number or a NaN,
  with the overflow to an infinity. `Dbl.is_double` tells the rationals that are `double`s.
-/

namespace Tubex

/-! ## Doubles -/

/-- A `double` in exact arithmetic: minus infinity, a rational, or plus infinity. -/
inductive Dbl where
  | ninf : Dbl
  | fin (q : ℚ) : Dbl
  | pinf : Dbl
  deriving DecidableEq

namespace Dbl

/-- Order of the extended line. -/
def le : Dbl → Dbl → Prop
  | ninf, _ => True
  | fin _, ninf => False
  | fin a, fin b => a ≤ b
  | fin _, pinf => True
  | pinf, pinf => True
  | pinf, _ => False

instance decLe (a b : Dbl) : Decidable (Dbl.le a b) :=
  match a, b with
  | ninf, ninf => isTrue trivial
  | ninf, fin _ => isTrue trivial
  | ninf, pinf => isTrue trivial
  | fin _, ninf => isFalse id
  | fin a, fin b => inferInstanceAs (Decidable (a ≤ b))
  | fin _, pinf => isTrue trivial
  | pinf, ninf => isFalse id
  | pinf, fin _ => isFalse id
  | pinf, pinf => isTrue trivial

instance : LinearOrder Dbl where
  le := Dbl.le
  le_refl a := by cases a <;> simp [Dbl.le]
  le_trans a b c := by
    cases a <;> cases b <;> cases c <;> simp [Dbl.le]
    exact fun h1 h2 => le_trans h1 h2
  le_antisymm a b := by
    cases a <;> cases b <;> simp [Dbl.le]
    exact fun h1 h2 => le_antisymm h1 h2
  le_total a b := by
    cases a <;> cases b <;> simp [Dbl.le]
    exact le_total _ _
  decidableLE := decLe

/-- Sum of two doubles; an infinity absorbs a rational, and the undefined sum of the two
opposite infinities (a NaN) is taken to be minus infinity. -/
def add : Dbl → Dbl → Dbl
  | ninf, _ => ninf
  | _, ninf => ninf
  | pinf, _ => pinf
  | _, pinf => pinf
  | fin a, fin b => fin (a + b)

/-- Opposite of a double. -/
def neg : Dbl → Dbl
  | ninf => pinf
  | fin a => fin (-a)
  | pinf => ninf

/-- Difference of two doubles. -/
def sub (a b : Dbl) : Dbl := add a (neg b)

instance : Add Dbl := ⟨add⟩
instance : Neg Dbl := ⟨neg⟩
instance : Sub Dbl := ⟨sub⟩
instance : Zero Dbl := ⟨fin 0⟩

end Dbl

/-! ## Intervals -/

/-- An `ibex::Interval`: the empty set, or the bounds of a non-empty interval. -/
inductive Interval where
  | empty : Interval
  | mk (lb ub : Dbl) : Interval
  deriving DecidableEq

namespace Interval

/-- `Interval(a, b)`: the interval of bounds `a` and `b`, empty when they are not in order
or when it would be reduced to an infinity. -/
def make (a b : Dbl) : Interval :=
  if a ≤ b ∧ a ≠ Dbl.pinf ∧ b ≠ Dbl.ninf then mk a b else empty

/-- `Interval(a)`: the degenerate interval at `a`. -/
def point (a : Dbl) : Interval := make a a

/-- `Interval::EMPTY_SET`. -/
def EMPTY_SET : Interval := empty

/-- `Interval::ALL_REALS`. -/
def ALL_REALS : Interval := mk Dbl.ninf Dbl.pinf

/-- `lb()`; the empty set has no bound, the model answers plus infinity. -/
def lb : Interval → Dbl
  | empty => Dbl.pinf
  | mk a _ => a

/-- `ub()`; the empty set has no bound, the model answers minus infinity. -/
def ub : Interval → Dbl
  | empty => Dbl.ninf
  | mk _ b => b

/-- `is_empty()`. -/
def is_empty : Interval → Bool
  | empty => true
  | mk _ _ => false

/-- `is_unbounded()`: not empty and one bound infinite. -/
def is_unbounded : Interval → Bool
  | empty => false
  | mk a b => decide (a = Dbl.ninf ∨ b = Dbl.pinf)

/-- `is_degenerated()`: empty, or reduced to one point. -/
def is_degenerated : Interval → Bool
  | empty => true
  | mk a b => decide (a = b)

/-- `diam()`: the width, zero for the empty set. -/
def diam : Interval → Dbl
  | empty => 0
  | mk a b => b - a

/-- `contains(t)`. -/
def contains : Interval → Dbl → Bool
  | empty, _ => false
  | mk a b, t => decide (a ≤ t ∧ t ≤ b)

/-- `is_superset(y)`: every point of `y` is in the interval. -/
def is_superset : Interval → Interval → Bool
  | _, empty => true
  | empty, mk _ _ => false
  | mk a b, mk c d => decide (a ≤ c ∧ d ≤ b)

/-- `is_subset(y)`. -/
def is_subset (x y : Interval) : Bool := is_superset y x

/-- `intersects(y)`: the two intervals have a common point. -/
def intersects : Interval → Interval → Bool
  | empty, _ => false
  | _, empty => false
  | mk a b, mk c d => decide (a ≤ d ∧ c ≤ b)

/-- Modelled from the spec: `valid_domain` of tubex_DynamicalItem.cpp, which is not among the
sources; the domain of a slice or of a tube is a "non-empty, bounded" interval of time, and it
is not reduced to a point. -/
def valid_domain : Interval → Bool
  | mk (Dbl.fin a) (Dbl.fin b) => decide (a < b)
  | _ => false

/-- `x & y`: intersection. -/
def inter : Interval → Interval → Interval
  | empty, _ => empty
  | _, empty => empty
  | mk a b, mk c d => make (max a c) (min b d)

/-- `x | y`: hull of the union. -/
def hull : Interval → Interval → Interval
  | empty, y => y
  | x, empty => x
  | mk a b, mk c d => mk (min a c) (max b d)

/-- `x + y`: sum of two intervals. -/
def add : Interval → Interval → Interval
  | empty, _ => empty
  | _, empty => empty
  | mk a b, mk c d => mk (a + c) (b + d)

instance : Add Interval := ⟨add⟩

end Interval

/-! ## Slices -/

/-- Modelled from the spec: the class `Slice` of tubex_Slice.h and tubex_Slice.cpp, which are
not among the sources; a slice has a time domain, an envelope (`m_codomain`) and two gates,
and "each gate is shared with the adjacent slice". The record holds the domain, the envelope
and the output gate; the input gate is the gate object shared with the slice before
(`Slice::chain_slices`), held by that slice as its output gate, or by the tube for the first
slice. -/
structure Slice where
  domain : Interval
  codomain : Interval
  output_gate : Interval
  deriving DecidableEq

/-- What a `Slice*` into the chain of a tube gives access to: the input gate (shared with the
slice before), the slice itself, and the slices reached by `next_slice()`. -/
structure SliceRef where
  input_gate : Interval
  slice : Slice
  next : List Slice
  deriving DecidableEq

namespace Slice

/-- Modelled from the spec: the constructor `Slice(domain, codomain)` of tubex_Slice.cpp,
which is not among the sources; the envelope is `codomain` and so are both gates, the
enclosures at the two ends of the domain. This is the part of it kept by the slice. -/
def new (domain codomain : Interval) : Slice :=
  { domain := domain, codomain := codomain, output_gate := codomain }

/-- Modelled from the spec: `Slice::set(y)` of tubex_Slice.cpp, which is not among the
sources; "set(y) overwrites envelope". -/
def set (s : Slice) (y : Interval) : Slice := { s with codomain := y }

/-- Modelled from the spec: `Slice::set_envelope(y)` of tubex_Slice.cpp, which is not among
the sources; it overwrites the envelope. -/
def set_envelope (s : Slice) (y : Interval) : Slice := { s with codomain := y }

/-- Modelled from the spec: `Slice::set_output_gate(y)` of tubex_Slice.cpp, which is not
among the sources; "set_input_gate/output_gate(y) overwrite a gate". -/
def set_output_gate (s : Slice) (y : Interval) : Slice := { s with output_gate := y }

/-- Modelled from the spec: `Slice::set_domain(d)` of tubex_Slice.cpp, which is not among
the sources; it overwrites the domain. -/
def set_domain (s : Slice) (d : Interval) : Slice := { s with domain := d }

end Slice

namespace SliceRef

/-- Modelled from the spec: `Slice::operator()(double)` of tubex_Slice.cpp, which is not
among the sources; the gates are the enclosures "at domain.lb() / domain.ub()" and the
envelope is the enclosure over the domain. -/
def eval (r : SliceRef) (t : Dbl) : Interval :=
  if t = r.slice.domain.lb then r.input_gate
  else if t = r.slice.domain.ub then r.slice.output_gate
  else r.slice.codomain

end SliceRef

/-! ## Tubes -/

/-- A tube: the chain of its slices from `m_first_slice` on, and the input gate of the
first slice. A tube without slice is the state left by the constructor `Tube()`. -/
structure Tube where
  first_gate : Interval
  slices : List Slice
  deriving DecidableEq

/-- Loop of `Tube::get_slice(int)`: walks the chain counting from `i`. -/
def get_slice_loop (slice_id : Int) : Interval → List Slice → Int → Option SliceRef
  | _, [], _ => none
  | g, s :: rest, i =>
    if i = slice_id then some ⟨g, s, rest⟩
    else get_slice_loop slice_id s.output_gate rest (i + 1)

/-- Loop of `Tube::input2index`: `i` is the counter before the slice is looked at. -/
def input2index_loop (t : Dbl) : List Slice → Int → Int
  | [], i => i
  | s :: rest, i => if t < s.domain.ub then i + 1 else input2index_loop t rest (i + 1)

/-- Loop of `Tube::same_slicing`, `s2` walking the second chain. The second chain cannot end
first, the numbers of slices being equal. -/
def same_slicing_loop : List Slice → List Slice → Bool
  | [], _ => true
  | _ :: _, [] => false
  | s1 :: r1, s2 :: r2 => if s1.domain ≠ s2.domain then false else same_slicing_loop r1 r2

/-- Loop of `Tube::operator()(const Interval&)` from the slice of index `i` until the slice
of index `last`; the null pointer is the index past the last slice, and walking past the
end of the chain before `last` is reached dereferences it. -/
def eval_loop (last : Int) : List Slice → Int → Interval → Option Interval
  | [], i, codomain => if i = last then some codomain else none
  | s :: rest, i, codomain =>
    if i = last then some codomain else eval_loop last rest (i + 1) (codomain.hull s.codomain)

/-- Loop of `Tube::invert(y, v, search_domain)`, over the slices of the tube and those of the
derivative tube; `slice_invert` is `Slice::invert`. An empty second chain is the null
pointer `slice_xdot`, which a turn of the loop dereferences. -/
def invert_loop (slice_invert : SliceRef → Interval → SliceRef → Interval → Interval)
    (y intersection : Interval) :
    Interval → List Slice → Interval → List Slice → Interval → Option Interval
  | _, [], _, _, invert => some invert
  | gx, sx :: rx, gv, lv, invert =>
    if sx.domain.lb < intersection.ub then
      match lv with
      | [] => none
      | sv :: rv =>
        invert_loop slice_invert y intersection sx.output_gate rx sv.output_gate rv
          (if sx.codomain.intersects y then
            invert.hull (slice_invert ⟨gx, sx, rx⟩ y ⟨gv, sv, rv⟩ intersection)
          else invert)
    else some invert

/-- Loop of `Tube::set(y, t)` for an interval `t`: the envelopes are set until a slice meets
`t` in at most one point. -/
def set_loop (y t : Interval) : List Slice → List Slice
  | [] => []
  | s :: rest =>
    if (t.inter s.domain).is_degenerated then s :: rest else s.set y :: set_loop y t rest

/-- Loop of the constructor `Tube(domain, timestep, codomain)`: one slice for each turn, `ub`
being the upper bound reached so far; `new Slice(Interval(lb,ub))` has the codomain all
reals. The fuel bounds the number of turns. -/
def Tube_loop (domain_ub timestep : Dbl) : Nat → Dbl → Option (List Slice)
  | 0, _ => none
  | fuel + 1, ub =>
    if min (ub + timestep) domain_ub < domain_ub then
      (Tube_loop domain_ub timestep fuel (min (ub + timestep) domain_ub)).map
        (fun l => Slice.new (Interval.make ub (min (ub + timestep) domain_ub))
          Interval.ALL_REALS :: l)
    else
      some [Slice.new (Interval.make ub (min (ub + timestep) domain_ub)) Interval.ALL_REALS]

namespace Tube

/-- `Tube(domain, codomain)`: one slice. -/
def mk2 (domain codomain : Interval) : Tube :=
  { first_gate := codomain, slices := [Slice.new domain codomain] }

/-- `Tube::set(y)`: every slice is set to `y`. -/
def set (x : Tube) (y : Interval) : Tube :=
  { x with slices := x.slices.map (fun s => s.set y) }

/-- `Tube(domain, timestep, codomain)`. -/
def mk3 (fuel : Nat) (domain : Interval) (timestep : Dbl) (codomain : Interval) :
    Option Tube :=
  (Tube_loop domain.ub (if timestep = 0 then domain.diam else timestep) fuel domain.lb).map
    (fun l =>
      if codomain ≠ Interval.ALL_REALS then
        Tube.set { first_gate := Interval.ALL_REALS, slices := l } codomain
      else { first_gate := Interval.ALL_REALS, slices := l })

/-- `Tube(x, codomain)`: a copy of `x` set to `codomain`. -/
def copy_set (x : Tube) (codomain : Interval) : Tube := x.set codomain

/-- `Tube::nb_slices`. -/
def nb_slices (x : Tube) : Int := x.slices.length

/-- `Tube::get_first_slice`. -/
def get_first_slice (x : Tube) : Option SliceRef :=
  match x.slices with
  | [] => none
  | s :: rest => some ⟨x.first_gate, s, rest⟩

/-- `Tube::get_last_slice`; the loop dereferences the first slice. -/
def get_last_slice (x : Tube) : Option Slice := x.slices.getLast?

/-- `Tube::domain`. -/
def domain (x : Tube) : Option Interval :=
  match x.get_first_slice, x.get_last_slice with
  | some f, some l => some (Interval.make f.slice.domain.lb l.domain.ub)
  | _, _ => none

/-- `Tube::get_slice(int)`. -/
def get_slice_id (x : Tube) (slice_id : Int) : Option SliceRef :=
  get_slice_loop slice_id x.first_gate x.slices 0

/-- `Tube::input2index`. -/
def input2index (x : Tube) (t : Dbl) : Int := input2index_loop t x.slices (-1)

/-- `Tube::get_slice(double)`. -/
def get_slice (x : Tube) (t : Dbl) : Option SliceRef := x.get_slice_id (x.input2index t)

/-- `Tube::sample(double)`. The slice found is cut at `t`: it keeps the part before `t`
and its copy `new_slice` is chained after it; the gate they share is the output gate of the
slice cut, set by `new_slice->set_input_gate(new_slice->codomain())`. -/
def sample (x : Tube) (t : Dbl) : Option Tube :=
  match x.get_slice t with
  | none => none
  | some slice_to_be_sampled =>
    if slice_to_be_sampled.slice.domain.lb = t ∨ slice_to_be_sampled.slice.domain.ub = t then
      some x
    else
      let new_slice : Slice :=
        slice_to_be_sampled.slice.set_domain (Interval.make t slice_to_be_sampled.slice.domain.ub)
      let sampled : Slice :=
        (slice_to_be_sampled.slice.set_domain
          (Interval.make slice_to_be_sampled.slice.domain.lb t)).set_output_gate
          new_slice.codomain
      some { x with
        slices := x.slices.take (x.input2index t).toNat ++
          sampled :: new_slice :: x.slices.drop ((x.input2index t).toNat + 1) }

/-- The gate written by `set_input_gate` on the slice of index `i`: the gate object is the
output gate of the slice before, or the first gate of the tube. -/
def set_input_gate_at (x : Tube) (i : Nat) (gate : Interval) : Tube :=
  match i with
  | 0 => { x with first_gate := gate }
  | k + 1 => { x with slices := x.slices.modify (fun s => s.set_output_gate gate) k }

/-- The gate written by `set_output_gate` on the slice of index `i`. -/
def set_output_gate_at (x : Tube) (i : Nat) (gate : Interval) : Tube :=
  { x with slices := x.slices.modify (fun s => s.set_output_gate gate) i }

/-- `Tube::sample(double, const Interval&)`. -/
def sample_gate (x : Tube) (t : Dbl) (gate : Interval) : Option Tube :=
  match x.sample t with
  | none => none
  | some x1 =>
    match x1.get_slice t with
    | none => none
    | some slice =>
      if t = slice.slice.domain.lb then some (x1.set_input_gate_at (x1.input2index t).toNat gate)
      else some (x1.set_output_gate_at (x1.input2index t).toNat gate)

/-- `Tube::same_slicing`. -/
def same_slicing (x1 x2 : Tube) : Bool :=
  if x1.nb_slices ≠ x2.nb_slices then false else same_slicing_loop x1.slices x2.slices

/-- `Tube::operator()(double)`. -/
def eval (x : Tube) (t : Dbl) : Option Interval :=
  (x.get_slice t).map (fun s => s.eval t)

/-- `Tube::operator()(const Interval&)`. -/
def eval_interval (x : Tube) (t : Interval) : Option Interval :=
  if t.is_degenerated then x.eval t.lb
  else
    match x.get_slice t.lb, x.get_slice t.ub with
    | some first_slice, some last_slice =>
      eval_loop
        (if last_slice.slice.domain.lb ≠ t.ub then x.input2index t.ub + 1
          else x.input2index t.ub)
        (first_slice.slice :: first_slice.next) (x.input2index t.lb) Interval.EMPTY_SET
    | _, _ => none

/-- `Tube::invert(y, v, search_domain)`, `slice_invert` being `Slice::invert`, which is not
among the sources. -/
def invert_with (slice_invert : SliceRef → Interval → SliceRef → Interval → Interval)
    (x : Tube) (y : Interval) (v : Tube) (search_domain : Interval) : Option Interval :=
  match x.domain with
  | none => none
  | some d =>
    if (search_domain.inter d).is_empty then some Interval.EMPTY_SET
    else
      match x.get_slice (search_domain.inter d).lb, v.get_slice (search_domain.inter d).lb with
      | none, _ => some Interval.EMPTY_SET
      | some slice_x, none =>
        invert_loop slice_invert y (search_domain.inter d)
          slice_x.input_gate (slice_x.slice :: slice_x.next)
          Interval.EMPTY_SET [] Interval.EMPTY_SET
      | some slice_x, some slice_xdot =>
        invert_loop slice_invert y (search_domain.inter d)
          slice_x.input_gate (slice_x.slice :: slice_x.next)
          slice_xdot.input_gate (slice_xdot.slice :: slice_xdot.next) Interval.EMPTY_SET

/-- `Tube::invert(y, search_domain)`. -/
def invert (slice_invert : SliceRef → Interval → SliceRef → Interval → Interval)
    (x : Tube) (y search_domain : Interval) : Option Interval :=
  x.invert_with slice_invert y (x.copy_set Interval.ALL_REALS) search_domain

/-- `Tube::set(y, double)`. -/
def set_at (x : Tube) (y : Interval) (t : Dbl) : Option Tube := x.sample_gate t y

/-- `Tube::set(y, const Interval&)`. -/
def set_on (x : Tube) (y t : Interval) : Option Tube :=
  if t.is_degenerated then x.set_at y t.lb
  else
    match x.sample t.lb with
    | none => none
    | some x1 =>
      match x1.sample t.ub with
      | none => none
      | some x2 =>
        some { x2 with
          slices := x2.slices.take (x2.input2index t.lb).toNat ++
            set_loop y t (x2.slices.drop (x2.input2index t.lb).toNat) }

/-- `Tube::inflate(double)`. -/
def inflate (x : Tube) (rad : Dbl) : Tube :=
  { first_gate :=
      if x.slices = [] then x.first_gate
      else x.first_gate + Interval.make (-rad) rad
    slices := (x.slices.map (fun s => s.set_envelope (s.codomain + Interval.make (-rad) rad))).map
      (fun s => s.set_output_gate (s.output_gate + Interval.make (-rad) rad)) }

/-- The partition invariant of the chain of slices: there is a slice, every slice has a
bounded domain not reduced to a point, and the upper bound of each slice is the lower bound
of the next one. -/
def partition_invariant (x : Tube) : Prop :=
  x.slices ≠ [] ∧ (∀ s ∈ x.slices, s.domain.valid_domain = true) ∧
    x.slices.Chain' (fun s1 s2 => s1.domain.ub = s2.domain.lb)

/-- The chain condition of the partition invariant, as a test. -/
def adjacent : List Slice → Bool
  | s1 :: s2 :: rest => decide (s1.domain.ub = s2.domain.lb) && adjacent (s2 :: rest)
  | _ => true

instance (x : Tube) : Decidable x.partition_invariant :=
  decidable_of_iff
    (x.slices ≠ [] ∧ (∀ s ∈ x.slices, s.domain.valid_domain = true) ∧ adjacent x.slices = true)
    (by
      have key : ∀ l : List Slice, adjacent l = true ↔
          l.Chain' (fun (s1 s2 : Slice) => s1.domain.ub = s2.domain.lb) := by
        intro l
        induction l with
        | nil => simp [adjacent]
        | cons s1 rest ih =>
          cases rest with
          | nil => simp [adjacent]
          | cons s2 r => simp [adjacent, List.chain'_cons, ih]
      unfold partition_invariant
      rw [key])

end Tube

/-- A call that modifies a tube: `sample(t)`, `sample(t, gate)`, `set(y, t)`, `set(y, [t1,t2])`
or `inflate(rad)`. -/
inductive Call where
  | sample (t : Dbl) : Call
  | sample_gate (t : Dbl) (gate : Interval) : Call
  | set_at (y : Interval) (t : Dbl) : Call
  | set_on (y : Interval) (t1 t2 : Dbl) : Call
  | inflate (rad : Dbl) : Call

namespace Call

/-- The arguments of the call are inside the domain `d`, as the call asserts: the time is in
`d`, the interval `[t1,t2]` is in `d`, the radius is not negative. -/
def inside (d : Interval) : Call → Prop
  | sample t => d.contains t = true
  | sample_gate t _ => d.contains t = true
  | set_at _ t => d.contains t = true
  | set_on _ t1 t2 => d.contains t1 = true ∧ d.contains t2 = true ∧ t1 ≤ t2
  | inflate rad => 0 ≤ rad

end Call

namespace Tube

/-- The tube after a call. -/
def call (x : Tube) : Call → Option Tube
  | Call.sample t => x.sample t
  | Call.sample_gate t gate => x.sample_gate t gate
  | Call.set_at y t => x.set_at y t
  | Call.set_on y t1 t2 => x.set_on y (Interval.make t1 t2)
  | Call.inflate rad => some (x.inflate rad)

/-- The tube after a sequence of calls. -/
def calls (x : Tube) : List Call → Option Tube
  | [] => some x
  | c :: cs => (x.call c).bind (fun y => y.calls cs)

end Tube

/-- The gate that follows the slices of `pre`, `g` being the gate before them: the output
gate of the last one. -/
def gate_after : Interval → List Slice → Interval
  | g, [] => g
  | _, s :: pre => gate_after s.output_gate pre

/-! ## More arithmetic on doubles and intervals -/

namespace Dbl

/-- Product of two doubles; the undefined product of zero and an infinity (a NaN) is taken to
be zero, the convention of interval arithmetic. -/
def mul : Dbl → Dbl → Dbl
  | fin a, fin b => fin (a * b)
  | fin a, pinf => if a = 0 then fin 0 else if 0 < a then pinf else ninf
  | fin a, ninf => if a = 0 then fin 0 else if 0 < a then ninf else pinf
  | pinf, fin b => if b = 0 then fin 0 else if 0 < b then pinf else ninf
  | ninf, fin b => if b = 0 then fin 0 else if 0 < b then ninf else pinf
  | pinf, pinf => pinf
  | ninf, ninf => pinf
  | pinf, ninf => ninf
  | ninf, pinf => ninf

instance : Mul Dbl := ⟨mul⟩

end Dbl

namespace Interval

/-- `x - y`: difference of two intervals. -/
def sub : Interval → Interval → Interval
  | empty, _ => empty
  | _, empty => empty
  | mk a b, mk c d => mk (a - d) (b - c)

instance : Sub Interval := ⟨sub⟩

/-- `x * y`: product of two intervals. -/
def mul : Interval → Interval → Interval
  | empty, _ => empty
  | _, empty => empty
  | mk a b, mk c d =>
    mk (min (min (a * c) (a * d)) (min (b * c) (b * d)))
      (max (max (a * c) (a * d)) (max (b * c) (b * d)))

instance : Mul Interval := ⟨mul⟩

/-- `pow(x, 2)`: the square of an interval. -/
def sqr : Interval → Interval
  | empty => empty
  | mk a b =>
    if a ≤ 0 ∧ 0 ≤ b then mk 0 (max (a * a) (b * b))
    else mk (min (a * a) (b * b)) (max (a * a) (b * b))

/-- `mid()`: the midpoint of a bounded interval; zero for the empty set and for all reals, and
the infinite bound for an interval with one infinite bound, where `mid()` gives the largest
double. -/
def mid : Interval → Dbl
  | mk (Dbl.fin a) (Dbl.fin b) => Dbl.fin ((a + b) / 2)
  | mk (Dbl.fin _) Dbl.pinf => Dbl.pinf
  | mk Dbl.ninf (Dbl.fin _) => Dbl.ninf
  | _ => 0

end Interval

/-! ## Inversion in a list of intervals, integrals, bisection -/

/-- Loop of `Tube::invert(y, v_t, v, search_domain)`: `invert` is the interval that is open
and `v_t` the intervals closed so far; the result is the pair of them when the loop ends.
`slice_invert` is `Slice::invert`, and an empty second chain is the null pointer `slice_xdot`,
which a turn of the loop dereferences. -/
def invert_vector_loop (slice_invert : SliceRef → Interval → SliceRef → Interval → Interval)
    (y intersection : Interval) :
    Interval → List Slice → Interval → List Slice → Interval → List Interval →
      Option (Interval × List Interval)
  | _, [], _, _, invert, v_t => some (invert, v_t)
  | gx, sx :: rx, gv, lv, invert, v_t =>
    if sx.domain.lb ≤ intersection.ub then
      match lv with
      | [] => none
      | sv :: rv =>
        if (slice_invert ⟨gx, sx, rx⟩ y ⟨gv, sv, rv⟩ intersection).is_empty
            ∧ ¬ invert.is_empty then
          invert_vector_loop slice_invert y intersection sx.output_gate rx sv.output_gate rv
            Interval.EMPTY_SET (v_t ++ [invert])
        else
          invert_vector_loop slice_invert y intersection sx.output_gate rx sv.output_gate rv
            (invert.hull (slice_invert ⟨gx, sx, rx⟩ y ⟨gv, sv, rv⟩ intersection)) v_t
    else some (invert, v_t)

/-- `v_t.clear()`: the list without its content. -/
def vector_clear : List Interval → List Interval
  | _ => []

/-- The local inversions `slice_x->invert(y, *slice_xdot, intersection)` of the slices that
the loop of `Tube::invert(y, v_t, v, search_domain)` visits, in the order of the visit. -/
def local_inversions (slice_invert : SliceRef → Interval → SliceRef → Interval → Interval)
    (y intersection : Interval) :
    Interval → List Slice → Interval → List Slice → List Interval
  | gx, sx :: rx, gv, sv :: rv =>
    if sx.domain.lb ≤ intersection.ub then
      slice_invert ⟨gx, sx, rx⟩ y ⟨gv, sv, rv⟩ intersection ::
        local_inversions slice_invert y intersection sx.output_gate rx sv.output_gate rv
    else []
  | _, _, _, _ => []

/-- The hulls of the maximal runs of consecutive non-empty intervals of a list, in the order
of the list. -/
def hulls_of_runs (l : List Interval) : List Interval :=
  ((l.splitOnP Interval.is_empty).filter (fun run => !run.isEmpty)).map
    (fun run => run.foldl Interval.hull Interval.EMPTY_SET)

/-- Loop of `Tube::partial_integral(const Interval&)`; `t0` is `domain().lb()`. -/
def partial_integral_loop (t0 : Dbl) (t : Interval) :
    List Slice → Interval × Interval → Interval × Interval → Interval × Interval
  | [], p_integ, _ => p_integ
  | slice :: rest, p_integ, p_integ_uncertain =>
    if slice.domain.lb < t.ub then
      if slice.codomain.is_empty then (Interval.EMPTY_SET, Interval.EMPTY_SET)
      else if slice.codomain.is_unbounded then (Interval.ALL_REALS, Interval.ALL_REALS)
      else
        let intv_t1 := slice.domain.inter (Interval.make t0 t.lb)
        let p1 : Interval × Interval :=
          if intv_t1.is_empty then p_integ
          else (p_integ.1 + Interval.point (intv_t1.diam * slice.codomain.lb),
            p_integ.2 + Interval.point (intv_t1.diam * slice.codomain.ub))
        let u1 : Interval × Interval := if intv_t1.is_empty then p_integ_uncertain else p1
        let intv_t2 := slice.domain.inter t
        if intv_t2.is_empty then partial_integral_loop t0 t rest p1 u1
        else
          partial_integral_loop t0 t rest
            (p1.1.hull (u1.1 + Interval.make 0 intv_t2.diam * Interval.point slice.codomain.lb),
              p1.2.hull (u1.2 + Interval.make 0 intv_t2.diam * Interval.point slice.codomain.ub))
            (u1.1 + Interval.point (intv_t2.diam * slice.codomain.lb),
              u1.2 + Interval.point (intv_t2.diam * slice.codomain.ub))
    else p_integ

/-- The loop of `Tube::partial_integral(const Interval&)` on one component of its pairs, each
component being computed apart from the other: `c` is the bound of the envelope that the
component takes, `lb()` for the first and `ub()` for the second. The two early returns, on an
empty or unbounded envelope, are left out. -/
def partial_integral_loop1 (c : Slice → Dbl) (t0 : Dbl) (t : Interval) :
    List Slice → Interval → Interval → Interval
  | [], p_integ, _ => p_integ
  | slice :: rest, p_integ, p_integ_uncertain =>
    if slice.domain.lb < t.ub then
      let intv_t1 := slice.domain.inter (Interval.make t0 t.lb)
      let p1 : Interval :=
        if intv_t1.is_empty then p_integ
        else p_integ + Interval.point (intv_t1.diam * c slice)
      let u1 : Interval := if intv_t1.is_empty then p_integ_uncertain else p1
      let intv_t2 := slice.domain.inter t
      if intv_t2.is_empty then partial_integral_loop1 c t0 t rest p1 u1
      else
        partial_integral_loop1 c t0 t rest
          (p1.hull (u1 + Interval.make 0 intv_t2.diam * Interval.point (c slice)))
          (u1 + Interval.point (intv_t2.diam * c slice))
    else p_integ

/-- The sum over the slices of `c(slice) * length(domain(slice) ∩ [t0, tau])`: the partial sum
of the integral of the tube from `t0` to `tau`, for the bound `c` of the envelopes. -/
def partial_sum (c : Slice → Dbl) (t0 tau : Dbl) (l : List Slice) : Dbl :=
  (l.map (fun s => c s * (s.domain.inter (Interval.make t0 tau)).diam)).foldl (fun a b => a + b) 0

namespace Tube

/-- `Tube::invert(y, v_t, v, search_domain)`: the list `v_t` after the call. -/
def invert_vector (slice_invert : SliceRef → Interval → SliceRef → Interval → Interval)
    (x : Tube) (y : Interval) (v_t : List Interval) (v : Tube) (search_domain : Interval) :
    Option (List Interval) :=
  match x.domain with
  | none => none
  | some d =>
    if (search_domain.inter d).is_empty then some (vector_clear v_t)
    else
      match
        (match x.get_slice (search_domain.inter d).lb,
            v.get_slice (search_domain.inter d).lb with
          | none, _ => some (Interval.EMPTY_SET, vector_clear v_t)
          | some slice_x, none =>
            invert_vector_loop slice_invert y (search_domain.inter d)
              slice_x.input_gate (slice_x.slice :: slice_x.next)
              Interval.EMPTY_SET [] Interval.EMPTY_SET (vector_clear v_t)
          | some slice_x, some slice_xdot =>
            invert_vector_loop slice_invert y (search_domain.inter d)
              slice_x.input_gate (slice_x.slice :: slice_x.next)
              slice_xdot.input_gate (slice_xdot.slice :: slice_xdot.next)
              Interval.EMPTY_SET (vector_clear v_t))
      with
      | none => none
      | some (invert, v_t1) => if invert.is_empty then some v_t1 else some (v_t1 ++ [invert])

/-- The local inversions of the slices visited by `invert(y, v_t, v, search_domain)`. -/
def invert_locals (slice_invert : SliceRef → Interval → SliceRef → Interval → Interval)
    (x : Tube) (y : Interval) (v : Tube) (search_domain : Interval) : List Interval :=
  match x.domain with
  | none => []
  | some d =>
    if (search_domain.inter d).is_empty then []
    else
      match x.get_slice (search_domain.inter d).lb,
          v.get_slice (search_domain.inter d).lb with
      | some slice_x, some slice_xdot =>
        local_inversions slice_invert y (search_domain.inter d)
          slice_x.input_gate (slice_x.slice :: slice_x.next)
          slice_xdot.input_gate (slice_xdot.slice :: slice_xdot.next)
      | _, _ => []

/-- `Tube::partial_integral(const Interval&)`. The domain of the tube is read in the loop,
on a tube that has a slice. -/
def partial_integral (x : Tube) (t : Interval) : Option (Interval × Interval) :=
  match x.slices with
  | [] => some (Interval.point 0, Interval.point 0)
  | _ :: _ =>
    x.domain.map (fun d =>
      partial_integral_loop d.lb t x.slices (Interval.point 0, Interval.point 0)
        (Interval.point 0, Interval.point 0))

/-- `Tube::integral(const Interval&)`. -/
def integral (x : Tube) (t : Interval) : Option Interval :=
  (x.partial_integral t).map (fun partial_ti =>
    if partial_ti.1.is_empty ∨ partial_ti.2.is_empty then Interval.EMPTY_SET
    else if partial_ti.1.is_unbounded ∨ partial_ti.2.is_unbounded then Interval.ALL_REALS
    else (Interval.point partial_ti.1.lb).hull (Interval.point partial_ti.2.ub))

/-- `Tube::integral(double)`. -/
def integral_at (x : Tube) (t : Dbl) : Option Interval := x.integral (Interval.point t)

/-- `Tube::bisect(t, ratio)`: the pair of tubes, or the message of the `Exception` thrown.
`bisector` is `ibex::LargestFirst(0., ratio).bisect` on the box of the single interval
`(*this)(t)`, an empty result standing for `NoBisectableVariableException`. The tube itself is
not written: the method is `const` and works on two copies. -/
def bisect (bisector : Dbl → Interval → Option (Interval × Interval)) (x : Tube) (t ratio : Dbl) :
    Option (Except String (Tube × Tube)) :=
  match x.eval t with
  | none => none
  | some xt =>
    match bisector ratio xt with
    | none =>
      some (Except.error
        "unable to bisect, degenerated slice (ibex::NoBisectableVariableException)")
    | some p_codomain =>
      match x.set_at p_codomain.1 t, x.set_at p_codomain.2 t with
      | some first, some second => some (Except.ok (first, second))
      | _, _ => none

end Tube

/-- The invariant `envelope ⊇ hull(input_gate, output_gate)` along a chain of slices, `g` being
the input gate of the first of them. -/
def envelope_encloses_gates : Interval → List Slice → Bool
  | _, [] => true
  | g, s :: rest =>
    s.codomain.is_superset (g.hull s.output_gate) && envelope_encloses_gates s.output_gate rest

/-- A bisector as `ibex::LargestFirst(0., ratio)` on a box of one interval, an external
collaborator: an interval that is empty or reduced to a point is not bisectable, else the two
parts meet at `lb + ratio * diam`, or at the midpoint for an unbounded interval. -/
def largest_first_bisect (ratio : Dbl) : Interval → Option (Interval × Interval)
  | Interval.empty => none
  | Interval.mk a b =>
    if a = b then none
    else if (Interval.mk a b).is_unbounded then
      some (Interval.mk a (Interval.mk a b).mid, Interval.mk (Interval.mk a b).mid b)
    else some (Interval.mk a (a + ratio * (b - a)), Interval.mk (a + ratio * (b - a)) b)

/-! ## Points and the Graham scan -/

/-- Modelled from the spec: the class `Point` of tubex_Point.h, which is not among the sources;
"Point is a pair of intervals (x, y)". -/
structure Point where
  x : Interval
  y : Interval
  deriving DecidableEq

instance : Inhabited Point := ⟨⟨Interval.EMPTY_SET, Interval.EMPTY_SET⟩⟩

/-- The answer of a test on intervals, `ibex::BoolInterval`. -/
inductive BoolInterval where
  | YES : BoolInterval
  | MAYBE : BoolInterval
  | NO : BoolInterval
  deriving DecidableEq

/-- The values of `enum class OrientationInterval`. -/
inductive OrientationInterval where
  | CLOCKWISE : OrientationInterval
  | COUNTERCLOCKWISE : OrientationInterval
  | UNDEFINED : OrientationInterval
  deriving DecidableEq

namespace Point

/-- Modelled from the spec: `Point::does_not_exist` of tubex_Point.cpp, which is not among the
sources; a vertex is "a finite (non-does-not-exist) point", and a point does not exist when one
of its coordinates is the empty interval. -/
def does_not_exist (p : Point) : Bool := p.x.is_empty || p.y.is_empty

/-- Modelled from the spec: `Point::aligned` of tubex_Point.cpp, which is not among the sources;
the scan "strips interior collinear duplicates" with it. Three points are aligned when the
cross product of `b - a` and `c - a` is zero; the answer is `MAYBE` when the interval of the
cross product only contains zero. -/
def aligned (a b c : Point) : BoolInterval :=
  if (b.x - a.x) * (c.y - a.y) - (b.y - a.y) * (c.x - a.x) = Interval.point 0 then
    BoolInterval.YES
  else if ((b.x - a.x) * (c.y - a.y) - (b.y - a.y) * (c.x - a.x)).contains 0 then
    BoolInterval.MAYBE
  else BoolInterval.NO

/-- The point of exact coordinates `(a, b)`: both intervals are reduced to one rational. -/
def exact (a b : ℚ) : Point :=
  ⟨Interval.mk (Dbl.fin a) (Dbl.fin a), Interval.mk (Dbl.fin b) (Dbl.fin b)⟩

/-- The coordinates of a point, read on the lower bounds; zero for a bound that is not a
rational. -/
def coords (p : Point) : ℚ × ℚ :=
  (match p.x.lb with
    | Dbl.fin a => a
    | _ => 0,
   match p.y.lb with
    | Dbl.fin b => b
    | _ => 0)

/-- The point has exact coordinates: its two intervals are reduced to a rational. -/
def is_exact (p : Point) : Prop := p = exact p.coords.1 p.coords.2

end Point

namespace GrahamScan

/-- `GrahamScan::next_to_top`; a stack is the list of its points from the top down. -/
def next_to_top (s : List Point) : Option Point := (s.drop 1).head?

/-- `GrahamScan::swap` on the cells `i` and `j` of a vector. -/
def swap (v : List Point) (i j : Nat) : List Point :=
  (v.set i (v.getD j default)).set j (v.getD i default)

/-- `GrahamScan::dist`. -/
def dist (p1 p2 : Point) : Interval := (p1.x - p2.x).sqr + (p1.y - p2.y).sqr

/-- `GrahamScan::orientation`. -/
def orientation (a b c : Point) : OrientationInterval :=
  if ((b.y - a.y) * (c.x - b.x) - (b.x - a.x) * (c.y - b.y)).contains 0 then
    OrientationInterval.UNDEFINED
  else if 0 < ((b.y - a.y) * (c.x - b.x) - (b.x - a.x) * (c.y - b.y)).lb then
    OrientationInterval.CLOCKWISE
  else OrientationInterval.COUNTERCLOCKWISE

/-- `PointsSorter::operator()`, the comparator of the sort, for the pivot `m_p0`. -/
def PointsSorter (m_p0 p1 p2 : Point) : Bool :=
  match orientation m_p0 p1 p2 with
  | OrientationInterval.COUNTERCLOCKWISE => true
  | OrientationInterval.UNDEFINED => decide ((dist m_p0 p1).mid ≤ (dist m_p0 p2).mid)
  | OrientationInterval.CLOCKWISE => false

/-- The search of the bottommost point in `convex_hull`: `i` is the index of the point looked
at, `min` and `ymin` are the index and the ordinate found so far. -/
def bottommost_loop (v_pts : List Point) : List Point → Nat → Nat → Interval → Nat
  | [], _, min, _ => min
  | p :: rest, i, min, ymin =>
    if p.y.lb < ymin.lb ∨ (ymin.lb = p.y.lb ∧ p.x.lb < (v_pts.getD min default).x.lb) then
      bottommost_loop v_pts rest (i + 1) i p.y
    else bottommost_loop v_pts rest (i + 1) min ymin

/-- `std::__unguarded_linear_insert` of libstdc++ (bits/stl_algo.h), of which `std::sort` is
made: `val` goes towards the beginning of the vector, past the cells that it precedes. The list
holds the cells before the one of `val`, the nearest one first, and the result holds them with
`val` among them, in the same order. The loop does not test the beginning of the vector: when
`val` precedes every cell, the cell before the first one is read, and there is no result. -/
def unguarded_linear_insert (comp : Point → Point → Bool) (val : Point) :
    List Point → Option (List Point)
  | [] => none
  | next :: before =>
    if comp val next then (unguarded_linear_insert comp val before).map (fun l => next :: l)
    else some (val :: next :: before)

/-- One turn of the loop of `std::__insertion_sort` of libstdc++: `sorted` holds the cells from
`first` to the one before `i`, and `val` is `*i`. When `val` precedes `*first` it is moved to the
first cell, and otherwise `__unguarded_linear_insert` places it. -/
def insertion_step (comp : Point → Point → Bool) (sorted : List Point) (val : Point) :
    Option (List Point) :=
  match sorted with
  | [] => some [val]
  | first :: rest =>
    if comp val first then some (val :: first :: rest)
    else (unguarded_linear_insert comp val (first :: rest).reverse).map List.reverse

/-- `std::__insertion_sort(first, last, comp)` of libstdc++. -/
def insertion_sort (comp : Point → Point → Bool) : List Point → Option (List Point)
  | [] => some []
  | first :: rest => rest.foldlM (insertion_step comp) [first]

/-- A write to the cell `i` of the vector; there is no result outside of the vector. -/
def write (v : List Point) (i : Nat) (x : Point) : Option (List Point) :=
  if i < v.length then some (v.set i x) else none

/-- `std::iter_swap` on the cells `a` and `b` of the vector. -/
def iter_swap (v : List Point) (a b : Nat) : Option (List Point) := do
  let x ← v[a]?
  let y ← v[b]?
  let v ← write v a y
  write v b x

/-- `std::__move_median_to_first` of libstdc++ (bits/stl_algo.h): the median of the cells `a`,
`b` and `c` is swapped with the cell `result`. -/
def move_median_to_first (comp : Point → Point → Bool) (v : List Point) (result a b c : Nat) :
    Option (List Point) := do
  let pa ← v[a]?
  let pb ← v[b]?
  let pc ← v[c]?
  if comp pa pb then
    if comp pb pc then iter_swap v result b
    else if comp pa pc then iter_swap v result c
    else iter_swap v result a
  else if comp pa pc then iter_swap v result a
  else if comp pb pc then iter_swap v result c
  else iter_swap v result b

/-- The loop `while (comp(first, pivot)) ++first` of `std::__unguarded_partition`, on the cells
from `first` to the end of the vector: the first cell that does not precede the pivot. The loop
does not test the end of the vector: when every cell precedes the pivot, the cell after the last
one is read, and there is no result. -/
def scan_up (comp : Point → Point → Bool) (pivot : Point) : List Point → Nat → Option Nat
  | [], _ => none
  | x :: rest, first => if comp x pivot then scan_up comp pivot rest (first + 1) else some first

/-- The loop `while (comp(pivot, last)) --last` of `std::__unguarded_partition`, on the cells
from `last` down to the beginning of the vector: the first cell that the pivot does not precede.
The loop does not test the beginning of the vector: when the pivot precedes every cell, the cell
before the first one is read, and there is no result. -/
def scan_down (comp : Point → Point → Bool) (pivot : Point) : List Point → Nat → Option Nat
  | [], _ => none
  | x :: rest, last => if comp pivot x then scan_down comp pivot rest (last - 1) else some last

/-- `std::__unguarded_partition(first, last, pivot, comp)` of libstdc++: the vector after the
swaps, and the place returned. A turn of the outer loop moves `first` at least one cell
forward, so that a `fuel` of the length of the vector lets the loop run to its end. -/
def unguarded_partition (comp : Point → Point → Bool) :
    Nat → List Point → Nat → Nat → Nat → Option (List Point × Nat)
  | 0, _, _, _, _ => none
  | fuel + 1, v, first, last, pivot => do
    let p ← v[pivot]?
    let first ← scan_up comp p (v.drop first) first
    if v.length < last then none
    else
      let last ← scan_down comp p (v.take last).reverse (last - 1)
      if first < last then
        let v ← iter_swap v first last
        unguarded_partition comp fuel v (first + 1) last pivot
      else some (v, first)

/-- `std::__unguarded_partition_pivot` of libstdc++. -/
def unguarded_partition_pivot (comp : Point → Point → Bool) (v : List Point) (first last : Nat) :
    Option (List Point × Nat) := do
  let mid := first + (last - first) / 2
  let v ← move_median_to_first comp v first (first + 1) mid (last - 1)
  unguarded_partition comp v.length v (first + 1) last first

/-- `std::__push_heap` of libstdc++ (bits/stl_heap.h). The hole goes to its parent at each turn,
so that a `fuel` above `holeIndex` lets the loop run to its end. -/
def push_heap (comp : Point → Point → Bool) :
    Nat → List Point → Nat → Nat → Nat → Point → Option (List Point)
  | 0, _, _, _, _, _ => none
  | fuel + 1, v, first, holeIndex, topIndex, value =>
    let parent := (holeIndex - 1) / 2
    if topIndex < holeIndex then do
      let p ← v[first + parent]?
      if comp p value then
        let v ← write v (first + holeIndex) p
        push_heap comp fuel v first parent topIndex value
      else write v (first + holeIndex) value
    else write v (first + holeIndex) value

/-- The `while` loop of `std::__adjust_heap`: the vector, `holeIndex` and `secondChild` after
it. The second child grows at each turn, so that a `fuel` above `len` lets the loop run to its
end. -/
def adjust_heap_loop (comp : Point → Point → Bool) (first len : Nat) :
    Nat → List Point → Nat → Nat → Option (List Point × Nat × Nat)
  | 0, _, _, _ => none
  | fuel + 1, v, holeIndex, secondChild =>
    if secondChild < (len - 1) / 2 then do
      let s := 2 * (secondChild + 1)
      let a ← v[first + s]?
      let b ← v[first + (s - 1)]?
      let s := if comp a b then s - 1 else s
      let c ← v[first + s]?
      let v ← write v (first + holeIndex) c
      adjust_heap_loop comp first len fuel v s s
    else some (v, holeIndex, secondChild)

/-- `std::__adjust_heap` of libstdc++ (bits/stl_heap.h). -/
def adjust_heap (comp : Point → Point → Bool) (v : List Point) (first holeIndex len : Nat)
    (value : Point) : Option (List Point) := do
  let (v, hole, secondChild) ← adjust_heap_loop comp first len (len + 1) v holeIndex holeIndex
  if len % 2 = 0 ∧ len ≠ 0 ∧ secondChild = (len - 2) / 2 then
    let s := 2 * (secondChild + 1)
    let c ← v[first + (s - 1)]?
    let v ← write v (first + hole) c
    push_heap comp s v first (s - 1) holeIndex value
  else push_heap comp (hole + 1) v first hole holeIndex value

/-- The loop of `std::__make_heap`, from `parent` down to zero. -/
def make_heap_loop (comp : Point → Point → Bool) (first len : Nat) :
    Nat → List Point → Option (List Point)
  | 0, v => do
    let value ← v[first]?
    adjust_heap comp v first 0 len value
  | parent + 1, v => do
    let value ← v[first + (parent + 1)]?
    let v ← adjust_heap comp v first (parent + 1) len value
    make_heap_loop comp first len parent v

/-- `std::__make_heap` of libstdc++ (bits/stl_heap.h). -/
def make_heap (comp : Point → Point → Bool) (v : List Point) (first last : Nat) :
    Option (List Point) :=
  if last - first < 2 then some v
  else make_heap_loop comp first (last - first) ((last - first - 2) / 2) v

/-- `std::__sort_heap` of libstdc++ (bits/stl_heap.h), `len` being `last - first`: the last
cell of the heap takes the first one, and `__adjust_heap` places what it held. -/
def sort_heap (comp : Point → Point → Bool) (first : Nat) :
    Nat → List Point → Option (List Point)
  | len + 2, v => do
    let value ← v[first + (len + 1)]?
    let top ← v[first]?
    let v ← write v (first + (len + 1)) top
    let v ← adjust_heap comp v first 0 (len + 1) value
    sort_heap comp first (len + 1) v
  | _, v => some v

/-- `std::__partial_sort(first, last, last, comp)` of libstdc++, as `__introsort_loop` calls it:
`__heap_select` is then `__make_heap` alone, no cell being left from `middle` on. -/
def partial_sort (comp : Point → Point → Bool) (v : List Point) (first last : Nat) :
    Option (List Point) := do
  let v ← make_heap comp v first last
  sort_heap comp first (last - first) v

/-- `std::__introsort_loop(first, last, depth_limit, comp)` of libstdc++, `_S_threshold` being
16: a turn of its loop is a call of the function on the cells from `first` to `cut`. The
difference `last - first` is zero where that of the iterators is negative. -/
def introsort_loop (comp : Point → Point → Bool) :
    Nat → List Point → Nat → Nat → Option (List Point)
  | 0, v, first, last =>
    if 16 < last - first then partial_sort comp v first last else some v
  | depth_limit + 1, v, first, last =>
    if 16 < last - first then do
      let (v, cut) ← unguarded_partition_pivot comp v first last
      let v ← introsort_loop comp depth_limit v cut last
      introsort_loop comp depth_limit v first cut
    else some v

/-- `std::__unguarded_insertion_sort` of libstdc++, on the cells `rest` that follow those of
`sorted`. -/
def unguarded_insertion_sort (comp : Point → Point → Bool) (sorted rest : List Point) :
    Option (List Point) :=
  rest.foldlM (fun l val => (unguarded_linear_insert comp val l.reverse).map List.reverse) sorted

/-- `std::__final_insertion_sort` of libstdc++. -/
def final_insertion_sort (comp : Point → Point → Bool) (v : List Point) : Option (List Point) :=
  if 16 < v.length then do
    let sorted ← insertion_sort comp (v.take 16)
    unguarded_insertion_sort comp sorted (v.drop 16)
  else insertion_sort comp v

/-- `std::sort(v_pts.begin(), v_pts.end(), comp)`. The comparator of the call, `PointsSorter`,
answers `true` on a point and itself: it is not the strict weak ordering that `std::sort`
requires, and the C++ standard leaves the behaviour of the call undefined. The model is the
`std::sort` of libstdc++ (bits/stl_algo.h and bits/stl_heap.h of GCC 12), on a list for the
vector and places for the iterators: `__introsort_loop` with the depth `2 * __lg(last - first)`,
then `__final_insertion_sort`. There is no result when a cell is read or written outside of the
vector, which the loops of `__unguarded_partition` and of `__unguarded_linear_insert` do under
a comparator that is not strict. A range of at most 16 elements is sorted by
`__insertion_sort` alone, which stays in the range whatever the comparator is. -/
def sort (comp : Point → Point → Bool) (v : List Point) : Option (List Point) :=
  if v.isEmpty then some v
  else do
    let v ← introsort_loop comp (2 * Nat.log2 v.length) v 0 v.length
    final_insertion_sort comp v

/-- The loop of `convex_hull` that removes the points aligned with `p0` and the next point, on
the cells `1 ..` of the vector: the points it keeps, which it writes to the cells `1 .. m-1`.
The loop reads a cell only after it has written the cells before it. -/
def remove_aligned (p0 : Point) : List Point → List Point
  | a :: b :: rest =>
    if Point.aligned p0 a b = BoolInterval.YES then remove_aligned p0 (b :: rest)
    else a :: remove_aligned p0 (b :: rest)
  | l => l

/-- The `while` loop of the scan: the top `t` of the stack is popped while the stack has more
than one point and the turn from `n`, the point `next_to_top(s)`, to `q` at `t` is clockwise. -/
def pop_loop (q : Point) : List Point → List Point
  | t :: n :: rest =>
    if orientation n t q = OrientationInterval.CLOCKWISE then pop_loop q (n :: rest)
    else t :: n :: rest
  | s => s

/-- The `for` loop of the scan over the cells `3 .. m-1`, `s` being the stack. -/
def scan_loop : List Point → List Point → List Point
  | [], s => s
  | q :: rest, s => scan_loop rest (q :: pop_loop q s)

/-- `GrahamScan::convex_hull`. After the removal of the aligned points the vector holds the
pivot, the `m - 1` points kept, and from the cell `m` on what it held before. There is no
result when the sort has none. -/
def convex_hull (v_points : List Point) : Option (List Point) :=
  let v_pts := v_points.filter (fun p => !p.does_not_exist)
  if v_pts.length ≤ 3 then some v_pts
  else
    let min := bottommost_loop v_pts (v_pts.drop 1) 1 0 (v_pts.getD 0 default).y
    let v_swapped := swap v_pts 0 min
    let p0 := v_swapped.getD 0 default
    (sort (PointsSorter p0) v_swapped).map (fun v_sorted =>
      let kept := remove_aligned p0 (v_sorted.drop 1)
      let m := kept.length + 1
      let v_kept := v_sorted.take 1 ++ kept ++ v_sorted.drop m
      (scan_loop ((v_kept.take m).drop 3)
        [v_kept.getD 2 default, v_kept.getD 1 default, v_kept.getD 0 default]).reverse)

end GrahamScan

/-- The cross product of `a - o` and `b - o`: positive when the turn from `a` to `b` around `o`
is counter-clockwise. -/
def cross (o a b : ℚ × ℚ) : ℚ := (a.1 - o.1) * (b.2 - o.2) - (a.2 - o.2) * (b.1 - o.1)

/-- The point `q` is above `o`, or on its right at the same height: the half-plane of the
points that the scan sorts around the pivot `o`. -/
def above (o q : ℚ × ℚ) : Prop := o.2 < q.2 ∨ (o.2 = q.2 ∧ o.1 ≤ q.1)

/-- The square of the distance between two points. -/
def dist2 (o a : ℚ × ℚ) : ℚ := (o.1 - a.1) ^ 2 + (o.2 - a.2) ^ 2

/-- The order of the sort around the pivot `o`: `a` comes before `b` when the turn from `a` to
`b` is counter-clockwise, or when they are aligned with `o` and `b` is at least as far. -/
def angle_le (o a b : ℚ × ℚ) : Prop :=
  0 < cross o a b ∨ (cross o a b = 0 ∧ dist2 o a ≤ dist2 o b)

/-! ## Real points of an interval -/

/-- The double `a` is at most the real number `x`. -/
def Dbl.le_real : Dbl → ℝ → Prop
  | Dbl.ninf, _ => True
  | Dbl.fin a, x => (a : ℝ) ≤ x
  | Dbl.pinf, _ => False

/-- The real number `x` is at most the double `b`. -/
def Dbl.real_le : ℝ → Dbl → Prop
  | _, Dbl.ninf => False
  | x, Dbl.fin b => x ≤ (b : ℝ)
  | _, Dbl.pinf => True

/-- The real number `x` is a point of the interval. -/
def Interval.mem (x : ℝ) : Interval → Prop
  | Interval.empty => False
  | Interval.mk a b => a.le_real x ∧ Dbl.real_le x b

/-! ## Division of intervals, boxes and edges -/

namespace Dbl

/-- Quotient of two doubles. A rational over zero is the infinity of its sign, a rational over
an infinity is zero, and the undefined quotients (a NaN: zero over zero, an infinity over an
infinity) are taken to be minus infinity, as the undefined sum is. -/
def div : Dbl → Dbl → Dbl
  | fin a, fin b => if b = 0 then (if 0 < a then pinf else ninf) else fin (a / b)
  | fin _, _ => fin 0
  | pinf, fin b => if 0 ≤ b then pinf else ninf
  | ninf, fin b => if 0 ≤ b then ninf else pinf
  | _, _ => ninf

instance : Div Dbl := ⟨div⟩

end Dbl

namespace Interval

/-- `x / y`: quotient of two intervals, the hull of the quotients of a point of `x` by a point
of `y` that is not zero. It is empty when `y` is reduced to zero; when zero is a point of `y`
it is a half-line for `x` of one sign and zero as a bound of `y`, zero for `x` reduced to
zero, and all reals otherwise. -/
def div : Interval → Interval → Interval
  | empty, _ => empty
  | _, empty => empty
  | mk a b, mk c d =>
    if c = 0 ∧ d = 0 then empty
    else if 0 < c ∨ d < 0 then mk a b * mk (Dbl.fin 1 / d) (Dbl.fin 1 / c)
    else if a = 0 ∧ b = 0 then mk 0 0
    else if b < 0 then
      if d = 0 then mk (b / c) Dbl.pinf else if c = 0 then mk Dbl.ninf (b / d) else ALL_REALS
    else if 0 < a then
      if d = 0 then mk Dbl.ninf (a / c) else if c = 0 then mk (a / d) Dbl.pinf else ALL_REALS
    else ALL_REALS

instance : Div Interval := ⟨div⟩

end Interval

/-- An `ibex::IntervalVector` of size 2: its components `[0]` and `[1]`. -/
structure IntervalVector where
  c0 : Interval
  c1 : Interval
  deriving DecidableEq

namespace IntervalVector

/-- `IntervalVector(2, Interval::EMPTY_SET)`, and the vector after `set_empty()`. -/
def EMPTY : IntervalVector := ⟨Interval.EMPTY_SET, Interval.EMPTY_SET⟩

/-- `is_empty()`: a vector is empty when its first component is. -/
def is_empty (v : IntervalVector) : Bool := v.c0.is_empty

/-- `x | y`, and `x |= y`: hull of the union, component by component; an empty vector is left
out. -/
def hull (x y : IntervalVector) : IntervalVector :=
  if y.is_empty then x
  else if x.is_empty then y
  else ⟨x.c0.hull y.c0, x.c1.hull y.c1⟩

/-- `x & y`: intersection, component by component; the vector is set empty as soon as one
component is. -/
def inter (x y : IntervalVector) : IntervalVector :=
  if x.is_empty then x
  else if y.is_empty then EMPTY
  else if (x.c0.inter y.c0).is_empty ∨ (x.c1.inter y.c1).is_empty then EMPTY
  else ⟨x.c0.inter y.c0, x.c1.inter y.c1⟩

/-- `is_subset(y)`. -/
def is_subset (x y : IntervalVector) : Bool :=
  if x.is_empty then true
  else if y.is_empty then false
  else x.c0.is_subset y.c0 && x.c1.is_subset y.c1

/-- `is_flat()`: empty, or one component is degenerated. -/
def is_flat (x : IntervalVector) : Bool :=
  x.is_empty || x.c0.is_degenerated || x.c1.is_degenerated

/-- `is_unbounded()`: not empty and one component unbounded. -/
def is_unbounded (x : IntervalVector) : Bool :=
  !x.is_empty && (x.c0.is_unbounded || x.c1.is_unbounded)

end IntervalVector

/-- Modelled from the spec: `Point::box` of tubex_Point.cpp, which is not among the sources;
"Point is a pair of intervals (x, y)", and its box is the vector of the two. -/
def Point.box (p : Point) : IntervalVector := ⟨p.x, p.y⟩

/-- The class `Edge`: its two endpoints `m_p1` and `m_p2`. -/
structure Edge where
  p1 : Point
  p2 : Point
  deriving DecidableEq

namespace Edge

/-- `Edge::box`. -/
def box (e : Edge) : IntervalVector := e.p1.box.hull e.p2.box

/-- `Edge::does_not_exist`. -/
def does_not_exist (e : Edge) : Bool := e.p1.does_not_exist || e.p2.does_not_exist

/-- `Edge::operator&(const Edge&)`, with the intervals it divides by, in the order of the
divisions. The intervals are computed exactly, as all the arithmetic on `Dbl` is: the slope `a`
of edges of exact endpoints is here the interval of one rational, where ibex rounds the bounds
of the quotient outwards to `double`s. `Dbl.is_double`, `Dbl.is_round_down` and
`Dbl.is_round_up` say what this rounding makes of a divisor. -/
def inter_divisors (e1 e : Edge) : Point × List Interval :=
  if e.box.c0.is_degenerated then
    if e1.box.is_flat then
      (⟨e1.box.c0.inter e.box.c0, e1.box.c1.inter e.box.c1⟩, [])
    else
      let a := (e1.p2.y - e1.p1.y) / (e1.p2.x - e1.p1.x)
      let b := e1.p1.y
      (⟨e.box.c0.inter e1.box.c0, e.box.c1.inter (b + a * (e.box.c0 - e1.p1.x))⟩,
        [e1.p2.x - e1.p1.x])
  else if e.box.c1.is_degenerated then
    if e1.box.is_flat then
      (⟨e1.box.c0.inter e.box.c0, e1.box.c1.inter e.box.c1⟩, [])
    else
      let a := (e1.p2.y - e1.p1.y) / (e1.p2.x - e1.p1.x)
      let b := e1.p1.y
      (⟨e.box.c0.inter (e1.p1.x + ((e.box.c1 - b) / a)), e.box.c1.inter e1.box.c1⟩,
        [e1.p2.x - e1.p1.x, a])
  else
    let x1 := e1.p1.x
    let y1 := e1.p1.y
    let x2 := e1.p2.x
    let y2 := e1.p2.y
    let x3 := e.p1.x
    let y3 := e.p1.y
    let x4 := e.p2.x
    let y4 := e.p2.y
    (⟨((((x1 * y2 - y1 * x2) * (x3 - x4) - (x1 - x2) * (x3 * y4 - y3 * x4))
          / ((x1 - x2) * (y3 - y4) - (y1 - y2) * (x3 - x4))).inter e1.box.c0).inter e.box.c0,
      ((((x1 * y2 - y1 * x2) * (y3 - y4) - (y1 - y2) * (x3 * y4 - y3 * x4))
          / ((x1 - x2) * (y3 - y4) - (y1 - y2) * (x3 - x4))).inter e1.box.c1).inter e.box.c1⟩,
      [(x1 - x2) * (y3 - y4) - (y1 - y2) * (x3 - x4),
        (x1 - x2) * (y3 - y4) - (y1 - y2) * (x3 - x4)])

/-- `Edge::operator&(const Edge&)`: the point returned. -/
def inter (e1 e : Edge) : Point := (inter_divisors e1 e).1

end Edge

/-- `push_edges`: the four edges of a box, after those of `v_edges`. A `double` given for an
interval is the interval `Interval(double)`. -/
def push_edges (box : IntervalVector) (v_edges : List Edge) : List Edge :=
  if !box.is_empty then
    let xlb :=
      if box.c1.lb ≠ Dbl.ninf then Interval.point box.c1.lb
      else Interval.make Dbl.ninf box.c1.ub
    let xub :=
      if box.c1.ub ≠ Dbl.pinf then Interval.point box.c1.ub
      else Interval.make box.c1.lb Dbl.pinf
    v_edges ++
      [⟨⟨Interval.point box.c0.lb, xlb⟩, ⟨Interval.point box.c0.ub, xlb⟩⟩,
        ⟨⟨Interval.point box.c0.ub, xlb⟩, ⟨Interval.point box.c0.ub, xub⟩⟩,
        ⟨⟨Interval.point box.c0.ub, xub⟩, ⟨Interval.point box.c0.lb, xub⟩⟩,
        ⟨⟨Interval.point box.c0.lb, xub⟩, ⟨Interval.point box.c0.lb, xlb⟩⟩]
  else v_edges

namespace Edge

/-- `Edge::operator&(const IntervalVector&)`. -/
def inter_box (e : Edge) (x : IntervalVector) : IntervalVector :=
  if e.box.is_flat then x.inter e.box
  else
    let inter1 := if e.p1.box.is_subset x then IntervalVector.EMPTY.hull e.p1.box
      else IntervalVector.EMPTY
    let inter2 := if e.p2.box.is_subset x then inter1.hull e.p2.box else inter1
    if e.p1.box.is_subset x ∧ e.p2.box.is_subset x then inter2
    else (push_edges x []).foldl (fun inter b => inter.hull (e.inter b).box) inter2

/-- `Edge::parallel`. -/
def parallel (e1 e2 : Edge) : BoolInterval :=
  if e1.box.c0.is_degenerated ∧ e2.box.c0.is_degenerated then BoolInterval.YES
  else if e1.box.c1.is_degenerated ∧ e2.box.c1.is_degenerated then BoolInterval.YES
  else if (e1.inter e2).box.is_unbounded then BoolInterval.MAYBE
  else BoolInterval.NO

/-- The edge of exact endpoints `(x1, y1)` and `(x2, y2)`. -/
def exact (x1 y1 x2 y2 : ℚ) : Edge := ⟨Point.exact x1 y1, Point.exact x2 y2⟩

end Edge

/-- The real point `q` is on the segment of endpoints `p1` and `p2`. -/
def on_segment (p1 p2 : ℚ × ℚ) (q : ℝ × ℝ) : Prop :=
  ∃ s : ℝ, 0 ≤ s ∧ s ≤ 1 ∧ q.1 = p1.1 + s * (p2.1 - p1.1) ∧ q.2 = p1.2 + s * (p2.2 - p1.2)

/-- A field of a binary file: the bytes written by one call of `write` for a value of a type,
which a call of `read` for the same type reads back. -/
inductive Field where
  | short (n : Int) : Field
  | int (n : Int) : Field
  | double (d : Dbl) : Field
  deriving DecidableEq

/-- The number of bytes of a field: `sizeof(short int)`, `sizeof(int)` and `sizeof(double)`. -/
def Field.size : Field → Nat
  | Field.short _ => 2
  | Field.int _ => 4
  | Field.double _ => 8

/-- The number of bytes of a list of fields. -/
def Field.bytes (l : List Field) : Nat := (l.map Field.size).sum

/-- A message written to `cout`. -/
inductive Message where
  | error_while_opening_file : Message
  | error_while_writing_file : Message
  | unhandled_case : Message
  | version_not_supported (version_number : Int) : Message
  deriving DecidableEq

/-- How a call ends for its caller: it returns, or it leaves by an exception. -/
inductive Completion where
  | returned : Completion
  | thrown : Completion
  deriving DecidableEq

namespace IntervalType

/-- `enum IntervalType`, value `BOUNDED`. -/
def BOUNDED : Int := 0

/-- `enum IntervalType`, value `EMPTY_SET`. -/
def EMPTY_SET : Int := 1

/-- `enum IntervalType`, value `ALL_REALS`. -/
def ALL_REALS : Int := 2

/-- `enum IntervalType`, value `POS_REALS`. -/
def POS_REALS : Int := 3

/-- `enum IntervalType`, value `NEG_REALS`. -/
def NEG_REALS : Int := 4

end IntervalType

/-- `Interval::POS_REALS`. -/
def Interval.POS_REALS : Interval := Interval.mk 0 Dbl.pinf

/-- `Interval::NEG_REALS`. -/
def Interval.NEG_REALS : Interval := Interval.mk Dbl.ninf 0

/-- The type `intv_type` that `serializeInterval` gives to an interval. -/
def intv_type (intv : Interval) : Int :=
  if intv = Interval.EMPTY_SET then IntervalType.EMPTY_SET
  else if intv = Interval.ALL_REALS then IntervalType.ALL_REALS
  else if intv = Interval.POS_REALS then IntervalType.POS_REALS
  else if intv = Interval.NEG_REALS then IntervalType.NEG_REALS
  else IntervalType.BOUNDED

/-- `serializeInterval`: `binFile` is the list of the fields written so far. -/
def serializeInterval (binFile : List Field) (intv : Interval) : List Field :=
  if intv_type intv = IntervalType.BOUNDED then
    ((binFile ++ [Field.short (intv_type intv)]) ++ [Field.double intv.lb])
      ++ [Field.double intv.ub]
  else binFile ++ [Field.short (intv_type intv)]

/-- `binFile.read` of a `short int`: the value and the fields that remain. The model stops
when the next field is not of this type. -/
def read_short : List Field → Option (Int × List Field)
  | Field.short n :: rest => some (n, rest)
  | _ => none

/-- `binFile.read` of an `int`. -/
def read_int : List Field → Option (Int × List Field)
  | Field.int n :: rest => some (n, rest)
  | _ => none

/-- `binFile.read` of a `double`. -/
def read_double : List Field → Option (Dbl × List Field)
  | Field.double d :: rest => some (d, rest)
  | _ => none

/-- `deserializeInterval`: `binFile` is the list of the fields that remain to be read and
`intv` the interval of the caller; the result is that interval after the call, the fields
that remain and the messages written. -/
def deserializeInterval (binFile : List Field) (intv : Interval) :
    Option (Interval × List Field × List Message) :=
  match read_short binFile with
  | none => none
  | some (intv_type, f1) =>
    if intv_type = IntervalType.EMPTY_SET then some (Interval.EMPTY_SET, f1, [])
    else if intv_type = IntervalType.ALL_REALS then some (Interval.ALL_REALS, f1, [])
    else if intv_type = IntervalType.POS_REALS then some (Interval.POS_REALS, f1, [])
    else if intv_type = IntervalType.NEG_REALS then some (Interval.NEG_REALS, f1, [])
    else if intv_type = IntervalType.BOUNDED then
      match read_double f1 with
      | none => none
      | some (lb, f2) =>
        match read_double f2 with
        | none => none
        | some (ub, f3) => some (Interval.make lb ub, f3, [])
    else some (intv, f1, [Message.unhandled_case])

namespace TubeLib

/-- Modelled from the spec: the class `Tube` of Tube.h, which is not among the sources and
which the file Tube_serialization.cpp belongs to: "the ordered partition of a time domain into
adjacent slices", with the envelope of each slice. -/
structure Tube where
  domain : Interval
  slices : List Slice
  deriving DecidableEq

namespace Tube

/-- Modelled from the spec: `Tube::size` of Tube.cpp, which is not among the sources; the
number of slices, as `nb_slices()` "equals leaf count". -/
def size (x : Tube) : Int := x.slices.length

/-- Modelled from the spec: `Tube::set(const Interval&, int)` of Tube.cpp, which is not among
the sources; "set(y) overwrites envelope", here of the slice of index `i`. -/
def set (x : Tube) (y : Interval) (i : Int) : Tube :=
  { x with slices := x.slices.modify (fun s => s.set y) i.toNat }

/-- Modelled from the spec: `Tube::createFromSpecifications(domain, timestep)` of Tube.cpp,
which is not among the sources; a tube is "created from (domain, timestep) by pre-splitting
into equal-width slices (last slice may be narrower)", which the loop of the constructor
`Tube(domain, timestep, codomain)` does. The fuel bounds the number of turns of the loop. -/
def createFromSpecifications (fuel : Nat) (domain : Interval) (timestep : Dbl) : Option Tube :=
  (Tube_loop domain.ub timestep fuel domain.lb).map (fun l => ⟨domain, l⟩)

end Tube

/-- What the constructor `Tube(binary_file_name)` leaves: the tube made by
`createFromSpecifications` and `set`, or nothing when they were not called; the fields of the
file that remain to be read; the messages written; and how the constructor ended. -/
structure Construction where
  tube : Option Tube
  binFile : List Field
  cout : List Message
  completion : Completion
  deriving DecidableEq

/-- The loop of the constructor over the slices, with `n` turns to go from the index `i`. -/
def slices_loop : Nat → Int → List Field → Tube → List Message →
    Option (Tube × List Field × List Message)
  | 0, _, binFile, x, cout => some (x, binFile, cout)
  | n + 1, i, binFile, x, cout =>
    match deserializeInterval binFile Interval.ALL_REALS with
    | none => none
    | some (slice_value, f, msg) => slices_loop n (i + 1) f (x.set slice_value i) (cout ++ msg)

/-- The constructor `Tube::Tube(const string& binary_file_name)`; `binary_file` is the list of
the fields of the file, or nothing for a file that cannot be opened. An `Interval` that is
declared is all reals. The constructor has no `throw`. -/
def Tube_from_file (fuel : Nat) (binary_file : Option (List Field)) : Option Construction :=
  match binary_file with
  | none => some ⟨none, [], [Message.error_while_opening_file], Completion.returned⟩
  | some binFile =>
    match read_short binFile with
    | none => none
    | some (version_number, f1) =>
      if version_number = 1 then
        match read_int f1 with
        | none => none
        | some (slices_number, f2) =>
          match deserializeInterval f2 Interval.ALL_REALS with
          | none => none
          | some (domain, f3, msg) =>
            match Tube.createFromSpecifications fuel domain
                (domain.diam / Dbl.fin slices_number) with
            | none => none
            | some x =>
              match slices_loop slices_number.toNat 0 f3 x msg with
              | none => none
              | some (y, f4, cout) => some ⟨some y, f4, cout, Completion.returned⟩
      else
        some ⟨none, f1, [Message.version_not_supported version_number], Completion.returned⟩

end TubeLib

/-! ## Trajectories -/

/-- A `double` as `Trajectory::operator[]` computes and returns it: a NaN, or a number. -/
inductive Value where
  | nan : Value
  | num (d : Dbl) : Value
  deriving DecidableEq

namespace Value

/-- The result in `double` of an operation whose exact result is `q`: an infinity when `q`
is at or beyond `2^1024 - 2^970`, half a unit in the last place after the largest `double`
`2^1024 - 2^971`, where the rounding to nearest overflows; `q` itself otherwise, the rounding
of a result in range being left out. -/
def round (q : ℚ) : Value :=
  if ((2 ^ 1024 - 2 ^ 970 : ℕ) : ℚ) ≤ q then num Dbl.pinf
  else if q ≤ -((2 ^ 1024 - 2 ^ 970 : ℕ) : ℚ) then num Dbl.ninf
  else num (Dbl.fin q)

/-- Sum of two `double`s (IEEE 754): a NaN gives a NaN, and so do the two opposite
infinities. -/
def add : Value → Value → Value
  | nan, _ => nan
  | _, nan => nan
  | num a, num b =>
    match a, b with
    | Dbl.fin x, Dbl.fin y => round (x + y)
    | Dbl.pinf, Dbl.ninf => nan
    | Dbl.ninf, Dbl.pinf => nan
    | Dbl.pinf, _ => num Dbl.pinf
    | _, Dbl.pinf => num Dbl.pinf
    | Dbl.ninf, _ => num Dbl.ninf
    | _, Dbl.ninf => num Dbl.ninf

/-- Opposite of a `double`. -/
def neg : Value → Value
  | nan => nan
  | num a => num (-a)

/-- Difference of two `double`s (IEEE 754): a NaN for two equal infinities. -/
def sub (a b : Value) : Value := add a (neg b)

/-- Product of two `double`s (IEEE 754): a NaN gives a NaN, and so does zero times an
infinity. -/
def mul : Value → Value → Value
  | nan, _ => nan
  | _, nan => nan
  | num a, num b =>
    match a, b with
    | Dbl.fin x, Dbl.fin y => round (x * y)
    | Dbl.fin x, Dbl.pinf => if x = 0 then nan else if 0 < x then num Dbl.pinf else num Dbl.ninf
    | Dbl.fin x, Dbl.ninf => if x = 0 then nan else if 0 < x then num Dbl.ninf else num Dbl.pinf
    | Dbl.pinf, Dbl.fin y => if y = 0 then nan else if 0 < y then num Dbl.pinf else num Dbl.ninf
    | Dbl.ninf, Dbl.fin y => if y = 0 then nan else if 0 < y then num Dbl.ninf else num Dbl.pinf
    | Dbl.pinf, Dbl.pinf => num Dbl.pinf
    | Dbl.ninf, Dbl.ninf => num Dbl.pinf
    | Dbl.pinf, Dbl.ninf => num Dbl.ninf
    | Dbl.ninf, Dbl.pinf => num Dbl.ninf

/-- Quotient of two `double`s (IEEE 754): a NaN gives a NaN, and so do zero over zero and an
infinity over an infinity. A zero divisor is taken with the sign plus, the two zeros of the
`double`s being one number here. -/
def div : Value → Value → Value
  | nan, _ => nan
  | _, nan => nan
  | num a, num b =>
    match a, b with
    | Dbl.fin x, Dbl.fin y =>
      if y = 0 then (if x = 0 then nan else if 0 < x then num Dbl.pinf else num Dbl.ninf)
      else round (x / y)
    | Dbl.fin _, Dbl.pinf => num (Dbl.fin 0)
    | Dbl.fin _, Dbl.ninf => num (Dbl.fin 0)
    | Dbl.pinf, Dbl.fin y => if 0 ≤ y then num Dbl.pinf else num Dbl.ninf
    | Dbl.ninf, Dbl.fin y => if 0 ≤ y then num Dbl.ninf else num Dbl.pinf
    | Dbl.pinf, Dbl.pinf => nan
    | Dbl.pinf, Dbl.ninf => nan
    | Dbl.ninf, Dbl.pinf => nan
    | Dbl.ninf, Dbl.ninf => nan

instance : Add Value := ⟨add⟩
instance : Sub Value := ⟨sub⟩
instance : Mul Value := ⟨mul⟩
instance : Div Value := ⟨div⟩

end Value

/-- The class `Trajectory`: its member `m_map_values`, a `std::map<double,double>`, as the
list of its pairs in the order of the keys. -/
structure Trajectory where
  m_map_values : List (Dbl × Dbl)
  deriving DecidableEq

namespace Trajectory

/-- `Trajectory::domain`. An empty map has no first and no last pair, and `begin()` is
dereferenced: there is no result then. -/
def domain (x : Trajectory) : Option Interval :=
  match x.m_map_values.head?, x.m_map_values.getLast? with
  | some first, some last => some (Interval.make first.1 last.1)
  | _, _ => none

/-- `m_map_values.lower_bound(t)`: the iterator to the first pair whose key is not less than
`t`, as the list of the pairs from that one on; the empty list is `end()`. -/
def lower_bound (t : Dbl) : List (Dbl × Dbl) → List (Dbl × Dbl)
  | [] => []
  | p :: rest => if p.1 < t then lower_bound t rest else p :: rest

/-- `m_map_values.at(t)`: the value of the key `t`, and nothing for a key that the map does
not hold, where `at` throws. -/
def map_at (t : Dbl) : List (Dbl × Dbl) → Option Dbl
  | [] => none
  | p :: rest => if p.1 = t then some p.2 else map_at t rest

/-- `Trajectory::operator[]`. The last statement is computed in `double`s, where it can give a
NaN. There is no result when `it_lower` or `it_upper` is `end()`, which the last statement
dereferences. -/
def eval (x : Trajectory) (t : Dbl) : Option Value :=
  match x.domain with
  | none => none
  | some d =>
    if !d.contains t then some Value.nan
    else if d.ub = t then (map_at t x.m_map_values).map Value.num
    else
      match lower_bound t x.m_map_values with
      | it_lower :: it_upper :: _ =>
        some (Value.num it_lower.2 +
          (Value.num t - Value.num it_lower.1) * (Value.num it_upper.2 - Value.num it_lower.2)
            / (Value.num it_upper.1 - Value.num it_lower.1))
      | _ => none

end Trajectory

/-! ## Volume, thickness of the gates, bounds of a tube -/

/-- Modelled from the spec: `Slice::volume` of tubex_Slice.cpp, which is not among the
sources; "volume() returns the enclosure's Lebesgue-like measure diam(domain) × diam(envelope)
(infinite if unbounded)". -/
def Slice.volume (s : Slice) : Dbl :=
  if s.codomain.is_unbounded then Dbl.pinf else s.domain.diam * s.codomain.diam

/-- `Tube::volume`. -/
def Tube.volume (x : Tube) : Dbl := x.slices.foldl (fun volume s => volume + s.volume) 0

/-- Loop of `Tube::max_gate_thickness`: the result and the value of the parameter `t` when
the function returns. -/
def max_gate_thickness_loop : List Slice → Dbl → Dbl → Dbl → Dbl × Dbl
  | [], _, max_thickness, t => (max_thickness, t)
  | slice :: rest, max_diam, max_thickness, t =>
    if slice.output_gate.is_unbounded then (Dbl.pinf, slice.domain.ub)
    else if max_diam < slice.output_gate.diam then
      max_gate_thickness_loop rest slice.codomain.diam slice.output_gate.diam slice.domain.ub
    else max_gate_thickness_loop rest max_diam max_thickness t

/-- `Tube::max_gate_thickness(double& t)`: the value returned and the value left in `t`. The
first slice is dereferenced: there is no result for a tube without slice. -/
def Tube.max_gate_thickness (x : Tube) (t : Dbl) : Option (Dbl × Dbl) :=
  match x.get_first_slice with
  | none => none
  | some slice =>
    if slice.input_gate.is_unbounded then some (Dbl.pinf, slice.slice.domain.lb)
    else some (max_gate_thickness_loop x.slices 0 slice.input_gate.diam t)

/-- The gates of a tube with the times where they are: the input gate of the first slice and
the output gate of every slice. -/
def Tube.gates (x : Tube) : List (Dbl × Interval) :=
  match x.slices with
  | [] => []
  | s :: rest => (s.domain.lb, x.first_gate) ::
      (s :: rest).map (fun q => (q.domain.ub, q.output_gate))

/-- Loop of `Tube::eval(const Interval&)`; `slice_eval` is `Slice::eval`, which is not among
the sources. -/
def eval_bounds_loop (slice_eval : SliceRef → Interval → Interval × Interval)
    (intersection : Interval) :
    Interval → List Slice → Interval × Interval → Interval × Interval
  | _, [], enclosed_bounds => enclosed_bounds
  | g, s :: rest, enclosed_bounds =>
    if s.domain.lb ≤ intersection.ub then
      eval_bounds_loop slice_eval intersection s.output_gate rest
        (enclosed_bounds.1.hull (slice_eval ⟨g, s, rest⟩ intersection).1,
          enclosed_bounds.2.hull (slice_eval ⟨g, s, rest⟩ intersection).2)
    else enclosed_bounds

/-- `Tube::eval(const Interval&)`, with the slice that `get_slice(intersection.lb())` gives
when it is called: nothing when the function returns before the call. -/
def Tube.eval_bounds_slice (slice_eval : SliceRef → Interval → Interval × Interval)
    (x : Tube) (t : Interval) : Option ((Interval × Interval) × Option SliceRef) :=
  match x.domain with
  | none => none
  | some d =>
    if t.is_empty then some ((Interval.EMPTY_SET, Interval.EMPTY_SET), none)
    else
      match x.get_slice (t.inter d).lb with
      | none => some ((Interval.EMPTY_SET, Interval.EMPTY_SET), none)
      | some slice =>
        some (eval_bounds_loop slice_eval (t.inter d) slice.input_gate
          (slice.slice :: slice.next) (Interval.EMPTY_SET, Interval.EMPTY_SET), some slice)

/-- `Tube::eval(const Interval&)`: the pair returned. -/
def Tube.eval_bounds (slice_eval : SliceRef → Interval → Interval × Interval)
    (x : Tube) (t : Interval) : Option (Interval × Interval) :=
  (x.eval_bounds_slice slice_eval t).map (fun r => r.1)

/-! ## Truncation of a trajectory -/

/-- Loop of `Trajectory::truncateDomain`: the pairs that are not erased. -/
def Trajectory.truncate_loop (domain : Interval) : List (Dbl × Dbl) → List (Dbl × Dbl)
  | [] => []
  | it :: rest =>
    if !domain.contains it.1 then truncate_loop domain rest
    else it :: truncate_loop domain rest

/-- `Trajectory::truncateDomain`. -/
def Trajectory.truncateDomain (x : Trajectory) (domain : Interval) : Trajectory :=
  ⟨Trajectory.truncate_loop domain x.m_map_values⟩

/-! ## The tube kept as a tree (`src/tube/tubex_Tube.cpp`) -/

namespace Tree

/-- Modelled from the spec: the classes `TubeSlice` and `TubeNode` of tubex_TubeSlice.h and
tubex_TubeNode.h, which are not among the sources; a tube is "either one slice (leaf) or a
binary split into two sub-tubes whose domains are adjacent and together equal the parent's
domain". A leaf holds its domain and its envelope; the gates, which `set(gate, t)` writes at
the end of `sample(t, gate)`, are not held. -/
inductive TubeComponent where
  | TubeSlice (domain codomain : Interval) : TubeComponent
  | TubeNode (first second : TubeComponent) : TubeComponent
  deriving DecidableEq

namespace TubeComponent

/-- Modelled from the spec: `TubeComponent::domain`, not among the sources; the domain of a
node goes from the lower bound of its first part to the upper bound of its second part. -/
def domain : TubeComponent → Interval
  | TubeSlice d _ => d
  | TubeNode a b => Interval.make a.domain.lb b.domain.ub

/-- Modelled from the spec: `TubeComponent::getSlices`, not among the sources; the domains
of the leaves, read left to right. -/
def slice_domains : TubeComponent → List Interval
  | TubeSlice d _ => [d]
  | TubeNode a b => a.slice_domains ++ b.slice_domains

/-- What `Tube::sample(double, const Interval&)` does to the tree when `t` is in the domain.
`getSlice(t)`, modelled from the spec, goes down to the leaf that contains `t`, the first
part of a node when `t` is the bound shared by its two parts; the leaf is left as it is when
`t` is one of its bounds, and otherwise `new TubeNode(*slice_to_be_sampled, t)`, modelled from
the spec ("split the owning slice into two adjacent slices at t, each initialized with a copy
of the original envelope"), takes its place in its parent, or in the tube. The call of
`set(gate, t)` that ends it samples at `t` once more, which finds `t` a bound and returns, and
writes a gate, which the tree of this model does not hold. -/
def sample : TubeComponent → Dbl → TubeComponent
  | TubeSlice d c, t =>
    if d.lb = t ∨ d.ub = t then TubeSlice d c
    else TubeNode (TubeSlice (Interval.make d.lb t) c) (TubeSlice (Interval.make t d.ub) c)
  | TubeNode a b, t =>
    if t ≤ a.domain.ub then TubeNode (a.sample t) b else TubeNode a (b.sample t)

/-- The tree is well formed: the domain of a leaf is bounded and not reduced to a point, and
the two parts of a node are adjacent. -/
def well_formed : TubeComponent → Prop
  | TubeSlice d _ => d.valid_domain = true
  | TubeNode a b => a.well_formed ∧ b.well_formed ∧ a.domain.ub = b.domain.lb

/-- Whether a tree is well formed can be computed. -/
def decide_well_formed : (c : TubeComponent) → Decidable c.well_formed
  | TubeSlice d _ => inferInstanceAs (Decidable (d.valid_domain = true))
  | TubeNode a b =>
    @instDecidableAnd _ _ (decide_well_formed a)
      (@instDecidableAnd _ _ (decide_well_formed b)
        (inferInstanceAs (Decidable (a.domain.ub = b.domain.lb))))

instance (c : TubeComponent) : Decidable c.well_formed := decide_well_formed c

/-- The time `t` is a bound of a slice of the tree. -/
def is_slice_bound (c : TubeComponent) (t : Dbl) : Prop :=
  ∃ d ∈ c.slice_domains, d.lb = t ∨ d.ub = t

instance (c : TubeComponent) (t : Dbl) : Decidable (c.is_slice_bound t) :=
  inferInstanceAs (Decidable (∃ d ∈ c.slice_domains, d.lb = t ∨ d.ub = t))

end TubeComponent

/-- The class `Tube` of `src/tube/tubex_Tube.cpp`: its member `m_component`. -/
structure Tube where
  m_component : TubeComponent
  deriving DecidableEq

/-- `Tube::sample(double t, const Interval& gate)`, as called by `sample(v_bounds[i])` with
the gate of its declaration: `DomainException::check(*this, t)` throws for a `t` out of the
domain, and there is no result then. -/
def Tube.sample (x : Tube) (t : Dbl) : Option Tube :=
  if x.m_component.domain.contains t then some ⟨x.m_component.sample t⟩ else none

end Tree

/-- `Tube::sample(const vector<double>& v_bounds)` of `src/tube/tubex_Tube.cpp`, for any
`sample(double)` acting on a state: the loop calls it on `v_bounds[mid]`, the two recursive
calls follow, and an exception of `sample(double)` ends the whole. The fuel bounds the depth
of the recursion. -/
def sample_vector {σ : Type} (sample : σ → Dbl → Option σ) : Nat → σ → List Dbl → Option σ
  | 0, _, _ => none
  | fuel + 1, x, v_bounds =>
    if v_bounds = [] then some x
    else
      match v_bounds[v_bounds.length / 2]? with
      | none => none
      | some t =>
        match sample x t with
        | none => none
        | some x1 =>
          match sample_vector sample fuel x1 (v_bounds.take (v_bounds.length / 2)) with
          | none => none
          | some x2 =>
            sample_vector sample fuel x2 (v_bounds.drop (v_bounds.length / 2 + 1))

/-- The order in which the elements of a vector are visited: the middle element first, then
the left half, then the right half, each in the same way. The fuel bounds the depth. -/
def middle_first : Nat → List Dbl → List Dbl
  | 0, _ => []
  | fuel + 1, v =>
    match v[v.length / 2]? with
    | none => []
    | some t =>
      t :: (middle_first fuel (v.take (v.length / 2))
        ++ middle_first fuel (v.drop (v.length / 2 + 1)))

/-! ## The contractor of a tube by its derivative (`CtcDeriv`) -/

/-- Modelled from the spec: the directions of a contraction, of tubex_Ctc.h, which is not
among the sources; the sweeps run "as `FORWARD`, `BACKWARD`, or combined". -/
inductive TPropagation where
  | FORWARD : TPropagation
  | BACKWARD : TPropagation
  | FORWARD_BACKWARD : TPropagation
  deriving DecidableEq

namespace CtcDeriv

/-- Modelled from the spec: the forward sweep of `CtcDeriv`, of tubex_CtcDeriv.cpp, which is
not among the sources; "for each slice, output_gate ⊆ input_gate + diam(domain) ×
envelope(xdot)", by "a forward sweep (left to right) updating each output gate from its input
gate and local derivative envelope". The first list is the chain of the tube, the second the
chain of its derivative, and `g` is the input gate of the first slice. -/
def forward_sweep : Interval → List Slice → List Slice → List Slice
  | _, [], _ => []
  | _, s :: rest, [] => s :: rest
  | g, s :: rest, sv :: restv =>
    s.set_output_gate
        (s.output_gate.inter (g + Interval.point s.domain.diam * sv.codomain)) ::
      forward_sweep (s.output_gate.inter (g + Interval.point s.domain.diam * sv.codomain))
        rest restv

/-- Modelled from the spec: the backward sweep of `CtcDeriv`, of tubex_CtcDeriv.cpp, which is
not among the sources; the "symmetric reverse" of the relation of the forward sweep,
input_gate ⊆ output_gate - diam(domain) × envelope(xdot), by "a backward sweep (right to
left) updating input gates from output gates". The result is the input gate of the first
slice and the chain. -/
def backward_sweep : Interval → List Slice → List Slice → Interval × List Slice
  | g, [], _ => (g, [])
  | g, s :: rest, [] => (g, s :: rest)
  | g, s :: rest, sv :: restv =>
    (g.inter ((backward_sweep s.output_gate rest restv).1
        - Interval.point s.domain.diam * sv.codomain),
      s.set_output_gate (backward_sweep s.output_gate rest restv).1 ::
        (backward_sweep s.output_gate rest restv).2)

/-- Modelled from the spec: the last step of `CtcDeriv`, of tubex_CtcDeriv.cpp, which is not
among the sources; "after gates are tightened, envelopes are re-derived from the two gates
and the original envelope via intersection". The relation of the sweeps is taken over the part
of the slice before an instant and over the part after it: the envelope is met with
input_gate + [0, diam(domain)] × envelope(xdot) and with
output_gate - [0, diam(domain)] × envelope(xdot). -/
def envelopes : Interval → List Slice → List Slice → List Slice
  | _, [], _ => []
  | _, s :: rest, [] => s :: rest
  | g, s :: rest, sv :: restv =>
    s.set_envelope
        (s.codomain.inter
          ((g + Interval.make 0 s.domain.diam * sv.codomain).inter
            (s.output_gate - Interval.make 0 s.domain.diam * sv.codomain))) ::
      envelopes s.output_gate rest restv

/-- Modelled from the spec: the gates of the tube after the sweeps that `t_propa` asks for,
the forward sweep before the backward one. -/
def contract_gates (x v : Tube) : TPropagation → Tube
  | TPropagation.FORWARD =>
    { first_gate := x.first_gate, slices := forward_sweep x.first_gate x.slices v.slices }
  | TPropagation.BACKWARD =>
    { first_gate := (backward_sweep x.first_gate x.slices v.slices).1
      slices := (backward_sweep x.first_gate x.slices v.slices).2 }
  | TPropagation.FORWARD_BACKWARD =>
    { first_gate :=
        (backward_sweep x.first_gate (forward_sweep x.first_gate x.slices v.slices) v.slices).1
      slices :=
        (backward_sweep x.first_gate (forward_sweep x.first_gate x.slices v.slices) v.slices).2 }

/-- Modelled from the spec: `CtcDeriv::contract(x, v, t_propa)` of tubex_CtcDeriv.cpp, which
is not among the sources. Two tubes that "do not have identical slicing" make the call fail;
otherwise the gates are tightened by the sweeps, the envelopes are re-derived, and the call
"returns a boolean: whether anything changed". The derivative tube is passed as a constant
and stays as it is. -/
def contract (x v : Tube) (t_propa : TPropagation) : Option (Tube × Bool) :=
  if x.same_slicing v then
    some
      ({ first_gate := (contract_gates x v t_propa).first_gate
         slices := envelopes (contract_gates x v t_propa).first_gate
           (contract_gates x v t_propa).slices v.slices },
        decide
          (({ first_gate := (contract_gates x v t_propa).first_gate
              slices := envelopes (contract_gates x v t_propa).first_gate
                (contract_gates x v t_propa).slices v.slices } : Tube) ≠ x))
  else none

/-- Modelled from the spec: `CtcDeriv::contractFwd(x, v)`, the forward sweep alone. -/
def contractFwd (x v : Tube) : Option (Tube × Bool) := contract x v TPropagation.FORWARD

/-- Modelled from the spec: `CtcDeriv::contractBwd(x, v)`, the backward sweep alone. -/
def contractBwd (x v : Tube) : Option (Tube × Bool) := contract x v TPropagation.BACKWARD

/-- Any number of applications of the contractor, one for each direction of the list. -/
def contract_all (x v : Tube) : List TPropagation → Option Tube
  | [] => some x
  | t_propa :: rest =>
    match contract x v t_propa with
    | none => none
    | some (y, _) => contract_all y v rest

end CtcDeriv

namespace Tube

/-- `Tube::ctcFwd(derivative)` of `src/tube/tubex_Tube.cpp`, on the chain of the slices:
the tube after the call, and the boolean returned. -/
def ctcFwd (x derivative : Tube) : Option (Tube × Bool) := CtcDeriv.contractFwd x derivative

/-- `Tube::ctcBwd(derivative)` of `src/tube/tubex_Tube.cpp`. -/
def ctcBwd (x derivative : Tube) : Option (Tube × Bool) := CtcDeriv.contractBwd x derivative

/-- `Tube::ctcFwdBwd(derivative)` of `src/tube/tubex_Tube.cpp`; the third argument of
`contract` has its default value, both directions. -/
def ctcFwdBwd (x derivative : Tube) : Option (Tube × Bool) :=
  CtcDeriv.contract x derivative TPropagation.FORWARD_BACKWARD

end Tube

/-- The real number `t` is the double `a`. -/
def Dbl.eq_real (a : Dbl) (t : ℝ) : Prop := a.le_real t ∧ Dbl.real_le t a

/-- The function `f` is enclosed by a chain of slices whose first input gate is `g`: at the
lower bound of each slice its value is in the input gate, over the domain it is in the
envelope, and at the upper bound it is in the output gate. -/
def encloses_chain (f : ℝ → ℝ) : Interval → List Slice → Prop
  | _, [] => True
  | g, s :: rest =>
    (∀ t, s.domain.lb.eq_real t → g.mem (f t)) ∧ (∀ t, s.domain.mem t → s.codomain.mem (f t))
      ∧ (∀ t, s.domain.ub.eq_real t → s.output_gate.mem (f t))
      ∧ encloses_chain f s.output_gate rest

/-- The function `f` is enclosed by the tube at every instant: by its envelopes and by its
gates. -/
def Tube.encloses (x : Tube) (f : ℝ → ℝ) : Prop := encloses_chain f x.first_gate x.slices

/-- The function is enclosed by the envelopes of the tube at every instant. -/
def Tube.envelopes_enclose (v : Tube) (f : ℝ → ℝ) : Prop :=
  ∀ s ∈ v.slices, ∀ t, s.domain.mem t → s.codomain.mem (f t)

/-- Every envelope and every gate of `y` is a subset of the one of `x`, slice by slice. -/
def Tube.is_subset (y x : Tube) : Prop :=
  y.first_gate.is_subset x.first_gate = true ∧
    List.Forall₂ (fun sy sx : Slice => sy.domain = sx.domain
      ∧ sy.codomain.is_subset sx.codomain = true
      ∧ sy.output_gate.is_subset sx.output_gate = true) y.slices x.slices

/-! ## Doubles: order and sum -/

theorem Dbl.le_def (a b : Dbl) : a ≤ b ↔ Dbl.le a b := Iff.rfl

@[simp] theorem Dbl.fin_le_fin (a b : ℚ) : Dbl.fin a ≤ Dbl.fin b ↔ a ≤ b := Iff.rfl

@[simp] theorem Dbl.fin_lt_fin (a b : ℚ) : Dbl.fin a < Dbl.fin b ↔ a < b := by
  rw [lt_iff_le_not_le, lt_iff_le_not_le]
  exact Iff.rfl

@[simp] theorem Dbl.ninf_le (a : Dbl) : Dbl.ninf ≤ a := by
  cases a <;> exact trivial

@[simp] theorem Dbl.le_pinf (a : Dbl) : a ≤ Dbl.pinf := by
  cases a <;> exact trivial

@[simp] theorem Dbl.fin_lt_pinf (a : ℚ) : Dbl.fin a < Dbl.pinf := by
  rw [lt_iff_le_not_le]
  exact ⟨trivial, id⟩

@[simp] theorem Dbl.ninf_lt_fin (a : ℚ) : Dbl.ninf < Dbl.fin a := by
  rw [lt_iff_le_not_le]
  exact ⟨trivial, id⟩

@[simp] theorem Dbl.not_pinf_le_fin (a : ℚ) : ¬ Dbl.pinf ≤ Dbl.fin a := id

@[simp] theorem Dbl.not_fin_le_ninf (a : ℚ) : ¬ Dbl.fin a ≤ Dbl.ninf := id

@[simp] theorem Dbl.fin_add_fin (a b : ℚ) : Dbl.fin a + Dbl.fin b = Dbl.fin (a + b) := rfl

@[simp] theorem Dbl.fin_sub_fin (a b : ℚ) : Dbl.fin a - Dbl.fin b = Dbl.fin (a - b) := by
  show Dbl.add (Dbl.fin a) (Dbl.neg (Dbl.fin b)) = _
  simp [Dbl.add, Dbl.neg, sub_eq_add_neg]

theorem Dbl.zero_def : (0 : Dbl) = Dbl.fin 0 := rfl

theorem Dbl.min_fin (a b : ℚ) : min (Dbl.fin a) (Dbl.fin b) = Dbl.fin (min a b) := by
  rcases le_total a b with h | h
  · rw [min_eq_left h, min_eq_left ((Dbl.fin_le_fin a b).2 h)]
  · rw [min_eq_right h, min_eq_right ((Dbl.fin_le_fin b a).2 h)]

/-! ## Intervals -/

theorem Interval.valid_domain_iff (d : Interval) :
    d.valid_domain = true ↔ ∃ a b : ℚ, a < b ∧ d = Interval.mk (Dbl.fin a) (Dbl.fin b) := by
  constructor
  · intro h
    match d, h with
    | Interval.mk (Dbl.fin a) (Dbl.fin b), h =>
      exact ⟨a, b, by simpa [Interval.valid_domain] using h, rfl⟩
  · rintro ⟨a, b, hab, rfl⟩
    simpa [Interval.valid_domain] using hab

theorem Interval.make_fin {a b : ℚ} (h : a ≤ b) :
    Interval.make (Dbl.fin a) (Dbl.fin b) = Interval.mk (Dbl.fin a) (Dbl.fin b) := by
  simp [Interval.make, h]

/-! ## Walking the chain -/

theorem gate_after_nil (g : Interval) : gate_after g [] = g := rfl

theorem gate_after_cons (g : Interval) (s : Slice) (pre : List Slice) :
    gate_after g (s :: pre) = gate_after s.output_gate pre := rfl

theorem gate_after_concat (g : Interval) (pre : List Slice) (s : Slice) :
    gate_after g (pre ++ [s]) = s.output_gate := by
  induction pre generalizing g with
  | nil => rfl
  | cons p pre ih => rw [List.cons_append, gate_after_cons, ih]

theorem gate_after_append_cons (g : Interval) (pre mid : List Slice) (s : Slice) :
    gate_after g (pre ++ s :: mid) = gate_after s.output_gate mid := by
  induction pre generalizing g with
  | nil => exact gate_after_cons g s mid
  | cons p pre ih => rw [List.cons_append, gate_after_cons, ih]

theorem input2index_loop_decomp (t : Dbl) (pre : List Slice) (s : Slice) (post : List Slice)
    (i : Int) (hpre : ∀ p ∈ pre, ¬ t < p.domain.ub) (hs : t < s.domain.ub ∨ post = []) :
    input2index_loop t (pre ++ s :: post) i = i + 1 + pre.length := by
  induction pre generalizing i with
  | nil =>
    rcases hs with hs | rfl
    · simp [input2index_loop, hs]
    · by_cases h : t < s.domain.ub <;> simp [input2index_loop, h]
  | cons p pre ih =>
    have hp : ¬ t < p.domain.ub := hpre p (List.mem_cons_self _ _)
    have ih2 := ih (i + 1) (fun q hq => hpre q (List.mem_cons_of_mem _ hq))
    rw [List.cons_append, input2index_loop, if_neg hp, ih2, List.length_cons]
    push_cast
    ring

theorem get_slice_loop_decomp (g : Interval) (pre : List Slice) (s : Slice) (post : List Slice)
    (i : Int) :
    get_slice_loop (i + pre.length) g (pre ++ s :: post) i
      = some ⟨gate_after g pre, s, post⟩ := by
  induction pre generalizing i g with
  | nil => simp [get_slice_loop, gate_after_nil]
  | cons p pre ih =>
    have hne : ¬ i = i + ((pre.length : Int) + 1) := by omega
    have ih2 := ih p.output_gate (i + 1)
    have e : i + 1 + (pre.length : Int) = i + ((pre.length : Int) + 1) := by ring
    rw [e] at ih2
    rw [List.cons_append, List.length_cons, get_slice_loop]
    push_cast
    rw [if_neg hne, ih2, gate_after_cons]

theorem exists_decomp (t : Dbl) (l : List Slice) (hl : l ≠ []) :
    ∃ pre s post, l = pre ++ s :: post ∧ (∀ p ∈ pre, ¬ t < p.domain.ub) ∧
      (t < s.domain.ub ∨ post = []) := by
  induction l with
  | nil => exact absurd rfl hl
  | cons s rest ih =>
    by_cases h : t < s.domain.ub
    · exact ⟨[], s, rest, rfl, by simp, Or.inl h⟩
    · by_cases hr : rest = []
      · exact ⟨[], s, rest, rfl, by simp, Or.inr hr⟩
      · obtain ⟨pre, s', post, e, hpre, hs⟩ := ih hr
        refine ⟨s :: pre, s', post, by rw [e]; rfl, ?_, hs⟩
        intro p hp
        rcases List.mem_cons.1 hp with rfl | hp
        · exact h
        · exact hpre p hp

theorem Tube.input2index_decomp (x : Tube) (t : Dbl) (pre : List Slice) (s : Slice)
    (post : List Slice) (h : x.slices = pre ++ s :: post)
    (hpre : ∀ p ∈ pre, ¬ t < p.domain.ub) (hs : t < s.domain.ub ∨ post = []) :
    x.input2index t = pre.length := by
  unfold Tube.input2index
  rw [h, input2index_loop_decomp t pre s post (-1) hpre hs]
  ring

theorem Tube.get_slice_decomp (x : Tube) (t : Dbl) (pre : List Slice) (s : Slice)
    (post : List Slice) (h : x.slices = pre ++ s :: post)
    (hpre : ∀ p ∈ pre, ¬ t < p.domain.ub) (hs : t < s.domain.ub ∨ post = []) :
    x.get_slice t = some ⟨gate_after x.first_gate pre, s, post⟩ := by
  unfold Tube.get_slice Tube.get_slice_id
  rw [Tube.input2index_decomp x t pre s post h hpre hs, h]
  have := get_slice_loop_decomp x.first_gate pre s post 0
  simpa using this

/-! ## Order of the slices of a partition -/

theorem Interval.valid_domain_lt {d : Interval} (h : d.valid_domain = true) : d.lb < d.ub := by
  obtain ⟨a, b, hab, rfl⟩ := (Interval.valid_domain_iff d).1 h
  simpa [Interval.lb, Interval.ub] using hab

theorem chain_pairwise (l : List Slice) (hv : ∀ s ∈ l, s.domain.valid_domain = true)
    (hc : l.Chain' (fun s1 s2 => s1.domain.ub = s2.domain.lb)) :
    l.Pairwise (fun p q => p.domain.ub ≤ q.domain.lb) := by
  induction l with
  | nil => exact List.Pairwise.nil
  | cons s rest ih =>
    have hv2 : ∀ q ∈ rest, q.domain.valid_domain = true :=
      fun q hq => hv q (List.mem_cons_of_mem _ hq)
    have ih2 := ih hv2 hc.tail
    refine List.Pairwise.cons ?_ ih2
    intro q hq
    cases rest with
    | nil => exact absurd hq (List.not_mem_nil _)
    | cons s2 r =>
      have h12 : s.domain.ub = s2.domain.lb := (List.chain'_cons.1 hc).1
      rcases List.mem_cons.1 hq with rfl | hq
      · exact le_of_eq h12
      · have h2 : s2.domain.ub ≤ q.domain.lb := (List.pairwise_cons.1 ih2).1 q hq
        have h3 := Interval.valid_domain_lt (hv2 s2 (List.mem_cons_self _ _))
        exact le_trans (le_of_eq h12) (le_trans (le_of_lt h3) h2)

theorem list_nil_or_snoc (l : List Slice) : l = [] ∨ ∃ init a, l = init ++ [a] := by
  rcases List.eq_nil_or_concat l with h | ⟨init, a, h⟩
  · exact Or.inl h
  · exact Or.inr ⟨init, a, by rw [h, List.concat_eq_append]⟩

theorem chain_junction (pre : List Slice) (p s : Slice) (post : List Slice)
    (hc : (pre ++ p :: s :: post).Chain' (fun s1 s2 => s1.domain.ub = s2.domain.lb)) :
    p.domain.ub = s.domain.lb := by
  have h := (List.chain'_split.1 hc).2
  exact (List.chain'_cons.1 h).1

theorem decomp_lb_le (t : Dbl) (pre : List Slice) (s : Slice) (post : List Slice)
    (hc : (pre ++ s :: post).Chain' (fun s1 s2 => s1.domain.ub = s2.domain.lb))
    (hpre : ∀ p ∈ pre, ¬ t < p.domain.ub)
    (h0 : ∀ f rest, pre ++ s :: post = f :: rest → f.domain.lb ≤ t) :
    s.domain.lb ≤ t := by
  rcases list_nil_or_snoc pre with rfl | ⟨pre2, p, rfl⟩
  · exact h0 s post rfl
  · have hj : p.domain.ub = s.domain.lb := by
      apply chain_junction pre2 p s post
      simpa using hc
    rw [← hj]
    exact not_lt.1 (hpre p (by simp))

theorem Tube.domain_cons (x : Tube) (f : Slice) (rest init : List Slice) (l : Slice)
    (h1 : x.slices = f :: rest) (h2 : x.slices = init ++ [l]) :
    x.domain = some (Interval.make f.domain.lb l.domain.ub) := by
  unfold Tube.domain Tube.get_first_slice Tube.get_last_slice
  have e : x.slices.getLast? = some l := by rw [h2]; simp
  rw [e, h1]

theorem Tube.domain_spec (x : Tube) (hx : x.partition_invariant) :
    ∃ a b : ℚ, a < b ∧ x.domain = some (Interval.mk (Dbl.fin a) (Dbl.fin b)) ∧
      (∀ s ∈ x.slices, Dbl.fin a ≤ s.domain.lb ∧ s.domain.ub ≤ Dbl.fin b) ∧
      (∃ f rest, x.slices = f :: rest ∧ f.domain.lb = Dbl.fin a) ∧
      (∃ init l, x.slices = init ++ [l] ∧ l.domain.ub = Dbl.fin b) := by
  obtain ⟨hne, hv, hc⟩ := hx
  have hp := chain_pairwise x.slices hv hc
  obtain ⟨f, rest, h1⟩ := List.exists_cons_of_ne_nil hne
  rcases list_nil_or_snoc x.slices with h | ⟨init, l, h2⟩
  · exact absurd h hne
  have hf : f ∈ x.slices := by rw [h1]; exact List.mem_cons_self _ _
  have hl : l ∈ x.slices := by rw [h2]; simp
  obtain ⟨a, a2, ha, ef⟩ := (Interval.valid_domain_iff _).1 (hv f hf)
  obtain ⟨b2, b, hb, el⟩ := (Interval.valid_domain_iff _).1 (hv l hl)
  have hlow : ∀ s ∈ x.slices, Dbl.fin a ≤ s.domain.lb := by
    intro s hs
    rw [h1] at hs hp
    rcases List.mem_cons.1 hs with rfl | hs
    · rw [ef]; exact le_refl _
    · have := (List.pairwise_cons.1 hp).1 s hs
      rw [ef] at this
      exact le_trans (by simpa [Interval.ub] using le_of_lt ha) this
  have hup : ∀ s ∈ x.slices, s.domain.ub ≤ Dbl.fin b := by
    intro s hs
    rw [h2] at hs hp
    rcases List.mem_append.1 hs with hs | hs
    · have := (List.pairwise_append.1 hp).2.2 s hs l (by simp)
      rw [el] at this
      exact le_trans this (by simpa [Interval.lb] using le_of_lt hb)
    · have : s = l := by simpa using hs
      rw [this, el]; exact le_refl _
  have hab : a < b := by
    have h3 := hlow l hl
    rw [el] at h3
    have h4 : a ≤ b2 := by simpa [Interval.lb] using h3
    exact lt_of_le_of_lt h4 hb
  refine ⟨a, b, hab, ?_, fun s hs => ⟨hlow s hs, hup s hs⟩, ⟨f, rest, h1, by rw [ef]; rfl⟩,
    ⟨init, l, h2, by rw [el]; rfl⟩⟩
  rw [Tube.domain_cons x f rest init l h1 h2, ef, el]
  exact congrArg some (Interval.make_fin (le_of_lt hab))

/-! ## Locating a time in a partition -/

theorem Tube.locate (x : Tube) (hx : x.partition_invariant) (d : Interval)
    (hd : x.domain = some d) (t : Dbl) (ht : d.contains t = true) :
    ∃ (pre : List Slice) (s : Slice) (post : List Slice) (a b : ℚ),
      x.slices = pre ++ s :: post ∧ (∀ p ∈ pre, ¬ t < p.domain.ub) ∧
      (t < s.domain.ub ∨ post = []) ∧ s.domain = Interval.mk (Dbl.fin a) (Dbl.fin b) ∧
      a < b ∧ Dbl.fin a ≤ t ∧ t ≤ Dbl.fin b := by
  obtain ⟨a0, b0, _, hdom, _, ⟨f, rest, hf, hfa⟩, ⟨init, l, hl, hlb⟩⟩ := Tube.domain_spec x hx
  obtain ⟨hne, hv, hc⟩ := hx
  rw [hdom] at hd
  have hd2 : d = Interval.mk (Dbl.fin a0) (Dbl.fin b0) := (Option.some.inj hd).symm
  rw [hd2] at ht
  have ht2 : Dbl.fin a0 ≤ t ∧ t ≤ Dbl.fin b0 := by simpa [Interval.contains] using ht
  obtain ⟨pre, s, post, e, hpre, hs⟩ := exists_decomp t x.slices hne
  have hsm : s ∈ x.slices := by rw [e]; simp
  obtain ⟨a, b, hab, es⟩ := (Interval.valid_domain_iff _).1 (hv s hsm)
  refine ⟨pre, s, post, a, b, e, hpre, hs, es, hab, ?_, ?_⟩
  · have := decomp_lb_le t pre s post (e ▸ hc) hpre (by
      intro f2 rest2 h2
      rw [← e, hf] at h2
      have : f = f2 := (List.cons.inj h2).1
      rw [← this, hfa]
      exact ht2.1)
    simpa [es, Interval.lb] using this
  · rcases hs with hs | hs
    · have := le_of_lt hs
      simpa [es, Interval.ub] using this
    · have e2 : init ++ [l] = pre ++ [s] := by rw [← hl, e, hs]
      have : l = s := by
        have := List.append_inj_right' e2 rfl
        simpa using this
      rw [this, es] at hlb
      have hb : Dbl.fin b = Dbl.fin b0 := by simpa [Interval.ub] using hlb
      rw [hb]
      exact ht2.2

theorem take_decomp (pre : List Slice) (s : Slice) (post : List Slice) :
    (pre ++ s :: post).take ((pre.length : Int)).toNat = pre := by
  simp

theorem drop_decomp (pre : List Slice) (s : Slice) (post : List Slice) :
    (pre ++ s :: post).drop (((pre.length : Int)).toNat + 1) = post := by
  simp

theorem drop_decomp_self (pre : List Slice) (s : Slice) (post : List Slice) :
    (pre ++ s :: post).drop ((pre.length : Int)).toNat = s :: post := by
  simp

theorem Tube.sample_noop (x : Tube) (t : Dbl) (pre : List Slice) (s : Slice)
    (post : List Slice) (h : x.slices = pre ++ s :: post)
    (hpre : ∀ p ∈ pre, ¬ t < p.domain.ub) (hs : t < s.domain.ub ∨ post = [])
    (hb : s.domain.lb = t ∨ s.domain.ub = t) : x.sample t = some x := by
  unfold Tube.sample
  rw [Tube.get_slice_decomp x t pre s post h hpre hs]
  simp only [hb, if_true]

theorem Tube.sample_split (x : Tube) (t : Dbl) (pre : List Slice) (s : Slice)
    (post : List Slice) (h : x.slices = pre ++ s :: post)
    (hpre : ∀ p ∈ pre, ¬ t < p.domain.ub) (hs : t < s.domain.ub ∨ post = [])
    (h1 : s.domain.lb ≠ t) (h2 : s.domain.ub ≠ t) :
    x.sample t = some
      { first_gate := x.first_gate
        slices := pre ++
          { domain := Interval.make s.domain.lb t, codomain := s.codomain,
            output_gate := s.codomain } ::
          { domain := Interval.make t s.domain.ub, codomain := s.codomain,
            output_gate := s.output_gate } :: post } := by
  unfold Tube.sample
  rw [Tube.get_slice_decomp x t pre s post h hpre hs]
  simp only [h1, h2, or_self, if_false]
  rw [Tube.input2index_decomp x t pre s post h hpre hs, h, take_decomp, drop_decomp]
  rfl

/-! ## Evaluation and sampling -/

theorem Tube.eval_decomp (x : Tube) (u : Dbl) (pre : List Slice) (s : Slice)
    (post : List Slice) (h : x.slices = pre ++ s :: post)
    (hpre : ∀ p ∈ pre, ¬ u < p.domain.ub) (hs : u < s.domain.ub ∨ post = []) :
    x.eval u = some (SliceRef.eval ⟨gate_after x.first_gate pre, s, post⟩ u) := by
  unfold Tube.eval
  rw [Tube.get_slice_decomp x u pre s post h hpre hs]
  rfl

theorem Tube.eval_defined (x : Tube) (hne : x.slices ≠ []) (u : Dbl) :
    ∃ v, x.eval u = some v := by
  obtain ⟨pre, s, post, e, hpre, hs⟩ := exists_decomp u x.slices hne
  exact ⟨_, Tube.eval_decomp x u pre s post e hpre hs⟩

theorem decomp_ub_le (pre : List Slice) (s : Slice) (post : List Slice)
    (hv : ∀ q ∈ pre ++ s :: post, q.domain.valid_domain = true)
    (hc : (pre ++ s :: post).Chain' (fun s1 s2 => s1.domain.ub = s2.domain.lb)) :
    ∀ p ∈ pre, p.domain.ub ≤ s.domain.lb := by
  intro p hp
  exact (List.pairwise_append.1 (chain_pairwise _ hv hc)).2.2 p hp s (List.mem_cons_self _ _)

theorem eval_split (x y : Tube) (hx : x.partition_invariant) (pre : List Slice)
    (s0 s1 s2 : Slice) (post : List Slice) (h : x.slices = pre ++ s0 :: post)
    (hy : y.slices = pre ++ s1 :: s2 :: post) (hg : y.first_gate = x.first_gate)
    (a b τ : ℚ) (es : s0.domain = Interval.mk (Dbl.fin a) (Dbl.fin b))
    (h1 : a < τ) (h2 : τ < b)
    (d1 : s1.domain = Interval.mk (Dbl.fin a) (Dbl.fin τ)) (c1 : s1.codomain = s0.codomain)
    (o1 : s1.output_gate = s0.codomain)
    (d2 : s2.domain = Interval.mk (Dbl.fin τ) (Dbl.fin b)) (c2 : s2.codomain = s0.codomain)
    (o2 : s2.output_gate = s0.output_gate) (u : Dbl) :
    y.eval u = x.eval u := by
  obtain ⟨_, hv, hc⟩ := hx
  rw [h] at hv hc
  have hpa : ∀ p ∈ pre, p.domain.ub ≤ Dbl.fin a := by
    intro p hp
    have := decomp_ub_le pre s0 post hv hc p hp
    simpa [es, Interval.lb] using this
  have hat : Dbl.fin a < Dbl.fin τ := (Dbl.fin_lt_fin a τ).2 h1
  have htb : Dbl.fin τ < Dbl.fin b := (Dbl.fin_lt_fin τ b).2 h2
  have u0 : s0.domain.ub = Dbl.fin b := by rw [es]; rfl
  have u1 : s1.domain.ub = Dbl.fin τ := by rw [d1]; rfl
  have u2 : s2.domain.ub = Dbl.fin b := by rw [d2]; rfl
  rcases lt_or_le u (Dbl.fin a) with hua | hua
  · -- before the slice cut
    rcases list_nil_or_snoc pre with hp | ⟨pre2, pl, hp⟩
    · subst hp
      rw [Tube.eval_decomp x u [] s0 post h (by simp)
          (Or.inl (by rw [u0]; exact lt_trans hua (lt_trans hat htb))),
        Tube.eval_decomp y u [] s1 (s2 :: post) hy (by simp)
          (Or.inl (by rw [u1]; exact lt_trans hua hat))]
      have n1 : u ≠ Dbl.fin a := ne_of_lt hua
      have n2 : u ≠ Dbl.fin τ := ne_of_lt (lt_trans hua hat)
      have n3 : u ≠ Dbl.fin b := ne_of_lt (lt_trans hua (lt_trans hat htb))
      simp [SliceRef.eval, es, d1, c1, Interval.lb, Interval.ub, n1, n2, n3]
    · have hpne : pre ≠ [] := by rw [hp]; simp
      obtain ⟨pu, su, mid, e, hpu, hsu⟩ := exists_decomp u pre hpne
      have hsu2 : u < su.domain.ub := by
        rcases hsu with hsu | hsu
        · exact hsu
        · have e2 : pre2 ++ [pl] = pu ++ [su] := by rw [← hp, e, hsu]
          have e3 : pl = su := by
            have := List.append_inj_right' e2 rfl
            simpa using this
          have hj : pl.domain.ub = s0.domain.lb := by
            apply chain_junction pre2 pl s0 post
            rw [hp] at hc
            simpa using hc
          rw [← e3, hj, es]
          exact hua
      rw [Tube.eval_decomp x u pu su (mid ++ s0 :: post) (by rw [h, e]; simp) hpu (Or.inl hsu2),
        Tube.eval_decomp y u pu su (mid ++ s1 :: s2 :: post) (by rw [hy, e]; simp) hpu
          (Or.inl hsu2), hg]
      rfl
  · have hpu : ∀ p ∈ pre, ¬ u < p.domain.ub :=
      fun p hp => not_lt.2 (le_trans (hpa p hp) hua)
    rcases lt_or_le u (Dbl.fin τ) with hut | hut
    · -- in the first half
      rw [Tube.eval_decomp x u pre s0 post h hpu (Or.inl (by rw [u0]; exact lt_trans hut htb)),
        Tube.eval_decomp y u pre s1 (s2 :: post) hy hpu (Or.inl (by rw [u1]; exact hut)), hg]
      have n2 : u ≠ Dbl.fin τ := ne_of_lt hut
      have n3 : u ≠ Dbl.fin b := ne_of_lt (lt_trans hut htb)
      simp [SliceRef.eval, es, d1, c1, Interval.lb, Interval.ub, n2, n3]
    · have n1 : u ≠ Dbl.fin a := ne_of_gt (lt_of_lt_of_le hat hut)
      have hpu2 : ∀ p ∈ pre ++ [s1], ¬ u < p.domain.ub := by
        intro p hp
        rcases List.mem_append.1 hp with hp | hp
        · exact hpu p hp
        · rw [List.mem_singleton.1 hp, u1]
          exact not_lt.2 hut
      have hy2 : y.slices = (pre ++ [s1]) ++ s2 :: post := by rw [hy]; simp
      rcases lt_or_le u (Dbl.fin b) with hub | hub
      · -- in the second half
        rw [Tube.eval_decomp x u pre s0 post h hpu (Or.inl (by rw [u0]; exact hub)),
          Tube.eval_decomp y u (pre ++ [s1]) s2 post hy2 hpu2 (Or.inl (by rw [u2]; exact hub))]
        have n3 : u ≠ Dbl.fin b := ne_of_lt hub
        simp [SliceRef.eval, es, d2, c2, o1, Interval.lb, Interval.ub, n1, n3, gate_after_concat]
      · have n2 : u ≠ Dbl.fin τ := ne_of_gt (lt_of_lt_of_le htb hub)
        rcases (show post = [] ∨ post ≠ [] from em _) with hpost | hpost
        · -- at the end of the last slice, or after it
          subst hpost
          rw [Tube.eval_decomp x u pre s0 [] h hpu (Or.inr rfl),
            Tube.eval_decomp y u (pre ++ [s1]) s2 [] hy2 hpu2 (Or.inr rfl)]
          simp [SliceRef.eval, es, d2, c2, o2, Interval.lb, Interval.ub, n1, n2,
            gate_after_concat]
        · -- after the slice cut
          obtain ⟨mid, su, pu, e, hmid, hsu⟩ := exists_decomp u post hpost
          have hA : ∀ p ∈ pre ++ s0 :: mid, ¬ u < p.domain.ub := by
            intro p hp
            rcases List.mem_append.1 hp with hp | hp
            · exact hpu p hp
            · rcases List.mem_cons.1 hp with rfl | hp
              · rw [u0]; exact not_lt.2 hub
              · exact hmid p hp
          have hB : ∀ p ∈ pre ++ s1 :: s2 :: mid, ¬ u < p.domain.ub := by
            intro p hp
            rcases List.mem_append.1 hp with hp | hp
            · exact hpu p hp
            · rcases List.mem_cons.1 hp with rfl | hp
              · rw [u1]; exact not_lt.2 hut
              · rcases List.mem_cons.1 hp with rfl | hp
                · rw [u2]; exact not_lt.2 hub
                · exact hmid p hp
          rw [Tube.eval_decomp x u (pre ++ s0 :: mid) su pu (by rw [h, e]; simp) hA hsu,
            Tube.eval_decomp y u (pre ++ s1 :: s2 :: mid) su pu (by rw [hy, e]; simp) hB hsu]
          simp [SliceRef.eval, gate_after_append_cons, gate_after_cons, o2]

/-! ## The domain of a tube and the invariant under a cut -/

theorem Tube.domain_formula (x : Tube) :
    x.domain = (x.slices.head?.map (fun s => s.domain.lb)).bind
      (fun a => (x.slices.getLast?.map (fun s => s.domain.ub)).map
        (fun b => Interval.make a b)) := by
  unfold Tube.domain Tube.get_first_slice Tube.get_last_slice
  cases h : x.slices with
  | nil => rfl
  | cons f rest =>
    cases h2 : (f :: rest).getLast? with
    | none => simp at h2
    | some l => simp

theorem Tube.domain_congr (x y : Tube)
    (hf : x.slices.head?.map (fun s => s.domain.lb) = y.slices.head?.map (fun s => s.domain.lb))
    (hl : x.slices.getLast?.map (fun s => s.domain.ub)
      = y.slices.getLast?.map (fun s => s.domain.ub)) :
    x.domain = y.domain := by
  rw [Tube.domain_formula x, Tube.domain_formula y, hf, hl]

theorem Tube.domain_of_map_eq (x y : Tube)
    (h : y.slices.map (fun s => s.domain) = x.slices.map (fun s => s.domain)) :
    y.domain = x.domain := by
  apply Tube.domain_congr
  · have := congrArg (fun l => (List.head? l).map Interval.lb) h
    simpa [List.head?_map, Option.map_map, Function.comp_def] using this
  · have := congrArg (fun l => (List.getLast? l).map Interval.ub) h
    simpa [List.getLast?_map, Option.map_map, Function.comp_def] using this

theorem Tube.partition_of_map_eq (x y : Tube)
    (h : y.slices.map (fun s => s.domain) = x.slices.map (fun s => s.domain))
    (hx : x.partition_invariant) : y.partition_invariant := by
  obtain ⟨hne, hv, hc⟩ := hx
  have hv2 : ∀ d ∈ x.slices.map (fun s => s.domain), d.valid_domain = true := by
    intro d hd
    obtain ⟨s, hs, rfl⟩ := List.mem_map.1 hd
    exact hv s hs
  have hc2 : (x.slices.map (fun s => s.domain)).Chain' (fun d1 d2 => d1.ub = d2.lb) :=
    (List.chain'_map _).2 hc
  rw [← h] at hv2 hc2
  refine ⟨?_, ?_, (List.chain'_map _).1 hc2⟩
  · intro e
    rw [e] at h
    exact hne (List.map_eq_nil_iff.1 h.symm)
  · intro s hs
    exact hv2 _ (List.mem_map_of_mem _ hs)

theorem partition_split (x y : Tube) (hx : x.partition_invariant) (pre : List Slice)
    (s0 s1 s2 : Slice) (post : List Slice) (h : x.slices = pre ++ s0 :: post)
    (hy : y.slices = pre ++ s1 :: s2 :: post)
    (a b τ : ℚ) (es : s0.domain = Interval.mk (Dbl.fin a) (Dbl.fin b))
    (h1 : a < τ) (h2 : τ < b)
    (d1 : s1.domain = Interval.mk (Dbl.fin a) (Dbl.fin τ))
    (d2 : s2.domain = Interval.mk (Dbl.fin τ) (Dbl.fin b)) :
    y.partition_invariant ∧ y.domain = x.domain := by
  obtain ⟨_, hv, hc⟩ := hx
  rw [h] at hv hc
  refine ⟨⟨by rw [hy]; simp, ?_, ?_⟩, ?_⟩
  · intro s hs
    rw [hy] at hs
    rcases List.mem_append.1 hs with hs | hs
    · exact hv s (List.mem_append_left _ hs)
    · rcases List.mem_cons.1 hs with rfl | hs
      · rw [d1]; simpa [Interval.valid_domain] using h1
      · rcases List.mem_cons.1 hs with rfl | hs
        · rw [d2]; simpa [Interval.valid_domain] using h2
        · exact hv s (List.mem_append_right _ (List.mem_cons_of_mem _ hs))
  · rw [hy]
    rw [List.chain'_append] at hc ⊢
    obtain ⟨hc1, hc2, hc3⟩ := hc
    refine ⟨hc1, ?_, ?_⟩
    · refine List.chain'_cons.2 ⟨by rw [d1, d2]; rfl, ?_⟩
      cases post with
      | nil => exact List.chain'_singleton _
      | cons q r =>
        have := List.chain'_cons.1 hc2
        refine List.chain'_cons.2 ⟨?_, this.2⟩
        rw [← this.1, es, d2]
        rfl
    · intro p hp q hq
      have hq2 : q = s1 := by simpa using hq.symm
      have := hc3 p hp s0 (by simp)
      rw [hq2, this, es, d1]
      rfl
  · apply Tube.domain_congr
    · rw [hy, h]
      cases pre with
      | nil => simp [es, d1, Interval.lb]
      | cons p r => simp
    · rw [hy, h]
      rcases list_nil_or_snoc post with hp | ⟨init, l, hp⟩
      · subst hp
        simp [es, d2, Interval.ub]
      · subst hp
        have e1 : pre ++ s1 :: s2 :: (init ++ [l]) = (pre ++ s1 :: s2 :: init) ++ [l] := by simp
        have e2 : pre ++ s0 :: (init ++ [l]) = (pre ++ s0 :: init) ++ [l] := by simp
        rw [e1, e2, List.getLast?_concat, List.getLast?_concat]

theorem Tube.sample_cases (x : Tube) (hx : x.partition_invariant) (d : Interval)
    (hd : x.domain = some d) (t : Dbl) (ht : d.contains t = true) :
    (x.sample t = some x ∧ ∃ s ∈ x.slices, s.domain.lb = t ∨ s.domain.ub = t) ∨
    ∃ (pre : List Slice) (s0 : Slice) (post : List Slice) (a b τ : ℚ),
      t = Dbl.fin τ ∧ x.slices = pre ++ s0 :: post ∧
      s0.domain = Interval.mk (Dbl.fin a) (Dbl.fin b) ∧ a < τ ∧ τ < b ∧
      (∀ p ∈ pre, ¬ t < p.domain.ub) ∧
      x.sample t = some
        { first_gate := x.first_gate
          slices := pre ++
            { domain := Interval.mk (Dbl.fin a) (Dbl.fin τ), codomain := s0.codomain,
              output_gate := s0.codomain } ::
            { domain := Interval.mk (Dbl.fin τ) (Dbl.fin b), codomain := s0.codomain,
              output_gate := s0.output_gate } :: post } := by
  obtain ⟨pre, s0, post, a, b, e, hpre, hs, es, hab, hat, htb⟩ := Tube.locate x hx d hd t ht
  by_cases hb : s0.domain.lb = t ∨ s0.domain.ub = t
  · left
    exact ⟨Tube.sample_noop x t pre s0 post e hpre hs hb, s0, by rw [e]; simp, hb⟩
  · right
    have n1 : s0.domain.lb ≠ t := fun h => hb (Or.inl h)
    have n2 : s0.domain.ub ≠ t := fun h => hb (Or.inr h)
    rw [es] at n1 n2
    match t, hat, htb, n1, n2, hpre, hs with
    | Dbl.fin τ, hat, htb, n1, n2, hpre, hs =>
      have h1 : a < τ := lt_of_le_of_ne ((Dbl.fin_le_fin a τ).1 hat)
        (fun h => n1 (by rw [h]; rfl))
      have h2 : τ < b := lt_of_le_of_ne ((Dbl.fin_le_fin τ b).1 htb)
        (fun h => n2 (by rw [h]; rfl))
      refine ⟨pre, s0, post, a, b, τ, rfl, e, es, h1, h2, hpre, ?_⟩
      rw [Tube.sample_split x (Dbl.fin τ) pre s0 post e hpre hs (by rw [es]; exact n1)
        (by rw [es]; exact n2), es]
      simp only [Interval.lb, Interval.ub]
      rw [Interval.make_fin (le_of_lt h1), Interval.make_fin (le_of_lt h2)]

/-! ## Claims on sampling and on the search of a slice -/

/-- C1: sampling preserves the evaluation. For every tube with the partition invariant and
every `t` in its domain, `sample(t)` returns, and the evaluation `x(s)` of
`Tube::operator()(double)` returns the same interval before and after it, for every `s`
(in the domain of the tube or not). -/
theorem C1_sample_preserves_eval (x : Tube) (hx : x.partition_invariant) (d : Interval)
    (hd : x.domain = some d) (t : Dbl) (ht : d.contains t = true) (s : Dbl) :
    ∃ y v, x.sample t = some y ∧ x.eval s = some v ∧ y.eval s = some v := by
  obtain ⟨v, hv⟩ := Tube.eval_defined x hx.1 s
  rcases Tube.sample_cases x hx d hd t ht with ⟨h, _⟩ | ⟨pre, s0, post, a, b, τ, _, e, es, h1, h2, _, h⟩
  · exact ⟨x, v, h, hv, hv⟩
  · refine ⟨_, v, h, hv, ?_⟩
    rw [← hv]
    exact eval_split x
      ⟨x.first_gate, pre ++
        ⟨Interval.mk (Dbl.fin a) (Dbl.fin τ), s0.codomain, s0.codomain⟩ ::
        ⟨Interval.mk (Dbl.fin τ) (Dbl.fin b), s0.codomain, s0.output_gate⟩ :: post⟩ hx pre s0
      ⟨Interval.mk (Dbl.fin a) (Dbl.fin τ), s0.codomain, s0.codomain⟩
      ⟨Interval.mk (Dbl.fin τ) (Dbl.fin b), s0.codomain, s0.output_gate⟩ post e rfl rfl a b τ es
      h1 h2 rfl rfl rfl rfl rfl rfl s

/-- Witness of C1: the tube of the two slices `[0,1]` and `[1,3]`, sampled at `2` and
evaluated at `1`. -/
theorem C1_sample_preserves_eval_witness :
    Tube.partition_invariant
        ⟨Interval.mk (Dbl.fin 0) (Dbl.fin 1),
          [⟨Interval.mk (Dbl.fin 0) (Dbl.fin 1), Interval.mk (Dbl.fin 0) (Dbl.fin 5),
              Interval.mk (Dbl.fin 2) (Dbl.fin 3)⟩,
            ⟨Interval.mk (Dbl.fin 1) (Dbl.fin 3), Interval.mk (Dbl.fin 1) (Dbl.fin 4),
              Interval.mk (Dbl.fin 1) (Dbl.fin 2)⟩]⟩ ∧
      ∃ y v,
        Tube.sample
          ⟨Interval.mk (Dbl.fin 0) (Dbl.fin 1),
            [⟨Interval.mk (Dbl.fin 0) (Dbl.fin 1), Interval.mk (Dbl.fin 0) (Dbl.fin 5),
                Interval.mk (Dbl.fin 2) (Dbl.fin 3)⟩,
              ⟨Interval.mk (Dbl.fin 1) (Dbl.fin 3), Interval.mk (Dbl.fin 1) (Dbl.fin 4),
                Interval.mk (Dbl.fin 1) (Dbl.fin 2)⟩]⟩ (Dbl.fin 2) = some y ∧
        Tube.eval
          ⟨Interval.mk (Dbl.fin 0) (Dbl.fin 1),
            [⟨Interval.mk (Dbl.fin 0) (Dbl.fin 1), Interval.mk (Dbl.fin 0) (Dbl.fin 5),
                Interval.mk (Dbl.fin 2) (Dbl.fin 3)⟩,
              ⟨Interval.mk (Dbl.fin 1) (Dbl.fin 3), Interval.mk (Dbl.fin 1) (Dbl.fin 4),
                Interval.mk (Dbl.fin 1) (Dbl.fin 2)⟩]⟩ (Dbl.fin 1) = some v ∧
        y.eval (Dbl.fin 1) = some v :=
  ⟨by decide,
    C1_sample_preserves_eval _ (by decide) (Interval.mk (Dbl.fin 0) (Dbl.fin 3)) (by decide)
      (Dbl.fin 2) (by decide) (Dbl.fin 1)⟩

/-- C2: for every tube with the partition invariant and every `t` strictly inside the domain
`[a,b]` of one of its slices, `sample(t)` returns a tube with one slice more, in which that
slice is replaced by the two slices `[a,t]` and `[t,b]`, both with the envelope of the slice;
the gate they share at `t` is that envelope, the slice found at `t` is the second one, and the
slices before and after, and the first gate, are unchanged. -/
theorem C2_sample_splits (x : Tube) (hx : x.partition_invariant) (pre : List Slice)
    (s : Slice) (post : List Slice) (a b τ : ℚ) (hs : x.slices = pre ++ s :: post)
    (es : s.domain = Interval.mk (Dbl.fin a) (Dbl.fin b)) (h1 : a < τ) (h2 : τ < b) :
    ∃ y, x.sample (Dbl.fin τ) = some y ∧ y.nb_slices = x.nb_slices + 1 ∧
      y.first_gate = x.first_gate ∧
      y.slices = pre ++
        { domain := Interval.mk (Dbl.fin a) (Dbl.fin τ), codomain := s.codomain,
          output_gate := s.codomain } ::
        { domain := Interval.mk (Dbl.fin τ) (Dbl.fin b), codomain := s.codomain,
          output_gate := s.output_gate } :: post ∧
      y.get_slice (Dbl.fin τ) = some
        ⟨s.codomain, ⟨Interval.mk (Dbl.fin τ) (Dbl.fin b), s.codomain, s.output_gate⟩, post⟩ := by
  have hv := hx.2.1
  have hc := hx.2.2
  rw [hs] at hv hc
  have hpre : ∀ p ∈ pre, ¬ Dbl.fin τ < p.domain.ub := by
    intro p hp
    have := decomp_ub_le pre s post hv hc p hp
    rw [es] at this
    exact not_lt.2 (le_trans this (le_of_lt ((Dbl.fin_lt_fin a τ).2 h1)))
  have hlt : Dbl.fin τ < s.domain.ub := by rw [es]; exact (Dbl.fin_lt_fin τ b).2 h2
  have e := Tube.sample_split x (Dbl.fin τ) pre s post hs hpre (Or.inl hlt)
    (by rw [es]; exact fun h => absurd (Dbl.fin.inj h) (ne_of_lt h1))
    (by rw [es]; exact fun h => absurd (Dbl.fin.inj h) (ne_of_gt h2))
  rw [es] at e
  simp only [Interval.lb, Interval.ub] at e
  rw [Interval.make_fin (le_of_lt h1), Interval.make_fin (le_of_lt h2)] at e
  refine ⟨_, e, ?_, rfl, rfl, ?_⟩
  · simp only [Tube.nb_slices, hs, List.length_append, List.length_cons]
    push_cast
    ring
  · have hpre2 : ∀ p ∈ pre ++
        [(⟨Interval.mk (Dbl.fin a) (Dbl.fin τ), s.codomain, s.codomain⟩ : Slice)],
        ¬ Dbl.fin τ < p.domain.ub := by
      intro p hp
      rcases List.mem_append.1 hp with hp | hp
      · exact hpre p hp
      · rw [List.mem_singleton.1 hp]
        exact lt_irrefl _
    rw [Tube.get_slice_decomp _ (Dbl.fin τ)
      (pre ++ [(⟨Interval.mk (Dbl.fin a) (Dbl.fin τ), s.codomain, s.codomain⟩ : Slice)])
      ⟨Interval.mk (Dbl.fin τ) (Dbl.fin b), s.codomain, s.output_gate⟩ post (by simp) hpre2
      (Or.inl ((Dbl.fin_lt_fin τ b).2 h2)), gate_after_concat]

/-- Witness of C2: the tube of one slice `[0,1]` of envelope `[-1,1]`, sampled at `1/2`; the
slicing of the result is not the slicing of the tube. -/
theorem C2_sample_splits_witness :
    (Tube.mk2 (Interval.mk (Dbl.fin 0) (Dbl.fin 1))
        (Interval.mk (Dbl.fin (-1)) (Dbl.fin 1))).partition_invariant ∧
      (0 : ℚ) < 1 / 2 ∧ (1 / 2 : ℚ) < 1 ∧
      ∃ y, (Tube.mk2 (Interval.mk (Dbl.fin 0) (Dbl.fin 1))
          (Interval.mk (Dbl.fin (-1)) (Dbl.fin 1))).sample (Dbl.fin (1 / 2)) = some y ∧
        y.nb_slices = 2 ∧
        y.slices =
          [⟨Interval.mk (Dbl.fin 0) (Dbl.fin (1 / 2)), Interval.mk (Dbl.fin (-1)) (Dbl.fin 1),
              Interval.mk (Dbl.fin (-1)) (Dbl.fin 1)⟩,
            ⟨Interval.mk (Dbl.fin (1 / 2)) (Dbl.fin 1), Interval.mk (Dbl.fin (-1)) (Dbl.fin 1),
              Interval.mk (Dbl.fin (-1)) (Dbl.fin 1)⟩] ∧
        Tube.same_slicing y (Tube.mk2 (Interval.mk (Dbl.fin 0) (Dbl.fin 1))
          (Interval.mk (Dbl.fin (-1)) (Dbl.fin 1))) = false := by
  refine ⟨by decide, by norm_num, by norm_num, ?_⟩
  obtain ⟨y, e, hn, _, hsl, _⟩ :=
    C2_sample_splits
      (Tube.mk2 (Interval.mk (Dbl.fin 0) (Dbl.fin 1)) (Interval.mk (Dbl.fin (-1)) (Dbl.fin 1)))
      (by decide) [] (Slice.new (Interval.mk (Dbl.fin 0) (Dbl.fin 1))
        (Interval.mk (Dbl.fin (-1)) (Dbl.fin 1))) [] 0 1 (1 / 2) rfl rfl
      (by norm_num) (by norm_num)
  refine ⟨y, e, hn, hsl, ?_⟩
  unfold Tube.same_slicing
  rw [if_pos (by rw [hn]; omega)]

/-- C4: for every tube with the partition invariant and every `t` in its domain,
`get_slice(t)` returns a slice of the tube, the one of index `input2index(t)`, whose domain
contains `t`, and `input2index(t)` lies between `0` and `nb_slices() - 1`. -/
theorem C4_get_slice_contains (x : Tube) (hx : x.partition_invariant) (d : Interval)
    (hd : x.domain = some d) (t : Dbl) (ht : d.contains t = true) :
    ∃ r, x.get_slice t = some r ∧ r.slice ∈ x.slices ∧ r.slice.domain.contains t = true ∧
      x.slices.get? (x.input2index t).toNat = some r.slice ∧
      0 ≤ x.input2index t ∧ x.input2index t ≤ x.nb_slices - 1 := by
  obtain ⟨pre, s, post, a, b, e, hpre, hs, es, _, hat, htb⟩ := Tube.locate x hx d hd t ht
  have hi := Tube.input2index_decomp x t pre s post e hpre hs
  refine ⟨_, Tube.get_slice_decomp x t pre s post e hpre hs, ?_, ?_, ?_, ?_, ?_⟩
  · rw [e]; simp
  · simp only [es, Interval.contains, hat, htb, and_self, decide_True]
  · rw [hi, e, Int.toNat_ofNat, List.get?_eq_getElem?,
      List.getElem?_append_right (le_refl _)]
    simp
  · rw [hi]; exact Int.natCast_nonneg _
  · rw [hi, Tube.nb_slices, e]
    simp only [List.length_append, List.length_cons]
    push_cast
    omega

/-- Witness of C4: the tube of the two slices `[0,1]` and `[1,3]`, at the time `1`. -/
theorem C4_get_slice_contains_witness :
    Tube.partition_invariant
        ⟨Interval.ALL_REALS,
          [⟨Interval.mk (Dbl.fin 0) (Dbl.fin 1), Interval.ALL_REALS, Interval.ALL_REALS⟩,
            ⟨Interval.mk (Dbl.fin 1) (Dbl.fin 3), Interval.ALL_REALS, Interval.ALL_REALS⟩]⟩ ∧
      ∃ r,
        Tube.get_slice
          ⟨Interval.ALL_REALS,
            [⟨Interval.mk (Dbl.fin 0) (Dbl.fin 1), Interval.ALL_REALS, Interval.ALL_REALS⟩,
              ⟨Interval.mk (Dbl.fin 1) (Dbl.fin 3), Interval.ALL_REALS, Interval.ALL_REALS⟩]⟩
          (Dbl.fin 1) = some r ∧
        r.slice ∈
          [(⟨Interval.mk (Dbl.fin 0) (Dbl.fin 1), Interval.ALL_REALS, Interval.ALL_REALS⟩ : Slice),
            ⟨Interval.mk (Dbl.fin 1) (Dbl.fin 3), Interval.ALL_REALS, Interval.ALL_REALS⟩] ∧
        r.slice.domain.contains (Dbl.fin 1) = true :=
  ⟨by decide,
    (C4_get_slice_contains _ (by decide) (Interval.mk (Dbl.fin 0) (Dbl.fin 3)) (by decide)
      (Dbl.fin 1) (by decide)).imp (fun _ h => ⟨h.1, h.2.1, h.2.2.1⟩)⟩

/-- Counterexample to C5 as stated: in the tube of the two slices `[0,1]` and `[1,2]`, the
time `1` is the boundary they share, and `get_slice(1)` returns the slice `[1,2]`, whose
upper bound is not `1`: the lower bound of the slice returned is `1`. -/
theorem C5_boundary_counterexample :
    Tube.get_slice
        ⟨Interval.mk (Dbl.fin 0) (Dbl.fin 0),
          [⟨Interval.mk (Dbl.fin 0) (Dbl.fin 1), Interval.mk (Dbl.fin 0) (Dbl.fin 0),
              Interval.mk (Dbl.fin 5) (Dbl.fin 5)⟩,
            ⟨Interval.mk (Dbl.fin 1) (Dbl.fin 2), Interval.mk (Dbl.fin 7) (Dbl.fin 7),
              Interval.mk (Dbl.fin 7) (Dbl.fin 7)⟩]⟩ (Dbl.fin 1)
      = some ⟨Interval.mk (Dbl.fin 5) (Dbl.fin 5),
          ⟨Interval.mk (Dbl.fin 1) (Dbl.fin 2), Interval.mk (Dbl.fin 7) (Dbl.fin 7),
            Interval.mk (Dbl.fin 7) (Dbl.fin 7)⟩, []⟩ ∧
      (Interval.mk (Dbl.fin 1) (Dbl.fin 2)).ub ≠ Dbl.fin 1 ∧
      (Interval.mk (Dbl.fin 1) (Dbl.fin 2)).lb = Dbl.fin 1 := by
  decide

/-- C5, amended: in a tube with the partition invariant, at the boundary `t` shared by two
adjacent slices `get_slice(t)` returns the second of them, the slice whose domain lower
bound equals `t`. At the lower bound of the domain of the tube it returns the first slice, and
at the upper bound of the domain it returns the last slice, the only case where the upper
bound of the slice returned is `t`. -/
theorem C5_boundary_resolves_to_next (x : Tube) (hx : x.partition_invariant) :
    (∀ (pre : List Slice) (s1 s2 : Slice) (post : List Slice),
      x.slices = pre ++ s1 :: s2 :: post →
        x.get_slice s1.domain.ub = some ⟨s1.output_gate, s2, post⟩ ∧
        s2.domain.lb = s1.domain.ub ∧ s2.domain.ub ≠ s1.domain.ub ∧
        x.input2index s1.domain.ub = pre.length + 1) ∧
    (∀ (f : Slice) (rest : List Slice), x.slices = f :: rest →
      x.get_slice f.domain.lb = some ⟨x.first_gate, f, rest⟩) ∧
    (∀ (init : List Slice) (l : Slice), x.slices = init ++ [l] →
      x.get_slice l.domain.ub = some ⟨gate_after x.first_gate init, l, []⟩) := by
  obtain ⟨_, hv, hc⟩ := hx
  have hp := chain_pairwise x.slices hv hc
  refine ⟨?_, ?_, ?_⟩
  · intro pre s1 s2 post e
    rw [e] at hv hc hp
    have e2 : pre ++ s1 :: s2 :: post = (pre ++ [s1]) ++ s2 :: post := by simp
    have h12 : s1.domain.ub = s2.domain.lb := chain_junction pre s1 s2 post hc
    have hv2 := Interval.valid_domain_lt (hv s2 (by simp))
    have hv1 := Interval.valid_domain_lt (hv s1 (by simp))
    have hpre : ∀ p ∈ pre ++ [s1], ¬ s1.domain.ub < p.domain.ub := by
      intro p hp2
      rcases List.mem_append.1 hp2 with hp2 | hp2
      · have := decomp_ub_le pre s1 (s2 :: post) hv hc p hp2
        exact not_lt.2 (le_trans this (le_of_lt hv1))
      · rw [List.mem_singleton.1 hp2]
        exact lt_irrefl _
    have hs : s1.domain.ub < s2.domain.ub := by rw [h12]; exact hv2
    refine ⟨?_, h12.symm, ne_of_gt hs, ?_⟩
    · rw [Tube.get_slice_decomp x _ (pre ++ [s1]) s2 post (by rw [e, e2]) hpre (Or.inl hs),
        gate_after_concat]
    · rw [Tube.input2index_decomp x _ (pre ++ [s1]) s2 post (by rw [e, e2]) hpre (Or.inl hs)]
      simp
  · intro f rest e
    have hvf := Interval.valid_domain_lt (hv f (by rw [e]; simp))
    exact Tube.get_slice_decomp x _ [] f rest e (by simp) (Or.inl hvf)
  · intro init l e
    rw [e] at hv hc
    have hvl := Interval.valid_domain_lt (hv l (by simp))
    have hpre : ∀ p ∈ init, ¬ l.domain.ub < p.domain.ub := by
      intro p hp2
      have := decomp_ub_le init l [] hv hc p hp2
      exact not_lt.2 (le_trans this (le_of_lt hvl))
    exact Tube.get_slice_decomp x _ init l [] e hpre (Or.inr rfl)

/-- Witness of the amended C5: the tube of the two slices `[0,1]` and `[1,2]`. -/
theorem C5_boundary_resolves_to_next_witness :
    Tube.partition_invariant
        ⟨Interval.ALL_REALS,
          [⟨Interval.mk (Dbl.fin 0) (Dbl.fin 1), Interval.ALL_REALS, Interval.ALL_REALS⟩,
            ⟨Interval.mk (Dbl.fin 1) (Dbl.fin 2), Interval.ALL_REALS, Interval.ALL_REALS⟩]⟩ ∧
      Tube.input2index
        ⟨Interval.ALL_REALS,
          [⟨Interval.mk (Dbl.fin 0) (Dbl.fin 1), Interval.ALL_REALS, Interval.ALL_REALS⟩,
            ⟨Interval.mk (Dbl.fin 1) (Dbl.fin 2), Interval.ALL_REALS, Interval.ALL_REALS⟩]⟩
        (Dbl.fin 1) = 1 :=
  ⟨by decide,
    ((C5_boundary_resolves_to_next _ (by decide)).1 []
      ⟨Interval.mk (Dbl.fin 0) (Dbl.fin 1), Interval.ALL_REALS, Interval.ALL_REALS⟩
      ⟨Interval.mk (Dbl.fin 1) (Dbl.fin 2), Interval.ALL_REALS, Interval.ALL_REALS⟩ [] rfl).2.2.2⟩

/-- C8: in a tube with the partition invariant, `sample(t)` at a time `t` that is the lower
or the upper bound of the domain of a slice returns the tube unchanged; and for every `t` in
the domain of the tube, `sample(t)` returns and sampling its result at `t` again changes
nothing: `sample` is idempotent. -/
theorem C8_sample_boundary_noop (x : Tube) (hx : x.partition_invariant) :
    (∀ t : Dbl, (∃ s ∈ x.slices, s.domain.lb = t ∨ s.domain.ub = t) → x.sample t = some x) ∧
    (∀ (d : Interval) (t : Dbl), x.domain = some d → d.contains t = true →
      ∃ y, x.sample t = some y ∧ y.sample t = some y) := by
  refine ⟨?_, ?_⟩
  · rintro t ⟨q, hq, hqt⟩
    obtain ⟨a0, b0, _, hdom, hall, _, _⟩ := Tube.domain_spec x hx
    have hvq := Interval.valid_domain_lt (hx.2.1 q hq)
    have ht : (Interval.mk (Dbl.fin a0) (Dbl.fin b0)).contains t = true := by
      have h1 := (hall q hq).1
      have h2 := (hall q hq).2
      have : Dbl.fin a0 ≤ t ∧ t ≤ Dbl.fin b0 := by
        rcases hqt with h | h
        · rw [← h]; exact ⟨h1, le_trans (le_of_lt hvq) h2⟩
        · rw [← h]; exact ⟨le_trans h1 (le_of_lt hvq), h2⟩
      simp [Interval.contains, this]
    obtain ⟨pre, s, post, a, b, e, hpre, hs, es, _, hat, _⟩ := Tube.locate x hx _ hdom t ht
    apply Tube.sample_noop x t pre s post e hpre hs
    obtain ⟨_, hv, hc⟩ := hx
    rw [e] at hv hc hq
    rcases List.mem_append.1 hq with hq | hq
    · left
      have h1 : q.domain.ub ≤ t := not_lt.1 (hpre q hq)
      have h2 : t = q.domain.ub := by
        rcases hqt with h | h
        · rw [← h] at h1
          exact absurd hvq (not_lt.2 h1)
        · exact h.symm
      have h3 := decomp_ub_le pre s post hv hc q hq
      rw [es] at h3 ⊢
      exact le_antisymm hat (by rw [h2]; exact h3)
    · rcases List.mem_cons.1 hq with rfl | hq
      · exact hqt
      · have hne : post ≠ [] := List.ne_nil_of_mem hq
        have hlt : t < s.domain.ub := hs.resolve_right hne
        have hp := (List.pairwise_append.1 (chain_pairwise _ hv hc)).2.1
        have h3 : s.domain.ub ≤ q.domain.lb := (List.pairwise_cons.1 hp).1 q hq
        have h4 : q.domain.lb ≤ t := by
          rcases hqt with h | h
          · exact le_of_eq h
          · rw [← h]; exact le_of_lt hvq
        exact absurd hlt (not_lt.2 (le_trans h3 h4))
  · intro d t hd ht
    rcases Tube.sample_cases x hx d hd t ht with ⟨h, _⟩ | ⟨pre, s0, post, a, b, τ, rfl, e, es, h1, h2, hpre, h⟩
    · exact ⟨x, h, h⟩
    · refine ⟨_, h, ?_⟩
      have hpre2 : ∀ p ∈ pre ++
          [(⟨Interval.mk (Dbl.fin a) (Dbl.fin τ), s0.codomain, s0.codomain⟩ : Slice)],
          ¬ Dbl.fin τ < p.domain.ub := by
        intro p hp
        rcases List.mem_append.1 hp with hp | hp
        · exact hpre p hp
        · rw [List.mem_singleton.1 hp]
          exact lt_irrefl _
      exact Tube.sample_noop _ (Dbl.fin τ)
        (pre ++ [(⟨Interval.mk (Dbl.fin a) (Dbl.fin τ), s0.codomain, s0.codomain⟩ : Slice)])
        ⟨Interval.mk (Dbl.fin τ) (Dbl.fin b), s0.codomain, s0.output_gate⟩ post (by simp) hpre2
        (Or.inl ((Dbl.fin_lt_fin τ b).2 h2)) (Or.inl rfl)

/-- Witness of C8: the tube of the two slices `[0,1]` and `[1,2]`, sampled at `1`. -/
theorem C8_sample_boundary_noop_witness :
    Tube.partition_invariant
        ⟨Interval.ALL_REALS,
          [⟨Interval.mk (Dbl.fin 0) (Dbl.fin 1), Interval.ALL_REALS, Interval.ALL_REALS⟩,
            ⟨Interval.mk (Dbl.fin 1) (Dbl.fin 2), Interval.ALL_REALS, Interval.ALL_REALS⟩]⟩ ∧
      Tube.sample
        ⟨Interval.ALL_REALS,
          [⟨Interval.mk (Dbl.fin 0) (Dbl.fin 1), Interval.ALL_REALS, Interval.ALL_REALS⟩,
            ⟨Interval.mk (Dbl.fin 1) (Dbl.fin 2), Interval.ALL_REALS, Interval.ALL_REALS⟩]⟩
        (Dbl.fin 1)
      = some ⟨Interval.ALL_REALS,
          [⟨Interval.mk (Dbl.fin 0) (Dbl.fin 1), Interval.ALL_REALS, Interval.ALL_REALS⟩,
            ⟨Interval.mk (Dbl.fin 1) (Dbl.fin 2), Interval.ALL_REALS, Interval.ALL_REALS⟩]⟩ :=
  ⟨by decide,
    (C8_sample_boundary_noop _ (by decide)).1 (Dbl.fin 1)
      ⟨⟨Interval.mk (Dbl.fin 1) (Dbl.fin 2), Interval.ALL_REALS, Interval.ALL_REALS⟩,
        by decide, by decide⟩⟩

theorem same_slicing_loop_iff (l1 l2 : List Slice) (h : l1.length = l2.length) :
    same_slicing_loop l1 l2 = true ↔
      l1.map (fun s => s.domain) = l2.map (fun s => s.domain) := by
  induction l1 generalizing l2 with
  | nil =>
    cases l2 with
    | nil => simp [same_slicing_loop]
    | cons s2 r2 => simp at h
  | cons s1 r1 ih =>
    cases l2 with
    | nil => simp at h
    | cons s2 r2 =>
      have h2 : r1.length = r2.length := by simpa using h
      by_cases hd : s1.domain = s2.domain
      · simp [same_slicing_loop, hd, ih r2 h2]
      · simp [same_slicing_loop, hd]

theorem Tube.same_slicing_iff (a b : Tube) :
    a.same_slicing b = true ↔
      a.slices.map (fun s => s.domain) = b.slices.map (fun s => s.domain) := by
  unfold Tube.same_slicing Tube.nb_slices
  by_cases h : a.slices.length = b.slices.length
  · have h2 : ¬ ((a.slices.length : Int) ≠ (b.slices.length : Int)) := by
      simpa using h
    rw [if_neg h2]
    exact same_slicing_loop_iff _ _ h
  · have h2 : (a.slices.length : Int) ≠ (b.slices.length : Int) := by
      simpa using h
    rw [if_pos h2]
    constructor
    · intro h3; exact absurd h3 (by simp)
    · intro h3
      have := congrArg List.length h3
      simp at this
      exact absurd this h

/-- C6: `same_slicing(a, b)` is true if and only if `a` and `b` have the same number of
slices and the domains of their slices of index `i` are equal for every `i`; hence
`same_slicing(x, x)` is true and `same_slicing(a, b)` equals `same_slicing(b, a)`. -/
theorem C6_same_slicing (a b : Tube) :
    (a.same_slicing b = true ↔
      (a.nb_slices = b.nb_slices ∧
        ∀ i : Nat, (a.slices.get? i).map (fun s => s.domain)
          = (b.slices.get? i).map (fun s => s.domain))) ∧
    a.same_slicing a = true ∧
    a.same_slicing b = b.same_slicing a := by
  have key : ∀ x y : Tube, x.slices.map (fun s => s.domain) = y.slices.map (fun s => s.domain) ↔
      (x.nb_slices = y.nb_slices ∧
        ∀ i : Nat, (x.slices.get? i).map (fun s => s.domain)
          = (y.slices.get? i).map (fun s => s.domain)) := by
    intro x y
    constructor
    · intro h
      refine ⟨?_, ?_⟩
      · have := congrArg List.length h
        simp only [List.length_map] at this
        simp [Tube.nb_slices, this]
      · intro i
        have := congrArg (fun l => List.get? l i) h
        simpa [List.get?_eq_getElem?] using this
    · rintro ⟨_, h⟩
      apply List.ext_get?
      intro i
      have := h i
      simpa [List.get?_eq_getElem?] using this
  refine ⟨?_, ?_, ?_⟩
  · rw [Tube.same_slicing_iff, key]
  · rw [Tube.same_slicing_iff]
  · rw [Bool.eq_iff_iff, Tube.same_slicing_iff, Tube.same_slicing_iff]
    exact eq_comm

/-! ## The constructor -/

theorem Dbl.fin_ne_zero {d : ℚ} (h : d ≠ 0) : ¬ (Dbl.fin d = 0) := by
  intro e
  exact h (Dbl.fin.inj e)

theorem Tube_loop_spec (b d : ℚ) (hd : 0 < d) :
    ∀ (n : Nat) (u : ℚ), (n : ℚ) * d < b - u → b - u ≤ ((n : ℚ) + 1) * d →
      ∀ fuel, n + 1 ≤ fuel →
        Tube_loop (Dbl.fin b) (Dbl.fin d) fuel (Dbl.fin u) = some
          ((List.range (n + 1)).map (fun k : Nat =>
            Slice.new (Interval.mk (Dbl.fin (u + k * d)) (Dbl.fin (min (u + (k + 1) * d) b)))
              Interval.ALL_REALS)) := by
  intro n
  induction n with
  | zero =>
    intro u h1 h2 fuel hf
    obtain ⟨f, rfl⟩ : ∃ f, fuel = f + 1 := ⟨fuel - 1, by omega⟩
    have h3 : u < b := by simpa using h1
    have h4 : b ≤ u + d := by simp at h2; linarith
    have hm : min (u + d) b = b := min_eq_right h4
    simp only [Tube_loop, Dbl.fin_add_fin, Dbl.min_fin, hm, lt_irrefl, if_false]
    rw [Interval.make_fin (le_of_lt h3), show List.range (0 + 1) = [0] from rfl]
    simp [hm]
  | succ n ih =>
    intro u h1 h2 fuel hf
    obtain ⟨f, rfl⟩ : ∃ f, fuel = f + 1 := ⟨fuel - 1, by omega⟩
    have hn : (0 : ℚ) ≤ n := Nat.cast_nonneg n
    have h3 : u + d < b := by
      push_cast at h1
      nlinarith
    have hm : min (u + d) b = u + d := min_eq_left (le_of_lt h3)
    have hlt : Dbl.fin (u + d) < Dbl.fin b := (Dbl.fin_lt_fin _ _).2 h3
    have ih2 := ih (u + d) (by push_cast at h1; linarith) (by push_cast at h2; linarith) f
      (by omega)
    simp only [Tube_loop, Dbl.fin_add_fin, Dbl.min_fin, hm, hlt, if_true, ih2, Option.map_some']
    rw [Interval.make_fin (by linarith), List.range_succ_eq_map (n + 1)]
    simp only [List.map_cons, List.map_map]
    congr 2
    · simp [hm]
    · apply List.map_congr_left
      intro k _
      simp only [Function.comp, Nat.succ_eq_add_one]
      push_cast
      congr 3 <;> ring_nf

theorem ceil_bounds (a b dt : ℚ) (hab : a < b) (hdt : 0 < dt) :
    1 ≤ ⌈(b - a) / dt⌉₊ ∧ ((⌈(b - a) / dt⌉₊ - 1 : Nat) : ℚ) * dt < b - a ∧
      b - a ≤ (((⌈(b - a) / dt⌉₊ - 1 : Nat) : ℚ) + 1) * dt := by
  have hpos : 0 < (b - a) / dt := div_pos (by linarith) hdt
  have h1 : 1 ≤ ⌈(b - a) / dt⌉₊ := Nat.ceil_pos.2 hpos
  refine ⟨h1, ?_, ?_⟩
  · have : ⌈(b - a) / dt⌉₊ - 1 < ⌈(b - a) / dt⌉₊ := by omega
    have := Nat.lt_ceil.1 this
    exact (lt_div_iff₀ hdt).1 this
  · have h2 : (b - a) / dt ≤ (⌈(b - a) / dt⌉₊ : ℚ) := Nat.le_ceil _
    have h3 : ((⌈(b - a) / dt⌉₊ - 1 : Nat) : ℚ) + 1 = (⌈(b - a) / dt⌉₊ : ℚ) := by
      rw [Nat.cast_sub h1]; simp
    rw [h3]
    exact (div_le_iff₀ hdt).1 h2

theorem Tube.mk3_slices (fuel : Nat) (domain : Interval) (timestep : Dbl) (codomain : Interval)
    (l : List Slice)
    (h : Tube_loop domain.ub (if timestep = 0 then domain.diam else timestep) fuel domain.lb
      = some l)
    (hl : ∀ s ∈ l, s.codomain = Interval.ALL_REALS) :
    ∃ x, Tube.mk3 fuel domain timestep codomain = some x ∧
      x.slices.map (fun s => s.domain) = l.map (fun s => s.domain) ∧
      ∀ s ∈ x.slices, s.codomain = codomain := by
  unfold Tube.mk3
  rw [h]
  by_cases hc : codomain = Interval.ALL_REALS
  · refine ⟨_, rfl, ?_, ?_⟩
    · simp [hc]
    · intro s hs
      simp only [hc, ne_eq, not_true_eq_false, if_false] at hs
      rw [hc]
      exact hl s hs
  · refine ⟨_, rfl, ?_, ?_⟩
    · simp [hc, Tube.set, Slice.set, Function.comp_def]
    · intro s hs
      simp only [ne_eq, hc, not_false_eq_true, if_true, Tube.set, List.mem_map] at hs
      obtain ⟨s2, _, rfl⟩ := hs
      rfl

/-- C7: for every domain `[a,b]` with `a < b` and every codomain, in exact arithmetic: with a
timestep `dt > 0` the constructor `Tube(domain, dt, codomain)` returns, after
`ceil((b-a)/dt)` turns of its loop, a tube of exactly `ceil((b-a)/dt)` slices, the slice of
index `k` having the domain `[a + k*dt, min(a + (k+1)*dt, b)]`, which is not reduced to a
point; every slice but the last has the width `dt` and no slice is wider; with the timestep
`0` it returns the tube of the single slice `[a,b]`; and every slice has the envelope
`codomain`. -/
theorem C7_constructor_slicing (a b : ℚ) (hab : a < b) (codomain : Interval) :
    (∀ dt : ℚ, 0 < dt → ∀ fuel : Nat, ⌈(b - a) / dt⌉₊ ≤ fuel →
      ∃ x, Tube.mk3 fuel (Interval.mk (Dbl.fin a) (Dbl.fin b)) (Dbl.fin dt) codomain = some x ∧
        x.nb_slices = ⌈(b - a) / dt⌉₊ ∧
        (∀ k : Nat, k < ⌈(b - a) / dt⌉₊ →
          (x.slices.get? k).map (fun s => s.domain)
            = some (Interval.mk (Dbl.fin (a + k * dt)) (Dbl.fin (min (a + (k + 1) * dt) b))) ∧
          a + k * dt < b ∧ min (a + (k + 1) * dt) b ≤ a + k * dt + dt) ∧
        (∀ k : Nat, k + 1 < ⌈(b - a) / dt⌉₊ → min (a + (k + 1) * dt) b = a + k * dt + dt) ∧
        ∀ s ∈ x.slices, s.codomain = codomain) ∧
    (∀ fuel : Nat, 1 ≤ fuel →
      ∃ x, Tube.mk3 fuel (Interval.mk (Dbl.fin a) (Dbl.fin b)) 0 codomain = some x ∧
        x.slices.map (fun s => s.domain) = [Interval.mk (Dbl.fin a) (Dbl.fin b)] ∧
        ∀ s ∈ x.slices, s.codomain = codomain) := by
  refine ⟨?_, ?_⟩
  · intro dt hdt fuel hf
    obtain ⟨hN, h1, h2⟩ := ceil_bounds a b dt hab hdt
    have hloop := Tube_loop_spec b dt hdt (⌈(b - a) / dt⌉₊ - 1) a h1 h2 fuel (by omega)
    have e1 : ⌈(b - a) / dt⌉₊ - 1 + 1 = ⌈(b - a) / dt⌉₊ := by omega
    rw [e1] at hloop
    obtain ⟨x, hx, hdom, hcod⟩ := Tube.mk3_slices fuel (Interval.mk (Dbl.fin a) (Dbl.fin b))
      (Dbl.fin dt) codomain _
      (by
        rw [if_neg (Dbl.fin_ne_zero (ne_of_gt hdt))]
        exact hloop)
      (by
        intro s hs
        obtain ⟨k, _, rfl⟩ := List.mem_map.1 hs
        rfl)
    simp only [List.map_map, Function.comp_def, Slice.new] at hdom
    refine ⟨x, hx, ?_, ?_, ?_, hcod⟩
    · have := congrArg List.length hdom
      simp only [List.length_map, List.length_range] at this
      simp [Tube.nb_slices, this]
    · intro k hk
      refine ⟨?_, ?_, ?_⟩
      · have := congrArg (fun l => List.get? l k) hdom
        simp only [List.get?_eq_getElem?, List.getElem?_map] at this
        rw [List.get?_eq_getElem?, this, List.getElem?_range hk]
        rfl
      · have := (lt_div_iff₀ hdt).1 (Nat.lt_ceil.1 hk)
        linarith
      · exact le_trans (min_le_left _ _) (le_of_eq (by ring))
    · intro k hk
      have := (lt_div_iff₀ hdt).1 (Nat.lt_ceil.1 hk)
      push_cast at this
      rw [min_eq_left (by linarith)]
      ring
  · intro fuel hf
    obtain ⟨f, rfl⟩ : ∃ f, fuel = f + 1 := ⟨fuel - 1, by omega⟩
    have hm : min (a + (b - a)) b = b := by rw [add_sub_cancel]; exact min_self b
    obtain ⟨x, hx, hdom, hcod⟩ := Tube.mk3_slices (f + 1) (Interval.mk (Dbl.fin a) (Dbl.fin b))
      0 codomain [Slice.new (Interval.mk (Dbl.fin a) (Dbl.fin b)) Interval.ALL_REALS]
      (by
        simp only [if_true, Interval.diam, Interval.ub, Interval.lb, Dbl.fin_sub_fin, Tube_loop,
          Dbl.fin_add_fin, Dbl.min_fin, hm, lt_irrefl, if_false]
        rw [Interval.make_fin (le_of_lt hab)])
      (by
        intro s hs
        rw [List.mem_singleton.1 hs]
        rfl)
    exact ⟨x, hx, hdom, hcod⟩

/-- Witness of C7: the domain `[0,1]` with the timestep `3/10` gives four slices. -/
theorem C7_constructor_slicing_witness :
    (0 : ℚ) < 1 ∧ (0 : ℚ) < 3 / 10 ∧ ⌈((1 : ℚ) - 0) / (3 / 10)⌉₊ ≤ 4 ∧
      ∃ x, Tube.mk3 4 (Interval.mk (Dbl.fin 0) (Dbl.fin 1)) (Dbl.fin (3 / 10))
          (Interval.mk (Dbl.fin 0) (Dbl.fin 1)) = some x ∧
        x.nb_slices = ⌈((1 : ℚ) - 0) / (3 / 10)⌉₊ := by
  have h4 : ⌈((1 : ℚ) - 0) / (3 / 10)⌉₊ ≤ 4 := by
    rw [Nat.ceil_le]
    norm_num
  refine ⟨by norm_num, by norm_num, h4, ?_⟩
  obtain ⟨x, hx, hn, _⟩ :=
    (C7_constructor_slicing 0 1 (by norm_num) (Interval.mk (Dbl.fin 0) (Dbl.fin 1))).1 (3 / 10)
      (by norm_num) 4 h4
  exact ⟨x, hx, hn⟩

/-! ## The partition invariant along the calls -/

theorem Tube_loop_inv (b d : ℚ) (hd : 0 < d) :
    ∀ (fuel : Nat) (u : ℚ) (l : List Slice), u < b →
      Tube_loop (Dbl.fin b) (Dbl.fin d) fuel (Dbl.fin u) = some l →
        l.head?.map (fun s => s.domain.lb) = some (Dbl.fin u) ∧
        l.getLast?.map (fun s => s.domain.ub) = some (Dbl.fin b) ∧
        (∀ s ∈ l, s.domain.valid_domain = true) ∧
        l.Chain' (fun s1 s2 => s1.domain.ub = s2.domain.lb) ∧
        (∀ s ∈ l, s.codomain = Interval.ALL_REALS) := by
  intro fuel
  induction fuel with
  | zero =>
    intro u l _ h
    simp [Tube_loop] at h
  | succ f ih =>
    intro u l hu h
    by_cases h3 : u + d < b
    · have hm : min (u + d) b = u + d := min_eq_left (le_of_lt h3)
      have hlt : Dbl.fin (u + d) < Dbl.fin b := (Dbl.fin_lt_fin _ _).2 h3
      simp only [Tube_loop, Dbl.fin_add_fin, Dbl.min_fin, hm, hlt, if_true] at h
      rw [Interval.make_fin (by linarith)] at h
      cases h2 : Tube_loop (Dbl.fin b) (Dbl.fin d) f (Dbl.fin (u + d)) with
      | none => rw [h2] at h; simp at h
      | some l2 =>
        rw [h2] at h
        simp only [Option.map_some', Option.some.injEq] at h
        obtain ⟨i1, i2, i3, i4, i5⟩ := ih (u + d) l2 h3 h2
        subst h
        cases l2 with
        | nil => simp at i1
        | cons f2 r2 =>
          simp only [List.head?_cons, Option.map_some', Option.some.injEq] at i1
          refine ⟨rfl, ?_, ?_, ?_, ?_⟩
          · rw [List.getLast?_cons_cons]
            exact i2
          · intro s hs
            rcases List.mem_cons.1 hs with rfl | hs
            · simp [Slice.new, Interval.valid_domain, hd]
            · exact i3 s hs
          · exact List.chain'_cons.2 ⟨by rw [i1]; rfl, i4⟩
          · intro s hs
            rcases List.mem_cons.1 hs with rfl | hs
            · rfl
            · exact i5 s hs
    · have hm : min (u + d) b = b := min_eq_right (not_lt.1 h3)
      simp only [Tube_loop, Dbl.fin_add_fin, Dbl.min_fin, hm, lt_irrefl, if_false,
        Option.some.injEq] at h
      rw [Interval.make_fin (le_of_lt hu)] at h
      subst h
      refine ⟨rfl, rfl, ?_, List.chain'_singleton _, ?_⟩
      · intro s hs
        rw [List.mem_singleton.1 hs]
        simp [Slice.new, Interval.valid_domain, hu]
      · intro s hs
        rw [List.mem_singleton.1 hs]
        rfl

theorem Tube.partition_of_list (x : Tube) (u b : ℚ)
    (h1 : x.slices.head?.map (fun s => s.domain.lb) = some (Dbl.fin u))
    (h2 : x.slices.getLast?.map (fun s => s.domain.ub) = some (Dbl.fin b))
    (h3 : ∀ s ∈ x.slices, s.domain.valid_domain = true)
    (h4 : x.slices.Chain' (fun s1 s2 => s1.domain.ub = s2.domain.lb)) :
    x.partition_invariant ∧ x.domain = some (Interval.mk (Dbl.fin u) (Dbl.fin b)) := by
  have hne : x.slices ≠ [] := by
    intro e
    rw [e] at h1
    simp at h1
  have hx : x.partition_invariant := ⟨hne, h3, h4⟩
  refine ⟨hx, ?_⟩
  obtain ⟨a0, b0, hab, hdom, _⟩ := Tube.domain_spec x hx
  rw [Tube.domain_formula, h1, h2]
  have : u ≤ b := by
    rw [Tube.domain_formula, h1, h2] at hdom
    simp only [Option.some_bind, Option.map_some', Option.some.injEq] at hdom
    by_contra hc
    simp [Interval.make, hc] at hdom
  simp [Interval.make_fin this]

theorem Tube.mk3_partition (a b dt : ℚ) (hab : a < b) (hdt : 0 ≤ dt) (codomain : Interval)
    (fuel : Nat) (x : Tube)
    (h : Tube.mk3 fuel (Interval.mk (Dbl.fin a) (Dbl.fin b)) (Dbl.fin dt) codomain = some x) :
    x.partition_invariant ∧ x.domain = some (Interval.mk (Dbl.fin a) (Dbl.fin b)) := by
  have key : ∀ d : ℚ, 0 < d → ∀ l,
      Tube_loop (Dbl.fin b) (Dbl.fin d) fuel (Dbl.fin a) = some l →
      ∀ y : Tube, y.slices.map (fun s => s.domain) = l.map (fun s => s.domain) →
        y.partition_invariant ∧ y.domain = some (Interval.mk (Dbl.fin a) (Dbl.fin b)) := by
    intro d hd l hl y hy
    obtain ⟨i1, i2, i3, i4, _⟩ := Tube_loop_inv b d hd fuel a l hab hl
    have p := Tube.partition_of_list ⟨Interval.ALL_REALS, l⟩ a b i1 i2 i3 i4
    exact ⟨Tube.partition_of_map_eq ⟨Interval.ALL_REALS, l⟩ y hy p.1,
      (Tube.domain_of_map_eq ⟨Interval.ALL_REALS, l⟩ y hy).trans p.2⟩
  unfold Tube.mk3 at h
  have hstep : ∃ d : ℚ, 0 < d ∧
      (if Dbl.fin dt = 0 then (Interval.mk (Dbl.fin a) (Dbl.fin b)).diam else Dbl.fin dt)
        = Dbl.fin d := by
    by_cases h0 : dt = 0
    · refine ⟨b - a, by linarith, ?_⟩
      rw [h0, if_pos Dbl.zero_def.symm]
      simp [Interval.diam]
    · exact ⟨dt, lt_of_le_of_ne hdt (Ne.symm h0), if_neg (Dbl.fin_ne_zero h0)⟩
  obtain ⟨d, hd, e⟩ := hstep
  rw [e] at h
  simp only [Interval.ub, Interval.lb] at h
  cases hl : Tube_loop (Dbl.fin b) (Dbl.fin d) fuel (Dbl.fin a) with
  | none => rw [hl] at h; simp at h
  | some l =>
    rw [hl] at h
    simp only [Option.map_some', Option.some.injEq] at h
    apply key d hd l hl x
    rw [← h]
    by_cases hc : codomain = Interval.ALL_REALS
    · simp [hc]
    · simp [hc, Tube.set, Slice.set, Function.comp_def]

theorem Tube.keeps_of_map_eq (x y : Tube) (d : Interval)
    (h : y.slices.map (fun s => s.domain) = x.slices.map (fun s => s.domain))
    (hx : x.partition_invariant ∧ x.domain = some d) :
    y.partition_invariant ∧ y.domain = some d :=
  ⟨Tube.partition_of_map_eq x y h hx.1, (Tube.domain_of_map_eq x y h).trans hx.2⟩

theorem Tube.sample_keeps (x : Tube) (d : Interval)
    (hx : x.partition_invariant ∧ x.domain = some d) (t : Dbl) (ht : d.contains t = true) :
    ∃ y, x.sample t = some y ∧ y.partition_invariant ∧ y.domain = some d := by
  rcases Tube.sample_cases x hx.1 d hx.2 t ht with
    ⟨h, _⟩ | ⟨pre, s0, post, a, b, τ, _, e, es, h1, h2, _, h⟩
  · exact ⟨x, h, hx⟩
  · refine ⟨_, h, ?_⟩
    have := partition_split x
      ⟨x.first_gate, pre ++
        ⟨Interval.mk (Dbl.fin a) (Dbl.fin τ), s0.codomain, s0.codomain⟩ ::
        ⟨Interval.mk (Dbl.fin τ) (Dbl.fin b), s0.codomain, s0.output_gate⟩ :: post⟩
      hx.1 pre s0
      ⟨Interval.mk (Dbl.fin a) (Dbl.fin τ), s0.codomain, s0.codomain⟩
      ⟨Interval.mk (Dbl.fin τ) (Dbl.fin b), s0.codomain, s0.output_gate⟩ post e rfl a b τ es
      h1 h2 rfl rfl
    exact ⟨this.1, this.2.trans hx.2⟩

theorem modify_map_domain (f : Slice → Slice) (hf : ∀ s, (f s).domain = s.domain)
    (l : List Slice) (k : Nat) :
    (l.modify f k).map (fun s => s.domain) = l.map (fun s => s.domain) := by
  induction l generalizing k with
  | nil => cases k <;> simp [List.modify]
  | cons a l ih =>
    cases k with
    | zero => simp [List.modify, hf]
    | succ k =>
      have := ih k
      simp only [List.modify, List.modifyTailIdx, List.map_cons] at this ⊢
      rw [this]

theorem set_loop_map_domain (y t : Interval) (l : List Slice) :
    (set_loop y t l).map (fun s => s.domain) = l.map (fun s => s.domain) := by
  induction l with
  | nil => rfl
  | cons s rest ih =>
    by_cases h : (t.inter s.domain).is_degenerated = true
    · simp [set_loop, h]
    · simp [set_loop, h, ih, Slice.set]

theorem Tube.sample_gate_keeps (x : Tube) (d : Interval)
    (hx : x.partition_invariant ∧ x.domain = some d) (t : Dbl) (ht : d.contains t = true)
    (gate : Interval) :
    ∃ y, x.sample_gate t gate = some y ∧ y.partition_invariant ∧ y.domain = some d := by
  obtain ⟨x1, h1, hx1⟩ := Tube.sample_keeps x d hx t ht
  obtain ⟨pre, s, post, e, hpre, hs⟩ := exists_decomp t x1.slices hx1.1.1
  unfold Tube.sample_gate
  rw [h1]
  simp only [Tube.get_slice_decomp x1 t pre s post e hpre hs]
  by_cases hb : t = s.domain.lb
  · rw [if_pos hb]
    refine ⟨_, rfl, Tube.keeps_of_map_eq x1 _ d ?_ hx1⟩
    cases (x1.input2index t).toNat with
    | zero => rfl
    | succ k =>
      exact modify_map_domain (fun s => s.set_output_gate gate) (fun _ => rfl) x1.slices k
  · rw [if_neg hb]
    exact ⟨_, rfl, Tube.keeps_of_map_eq x1 _ d
      (modify_map_domain (fun s => s.set_output_gate gate) (fun _ => rfl) x1.slices _) hx1⟩

theorem Tube.set_on_keeps (x : Tube) (d : Interval)
    (hx : x.partition_invariant ∧ x.domain = some d) (y : Interval) (t1 t2 : Dbl)
    (h1 : d.contains t1 = true) (h2 : d.contains t2 = true) (h12 : t1 ≤ t2) :
    ∃ z, x.set_on y (Interval.make t1 t2) = some z ∧ z.partition_invariant ∧
      z.domain = some d := by
  have hmk : Interval.make t1 t2 = Interval.mk t1 t2 := by
    cases d with
    | empty => simp [Interval.contains] at h1
    | mk a b =>
      have i1 : a ≤ t1 ∧ t1 ≤ b := by simpa [Interval.contains] using h1
      have i2 : a ≤ t2 ∧ t2 ≤ b := by simpa [Interval.contains] using h2
      have n1 : t1 ≠ Dbl.pinf := by
        rintro rfl
        have : t2 = Dbl.pinf := le_antisymm (Dbl.le_pinf _) h12
        obtain ⟨a0, b0, _, hdom, _⟩ := Tube.domain_spec x hx.1
        rw [hx.2] at hdom
        have hb : b = Dbl.fin b0 := by
          have := Option.some.inj hdom
          exact (Interval.mk.inj this).2
        rw [hb] at i1
        exact Dbl.not_pinf_le_fin b0 i1.2
      have n2 : t2 ≠ Dbl.ninf := by
        rintro rfl
        obtain ⟨a0, b0, _, hdom, _⟩ := Tube.domain_spec x hx.1
        rw [hx.2] at hdom
        have ha : a = Dbl.fin a0 := by
          have := Option.some.inj hdom
          exact (Interval.mk.inj this).1
        rw [ha] at i2
        exact Dbl.not_fin_le_ninf a0 i2.1
      simp [Interval.make, h12, n1, n2]
  rw [hmk]
  unfold Tube.set_on
  by_cases hdeg : (Interval.mk t1 t2).is_degenerated = true
  · rw [if_pos hdeg]
    exact Tube.sample_gate_keeps x d hx t1 h1 y
  · rw [if_neg hdeg]
    obtain ⟨x1, e1, hx1⟩ := Tube.sample_keeps x d hx t1 h1
    obtain ⟨x2, e2, hx2⟩ := Tube.sample_keeps x1 d hx1 t2 h2
    simp only [Interval.lb, Interval.ub, e1, e2]
    refine ⟨_, rfl, Tube.keeps_of_map_eq x2 _ d ?_ hx2⟩
    simp only [List.map_append, set_loop_map_domain]
    rw [← List.map_append, List.take_append_drop]

theorem Tube.inflate_keeps (x : Tube) (d : Interval)
    (hx : x.partition_invariant ∧ x.domain = some d) (rad : Dbl) :
    (x.inflate rad).partition_invariant ∧ (x.inflate rad).domain = some d := by
  apply Tube.keeps_of_map_eq x _ d _ hx
  simp [Tube.inflate, Slice.set_envelope, Slice.set_output_gate, Function.comp_def]

theorem Tube.call_keeps (x : Tube) (d : Interval)
    (hx : x.partition_invariant ∧ x.domain = some d) (c : Call) (hc : c.inside d) :
    ∃ y, x.call c = some y ∧ y.partition_invariant ∧ y.domain = some d := by
  cases c with
  | sample t => exact Tube.sample_keeps x d hx t hc
  | sample_gate t gate => exact Tube.sample_gate_keeps x d hx t hc gate
  | set_at y t => exact Tube.sample_gate_keeps x d hx t hc y
  | set_on y t1 t2 => exact Tube.set_on_keeps x d hx y t1 t2 hc.1 hc.2.1 hc.2.2
  | inflate rad => exact ⟨_, rfl, Tube.inflate_keeps x d hx rad⟩

theorem Tube.calls_keep (cs : List Call) (d : Interval) (hcs : ∀ c ∈ cs, c.inside d) :
    ∀ x : Tube, x.partition_invariant ∧ x.domain = some d →
      ∃ y, x.calls cs = some y ∧ y.partition_invariant ∧ y.domain = some d := by
  induction cs with
  | nil => exact fun x hx => ⟨x, rfl, hx⟩
  | cons c cs ih =>
    intro x hx
    obtain ⟨x1, e1, hx1⟩ := Tube.call_keeps x d hx c (hcs c (List.mem_cons_self _ _))
    obtain ⟨y, e2, hy⟩ := ih (fun c2 h2 => hcs c2 (List.mem_cons_of_mem _ h2)) x1 hx1
    refine ⟨y, ?_, hy⟩
    simp only [Tube.calls, e1, Option.some_bind, e2]

theorem Tube.domain_union (x : Tube) (hx : x.partition_invariant) (d : Interval)
    (hd : x.domain = some d) (u : Dbl) :
    d.contains u = true ↔ ∃ s ∈ x.slices, s.domain.contains u = true := by
  constructor
  · intro hu
    obtain ⟨pre, s, post, a, b, e, _, _, es, _, hat, htb⟩ := Tube.locate x hx d hd u hu
    refine ⟨s, by rw [e]; simp, ?_⟩
    simp only [es, Interval.contains, hat, htb, and_self, decide_True]
  · rintro ⟨s, hs, hu⟩
    obtain ⟨a0, b0, _, hdom, hall, _, _⟩ := Tube.domain_spec x hx
    rw [hd] at hdom
    rw [Option.some.inj hdom]
    obtain ⟨a, b, _, es⟩ := (Interval.valid_domain_iff _).1 (hx.2.1 s hs)
    have h1 := (hall s hs).1
    have h2 := (hall s hs).2
    rw [es] at h1 h2 hu
    have hu2 : Dbl.fin a ≤ u ∧ u ≤ Dbl.fin b := by simpa [Interval.contains] using hu
    have : Dbl.fin a0 ≤ u ∧ u ≤ Dbl.fin b0 :=
      ⟨le_trans h1 hu2.1, le_trans hu2.2 h2⟩
    simp [Interval.contains, this]

/-- C3: the partition invariant. For every tube built by `Tube(domain, timestep, codomain)`
on a domain `[a,b]` with `a < b` and a timestep `dt >= 0`, and every sequence of calls
`sample(t)`, `sample(t, gate)`, `set(y, t)`, `set(y, [t1,t2])` and `inflate(rad)` whose
arguments are inside the domain, the calls return and in the tube they leave: there is a
slice, every slice domain is bounded and not reduced to a point, the upper bound of each
slice is the lower bound of the next one, `domain()` is still `[a,b]`, and a time is in
`[a,b]` if and only if it is in the domain of a slice. -/
theorem C3_partition_invariant (a b dt : ℚ) (hab : a < b) (hdt : 0 ≤ dt)
    (codomain : Interval) (fuel : Nat) (x0 : Tube)
    (h0 : Tube.mk3 fuel (Interval.mk (Dbl.fin a) (Dbl.fin b)) (Dbl.fin dt) codomain = some x0)
    (cs : List Call) (hcs : ∀ c ∈ cs, c.inside (Interval.mk (Dbl.fin a) (Dbl.fin b))) :
    ∃ x, x0.calls cs = some x ∧ x.partition_invariant ∧
      x.domain = some (Interval.mk (Dbl.fin a) (Dbl.fin b)) ∧
      ∀ u : Dbl, (Interval.mk (Dbl.fin a) (Dbl.fin b)).contains u = true ↔
        ∃ s ∈ x.slices, s.domain.contains u = true := by
  have hx0 := Tube.mk3_partition a b dt hab hdt codomain fuel x0 h0
  obtain ⟨x, e, hx⟩ := Tube.calls_keep cs _ hcs x0 hx0
  exact ⟨x, e, hx.1, hx.2, Tube.domain_union x hx.1 _ hx.2⟩

/-- Witness of C3: the tube built on `[0,4]` with the timestep `2`, then sampled at `1`, set to
`[5,6]` over `[1,3]` and inflated by `1`. -/
theorem C3_partition_invariant_witness :
    (0 : ℚ) < 4 ∧ (0 : ℚ) ≤ 2 ∧
      Tube.mk3 2 (Interval.mk (Dbl.fin 0) (Dbl.fin 4)) (Dbl.fin 2)
          (Interval.mk (Dbl.fin 0) (Dbl.fin 1))
        = some ⟨Interval.ALL_REALS,
            [⟨Interval.mk (Dbl.fin 0) (Dbl.fin 2), Interval.mk (Dbl.fin 0) (Dbl.fin 1),
                Interval.ALL_REALS⟩,
              ⟨Interval.mk (Dbl.fin 2) (Dbl.fin 4), Interval.mk (Dbl.fin 0) (Dbl.fin 1),
                Interval.ALL_REALS⟩]⟩ ∧
      ∃ x,
        Tube.calls
          ⟨Interval.ALL_REALS,
            [⟨Interval.mk (Dbl.fin 0) (Dbl.fin 2), Interval.mk (Dbl.fin 0) (Dbl.fin 1),
                Interval.ALL_REALS⟩,
              ⟨Interval.mk (Dbl.fin 2) (Dbl.fin 4), Interval.mk (Dbl.fin 0) (Dbl.fin 1),
                Interval.ALL_REALS⟩]⟩
          [Call.sample (Dbl.fin 1),
            Call.set_on (Interval.mk (Dbl.fin 5) (Dbl.fin 6)) (Dbl.fin 1) (Dbl.fin 3),
            Call.inflate (Dbl.fin 1)] = some x ∧
        x.partition_invariant ∧ x.domain = some (Interval.mk (Dbl.fin 0) (Dbl.fin 4)) := by
  have h0 : Tube.mk3 2 (Interval.mk (Dbl.fin 0) (Dbl.fin 4)) (Dbl.fin 2)
        (Interval.mk (Dbl.fin 0) (Dbl.fin 1))
      = some ⟨Interval.ALL_REALS,
          [⟨Interval.mk (Dbl.fin 0) (Dbl.fin 2), Interval.mk (Dbl.fin 0) (Dbl.fin 1),
              Interval.ALL_REALS⟩,
            ⟨Interval.mk (Dbl.fin 2) (Dbl.fin 4), Interval.mk (Dbl.fin 0) (Dbl.fin 1),
              Interval.ALL_REALS⟩]⟩ := by
    decide!
  refine ⟨by norm_num, by norm_num, h0, ?_⟩
  obtain ⟨x, e, hp, hd, _⟩ :=
    C3_partition_invariant 0 4 2 (by norm_num) (by norm_num)
      (Interval.mk (Dbl.fin 0) (Dbl.fin 1)) 2 _ h0
      [Call.sample (Dbl.fin 1),
        Call.set_on (Interval.mk (Dbl.fin 5) (Dbl.fin 6)) (Dbl.fin 1) (Dbl.fin 3),
        Call.inflate (Dbl.fin 1)]
      (by
        intro c hc
        simp only [List.mem_cons, List.mem_singleton, List.not_mem_nil, or_false] at hc
        rcases hc with rfl | rfl | rfl
        · norm_num [Call.inside, Interval.contains]
        · norm_num [Call.inside, Interval.contains]
        · exact (Dbl.fin_le_fin 0 1).2 (by norm_num))
  exact ⟨x, e, hp, hd⟩

/-! ## Inversion -/

theorem Interval.inter_empty_of_not_intersects (x y : Interval)
    (h : x.intersects y = false) : (x.inter y).is_empty = true := by
  cases x with
  | empty => cases y <;> rfl
  | mk a b =>
    cases y with
    | empty => rfl
    | mk c d =>
      have hn : ¬ (a ≤ d ∧ c ≤ b) := by simpa [Interval.intersects] using h
      have hm : ¬ (max a c ≤ min b d) := by
        intro h2
        exact hn ⟨le_trans (le_max_left a c) (le_trans h2 (min_le_right b d)),
          le_trans (le_max_right a c) (le_trans h2 (min_le_left b d))⟩
      simp [Interval.inter, Interval.make, hm, Interval.is_empty]

theorem invert_loop_no_hit
    (slice_invert : SliceRef → Interval → SliceRef → Interval → Interval)
    (y intersection : Interval) (lx : List Slice)
    (hx : ∀ s ∈ lx, s.codomain.intersects y = false) :
    ∀ (lv : List Slice) (gx gv acc : Interval), lx.length ≤ lv.length →
      invert_loop slice_invert y intersection gx lx gv lv acc = some acc := by
  induction lx with
  | nil => intro lv gx gv acc _; rfl
  | cons sx rx ih =>
    intro lv gx gv acc hlen
    cases lv with
    | nil => simp at hlen
    | cons sv rv =>
      have h1 : sx.codomain.intersects y = false := hx sx (List.mem_cons_self _ _)
      have h2 := ih (fun s hs => hx s (List.mem_cons_of_mem _ hs)) rv sx.output_gate
        sv.output_gate acc (by simpa using hlen)
      by_cases hc : sx.domain.lb < intersection.ub
      · simp only [invert_loop, hc, if_true, h1, Bool.false_eq_true, if_false, h2]
      · simp only [invert_loop, hc, if_false]

/-- C10: for every tube with at least one slice, every interval `y` and every
`search_domain`: if no slice envelope of the tube intersects `y`, or if `search_domain` does
not intersect the domain of the tube, then `invert(y, search_domain)` returns the empty
interval, whatever `Slice::invert` computes. -/
theorem C10_invert_empty
    (slice_invert : SliceRef → Interval → SliceRef → Interval → Interval)
    (x : Tube) (hne : x.slices ≠ []) (y search_domain : Interval)
    (h : (∀ s ∈ x.slices, s.codomain.intersects y = false) ∨
      (∀ d, x.domain = some d → search_domain.intersects d = false)) :
    x.invert slice_invert y search_domain = some Interval.EMPTY_SET := by
  obtain ⟨d, hd⟩ : ∃ d, x.domain = some d := by
    rw [Tube.domain_formula]
    cases hl : x.slices with
    | nil => exact absurd hl hne
    | cons f rest =>
      cases h2 : (f :: rest).getLast? with
      | none => simp at h2
      | some l => exact ⟨_, rfl⟩
  unfold Tube.invert Tube.invert_with
  simp only [hd]
  by_cases he : (search_domain.inter d).is_empty = true
  · rw [if_pos he]
  · rw [if_neg he]
    rcases h with h | h
    · obtain ⟨pre, s, post, e, hpre, hs⟩ :=
        exists_decomp (search_domain.inter d).lb x.slices hne
      have hv : (x.copy_set Interval.ALL_REALS).slices
          = pre.map (fun s => s.set Interval.ALL_REALS)
            ++ (s.set Interval.ALL_REALS) :: post.map (fun s => s.set Interval.ALL_REALS) := by
        simp [Tube.copy_set, Tube.set, e]
      have hvpre : ∀ p ∈ pre.map (fun s => s.set Interval.ALL_REALS),
          ¬ (search_domain.inter d).lb < p.domain.ub := by
        intro p hp
        obtain ⟨p2, hp2, rfl⟩ := List.mem_map.1 hp
        exact hpre p2 hp2
      have hvs : (search_domain.inter d).lb < (s.set Interval.ALL_REALS).domain.ub ∨
          post.map (fun s => s.set Interval.ALL_REALS) = [] := by
        rcases hs with hs | hs
        · exact Or.inl hs
        · exact Or.inr (by rw [hs]; rfl)
      rw [Tube.get_slice_decomp x _ pre s post e hpre hs,
        Tube.get_slice_decomp _ _ _ _ _ hv hvpre hvs]
      apply invert_loop_no_hit
      · intro q hq
        exact h q (by rw [e]; exact List.mem_append_right _ hq)
      · simp
    · exact absurd (Interval.inter_empty_of_not_intersects _ _ (h d hd)) he

/-- Witness of C10: the tube of envelope `[0,1]` on the two slices `[0,2]` and `[2,5]`,
`y = [2,3]` and the search domain `[0,5]`. -/
theorem C10_invert_empty_witness :
    Tube.invert (fun _ _ _ _ => Interval.ALL_REALS)
      ⟨Interval.mk (Dbl.fin 0) (Dbl.fin 1),
        [⟨Interval.mk (Dbl.fin 0) (Dbl.fin 2), Interval.mk (Dbl.fin 0) (Dbl.fin 1),
            Interval.mk (Dbl.fin 0) (Dbl.fin 1)⟩,
          ⟨Interval.mk (Dbl.fin 2) (Dbl.fin 5), Interval.mk (Dbl.fin 0) (Dbl.fin 1),
            Interval.mk (Dbl.fin 0) (Dbl.fin 1)⟩]⟩
      (Interval.mk (Dbl.fin 2) (Dbl.fin 3)) (Interval.mk (Dbl.fin 0) (Dbl.fin 5))
      = some Interval.EMPTY_SET :=
  C10_invert_empty _ _ (by decide) _ _ (Or.inl (by decide))

/-! ## Evaluation over an interval -/

theorem eval_loop_prefix (m rest : List Slice) (i : Int) (acc : Interval) :
    eval_loop (i + m.length) (m ++ rest) i acc
      = some (m.foldl (fun a s => a.hull s.codomain) acc) := by
  induction m generalizing i acc with
  | nil =>
    cases rest with
    | nil => simp [eval_loop]
    | cons s r => simp [eval_loop]
  | cons a m ih =>
    have hne : ¬ i = i + ((m.length : Int) + 1) := by omega
    have e : i + 1 + (m.length : Int) = i + ((m.length : Int) + 1) := by ring
    have ih2 := ih (i + 1) (acc.hull a.codomain)
    rw [e] at ih2
    rw [List.cons_append, List.length_cons, eval_loop]
    push_cast
    rw [if_neg hne, ih2, List.foldl_cons]

theorem Tube.last_ub (x : Tube) (hx : x.partition_invariant) (d : Interval)
    (hd : x.domain = some d) (pre : List Slice) (s : Slice) (h : x.slices = pre ++ [s]) :
    s.domain.ub = d.ub := by
  obtain ⟨a0, b0, _, hdom, _, _, ⟨init, l, hl, hlb⟩⟩ := Tube.domain_spec x hx
  rw [hd] at hdom
  rw [Option.some.inj hdom]
  have e2 : init ++ [l] = pre ++ [s] := by rw [← hl, h]
  have : l = s := by
    have := List.append_inj_right' e2 rfl
    simpa using this
  rw [← this, hlb]
  rfl

/-- Counterexample to C9 as stated: in the tube of the slices `[0,1]` of envelope `[0,0]` and
`[1,2]` of envelope `[1,1]`, the evaluation over `t = [1,2]` is `[1,1]`, while the domains
of both slices intersect `t` and the hull of their envelopes is `[0,1]`. -/
theorem C9_eval_interval_counterexample :
    Tube.eval_interval
        ⟨Interval.mk (Dbl.fin 0) (Dbl.fin 0),
          [⟨Interval.mk (Dbl.fin 0) (Dbl.fin 1), Interval.mk (Dbl.fin 0) (Dbl.fin 0),
              Interval.mk (Dbl.fin 0) (Dbl.fin 0)⟩,
            ⟨Interval.mk (Dbl.fin 1) (Dbl.fin 2), Interval.mk (Dbl.fin 1) (Dbl.fin 1),
              Interval.mk (Dbl.fin 1) (Dbl.fin 1)⟩]⟩
        (Interval.mk (Dbl.fin 1) (Dbl.fin 2))
      = some (Interval.mk (Dbl.fin 1) (Dbl.fin 1)) ∧
    (Interval.mk (Dbl.fin 0) (Dbl.fin 1)).intersects (Interval.mk (Dbl.fin 1) (Dbl.fin 2))
      = true ∧
    (Interval.mk (Dbl.fin 1) (Dbl.fin 2)).intersects (Interval.mk (Dbl.fin 1) (Dbl.fin 2))
      = true ∧
    (Interval.mk (Dbl.fin 0) (Dbl.fin 0)).hull (Interval.mk (Dbl.fin 1) (Dbl.fin 1))
      = Interval.mk (Dbl.fin 0) (Dbl.fin 1) := by
  decide

/-- C9, amended: for every tube with the partition invariant and every interval `t = [tl,tu]`
with `tl < tu` contained in its domain, `Tube::operator()(t)` returns the hull of the
envelopes of the slices whose domain meets `t` in more than one point, that is the slices
`[lb,ub]` with `lb < tu` and `tl < ub`. -/
theorem C9_eval_interval (x : Tube) (hx : x.partition_invariant) (d : Interval)
    (hd : x.domain = some d) (tl tu : Dbl) (hlt : tl < tu)
    (hsub : d.is_superset (Interval.mk tl tu) = true) :
    x.eval_interval (Interval.mk tl tu)
      = some ((x.slices.filter
          (fun s => decide (s.domain.lb < tu ∧ tl < s.domain.ub))).foldl
            (fun acc s => acc.hull s.codomain) Interval.EMPTY_SET) := by
  -- the bounds of `t` are in the domain
  obtain ⟨a0, b0, _, hdom, _⟩ := Tube.domain_spec x hx
  have hd0 : d = Interval.mk (Dbl.fin a0) (Dbl.fin b0) := by
    rw [hd] at hdom
    exact Option.some.inj hdom
  have hb : Dbl.fin a0 ≤ tl ∧ tu ≤ Dbl.fin b0 := by
    rw [hd0] at hsub
    simpa [Interval.is_superset] using hsub
  have hcl : d.contains tl = true := by
    rw [hd0]
    simp [Interval.contains, hb.1, le_trans (le_of_lt hlt) hb.2]
  have hcu : d.contains tu = true := by
    rw [hd0]
    simp [Interval.contains, hb.2, le_trans hb.1 (le_of_lt hlt)]
  -- the slices found at the two bounds
  obtain ⟨pre, s, post, a, b, e, hpre, hs, es, hab, hat, htb⟩ := Tube.locate x hx d hd tl hcl
  obtain ⟨pre2, s2, post2, a2, b2, e2, hpre2, hs2, es2, hab2, hat2, htb2⟩ :=
    Tube.locate x hx d hd tu hcu
  have hv := hx.2.1
  have hc := hx.2.2
  have hs' : tl < s.domain.ub := by
    rcases hs with hs | hs
    · exact hs
    · have := Tube.last_ub x hx d hd pre s (by rw [e, hs])
      rw [this, hd0]
      exact lt_of_lt_of_le hlt hb.2
  -- the second slice is not before the first one
  have hshape : ∃ m, pre2 = pre ++ m ∧ s :: post = m ++ s2 :: post2 := by
    have e3 : pre ++ s :: post = pre2 ++ s2 :: post2 := by rw [← e, e2]
    rcases List.append_eq_append_iff.1 e3 with ⟨m, h1, h2⟩ | ⟨c, h1, h2⟩
    · exact ⟨m, h1, h2⟩
    · cases c with
      | nil => exact ⟨[], by simpa using h1.symm, by simpa using h2.symm⟩
      | cons c0 cs =>
        exfalso
        have h3 := List.cons.inj h2
        have hmem : s2 ∈ pre := by rw [h1, h3.1]; simp
        have h4 : s2.domain.ub ≤ tl := not_lt.1 (hpre s2 hmem)
        rcases hs2 with h5 | h5
        · exact absurd (lt_of_le_of_lt h4 hlt) (not_lt.2 (le_of_lt h5))
        · rw [h5] at h3
          exact absurd h3.2.symm (by simp)
  obtain ⟨m, hm1, hm2⟩ := hshape
  have hi : x.input2index tl = pre.length := Tube.input2index_decomp x tl pre s post e hpre hs
  have hj : x.input2index tu = pre.length + m.length := by
    rw [Tube.input2index_decomp x tu pre2 s2 post2 e2 hpre2 hs2, hm1]
    simp
  have hdeg : (Interval.mk tl tu).is_degenerated = false := by
    simp [Interval.is_degenerated, ne_of_lt hlt]
  unfold Tube.eval_interval
  rw [hdeg]
  simp only [Bool.false_eq_true, if_false, show (Interval.mk tl tu).lb = tl from rfl,
    show (Interval.mk tl tu).ub = tu from rfl]
  rw [Tube.get_slice_decomp x tl pre s post e hpre hs,
    Tube.get_slice_decomp x tu pre2 s2 post2 e2 hpre2 hs2]
  simp only [hi, hj, hm2]
  -- the slices kept by the filter
  have hall : ∀ q ∈ s :: post, tl < q.domain.ub := by
    intro q hq
    rcases List.mem_cons.1 hq with rfl | hq
    · exact hs'
    · rw [e] at hv hc
      have hp := (List.pairwise_append.1 (chain_pairwise _ hv hc)).2.1
      have h3 : s.domain.ub ≤ q.domain.lb := (List.pairwise_cons.1 hp).1 q hq
      have h4 := Interval.valid_domain_lt (hv q (by simp [hq]))
      exact lt_of_lt_of_le hs' (le_trans h3 (le_of_lt h4))
  have hfpre : pre.filter (fun s => decide (s.domain.lb < tu ∧ tl < s.domain.ub)) = [] := by
    apply List.filter_eq_nil_iff.2
    intro p hp
    simp [hpre p hp]
  have hfm : m.filter (fun s => decide (s.domain.lb < tu ∧ tl < s.domain.ub)) = m := by
    apply List.filter_eq_self.2
    intro q hq
    have h1 : tl < q.domain.ub := hall q (by rw [hm2]; simp [hq])
    have h2 : q.domain.ub ≤ tu := not_lt.1 (hpre2 q (by rw [hm1]; simp [hq]))
    have h3 := Interval.valid_domain_lt (hv q (by rw [e2, hm1]; simp [hq]))
    simp [h1, lt_of_lt_of_le h3 h2]
  have hfpost : post2.filter (fun s => decide (s.domain.lb < tu ∧ tl < s.domain.ub)) = [] := by
    apply List.filter_eq_nil_iff.2
    intro q hq
    have hne : post2 ≠ [] := List.ne_nil_of_mem hq
    have h1 : tu < s2.domain.ub := hs2.resolve_right hne
    rw [e2] at hv hc
    have hp := (List.pairwise_append.1 (chain_pairwise _ hv hc)).2.1
    have h3 : s2.domain.ub ≤ q.domain.lb := (List.pairwise_cons.1 hp).1 q hq
    have : ¬ q.domain.lb < tu := not_lt.2 (le_trans (le_of_lt h1) h3)
    simp [this]
  have hs2u : tl < s2.domain.ub := hall s2 (by rw [hm2]; simp)
  have hfilter : x.slices.filter (fun s => decide (s.domain.lb < tu ∧ tl < s.domain.ub))
      = m ++ (if s2.domain.lb ≠ tu then [s2] else []) := by
    rw [e2, hm1, List.filter_append, List.filter_append, hfpre, hfm, List.filter_cons, hfpost]
    by_cases h : s2.domain.lb = tu
    · simp [h]
    · have : s2.domain.lb < tu := lt_of_le_of_ne (by rw [es2]; exact hat2) h
      simp [h, this, hs2u]
  rw [hfilter]
  by_cases h : s2.domain.lb = tu
  · simp only [h, ne_eq, not_true_eq_false, if_false, List.append_nil]
    exact eval_loop_prefix m (s2 :: post2) pre.length Interval.EMPTY_SET
  · simp only [ne_eq, h, not_false_eq_true, if_true]
    have := eval_loop_prefix (m ++ [s2]) post2 pre.length Interval.EMPTY_SET
    simp only [List.length_append, List.length_singleton, List.append_assoc,
      List.singleton_append] at this
    push_cast at this
    rw [← this]
    congr 1

/-- Witness of the amended C9: the tube of the slices `[0,1]` of envelope `[0,0]` and `[1,2]`
of envelope `[1,1]`, evaluated over `[1,2]`. -/
theorem C9_eval_interval_witness :
    Tube.partition_invariant
        ⟨Interval.mk (Dbl.fin 0) (Dbl.fin 0),
          [⟨Interval.mk (Dbl.fin 0) (Dbl.fin 1), Interval.mk (Dbl.fin 0) (Dbl.fin 0),
              Interval.mk (Dbl.fin 0) (Dbl.fin 0)⟩,
            ⟨Interval.mk (Dbl.fin 1) (Dbl.fin 2), Interval.mk (Dbl.fin 1) (Dbl.fin 1),
              Interval.mk (Dbl.fin 1) (Dbl.fin 1)⟩]⟩ ∧
      Tube.eval_interval
        ⟨Interval.mk (Dbl.fin 0) (Dbl.fin 0),
          [⟨Interval.mk (Dbl.fin 0) (Dbl.fin 1), Interval.mk (Dbl.fin 0) (Dbl.fin 0),
              Interval.mk (Dbl.fin 0) (Dbl.fin 0)⟩,
            ⟨Interval.mk (Dbl.fin 1) (Dbl.fin 2), Interval.mk (Dbl.fin 1) (Dbl.fin 1),
              Interval.mk (Dbl.fin 1) (Dbl.fin 1)⟩]⟩
        (Interval.mk (Dbl.fin 1) (Dbl.fin 2))
      = some (Interval.mk (Dbl.fin 1) (Dbl.fin 1)) :=
  ⟨by decide,
    (C9_eval_interval _ (by decide) (Interval.mk (Dbl.fin 0) (Dbl.fin 2)) (by decide)
      (Dbl.fin 1) (Dbl.fin 2) (by decide) (by decide)).trans (by decide)⟩

/-! ## Inversion in a list of intervals -/

theorem Interval.hull_empty_right (a : Interval) : a.hull Interval.empty = a := by
  cases a <;> rfl

theorem Interval.hull_empty_left (a : Interval) : Interval.empty.hull a = a := by
  cases a <;> rfl

theorem Interval.hull_assoc (a b c : Interval) : (a.hull b).hull c = a.hull (b.hull c) := by
  cases a <;> cases b <;> cases c <;> simp [Interval.hull, min_assoc, max_assoc]

theorem Interval.hull_lb (a b : Interval) : (a.hull b).lb = min a.lb b.lb := by
  cases a <;> cases b <;> simp [Interval.hull, Interval.lb]

theorem Interval.hull_ub (a b : Interval) : (a.hull b).ub = max a.ub b.ub := by
  cases a <;> cases b <;> simp [Interval.hull, Interval.ub]

theorem Interval.is_empty_iff (a : Interval) : a.is_empty = true ↔ a = Interval.empty := by
  cases a <;> simp [Interval.is_empty]

theorem Interval.hull_is_empty (a b : Interval) :
    (a.hull b).is_empty = (a.is_empty && b.is_empty) := by
  cases a <;> cases b <;> rfl

theorem hulls_of_runs_nil : hulls_of_runs [] = [] := rfl

theorem hulls_of_runs_empty_cons (e : Interval) (l : List Interval) (he : e.is_empty = true) :
    hulls_of_runs (e :: l) = hulls_of_runs l := by
  unfold hulls_of_runs
  rw [List.splitOnP_cons, if_pos he]
  rfl

theorem hulls_of_runs_single (a : Interval) (ha : a.is_empty = false) :
    hulls_of_runs [a] = [a] := by
  unfold hulls_of_runs
  rw [List.splitOnP_cons, List.splitOnP_nil]
  simp [ha, Interval.EMPTY_SET, Interval.hull_empty_left]

theorem hulls_of_runs_cons_empty (a e : Interval) (l : List Interval)
    (ha : a.is_empty = false) (he : e.is_empty = true) :
    hulls_of_runs (a :: e :: l) = a :: hulls_of_runs l := by
  unfold hulls_of_runs
  rw [List.splitOnP_cons, List.splitOnP_cons, if_pos he]
  simp [ha, Interval.EMPTY_SET, Interval.hull_empty_left]

theorem hulls_of_runs_cons_cons (a b : Interval) (l : List Interval)
    (ha : a.is_empty = false) (hb : b.is_empty = false) :
    hulls_of_runs (a :: b :: l) = hulls_of_runs (a.hull b :: l) := by
  have hab : (a.hull b).is_empty = false := by rw [Interval.hull_is_empty, ha]; rfl
  unfold hulls_of_runs
  simp only [List.splitOnP_cons]
  cases hs : l.splitOnP Interval.is_empty with
  | nil => exact absurd hs (List.splitOnP_ne_nil _ l)
  | cons g0 gs =>
    simp [ha, hb, hab, Interval.EMPTY_SET, Interval.hull_empty_left]

theorem hulls_of_runs_nonempty (l : List Interval) :
    ∀ a ∈ hulls_of_runs l, a.is_empty = false := by
  suffices h : ∀ (n : Nat) (l : List Interval), l.length ≤ n →
      ∀ a ∈ hulls_of_runs l, a.is_empty = false from h l.length l le_rfl
  intro n
  induction n with
  | zero =>
    intro l hl a ha
    have : l = [] := List.length_eq_zero.1 (Nat.le_zero.1 hl)
    rw [this, hulls_of_runs_nil] at ha
    exact absurd ha (List.not_mem_nil _)
  | succ n ih =>
    intro l hl a ha
    cases l with
    | nil => exact absurd ha (List.not_mem_nil _)
    | cons b l =>
      have hl2 : l.length ≤ n := by simpa using hl
      cases hb : b.is_empty with
      | true =>
        rw [hulls_of_runs_empty_cons b l hb] at ha
        exact ih l hl2 a ha
      | false =>
        cases l with
        | nil =>
          rw [hulls_of_runs_single b hb] at ha
          rw [List.mem_singleton.1 ha]
          exact hb
        | cons c l =>
          cases hc : c.is_empty with
          | true =>
            rw [hulls_of_runs_cons_empty b c l hb hc] at ha
            rcases List.mem_cons.1 ha with rfl | ha
            · exact hb
            · exact ih l (by simp at hl2; omega) a ha
          | false =>
            rw [hulls_of_runs_cons_cons b c l hb hc] at ha
            exact ih (b.hull c :: l) (by simpa using hl2) a ha

/-- The loop of the inversion and the runs of the local inversions: the intervals closed,
followed by the interval that is open when the loop ends, are the intervals closed before,
followed by the hulls of the runs of the open interval and the local inversions. -/
theorem invert_vector_loop_eq
    (slice_invert : SliceRef → Interval → SliceRef → Interval → Interval)
    (y intersection : Interval) (lx : List Slice) :
    ∀ (lv : List Slice) (gx gv invert : Interval) (v_t : List Interval),
      lx.length ≤ lv.length →
      (invert_vector_loop slice_invert y intersection gx lx gv lv invert v_t).map
          (fun r => if r.1.is_empty then r.2 else r.2 ++ [r.1])
        = some (v_t ++ hulls_of_runs
            (invert :: local_inversions slice_invert y intersection gx lx gv lv)) := by
  have base : ∀ (invert : Interval) (v_t : List Interval),
      (if invert.is_empty then v_t else v_t ++ [invert])
        = v_t ++ hulls_of_runs [invert] := by
    intro invert v_t
    cases h : invert.is_empty with
    | true => simp [hulls_of_runs_empty_cons invert [] h, hulls_of_runs_nil]
    | false => simp [hulls_of_runs_single invert h]
  induction lx with
  | nil =>
    intro lv gx gv invert v_t _
    simp only [invert_vector_loop, local_inversions, Option.map_some']
    rw [base]
  | cons sx rx ih =>
    intro lv gx gv invert v_t hlen
    cases lv with
    | nil => simp at hlen
    | cons sv rv =>
      have hlen2 : rx.length ≤ rv.length := by simpa using hlen
      by_cases hc : sx.domain.lb ≤ intersection.ub
      · simp only [invert_vector_loop, local_inversions, hc, if_true]
        generalize slice_invert ⟨gx, sx, rx⟩ y ⟨gv, sv, rv⟩ intersection = loc
        cases hl : loc.is_empty with
        | true =>
          cases hi : invert.is_empty with
          | true =>
            have e1 : invert = Interval.empty := (Interval.is_empty_iff _).1 hi
            have e2 : loc = Interval.empty := (Interval.is_empty_iff _).1 hl
            simp only [Bool.not_eq_true, and_false, if_false, Bool.true_eq_false, not_true,
              not_false_eq_true, and_true]
            rw [ih rv _ _ _ _ hlen2, hulls_of_runs_empty_cons invert _ hi, e1, e2]
            rfl
          | false =>
            simp only [Bool.false_eq_true, not_false_eq_true, and_self, if_true]
            rw [ih rv _ _ _ _ hlen2, hulls_of_runs_cons_empty invert loc _ hi hl,
              hulls_of_runs_empty_cons _ _ (by rfl)]
            simp
        | false =>
          simp only [Bool.false_eq_true, false_and, if_false]
          rw [ih rv _ _ _ _ hlen2]
          cases hi : invert.is_empty with
          | true =>
            have e1 : invert = Interval.empty := (Interval.is_empty_iff _).1 hi
            rw [hulls_of_runs_empty_cons invert _ hi, e1, Interval.hull_empty_left]
          | false => rw [hulls_of_runs_cons_cons invert loc _ hi hl]
      · simp only [invert_vector_loop, local_inversions, hc, if_false, Option.map_some']
        rw [base]

theorem Interval.subset_bounds (l d : Interval) (h : l.is_subset d = true)
    (hd : d.valid_domain = true) : d.lb ≤ l.lb ∧ l.ub ≤ d.ub := by
  obtain ⟨a, b, hab, rfl⟩ := (Interval.valid_domain_iff d).1 hd
  cases l with
  | empty => exact ⟨Dbl.le_pinf _, Dbl.ninf_le _⟩
  | mk c e => simpa [Interval.is_subset, Interval.is_superset, Interval.lb, Interval.ub] using h

theorem Interval.not_intersects_of_lt (a b : Interval) (h : a.ub < b.lb) :
    a.intersects b = false := by
  cases a with
  | empty => cases b <;> rfl
  | mk a1 a2 =>
    cases b with
    | empty => rfl
    | mk b1 b2 =>
      have h2 : a2 < b1 := h
      simp [Interval.intersects, not_le.2 h2]

/-- Order of the hulls of the runs: when each local inversion is inside the domain of its
slice, the hulls of the runs are in increasing order and apart. -/
theorem hulls_ordered (ls : List Interval) (ss : List Slice)
    (h : List.Forall₂ (fun l (s : Slice) => l.is_subset s.domain = true) ls ss) :
    (∀ s ∈ ss, s.domain.valid_domain = true) →
    ss.Chain' (fun s1 s2 => s1.domain.ub = s2.domain.lb) →
    ∀ acc : Interval, (∀ s0 ∈ ss.head?, acc.ub ≤ s0.domain.lb) →
      (hulls_of_runs (acc :: ls)).Pairwise (fun a b => a.ub < b.lb) ∧
      ∀ A : Dbl, A ≤ acc.lb → (∀ s0 ∈ ss.head?, A ≤ s0.domain.lb) →
        ∀ a ∈ hulls_of_runs (acc :: ls), A ≤ a.lb := by
  induction h with
  | nil =>
    intro _ _ acc _
    cases ha : acc.is_empty with
    | true =>
      rw [hulls_of_runs_empty_cons acc [] ha, hulls_of_runs_nil]
      exact ⟨List.Pairwise.nil, fun A _ _ a h => absurd h (List.not_mem_nil _)⟩
    | false =>
      rw [hulls_of_runs_single acc ha]
      refine ⟨List.pairwise_singleton _ _, fun A hA _ a h => ?_⟩
      rw [List.mem_singleton.1 h]
      exact hA
  | @cons l s ls ss hls _ ih =>
    intro hv hc acc hacc
    have hvs : s.domain.valid_domain = true := hv s (List.mem_cons_self _ _)
    have hv2 : ∀ q ∈ ss, q.domain.valid_domain = true :=
      fun q hq => hv q (List.mem_cons_of_mem _ hq)
    have hc2 : ss.Chain' (fun s1 s2 => s1.domain.ub = s2.domain.lb) := hc.tail
    have hlt : s.domain.lb < s.domain.ub := Interval.valid_domain_lt hvs
    obtain ⟨hl1, hl2⟩ := Interval.subset_bounds l s.domain hls hvs
    have hacc1 : acc.ub ≤ s.domain.lb := hacc s rfl
    have hhead : ∀ s0 ∈ ss.head?, s.domain.ub = s0.domain.lb := by
      intro s0 hs0
      cases ss with
      | nil => simp at hs0
      | cons q ss =>
        have : q = s0 := by simpa using hs0
        rw [← this]
        exact (List.chain'_cons.1 hc).1
    cases ha : acc.is_empty with
    | true =>
      rw [hulls_of_runs_empty_cons acc _ ha]
      have e1 : acc = Interval.empty := (Interval.is_empty_iff _).1 ha
      obtain ⟨p1, p2⟩ := ih hv2 hc2 l (fun s0 hs0 => (hhead s0 hs0) ▸ hl2)
      refine ⟨p1, fun A _ hA a h => ?_⟩
      have hA1 : A ≤ s.domain.lb := hA s rfl
      exact p2 A (le_trans hA1 hl1)
        (fun s0 hs0 => (hhead s0 hs0) ▸ le_trans hA1 (le_of_lt hlt)) a h
    | false =>
      cases hl : l.is_empty with
      | true =>
        rw [hulls_of_runs_cons_empty acc l _ ha hl,
          ← hulls_of_runs_empty_cons Interval.empty ls rfl]
        obtain ⟨p1, p2⟩ := ih hv2 hc2 Interval.empty
          (fun s0 _ => Dbl.ninf_le _)
        have key : ∀ A : Dbl, A ≤ s.domain.ub →
            ∀ a ∈ hulls_of_runs (Interval.empty :: ls), A ≤ a.lb :=
          fun A hA a h => p2 A (Dbl.le_pinf _) (fun s0 hs0 => (hhead s0 hs0) ▸ hA) a h
        refine ⟨List.pairwise_cons.2 ⟨fun a h => ?_, p1⟩, fun A hA1 hA2 a h => ?_⟩
        · exact lt_of_lt_of_le (lt_of_le_of_lt hacc1 hlt) (key _ le_rfl a h)
        · rcases List.mem_cons.1 h with rfl | h
          · exact hA1
          · exact key A (le_trans (hA2 s rfl) (le_of_lt hlt)) a h
      | false =>
        rw [hulls_of_runs_cons_cons acc l _ ha hl]
        obtain ⟨p1, p2⟩ := ih hv2 hc2 (acc.hull l) (fun s0 hs0 => by
          rw [Interval.hull_ub, ← hhead s0 hs0]
          exact max_le (le_trans hacc1 (le_of_lt hlt)) hl2)
        refine ⟨p1, fun A hA1 hA2 a h => ?_⟩
        have hA3 : A ≤ s.domain.lb := hA2 s rfl
        exact p2 A (by rw [Interval.hull_lb]; exact le_min hA1 (le_trans hA3 hl1))
          (fun s0 hs0 => (hhead s0 hs0) ▸ le_trans hA3 (le_of_lt hlt)) a h

theorem local_inversions_inside
    (slice_invert : SliceRef → Interval → SliceRef → Interval → Interval)
    (hloc : ∀ (r1 r2 : SliceRef) (y1 sd : Interval),
      (slice_invert r1 y1 r2 sd).is_subset r1.slice.domain = true)
    (y intersection : Interval) (lx : List Slice) :
    ∀ (lv : List Slice) (gx gv : Interval),
      ∃ ss, ss <+: lx ∧
        List.Forall₂ (fun l (s : Slice) => l.is_subset s.domain = true)
          (local_inversions slice_invert y intersection gx lx gv lv) ss := by
  induction lx with
  | nil =>
    intro lv gx gv
    exact ⟨[], List.prefix_rfl, by simp [local_inversions]⟩
  | cons sx rx ih =>
    intro lv gx gv
    cases lv with
    | nil => exact ⟨[], List.nil_prefix, by simp [local_inversions]⟩
    | cons sv rv =>
      by_cases hc : sx.domain.lb ≤ intersection.ub
      · obtain ⟨ss, hss, hf⟩ := ih rv sx.output_gate sv.output_gate
        refine ⟨sx :: ss, (List.prefix_cons_inj sx).2 hss, ?_⟩
        simp only [local_inversions, hc, if_true]
        exact List.Forall₂.cons (hloc _ _ _ _) hf
      · exact ⟨[], List.nil_prefix, by simp [local_inversions, hc]⟩

theorem decomp_of_map_eq (lx lv pre post : List Slice) (s : Slice)
    (h : lx.map (fun s => s.domain) = lv.map (fun s => s.domain))
    (e : lx = pre ++ s :: post) :
    ∃ pre2 s2 post2, lv = pre2 ++ s2 :: post2 ∧
      pre2.map (fun s => s.domain) = pre.map (fun s => s.domain) ∧
      s2.domain = s.domain ∧ post2.length = post.length := by
  rw [e, List.map_append, List.map_cons] at h
  obtain ⟨pre2, r, hlv, h1, h2⟩ := List.map_eq_append_iff.1 h.symm
  obtain ⟨s2, post2, hr, h3, h4⟩ := List.map_eq_cons_iff.1 h2
  refine ⟨pre2, s2, post2, by rw [hlv, hr], h1, h3, ?_⟩
  have := congrArg List.length h4
  simpa using this

/-- C11: on a tube with the partition invariant and a derivative tube `v` of the same slicing,
`invert(y, v_t, v, search_domain)` returns, whatever `v_t` held before, the hulls of the maximal
runs of consecutive non-empty local inversions of the slices visited, in the order of the
visit; each of them is non-empty; and when `Slice::invert` answers inside the domain of its
slice, they are in increasing order of time and pairwise disjoint. -/
theorem C11_invert_vector
    (slice_invert : SliceRef → Interval → SliceRef → Interval → Interval)
    (x v : Tube) (hx : x.partition_invariant) (hv : Tube.same_slicing x v = true)
    (y search_domain : Interval) (v_t : List Interval) :
    x.invert_vector slice_invert y v_t v search_domain
        = some (hulls_of_runs (x.invert_locals slice_invert y v search_domain)) ∧
      (∀ a ∈ hulls_of_runs (x.invert_locals slice_invert y v search_domain),
        a.is_empty = false) ∧
      ((∀ (r1 r2 : SliceRef) (y1 sd : Interval),
          (slice_invert r1 y1 r2 sd).is_subset r1.slice.domain = true) →
        (hulls_of_runs (x.invert_locals slice_invert y v search_domain)).Pairwise
          (fun a b => a.ub < b.lb ∧ a.intersects b = false)) := by
  refine ⟨?_, hulls_of_runs_nonempty _, ?_⟩
  · obtain ⟨a0, b0, _, hdom, _⟩ := Tube.domain_spec x hx
    unfold Tube.invert_vector Tube.invert_locals
    simp only [hdom]
    by_cases he : (search_domain.inter (Interval.mk (Dbl.fin a0) (Dbl.fin b0))).is_empty = true
    · rw [if_pos he, if_pos he]
      rfl
    · rw [if_neg he, if_neg he]
      obtain ⟨pre, s, post, e, hpre, hs⟩ := exists_decomp
        (search_domain.inter (Interval.mk (Dbl.fin a0) (Dbl.fin b0))).lb x.slices hx.1
      obtain ⟨pre2, s2, post2, e2, h1, h2, h3⟩ :=
        decomp_of_map_eq x.slices v.slices pre post s ((Tube.same_slicing_iff x v).1 hv) e
      have hpre2 : ∀ p ∈ pre2,
          ¬ (search_domain.inter (Interval.mk (Dbl.fin a0) (Dbl.fin b0))).lb < p.domain.ub := by
        intro p hp
        have : p.domain ∈ pre.map (fun s => s.domain) := by
          rw [← h1]
          exact List.mem_map_of_mem (fun s => s.domain) hp
        obtain ⟨q, hq, hqd⟩ := List.mem_map.1 this
        have hqd2 : q.domain = p.domain := hqd
        rw [← hqd2]
        exact hpre q hq
      have hs2 : (search_domain.inter (Interval.mk (Dbl.fin a0) (Dbl.fin b0))).lb
          < s2.domain.ub ∨ post2 = [] := by
        rcases hs with hs | hs
        · exact Or.inl (h2 ▸ hs)
        · refine Or.inr (List.length_eq_zero.1 ?_)
          rw [h3, hs]
          rfl
      rw [Tube.get_slice_decomp x _ pre s post e hpre hs,
        Tube.get_slice_decomp v _ pre2 s2 post2 e2 hpre2 hs2]
      simp only
      have key := invert_vector_loop_eq slice_invert y
        (search_domain.inter (Interval.mk (Dbl.fin a0) (Dbl.fin b0))) (s :: post) (s2 :: post2)
        (gate_after x.first_gate pre) (gate_after v.first_gate pre2) Interval.EMPTY_SET
        (vector_clear v_t) (by simp [h3])
      rw [hulls_of_runs_empty_cons _ _ (by rfl)] at key
      cases hr : invert_vector_loop slice_invert y
          (search_domain.inter (Interval.mk (Dbl.fin a0) (Dbl.fin b0)))
          (gate_after x.first_gate pre) (s :: post) (gate_after v.first_gate pre2) (s2 :: post2)
          Interval.EMPTY_SET (vector_clear v_t) with
      | none =>
        rw [hr] at key
        simp at key
      | some r =>
        rw [hr] at key
        obtain ⟨r1, r2⟩ := r
        simp only [Option.map_some', Option.some.injEq] at key
        simp only
        by_cases h4 : r1.is_empty = true
        · rw [if_pos h4] at key ⊢
          rw [key]
          rfl
        · rw [if_neg h4] at key ⊢
          rw [key]
          rfl
  · intro hloc
    have hord : (hulls_of_runs (x.invert_locals slice_invert y v search_domain)).Pairwise
        (fun a b => a.ub < b.lb) := by
      unfold Tube.invert_locals
      cases hd : x.domain with
      | none => exact List.Pairwise.nil
      | some d =>
        simp only
        by_cases he : (search_domain.inter d).is_empty = true
        · rw [if_pos he]
          exact List.Pairwise.nil
        · rw [if_neg he]
          obtain ⟨pre, s, post, e, hpre, hs⟩ :=
            exists_decomp (search_domain.inter d).lb x.slices hx.1
          rw [Tube.get_slice_decomp x _ pre s post e hpre hs]
          cases hg : v.get_slice (search_domain.inter d).lb with
          | none => exact List.Pairwise.nil
          | some r =>
            simp only
            obtain ⟨ss, hss, hf⟩ := local_inversions_inside slice_invert hloc y
              (search_domain.inter d) (s :: post) (r.slice :: r.next)
              (gate_after x.first_gate pre) r.input_gate
            have hsub : ∀ q ∈ ss, q ∈ x.slices := by
              intro q hq
              rw [e]
              exact List.mem_append_right _ (hss.subset hq)
            have hch : ss.Chain' (fun s1 s2 => s1.domain.ub = s2.domain.lb) := by
              have h1 : (s :: post).Chain' (fun s1 s2 => s1.domain.ub = s2.domain.lb) :=
                (e ▸ hx.2.2).suffix (List.suffix_append _ _)
              exact h1.prefix hss
            have := (hulls_ordered _ ss hf (fun q hq => hx.2.1 q (hsub q hq)) hch
              Interval.empty (fun s0 _ => Dbl.ninf_le _)).1
            rw [hulls_of_runs_empty_cons _ _ (by rfl)] at this
            exact this
    exact hord.imp (fun {a b} h => ⟨h, Interval.not_intersects_of_lt a b h⟩)

/-- Witness of C11: the tube of the slices `[0,1]`, `[1,2]`, `[2,3]`, `[3,4]` of envelopes
`[0,1]`, `[5,6]`, `[0,1]`, `[0,1]`, inverted at `y = [0,1]` over `[0,4]` with a `Slice::invert`
that answers the domain of a slice whose envelope meets `y`: the list, which held `[7,8]`
before, is `[0,1]`, `[2,4]` after. -/
theorem C11_invert_vector_witness :
    Tube.partition_invariant
        ⟨Interval.mk (Dbl.fin 0) (Dbl.fin 1),
          [⟨Interval.mk (Dbl.fin 0) (Dbl.fin 1), Interval.mk (Dbl.fin 0) (Dbl.fin 1),
              Interval.mk (Dbl.fin 0) (Dbl.fin 1)⟩,
            ⟨Interval.mk (Dbl.fin 1) (Dbl.fin 2), Interval.mk (Dbl.fin 5) (Dbl.fin 6),
              Interval.mk (Dbl.fin 5) (Dbl.fin 6)⟩,
            ⟨Interval.mk (Dbl.fin 2) (Dbl.fin 3), Interval.mk (Dbl.fin 0) (Dbl.fin 1),
              Interval.mk (Dbl.fin 0) (Dbl.fin 1)⟩,
            ⟨Interval.mk (Dbl.fin 3) (Dbl.fin 4), Interval.mk (Dbl.fin 0) (Dbl.fin 1),
              Interval.mk (Dbl.fin 0) (Dbl.fin 1)⟩]⟩ ∧
      Tube.invert_vector
        (fun r1 y1 _ _ => if r1.slice.codomain.intersects y1 then r1.slice.domain
          else Interval.EMPTY_SET)
        ⟨Interval.mk (Dbl.fin 0) (Dbl.fin 1),
          [⟨Interval.mk (Dbl.fin 0) (Dbl.fin 1), Interval.mk (Dbl.fin 0) (Dbl.fin 1),
              Interval.mk (Dbl.fin 0) (Dbl.fin 1)⟩,
            ⟨Interval.mk (Dbl.fin 1) (Dbl.fin 2), Interval.mk (Dbl.fin 5) (Dbl.fin 6),
              Interval.mk (Dbl.fin 5) (Dbl.fin 6)⟩,
            ⟨Interval.mk (Dbl.fin 2) (Dbl.fin 3), Interval.mk (Dbl.fin 0) (Dbl.fin 1),
              Interval.mk (Dbl.fin 0) (Dbl.fin 1)⟩,
            ⟨Interval.mk (Dbl.fin 3) (Dbl.fin 4), Interval.mk (Dbl.fin 0) (Dbl.fin 1),
              Interval.mk (Dbl.fin 0) (Dbl.fin 1)⟩]⟩
        (Interval.mk (Dbl.fin 0) (Dbl.fin 1)) [Interval.mk (Dbl.fin 7) (Dbl.fin 8)]
        (Tube.copy_set
          ⟨Interval.mk (Dbl.fin 0) (Dbl.fin 1),
            [⟨Interval.mk (Dbl.fin 0) (Dbl.fin 1), Interval.mk (Dbl.fin 0) (Dbl.fin 1),
                Interval.mk (Dbl.fin 0) (Dbl.fin 1)⟩,
              ⟨Interval.mk (Dbl.fin 1) (Dbl.fin 2), Interval.mk (Dbl.fin 5) (Dbl.fin 6),
                Interval.mk (Dbl.fin 5) (Dbl.fin 6)⟩,
              ⟨Interval.mk (Dbl.fin 2) (Dbl.fin 3), Interval.mk (Dbl.fin 0) (Dbl.fin 1),
                Interval.mk (Dbl.fin 0) (Dbl.fin 1)⟩,
              ⟨Interval.mk (Dbl.fin 3) (Dbl.fin 4), Interval.mk (Dbl.fin 0) (Dbl.fin 1),
                Interval.mk (Dbl.fin 0) (Dbl.fin 1)⟩]⟩
          Interval.ALL_REALS)
        (Interval.mk (Dbl.fin 0) (Dbl.fin 4))
      = some [Interval.mk (Dbl.fin 0) (Dbl.fin 1), Interval.mk (Dbl.fin 2) (Dbl.fin 4)] :=
  ⟨by decide,
    (C11_invert_vector _ _ _ (by decide) (by decide) _ _ _).1.trans (by decide)⟩

/-! ## Integrals: arithmetic on bounded intervals -/

@[simp] theorem Dbl.fin_mul_fin (a b : ℚ) : Dbl.fin a * Dbl.fin b = Dbl.fin (a * b) := rfl

theorem Dbl.max_fin (a b : ℚ) : max (Dbl.fin a) (Dbl.fin b) = Dbl.fin (max a b) := by
  by_cases h : a ≤ b
  · rw [max_eq_right h, max_eq_right ((Dbl.fin_le_fin a b).2 h)]
  · have h2 : b ≤ a := le_of_lt (not_le.1 h)
    rw [max_eq_left h2, max_eq_left ((Dbl.fin_le_fin b a).2 h2)]

theorem Interval.make_fin_fin (a b : ℚ) :
    Interval.make (Dbl.fin a) (Dbl.fin b) =
      if a ≤ b then Interval.mk (Dbl.fin a) (Dbl.fin b) else Interval.empty := by
  unfold Interval.make
  by_cases h : a ≤ b
  · simp [h]
  · simp [h]

theorem Interval.point_fin (a : ℚ) :
    Interval.point (Dbl.fin a) = Interval.mk (Dbl.fin a) (Dbl.fin a) := by
  unfold Interval.point
  rw [Interval.make_fin_fin, if_pos le_rfl]

theorem Interval.add_mk (a b c d : Dbl) :
    Interval.mk a b + Interval.mk c d = Interval.mk (a + c) (b + d) := rfl

theorem Interval.mul_mk (a b c d : Dbl) :
    Interval.mk a b * Interval.mk c d =
      Interval.mk (min (min (a * c) (a * d)) (min (b * c) (b * d)))
        (max (max (a * c) (a * d)) (max (b * c) (b * d))) := rfl

theorem Interval.inter_fin (a b c d : ℚ) :
    (Interval.mk (Dbl.fin a) (Dbl.fin b)).inter (Interval.mk (Dbl.fin c) (Dbl.fin d)) =
      if max a c ≤ min b d then Interval.mk (Dbl.fin (max a c)) (Dbl.fin (min b d))
      else Interval.empty := by
  show Interval.make (max (Dbl.fin a) (Dbl.fin c)) (min (Dbl.fin b) (Dbl.fin d)) = _
  rw [Dbl.max_fin, Dbl.min_fin, Interval.make_fin_fin]

/-- The length of the part of the slice `[a,b]` in `[c,d]`. -/
theorem Interval.inter_diam (a b c d : ℚ) :
    ((Interval.mk (Dbl.fin a) (Dbl.fin b)).inter (Interval.mk (Dbl.fin c) (Dbl.fin d))).diam =
      Dbl.fin (max 0 (min b d - max a c)) := by
  rw [Interval.inter_fin]
  by_cases h : max a c ≤ min b d
  · rw [if_pos h]
    show Dbl.fin (min b d) - Dbl.fin (max a c) = _
    rw [Dbl.fin_sub_fin, max_eq_right (sub_nonneg.2 h)]
  · rw [if_neg h, max_eq_left (le_of_lt (sub_neg.2 (not_le.1 h)))]
    rfl

/-- One turn of the loop of the partial integral on a slice `[a,b]` whose bound is `r`, with
`t0 ≤ a < b` and `t = [tl,tu]`, `t0 ≤ tl ≤ tu`. -/
theorem partial_integral_loop1_step (c : Slice → Dbl) (t0 tl tu a b r : ℚ) (s : Slice)
    (rest : List Slice) (p u : Interval)
    (hs : s.domain = Interval.mk (Dbl.fin a) (Dbl.fin b)) (hab : a < b) (hr : c s = Dbl.fin r)
    (h0a : t0 ≤ a) (h0l : t0 ≤ tl) (hlu : tl ≤ tu) :
    partial_integral_loop1 c (Dbl.fin t0) (Interval.mk (Dbl.fin tl) (Dbl.fin tu)) (s :: rest) p u
      = if a < tu then
          if tl ≤ b then
            partial_integral_loop1 c (Dbl.fin t0) (Interval.mk (Dbl.fin tl) (Dbl.fin tu)) rest
              ((if a ≤ tl then p + Interval.point (Dbl.fin ((min b tl - a) * r)) else p).hull
                ((if a ≤ tl then p + Interval.point (Dbl.fin ((min b tl - a) * r)) else u)
                  + Interval.make 0 (Dbl.fin (min b tu - max a tl)) * Interval.point (Dbl.fin r)))
              ((if a ≤ tl then p + Interval.point (Dbl.fin ((min b tl - a) * r)) else u)
                + Interval.point (Dbl.fin ((min b tu - max a tl) * r)))
          else
            partial_integral_loop1 c (Dbl.fin t0) (Interval.mk (Dbl.fin tl) (Dbl.fin tu)) rest
              (if a ≤ tl then p + Interval.point (Dbl.fin ((min b tl - a) * r)) else p)
              (if a ≤ tl then p + Interval.point (Dbl.fin ((min b tl - a) * r)) else u)
        else p := by
  have e1 : (Interval.mk (Dbl.fin a) (Dbl.fin b)).inter
      (Interval.make (Dbl.fin t0) (Dbl.fin tl)) =
      if a ≤ tl then Interval.mk (Dbl.fin a) (Dbl.fin (min b tl)) else Interval.empty := by
    rw [Interval.make_fin h0l, Interval.inter_fin, max_eq_left h0a]
    by_cases h : a ≤ tl
    · rw [if_pos h, if_pos (le_min (le_of_lt hab) h)]
    · rw [if_neg h, if_neg (fun h2 => h (le_trans h2 (min_le_right _ _)))]
  have e2 : (Interval.mk (Dbl.fin a) (Dbl.fin b)).inter
      (Interval.mk (Dbl.fin tl) (Dbl.fin tu)) =
      if max a tl ≤ min b tu then Interval.mk (Dbl.fin (max a tl)) (Dbl.fin (min b tu))
      else Interval.empty := by
    rw [Interval.inter_fin]
  rw [partial_integral_loop1]
  simp only [Interval.lb, Interval.ub, hs, Dbl.fin_lt_fin, hr]
  simp only [e1, e2]
  by_cases h1 : a < tu
  · rw [if_pos h1, if_pos h1]
    have h3 : max a tl ≤ min b tu ↔ tl ≤ b := by
      constructor
      · intro h
        exact le_trans (le_max_right _ _) (le_trans h (min_le_left _ _))
      · intro h
        exact max_le (le_min (le_of_lt hab) (le_of_lt h1)) (le_min h hlu)
    by_cases h2 : tl ≤ b
    · rw [if_pos h2, if_pos (h3.2 h2)]
      by_cases h4 : a ≤ tl
      · simp [h4, Interval.is_empty, Interval.diam]
      · simp [h4, Interval.is_empty, Interval.diam]
    · rw [if_neg h2, if_neg (fun h => h2 (h3.1 h))]
      by_cases h4 : a ≤ tl
      · simp [h4, Interval.is_empty, Interval.diam]
      · simp [h4, Interval.is_empty, Interval.diam]
  · rw [if_neg h1, if_neg h1]

/-- The loop of the partial integral is the pair of its two components when every envelope
is bounded and not empty. -/
theorem partial_integral_loop_pair (t0 : Dbl) (t : Interval) (l : List Slice)
    (hb : ∀ s ∈ l, ∃ lo up : ℚ, s.codomain = Interval.mk (Dbl.fin lo) (Dbl.fin up)) :
    ∀ p u : Interval × Interval,
      partial_integral_loop t0 t l p u =
        (partial_integral_loop1 (fun s => s.codomain.lb) t0 t l p.1 u.1,
          partial_integral_loop1 (fun s => s.codomain.ub) t0 t l p.2 u.2) := by
  induction l with
  | nil => intro p u; rfl
  | cons s rest ih =>
    intro p u
    obtain ⟨lo, up, hs⟩ := hb s (List.mem_cons_self _ _)
    have ih2 := ih (fun q hq => hb q (List.mem_cons_of_mem _ hq))
    have h1 : s.codomain.is_empty = false := by rw [hs]; rfl
    have h2 : s.codomain.is_unbounded = false := by
      rw [hs]
      simp [Interval.is_unbounded]
    rw [partial_integral_loop, partial_integral_loop1, partial_integral_loop1]
    simp only [h1, h2, Bool.false_eq_true, if_false]
    by_cases hc : s.domain.lb < t.ub
    · simp only [hc, if_true]
      by_cases e1 : (s.domain.inter (Interval.make t0 t.lb)).is_empty = true
      · by_cases e2 : (s.domain.inter t).is_empty = true
        · simp only [e1, e2, if_true, ih2]
        · simp only [e1, e2, if_true, if_false, ih2, Bool.false_eq_true]
      · by_cases e2 : (s.domain.inter t).is_empty = true
        · simp only [e1, e2, if_true, if_false, ih2, Bool.false_eq_true]
        · simp only [e1, e2, if_false, ih2, Bool.false_eq_true]
    · simp only [hc, if_false]

/-- The partial sum of a list of bounded slices is a rational. -/
theorem foldl_terms_fin (c : Slice → Dbl) (t0 τ : ℚ) (h0 : t0 ≤ τ) (l : List Slice)
    (hv : ∀ s ∈ l, s.domain.valid_domain = true) (hfin : ∀ s ∈ l, ∃ r : ℚ, c s = Dbl.fin r) :
    ∀ u : ℚ, ∃ w : ℚ,
      (l.map (fun s => c s *
          (s.domain.inter (Interval.make (Dbl.fin t0) (Dbl.fin τ))).diam)).foldl
        (fun a b => a + b) (Dbl.fin u) = Dbl.fin w := by
  rw [Interval.make_fin h0]
  induction l with
  | nil => intro u; exact ⟨u, rfl⟩
  | cons s rest ih =>
    intro u
    obtain ⟨a, b, _, hs⟩ := (Interval.valid_domain_iff _).1 (hv s (List.mem_cons_self _ _))
    obtain ⟨r, hr⟩ := hfin s (List.mem_cons_self _ _)
    rw [List.map_cons, List.foldl_cons, hs, hr, Interval.inter_diam,
      Dbl.fin_mul_fin, Dbl.fin_add_fin]
    exact ih (fun q hq => hv q (List.mem_cons_of_mem _ hq))
      (fun q hq => hfin q (List.mem_cons_of_mem _ hq)) _

theorem head_of_chain (s : Slice) (rest : List Slice)
    (hc : (s :: rest).Chain' (fun s1 s2 => s1.domain.ub = s2.domain.lb)) :
    ∀ q ∈ rest.head?, q.domain.lb = s.domain.ub := by
  intro q hq
  cases rest with
  | nil => simp at hq
  | cons q2 r =>
    have : q2 = q := by simpa using hq
    rw [← this]
    exact ((List.chain'_cons.1 hc).1).symm

/-- The slices that start at `τ` or later add nothing to the partial sum at `τ`. -/
theorem foldl_terms_zero (c : Slice → Dbl) (t0 τ : ℚ) (h0 : t0 ≤ τ) (l : List Slice)
    (hv : ∀ s ∈ l, s.domain.valid_domain = true)
    (hc : l.Chain' (fun s1 s2 => s1.domain.ub = s2.domain.lb))
    (hfin : ∀ s ∈ l, ∃ r : ℚ, c s = Dbl.fin r) :
    ∀ e : ℚ, τ ≤ e → (∀ s ∈ l.head?, s.domain.lb = Dbl.fin e) → ∀ u : ℚ,
      (l.map (fun s => c s *
          (s.domain.inter (Interval.make (Dbl.fin t0) (Dbl.fin τ))).diam)).foldl
        (fun a b => a + b) (Dbl.fin u) = Dbl.fin u := by
  rw [Interval.make_fin h0]
  induction l with
  | nil => intro e _ _ u; rfl
  | cons s rest ih =>
    intro e he hhead u
    obtain ⟨a, b, hab, hs⟩ := (Interval.valid_domain_iff _).1 (hv s (List.mem_cons_self _ _))
    obtain ⟨r, hr⟩ := hfin s (List.mem_cons_self _ _)
    have hae : a = e := by
      have := hhead s rfl
      rw [hs] at this
      exact Dbl.fin.inj this
    have hz : max 0 (min b τ - max a t0) = 0 := by
      apply max_eq_left
      have h1 : min b τ ≤ τ := min_le_right _ _
      have h2 : a ≤ max a t0 := le_max_left _ _
      linarith
    rw [List.map_cons, List.foldl_cons, hs, hr, Interval.inter_diam,
      Dbl.fin_mul_fin, Dbl.fin_add_fin, hz, mul_zero, add_zero]
    refine ih (fun q hq => hv q (List.mem_cons_of_mem _ hq)) hc.tail
      (fun q hq => hfin q (List.mem_cons_of_mem _ hq)) b (by linarith) ?_ u
    intro q hq
    rw [head_of_chain s rest hc q hq, hs]
    rfl

theorem foldl_terms_cons (c : Slice → Dbl) (t0 τ a b r : ℚ) (h0 : t0 ≤ τ) (s : Slice)
    (rest : List Slice) (hs : s.domain = Interval.mk (Dbl.fin a) (Dbl.fin b))
    (hr : c s = Dbl.fin r) (u : ℚ) :
    ((s :: rest).map (fun s => c s *
        (s.domain.inter (Interval.make (Dbl.fin t0) (Dbl.fin τ))).diam)).foldl
      (fun a b => a + b) (Dbl.fin u) =
    (rest.map (fun s => c s *
        (s.domain.inter (Interval.make (Dbl.fin t0) (Dbl.fin τ))).diam)).foldl
      (fun a b => a + b) (Dbl.fin (u + r * max 0 (min b τ - max a t0))) := by
  rw [List.map_cons, List.foldl_cons]
  congr 1
  rw [hs, hr, Interval.make_fin h0, Interval.inter_diam]
  rfl

theorem Interval.point_add_point (u x : ℚ) :
    Interval.point (Dbl.fin u) + Interval.point (Dbl.fin x) = Interval.point (Dbl.fin (u + x)) := by
  rw [Interval.point_fin, Interval.point_fin, Interval.point_fin, Interval.add_mk,
    Dbl.fin_add_fin]

theorem Interval.point_absorb (u r : ℚ) :
    (Interval.point (Dbl.fin u)).hull
        (Interval.point (Dbl.fin u) + Interval.make 0 (Dbl.fin 0) * Interval.point (Dbl.fin r))
      = Interval.point (Dbl.fin u) := by
  rw [Dbl.zero_def, Interval.make_fin le_rfl, Interval.point_fin, Interval.point_fin,
    Interval.mul_mk]
  simp [Interval.add_mk, Interval.hull, Dbl.min_fin, Dbl.max_fin]

/-- The loop of the partial integral at a time `τ`: both the integral and the uncertain
integral stay reduced to the partial sum. -/
theorem partial_integral_loop1_point (c : Slice → Dbl) (t0 τ : ℚ) (h0 : t0 ≤ τ) (l : List Slice)
    (hv : ∀ s ∈ l, s.domain.valid_domain = true)
    (hc : l.Chain' (fun s1 s2 => s1.domain.ub = s2.domain.lb))
    (hfin : ∀ s ∈ l, ∃ r : ℚ, c s = Dbl.fin r) :
    ∀ e : ℚ, t0 ≤ e → (∀ s ∈ l.head?, s.domain.lb = Dbl.fin e) → ∀ u : ℚ,
      partial_integral_loop1 c (Dbl.fin t0) (Interval.mk (Dbl.fin τ) (Dbl.fin τ)) l
          (Interval.point (Dbl.fin u)) (Interval.point (Dbl.fin u))
        = Interval.point ((l.map (fun s => c s *
            (s.domain.inter (Interval.make (Dbl.fin t0) (Dbl.fin τ))).diam)).foldl
          (fun a b => a + b) (Dbl.fin u)) := by
  induction l with
  | nil => intro e _ _ u; rfl
  | cons s rest ih =>
    intro e he hhead u
    obtain ⟨a, b, hab, hs⟩ := (Interval.valid_domain_iff _).1 (hv s (List.mem_cons_self _ _))
    obtain ⟨r, hr⟩ := hfin s (List.mem_cons_self _ _)
    have hae : a = e := by
      have := hhead s rfl
      rw [hs] at this
      exact Dbl.fin.inj this
    have hv2 : ∀ q ∈ rest, q.domain.valid_domain = true :=
      fun q hq => hv q (List.mem_cons_of_mem _ hq)
    have hfin2 : ∀ q ∈ rest, ∃ r : ℚ, c q = Dbl.fin r :=
      fun q hq => hfin q (List.mem_cons_of_mem _ hq)
    have hhead2 : ∀ q ∈ rest.head?, q.domain.lb = Dbl.fin b := by
      intro q hq
      rw [head_of_chain s rest hc q hq, hs]
      rfl
    have h0a : t0 ≤ a := by rw [hae]; exact he
    rw [partial_integral_loop1_step c t0 τ τ a b r s rest _ _ hs hab hr h0a h0 le_rfl]
    by_cases h1 : a < τ
    · rw [if_pos h1]
      simp only [if_pos (le_of_lt h1), Interval.point_add_point]
      rw [foldl_terms_cons c t0 τ a b r h0 s rest hs hr u, max_eq_left h0a]
      by_cases h2 : τ ≤ b
      · have e3 : max a τ = τ := max_eq_right (le_of_lt h1)
        have e4 : max 0 (τ - a) = τ - a := max_eq_right (sub_nonneg.2 (le_of_lt h1))
        rw [if_pos h2, min_eq_right h2, e3, sub_self, zero_mul,
          Interval.point_absorb, add_zero, e4, mul_comm r]
        exact ih hv2 hc.tail hfin2 b (by linarith) hhead2 _
      · have h3 : b ≤ τ := le_of_lt (not_le.1 h2)
        have e4 : max 0 (b - a) = b - a := max_eq_right (sub_nonneg.2 (le_of_lt hab))
        rw [if_neg h2, min_eq_left h3, e4, mul_comm r]
        exact ih hv2 hc.tail hfin2 b (by linarith) hhead2 _
    · rw [if_neg h1, foldl_terms_zero c t0 τ h0 (s :: rest) hv hc hfin e
        (by rw [← hae]; exact not_lt.1 h1) hhead u]

theorem bounded_envelope (c : Interval)
    (h : c.is_empty = false ∧ c.is_unbounded = false ∧ c.lb ≤ c.ub) :
    ∃ lo up : ℚ, lo ≤ up ∧ c = Interval.mk (Dbl.fin lo) (Dbl.fin up) := by
  obtain ⟨h1, h2, h3⟩ := h
  cases c with
  | empty => simp [Interval.is_empty] at h1
  | mk a b =>
    cases a with
    | ninf => simp [Interval.is_unbounded] at h2
    | pinf =>
      cases b with
      | pinf => simp [Interval.is_unbounded] at h2
      | ninf => exact absurd h3 (by simp [Interval.lb, Interval.ub, Dbl.le_def, Dbl.le])
      | fin q => exact absurd h3 (by simp [Interval.lb, Interval.ub])
    | fin p =>
      cases b with
      | pinf => simp [Interval.is_unbounded] at h2
      | ninf => exact absurd h3 (by simp [Interval.lb, Interval.ub])
      | fin q => exact ⟨p, q, by simpa [Interval.lb, Interval.ub] using h3, rfl⟩

theorem foldl_terms_mono (c1 c2 : Slice → Dbl) (t0 τ : ℚ) (h0 : t0 ≤ τ) (l : List Slice)
    (hv : ∀ s ∈ l, s.domain.valid_domain = true)
    (hfin : ∀ s ∈ l, ∃ r1 r2 : ℚ, r1 ≤ r2 ∧ c1 s = Dbl.fin r1 ∧ c2 s = Dbl.fin r2) :
    ∀ u1 u2 : ℚ, u1 ≤ u2 →
      (l.map (fun s => c1 s *
          (s.domain.inter (Interval.make (Dbl.fin t0) (Dbl.fin τ))).diam)).foldl
        (fun a b => a + b) (Dbl.fin u1) ≤
      (l.map (fun s => c2 s *
          (s.domain.inter (Interval.make (Dbl.fin t0) (Dbl.fin τ))).diam)).foldl
        (fun a b => a + b) (Dbl.fin u2) := by
  induction l with
  | nil => intro u1 u2 h; exact (Dbl.fin_le_fin _ _).2 h
  | cons s rest ih =>
    intro u1 u2 h
    obtain ⟨a, b, hab, hs⟩ := (Interval.valid_domain_iff _).1 (hv s (List.mem_cons_self _ _))
    obtain ⟨r1, r2, hr, hr1, hr2⟩ := hfin s (List.mem_cons_self _ _)
    rw [foldl_terms_cons c1 t0 τ a b r1 h0 s rest hs hr1 u1,
      foldl_terms_cons c2 t0 τ a b r2 h0 s rest hs hr2 u2]
    apply ih (fun q hq => hv q (List.mem_cons_of_mem _ hq))
      (fun q hq => hfin q (List.mem_cons_of_mem _ hq))
    have := mul_le_mul_of_nonneg_right hr (le_max_left 0 (min b τ - max a t0))
    linarith

theorem Tube.partial_integral_eq (x : Tube) (hx : x.partition_invariant)
    (hb : ∀ s ∈ x.slices, ∃ lo up : ℚ, lo ≤ up ∧ s.codomain = Interval.mk (Dbl.fin lo) (Dbl.fin up))
    (d t : Interval) (hd : x.domain = some d) :
    x.partial_integral t = some
      (partial_integral_loop1 (fun s => s.codomain.lb) d.lb t x.slices
          (Interval.point 0) (Interval.point 0),
        partial_integral_loop1 (fun s => s.codomain.ub) d.lb t x.slices
          (Interval.point 0) (Interval.point 0)) := by
  unfold Tube.partial_integral
  cases hl : x.slices with
  | nil => exact absurd hl hx.1
  | cons f rest =>
    simp only [hd, Option.map_some']
    rw [partial_integral_loop_pair]
    intro s hs
    obtain ⟨lo, up, _, h⟩ := hb s (hl ▸ hs)
    exact ⟨lo, up, h⟩

theorem envelope_lb_fin (l : List Slice)
    (hb : ∀ s ∈ l, ∃ lo up : ℚ, lo ≤ up ∧ s.codomain = Interval.mk (Dbl.fin lo) (Dbl.fin up)) :
    ∀ s ∈ l, ∃ r : ℚ, (fun s : Slice => s.codomain.lb) s = Dbl.fin r := by
  intro s hs
  obtain ⟨lo, up, _, h⟩ := hb s hs
  exact ⟨lo, by simp only [h]; rfl⟩

theorem envelope_ub_fin (l : List Slice)
    (hb : ∀ s ∈ l, ∃ lo up : ℚ, lo ≤ up ∧ s.codomain = Interval.mk (Dbl.fin lo) (Dbl.fin up)) :
    ∀ s ∈ l, ∃ r : ℚ, (fun s : Slice => s.codomain.ub) s = Dbl.fin r := by
  intro s hs
  obtain ⟨lo, up, _, h⟩ := hb s hs
  exact ⟨up, by simp only [h]; rfl⟩

/-- The integral at a time `τ` of the domain is the interval of the two partial sums. -/
theorem Tube.integral_at_eq (x : Tube) (hx : x.partition_invariant)
    (hb : ∀ s ∈ x.slices, ∃ lo up : ℚ, lo ≤ up ∧ s.codomain = Interval.mk (Dbl.fin lo) (Dbl.fin up))
    (t0 T τ : ℚ) (hd : x.domain = some (Interval.mk (Dbl.fin t0) (Dbl.fin T))) (h0 : t0 ≤ τ) :
    x.integral_at (Dbl.fin τ) = some (Interval.mk
      (partial_sum (fun s => s.codomain.lb) (Dbl.fin t0) (Dbl.fin τ) x.slices)
      (partial_sum (fun s => s.codomain.ub) (Dbl.fin t0) (Dbl.fin τ) x.slices)) := by
  obtain ⟨a0, b0, _, hdom, _, ⟨f, rest, hf, hfa⟩, _⟩ := Tube.domain_spec x hx
  have ha0 : a0 = t0 := by
    rw [hd] at hdom
    have := Option.some.inj hdom
    simp only [Interval.mk.injEq, Dbl.fin.injEq] at this
    exact this.1.symm
  have hhead : ∀ s ∈ x.slices.head?, s.domain.lb = Dbl.fin t0 := by
    intro s hs
    rw [hf] at hs
    have : f = s := by simpa using hs
    rw [← this, hfa, ha0]
  unfold Tube.integral_at Tube.integral
  rw [Interval.point_fin, Tube.partial_integral_eq x hx hb _ _ hd]
  rw [show (Interval.mk (Dbl.fin t0) (Dbl.fin T)).lb = Dbl.fin t0 from rfl]
  simp only [Option.map_some']
  have e1 := partial_integral_loop1_point (fun s => s.codomain.lb) t0 τ h0 x.slices hx.2.1
    hx.2.2 (envelope_lb_fin _ hb) t0 le_rfl hhead 0
  have e2 := partial_integral_loop1_point (fun s => s.codomain.ub) t0 τ h0 x.slices hx.2.1
    hx.2.2 (envelope_ub_fin _ hb) t0 le_rfl hhead 0
  obtain ⟨w1, hw1⟩ := foldl_terms_fin (fun s => s.codomain.lb) t0 τ h0 x.slices hx.2.1
    (envelope_lb_fin _ hb) 0
  obtain ⟨w2, hw2⟩ := foldl_terms_fin (fun s => s.codomain.ub) t0 τ h0 x.slices hx.2.1
    (envelope_ub_fin _ hb) 0
  have hle := foldl_terms_mono (fun s => s.codomain.lb) (fun s => s.codomain.ub) t0 τ h0
    x.slices hx.2.1 (fun s hs => by
      obtain ⟨lo, up, h1, h2⟩ := hb s hs
      exact ⟨lo, up, h1, by simp only [h2]; rfl, by simp only [h2]; rfl⟩) 0 0 le_rfl
  rw [hw1, hw2] at hle
  have hle2 : w1 ≤ w2 := (Dbl.fin_le_fin _ _).1 hle
  have p1 : partial_sum (fun s => s.codomain.lb) (Dbl.fin t0) (Dbl.fin τ) x.slices
      = Dbl.fin w1 := hw1
  have p2 : partial_sum (fun s => s.codomain.ub) (Dbl.fin t0) (Dbl.fin τ) x.slices
      = Dbl.fin w2 := hw2
  rw [hw1] at e1
  rw [hw2] at e2
  rw [p1, p2, ← Dbl.zero_def] at *
  rw [e1, e2, Interval.point_fin, Interval.point_fin]
  simp [Interval.is_empty, Interval.is_unbounded, Interval.lb, Interval.ub, Interval.point_fin,
    Interval.hull, Dbl.min_fin, Dbl.max_fin, hle2]

/-- The integral of a function over a piece `[p,q]` of a slice is between the bounds of the
envelope times the length of the piece. -/
theorem integral_piece_bounds (f : ℝ → ℝ) (p q r1 r2 : ℝ) (hpq : p ≤ q)
    (hf : IntervalIntegrable f MeasureTheory.volume p q)
    (h : ∀ r : ℝ, p ≤ r → r ≤ q → r1 ≤ f r ∧ f r ≤ r2) :
    r1 * (q - p) ≤ ∫ r in p..q, f r ∧ ∫ r in p..q, f r ≤ r2 * (q - p) := by
  constructor
  · have := intervalIntegral.integral_mono_on hpq
      (intervalIntegrable_const : IntervalIntegrable (fun _ => r1) MeasureTheory.volume p q) hf
      (fun x hx => (h x hx.1 hx.2).1)
    rw [intervalIntegral.integral_const, smul_eq_mul, mul_comm] at this
    exact this
  · have := intervalIntegral.integral_mono_on hpq hf
      (intervalIntegrable_const : IntervalIntegrable (fun _ => r2) MeasureTheory.volume p q)
      (fun x hx => (h x hx.1 hx.2).2)
    rw [intervalIntegral.integral_const, smul_eq_mul, mul_comm] at this
    exact this

/-- The partial sums of the two bounds of the envelopes enclose the integral of every function
that the envelopes enclose. -/
theorem partial_sums_enclose (f : ℝ → ℝ) (c1 c2 : Slice → Dbl) (t0 τ : ℚ) (h0 : t0 ≤ τ)
    (l : List Slice)
    (hv : ∀ s ∈ l, s.domain.valid_domain = true)
    (hc : l.Chain' (fun s1 s2 => s1.domain.ub = s2.domain.lb))
    (henc : ∀ s ∈ l, ∃ a b r1 r2 : ℚ, s.domain = Interval.mk (Dbl.fin a) (Dbl.fin b) ∧
      c1 s = Dbl.fin r1 ∧ c2 s = Dbl.fin r2 ∧
      ∀ r : ℝ, (a : ℝ) ≤ r → r ≤ (b : ℝ) → (r1 : ℝ) ≤ f r ∧ f r ≤ (r2 : ℝ)) :
    ∀ e : ℚ, t0 ≤ e → (∀ s ∈ l.head?, s.domain.lb = Dbl.fin e) →
      (∀ s ∈ l.getLast?, Dbl.fin τ ≤ s.domain.ub) → (l = [] → τ ≤ e) →
      IntervalIntegrable f MeasureTheory.volume ((min e τ : ℚ) : ℝ) (τ : ℝ) →
      ∀ u1 u2 : ℚ, ∃ w1 w2 : ℚ,
        (l.map (fun s => c1 s *
            (s.domain.inter (Interval.make (Dbl.fin t0) (Dbl.fin τ))).diam)).foldl
          (fun a b => a + b) (Dbl.fin u1) = Dbl.fin w1 ∧
        (l.map (fun s => c2 s *
            (s.domain.inter (Interval.make (Dbl.fin t0) (Dbl.fin τ))).diam)).foldl
          (fun a b => a + b) (Dbl.fin u2) = Dbl.fin w2 ∧
        (w1 : ℝ) - (u1 : ℝ) ≤ ∫ r in ((min e τ : ℚ) : ℝ)..(τ : ℝ), f r ∧
        ∫ r in ((min e τ : ℚ) : ℝ)..(τ : ℝ), f r ≤ (w2 : ℝ) - (u2 : ℝ) := by
  induction l with
  | nil =>
    intro e _ _ _ hnil _ u1 u2
    refine ⟨u1, u2, rfl, rfl, ?_, ?_⟩
    · rw [min_eq_right (hnil rfl), intervalIntegral.integral_same, sub_self]
    · rw [min_eq_right (hnil rfl), intervalIntegral.integral_same, sub_self]
  | cons s rest ih =>
    intro e he hhead hlast _ hint u1 u2
    obtain ⟨a, b, r1, r2, hs, hr1, hr2, hf⟩ := henc s (List.mem_cons_self _ _)
    have hab : a < b := by
      have := Interval.valid_domain_lt (hv s (List.mem_cons_self _ _))
      rw [hs] at this
      exact (Dbl.fin_lt_fin a b).1 this
    have hae : a = e := by
      have := hhead s rfl
      rw [hs] at this
      exact Dbl.fin.inj this
    have hv2 : ∀ q ∈ rest, q.domain.valid_domain = true :=
      fun q hq => hv q (List.mem_cons_of_mem _ hq)
    have henc2 := fun q hq => henc q (List.mem_cons_of_mem s hq)
    have hfin1 : ∀ q ∈ s :: rest, ∃ r : ℚ, c1 q = Dbl.fin r := by
      intro q hq
      obtain ⟨_, _, r, _, _, h, _⟩ := henc q hq
      exact ⟨r, h⟩
    have hfin2 : ∀ q ∈ s :: rest, ∃ r : ℚ, c2 q = Dbl.fin r := by
      intro q hq
      obtain ⟨_, _, _, r, _, _, h, _⟩ := henc q hq
      exact ⟨r, h⟩
    have hhead2 : ∀ q ∈ rest.head?, q.domain.lb = Dbl.fin b := by
      intro q hq
      rw [head_of_chain s rest hc q hq, hs]
      rfl
    have h0a : t0 ≤ a := by rw [hae]; exact he
    by_cases h1 : τ ≤ a
    · refine ⟨u1, u2,
        foldl_terms_zero c1 t0 τ h0 (s :: rest) hv hc hfin1 e (hae ▸ h1) hhead u1,
        foldl_terms_zero c2 t0 τ h0 (s :: rest) hv hc hfin2 e (hae ▸ h1) hhead u2, ?_, ?_⟩
      · rw [min_eq_right (hae ▸ h1), intervalIntegral.integral_same, sub_self]
      · rw [min_eq_right (hae ▸ h1), intervalIntegral.integral_same, sub_self]
    · have haτ : a < τ := not_le.1 h1
      have hm : min e τ = a := by rw [← hae]; exact min_eq_left (le_of_lt haτ)
      rw [hm] at hint ⊢
      have hlast2 : ∀ q ∈ rest.getLast?, Dbl.fin τ ≤ q.domain.ub := by
        intro q hq
        cases rest with
        | nil => simp at hq
        | cons q2 r => exact hlast q (by rw [List.getLast?_cons_cons]; exact hq)
      have hnil2 : rest = [] → τ ≤ b := by
        intro h
        have := hlast s (by rw [h]; rfl)
        rw [hs] at this
        exact (Dbl.fin_le_fin τ b).1 this
      have hmb : a ≤ min b τ := le_min (le_of_lt hab) (le_of_lt haτ)
      have hmτ : min b τ ≤ τ := min_le_right _ _
      have hmbR : (a : ℝ) ≤ ((min b τ : ℚ) : ℝ) := by exact_mod_cast hmb
      have hmτR : ((min b τ : ℚ) : ℝ) ≤ (τ : ℝ) := by exact_mod_cast hmτ
      have hmbb : ((min b τ : ℚ) : ℝ) ≤ (b : ℝ) := by exact_mod_cast min_le_left b τ
      have hint1 : IntervalIntegrable f MeasureTheory.volume (a : ℝ) ((min b τ : ℚ) : ℝ) :=
        hint.mono_set (by
          rw [Set.uIcc_of_le hmbR, Set.uIcc_of_le (le_trans hmbR hmτR)]
          exact Set.Icc_subset_Icc le_rfl hmτR)
      have hint2 : IntervalIntegrable f MeasureTheory.volume ((min b τ : ℚ) : ℝ) (τ : ℝ) :=
        hint.mono_set (by
          rw [Set.uIcc_of_le hmτR, Set.uIcc_of_le (le_trans hmbR hmτR)]
          exact Set.Icc_subset_Icc hmbR le_rfl)
      obtain ⟨w1, w2, e1, e2, b1, b2⟩ := ih hv2 hc.tail henc2 b (by linarith) hhead2 hlast2
        hnil2 hint2 (u1 + r1 * max 0 (min b τ - max a t0)) (u2 + r2 * max 0 (min b τ - max a t0))
      refine ⟨w1, w2, ?_, ?_, ?_, ?_⟩
      · rw [foldl_terms_cons c1 t0 τ a b r1 h0 s rest hs hr1 u1]
        exact e1
      · rw [foldl_terms_cons c2 t0 τ a b r2 h0 s rest hs hr2 u2]
        exact e2
      all_goals
        have e3 : max 0 (min b τ - max a t0) = min b τ - a := by
          rw [max_eq_left h0a]
          exact max_eq_right (sub_nonneg.2 hmb)
        rw [e3] at b1 b2
        obtain ⟨p1, p2⟩ := integral_piece_bounds f (a : ℝ) ((min b τ : ℚ) : ℝ) (r1 : ℝ) (r2 : ℝ)
          hmbR hint1 (fun r h1 h2 => hf r h1 (le_trans h2 hmbb))
        have hsum := intervalIntegral.integral_add_adjacent_intervals hint1 hint2
        push_cast at b1 b2 p1 p2 hsum ⊢
        linarith

theorem bounded_envelopes (l : List Slice)
    (hb : ∀ s ∈ l, s.codomain.is_empty = false ∧ s.codomain.is_unbounded = false ∧
      s.codomain.lb ≤ s.codomain.ub) :
    ∀ s ∈ l, ∃ lo up : ℚ, lo ≤ up ∧ s.codomain = Interval.mk (Dbl.fin lo) (Dbl.fin up) :=
  fun s hs => bounded_envelope s.codomain (hb s hs)

theorem Tube.head_of_domain (x : Tube) (hx : x.partition_invariant) (t0 T : ℚ)
    (hd : x.domain = some (Interval.mk (Dbl.fin t0) (Dbl.fin T))) :
    (∀ s ∈ x.slices.head?, s.domain.lb = Dbl.fin t0) ∧
      (∀ s ∈ x.slices.getLast?, s.domain.ub = Dbl.fin T) := by
  obtain ⟨a0, b0, _, hdom, _, ⟨f, rest, hf, hfa⟩, ⟨init, l, hl, hlb⟩⟩ := Tube.domain_spec x hx
  rw [hd] at hdom
  have h := Option.some.inj hdom
  simp only [Interval.mk.injEq, Dbl.fin.injEq] at h
  constructor
  · intro s hs
    rw [hf] at hs
    have : f = s := by simpa using hs
    rw [← this, hfa, h.1]
  · intro s hs
    rw [hl] at hs
    have : l = s := by simpa using hs
    rw [← this, hlb, h.2]

/-- C12: for every tube with the partition invariant whose envelopes are all non-empty and
bounded, of domain `[t0,T]`, and every time `τ` of the domain, `integral(τ)` is the interval
from the sum of `lb(envelope_i) * length(domain_i ∩ [t0,τ])` to the sum of
`ub(envelope_i) * length(domain_i ∩ [t0,τ])`; `integral(t0)` is `[0,0]`; and the result
encloses the integral from `t0` to `τ` of every integrable function that the envelopes
enclose. -/
theorem C12_integral_at (x : Tube) (hx : x.partition_invariant)
    (hb : ∀ s ∈ x.slices, s.codomain.is_empty = false ∧ s.codomain.is_unbounded = false ∧
      s.codomain.lb ≤ s.codomain.ub)
    (t0 T τ : ℚ) (hd : x.domain = some (Interval.mk (Dbl.fin t0) (Dbl.fin T)))
    (h0 : t0 ≤ τ) (h1 : τ ≤ T) :
    x.integral_at (Dbl.fin τ) = some (Interval.mk
        (partial_sum (fun s => s.codomain.lb) (Dbl.fin t0) (Dbl.fin τ) x.slices)
        (partial_sum (fun s => s.codomain.ub) (Dbl.fin t0) (Dbl.fin τ) x.slices)) ∧
      x.integral_at (Dbl.fin t0) = some (Interval.mk 0 0) ∧
      ∀ f : ℝ → ℝ, IntervalIntegrable f MeasureTheory.volume (t0 : ℝ) (τ : ℝ) →
        (∀ s ∈ x.slices, ∀ a b lo up : ℚ, s.domain = Interval.mk (Dbl.fin a) (Dbl.fin b) →
          s.codomain = Interval.mk (Dbl.fin lo) (Dbl.fin up) →
          ∀ r : ℝ, (a : ℝ) ≤ r → r ≤ (b : ℝ) → (lo : ℝ) ≤ f r ∧ f r ≤ (up : ℝ)) →
        ∃ w1 w2 : ℚ, x.integral_at (Dbl.fin τ) = some (Interval.mk (Dbl.fin w1) (Dbl.fin w2)) ∧
          (w1 : ℝ) ≤ ∫ r in (t0 : ℝ)..(τ : ℝ), f r ∧
          ∫ r in (t0 : ℝ)..(τ : ℝ), f r ≤ (w2 : ℝ) := by
  have hb2 := bounded_envelopes x.slices hb
  obtain ⟨hhead, hlast⟩ := Tube.head_of_domain x hx t0 T hd
  refine ⟨Tube.integral_at_eq x hx hb2 t0 T τ hd h0, ?_, ?_⟩
  · rw [Tube.integral_at_eq x hx hb2 t0 T t0 hd le_rfl]
    have e1 := foldl_terms_zero (fun s => s.codomain.lb) t0 t0 le_rfl x.slices hx.2.1 hx.2.2
      (envelope_lb_fin _ hb2) t0 le_rfl hhead 0
    have e2 := foldl_terms_zero (fun s => s.codomain.ub) t0 t0 le_rfl x.slices hx.2.1 hx.2.2
      (envelope_ub_fin _ hb2) t0 le_rfl hhead 0
    unfold partial_sum
    rw [Dbl.zero_def, e1, e2]
  · intro f hint henc
    have henc2 : ∀ s ∈ x.slices, ∃ a b r1 r2 : ℚ,
        s.domain = Interval.mk (Dbl.fin a) (Dbl.fin b) ∧
        (fun s : Slice => s.codomain.lb) s = Dbl.fin r1 ∧
        (fun s : Slice => s.codomain.ub) s = Dbl.fin r2 ∧
        ∀ r : ℝ, (a : ℝ) ≤ r → r ≤ (b : ℝ) → (r1 : ℝ) ≤ f r ∧ f r ≤ (r2 : ℝ) := by
      intro s hs
      obtain ⟨a, b, _, hsd⟩ := (Interval.valid_domain_iff _).1 (hx.2.1 s hs)
      obtain ⟨lo, up, _, hsc⟩ := hb2 s hs
      exact ⟨a, b, lo, up, hsd, by simp only [hsc]; rfl, by simp only [hsc]; rfl,
        henc s hs a b lo up hsd hsc⟩
    have hm : min t0 τ = t0 := min_eq_left h0
    obtain ⟨w1, w2, e1, e2, b1, b2⟩ := partial_sums_enclose f (fun s => s.codomain.lb)
      (fun s => s.codomain.ub) t0 τ h0 x.slices hx.2.1 hx.2.2 henc2 t0 le_rfl hhead
      (fun s hs => by rw [hlast s hs]; exact (Dbl.fin_le_fin _ _).2 h1)
      (fun h => absurd h hx.1) (by rw [hm]; exact hint) 0 0
    rw [hm] at b1 b2
    refine ⟨w1, w2, ?_, ?_, ?_⟩
    · rw [Tube.integral_at_eq x hx hb2 t0 T τ hd h0]
      unfold partial_sum
      rw [Dbl.zero_def, e1, e2]
    · simpa using b1
    · simpa using b2

/-- Witness of C12: the tube of the slices `[0,1]` of envelope `[1,2]` and `[1,3]` of envelope
`[-1,1]`; its integral at `2` is `[1*1 + (-1)*1, 2*1 + 1*1] = [0,3]`. -/
theorem C12_integral_at_witness :
    Tube.partition_invariant
        ⟨Interval.mk (Dbl.fin 1) (Dbl.fin 2),
          [⟨Interval.mk (Dbl.fin 0) (Dbl.fin 1), Interval.mk (Dbl.fin 1) (Dbl.fin 2),
              Interval.mk (Dbl.fin 1) (Dbl.fin 1)⟩,
            ⟨Interval.mk (Dbl.fin 1) (Dbl.fin 3), Interval.mk (Dbl.fin (-1)) (Dbl.fin 1),
              Interval.mk (Dbl.fin 0) (Dbl.fin 1)⟩]⟩ ∧
      Tube.integral_at
        ⟨Interval.mk (Dbl.fin 1) (Dbl.fin 2),
          [⟨Interval.mk (Dbl.fin 0) (Dbl.fin 1), Interval.mk (Dbl.fin 1) (Dbl.fin 2),
              Interval.mk (Dbl.fin 1) (Dbl.fin 1)⟩,
            ⟨Interval.mk (Dbl.fin 1) (Dbl.fin 3), Interval.mk (Dbl.fin (-1)) (Dbl.fin 1),
              Interval.mk (Dbl.fin 0) (Dbl.fin 1)⟩]⟩
        (Dbl.fin 2)
      = some (Interval.mk (Dbl.fin 0) (Dbl.fin 3)) :=
  ⟨by decide,
    (C12_integral_at _ (by decide) (by decide) 0 3 2 (by decide) (by decide)
      (by decide)).1.trans (by decide!)⟩

/-- C14, the code at the failing input: on the tube of the slices `[0,1]` of envelope all reals
and `[1,2]` of empty envelope, both starting before `t.ub()` for `t = [0,2]`, the loop of
`partial_integral` returns at the unbounded slice and `integral(t)` is all reals, not the empty
interval; with the two envelopes exchanged it is the empty interval. -/
theorem C14_integral_unbounded_before_empty :
    Tube.partition_invariant
        ⟨Interval.ALL_REALS,
          [⟨Interval.mk (Dbl.fin 0) (Dbl.fin 1), Interval.ALL_REALS, Interval.EMPTY_SET⟩,
            ⟨Interval.mk (Dbl.fin 1) (Dbl.fin 2), Interval.EMPTY_SET, Interval.EMPTY_SET⟩]⟩ ∧
      Tube.domain
        ⟨Interval.ALL_REALS,
          [⟨Interval.mk (Dbl.fin 0) (Dbl.fin 1), Interval.ALL_REALS, Interval.EMPTY_SET⟩,
            ⟨Interval.mk (Dbl.fin 1) (Dbl.fin 2), Interval.EMPTY_SET, Interval.EMPTY_SET⟩]⟩
        = some (Interval.mk (Dbl.fin 0) (Dbl.fin 2)) ∧
      (∃ s ∈ [(⟨Interval.mk (Dbl.fin 0) (Dbl.fin 1), Interval.ALL_REALS, Interval.EMPTY_SET⟩ : Slice),
            ⟨Interval.mk (Dbl.fin 1) (Dbl.fin 2), Interval.EMPTY_SET, Interval.EMPTY_SET⟩],
          s.domain.lb < (Interval.mk (Dbl.fin 0) (Dbl.fin 2)).ub ∧ s.codomain.is_empty = true) ∧
      Tube.integral
        ⟨Interval.ALL_REALS,
          [⟨Interval.mk (Dbl.fin 0) (Dbl.fin 1), Interval.ALL_REALS, Interval.EMPTY_SET⟩,
            ⟨Interval.mk (Dbl.fin 1) (Dbl.fin 2), Interval.EMPTY_SET, Interval.EMPTY_SET⟩]⟩
        (Interval.mk (Dbl.fin 0) (Dbl.fin 2)) = some Interval.ALL_REALS ∧
      Tube.integral
        ⟨Interval.EMPTY_SET,
          [⟨Interval.mk (Dbl.fin 0) (Dbl.fin 1), Interval.EMPTY_SET, Interval.EMPTY_SET⟩,
            ⟨Interval.mk (Dbl.fin 1) (Dbl.fin 2), Interval.ALL_REALS, Interval.ALL_REALS⟩]⟩
        (Interval.mk (Dbl.fin 0) (Dbl.fin 2)) = some Interval.EMPTY_SET := by
  decide

/-! ## Inflation -/

theorem Dbl.add_le_add_right_all (a c r : Dbl) (h : a ≤ c) : a + r ≤ c + r := by
  have key : Dbl.le (Dbl.add a r) (Dbl.add c r) := by
    have h2 : Dbl.le a c := h
    cases a <;> cases c <;> cases r <;> simp only [Dbl.le, Dbl.add] at h2 ⊢
    exact add_le_add_right h2 _
  exact key

theorem Interval.is_superset_hull (x a b : Interval) :
    x.is_superset (a.hull b) = (x.is_superset a && x.is_superset b) := by
  cases a with
  | empty => cases x <;> cases b <;> simp [Interval.hull, Interval.is_superset]
  | mk a1 a2 =>
    cases b with
    | empty => cases x <;> simp [Interval.hull, Interval.is_superset]
    | mk b1 b2 =>
      cases x with
      | empty => simp [Interval.hull, Interval.is_superset]
      | mk x1 x2 =>
        simp only [Interval.hull, Interval.is_superset, le_min_iff, max_le_iff,
          Bool.decide_and, Bool.and_eq_true, decide_eq_true_eq, eq_iff_iff]
        rw [Bool.eq_iff_iff]
        simp only [Bool.and_eq_true, decide_eq_true_eq]
        tauto

theorem Interval.add_is_superset (x y e : Interval) (h : x.is_superset y = true) :
    (x + e).is_superset (y + e) = true := by
  cases y with
  | empty => cases x <;> cases e <;> rfl
  | mk y1 y2 =>
    cases x with
    | empty => simp [Interval.is_superset] at h
    | mk x1 x2 =>
      cases e with
      | empty => rfl
      | mk e1 e2 =>
        have h2 : x1 ≤ y1 ∧ y2 ≤ x2 := by simpa [Interval.is_superset] using h
        show decide (x1 + e1 ≤ y1 + e1 ∧ y2 + e2 ≤ x2 + e2) = true
        rw [decide_eq_true_eq]
        exact ⟨Dbl.add_le_add_right_all _ _ _ h2.1, Dbl.add_le_add_right_all _ _ _ h2.2⟩

theorem Dbl.add_zero_all (a : Dbl) : a + Dbl.fin 0 = a := by
  cases a with
  | ninf => rfl
  | pinf => rfl
  | fin q => rw [Dbl.fin_add_fin, add_zero]

theorem Interval.add_zero_radius (x : Interval) :
    x + Interval.make (-(0 : Dbl)) 0 = x := by
  have e : Interval.make (-(0 : Dbl)) 0 = Interval.mk (Dbl.fin 0) (Dbl.fin 0) := by
    have : (-(0 : Dbl)) = Dbl.fin 0 := by
      show Dbl.neg (Dbl.fin 0) = Dbl.fin 0
      simp [Dbl.neg]
    rw [this, Dbl.zero_def, Interval.make_fin le_rfl]
  rw [e]
  cases x with
  | empty => rfl
  | mk a b =>
    show Interval.mk (a + Dbl.fin 0) (b + Dbl.fin 0) = _
    rw [Dbl.add_zero_all, Dbl.add_zero_all]

theorem Interval.make_radius (rad : Dbl) (h : 0 ≤ rad) :
    Interval.make (-rad) rad = Interval.mk (-rad) rad := by
  cases rad with
  | ninf => exact absurd h (by simp [Dbl.zero_def])
  | pinf => rfl
  | fin r =>
    have hr : (0 : ℚ) ≤ r := (Dbl.fin_le_fin 0 r).1 h
    show Interval.make (Dbl.fin (-r)) (Dbl.fin r) = Interval.mk (Dbl.fin (-r)) (Dbl.fin r)
    exact Interval.make_fin (by linarith)

theorem inflate_encloses (e : Interval) (l : List Slice) :
    ∀ g : Interval, envelope_encloses_gates g l = true →
      envelope_encloses_gates (g + e)
        ((l.map (fun s => s.set_envelope (s.codomain + e))).map
          (fun s => s.set_output_gate (s.output_gate + e))) = true := by
  induction l with
  | nil => intro g _; rfl
  | cons s rest ih =>
    intro g h
    simp only [envelope_encloses_gates, Bool.and_eq_true] at h
    obtain ⟨h1, h2⟩ := h
    rw [Interval.is_superset_hull, Bool.and_eq_true] at h1
    simp only [List.map_cons, envelope_encloses_gates, Bool.and_eq_true]
    refine ⟨?_, ih _ h2⟩
    rw [Interval.is_superset_hull, Bool.and_eq_true]
    exact ⟨Interval.add_is_superset _ _ e h1.1, Interval.add_is_superset _ _ e h1.2⟩

/-- C15: for every tube with a slice that satisfies `envelope ⊇ hull(input_gate, output_gate)`
on each slice and every `rad ≥ 0`, after `inflate(rad)` the slicing is unchanged, each envelope
is the old one `+ [-rad,rad]`, each output gate and the first input gate are the old ones
`+ [-rad,rad]`, the invariant `envelope ⊇ hull(input_gate, output_gate)` holds on every slice
again, and `inflate(0)` leaves the tube unchanged. -/
theorem C15_inflate (x : Tube) (rad : Dbl) (hrad : 0 ≤ rad) (hne : x.slices ≠ [])
    (hinv : envelope_encloses_gates x.first_gate x.slices = true) :
    (x.inflate rad).slices.map (fun s => s.domain) = x.slices.map (fun s => s.domain) ∧
      (x.inflate rad).slices.map (fun s => s.codomain)
        = x.slices.map (fun s => s.codomain + Interval.mk (-rad) rad) ∧
      (x.inflate rad).slices.map (fun s => s.output_gate)
        = x.slices.map (fun s => s.output_gate + Interval.mk (-rad) rad) ∧
      (x.inflate rad).first_gate = x.first_gate + Interval.mk (-rad) rad ∧
      envelope_encloses_gates (x.inflate rad).first_gate (x.inflate rad).slices = true ∧
      x.inflate 0 = x := by
  have he := Interval.make_radius rad hrad
  refine ⟨?_, ?_, ?_, ?_, ?_, ?_⟩
  · simp [Tube.inflate, Slice.set_envelope, Slice.set_output_gate, Function.comp_def]
  · simp [Tube.inflate, Slice.set_envelope, Slice.set_output_gate, Function.comp_def, he]
  · simp [Tube.inflate, Slice.set_envelope, Slice.set_output_gate, Function.comp_def, he]
  · simp [Tube.inflate, hne, he]
  · have := inflate_encloses (Interval.make (-rad) rad) x.slices x.first_gate hinv
    simpa [Tube.inflate, hne] using this
  · cases x with
    | mk g l =>
      simp only [Tube.inflate, Interval.add_zero_radius, Slice.set_envelope, Slice.set_output_gate,
        List.map_map, Function.comp_def, ite_self]
      congr 1
      exact List.map_id'' (fun s => by cases s; rfl) l

/-- Witness of C15: the tube of the one slice `[0,1]` of envelope `[0,3]` and gates `[1,2]`,
inflated by `1`: the envelope is `[-1,4]` and the gates are `[0,3]`. -/
theorem C15_inflate_witness :
    Tube.inflate
        ⟨Interval.mk (Dbl.fin 1) (Dbl.fin 2),
          [⟨Interval.mk (Dbl.fin 0) (Dbl.fin 1), Interval.mk (Dbl.fin 0) (Dbl.fin 3),
            Interval.mk (Dbl.fin 1) (Dbl.fin 2)⟩]⟩ (Dbl.fin 1)
      = ⟨Interval.mk (Dbl.fin 0) (Dbl.fin 3),
          [⟨Interval.mk (Dbl.fin 0) (Dbl.fin 1), Interval.mk (Dbl.fin (-1)) (Dbl.fin 4),
            Interval.mk (Dbl.fin 0) (Dbl.fin 3)⟩]⟩ ∧
      envelope_encloses_gates
        (Tube.inflate
          ⟨Interval.mk (Dbl.fin 1) (Dbl.fin 2),
            [⟨Interval.mk (Dbl.fin 0) (Dbl.fin 1), Interval.mk (Dbl.fin 0) (Dbl.fin 3),
              Interval.mk (Dbl.fin 1) (Dbl.fin 2)⟩]⟩ (Dbl.fin 1)).first_gate
        (Tube.inflate
          ⟨Interval.mk (Dbl.fin 1) (Dbl.fin 2),
            [⟨Interval.mk (Dbl.fin 0) (Dbl.fin 1), Interval.mk (Dbl.fin 0) (Dbl.fin 3),
              Interval.mk (Dbl.fin 1) (Dbl.fin 2)⟩]⟩ (Dbl.fin 1)).slices = true :=
  ⟨by decide!,
    (C15_inflate
      ⟨Interval.mk (Dbl.fin 1) (Dbl.fin 2),
        [⟨Interval.mk (Dbl.fin 0) (Dbl.fin 1), Interval.mk (Dbl.fin 0) (Dbl.fin 3),
          Interval.mk (Dbl.fin 1) (Dbl.fin 2)⟩]⟩ (Dbl.fin 1) (by decide) (by decide)
      (by decide)).2.2.2.2.1⟩

/-! ## Bisection -/

theorem largest_first_bisect_none (ratio : Dbl) (y : Interval) :
    largest_first_bisect ratio y = none ↔ y.is_degenerated = true := by
  cases y with
  | empty => simp [largest_first_bisect, Interval.is_degenerated]
  | mk a b =>
    by_cases h : a = b
    · simp [largest_first_bisect, Interval.is_degenerated, h]
    · by_cases hu : (Interval.mk a b).is_unbounded = true
      · simp [largest_first_bisect, Interval.is_degenerated, h, hu]
      · simp [largest_first_bisect, Interval.is_degenerated, h, hu]

/-- C16: for every tube with the partition invariant, every `t` of its domain and every ratio
in `(0,1)`, with a bisector that fails exactly on the intervals without width, as
`ibex::LargestFirst` does: the value `x(t)` is defined; `bisect(t, ratio)` throws the
`Exception` when `x(t)` has no width, and returns a pair of tubes when `x(t)` has a positive
width. The method is `const`: it reads the tube and writes two copies only. -/
theorem C16_bisect (bisector : Dbl → Interval → Option (Interval × Interval))
    (x : Tube) (hx : x.partition_invariant) (d : Interval) (hd : x.domain = some d)
    (t : Dbl) (ht : d.contains t = true) (ratio : Dbl) (hr0 : 0 < ratio) (hr1 : ratio < Dbl.fin 1)
    (hbis : ∀ r : Dbl, 0 < r → r < Dbl.fin 1 → ∀ y : Interval,
      bisector r y = none ↔ y.is_degenerated = true) :
    ∃ xt : Interval, x.eval t = some xt ∧
      (xt.is_degenerated = true →
        x.bisect bisector t ratio = some (Except.error
          "unable to bisect, degenerated slice (ibex::NoBisectableVariableException)")) ∧
      (xt.is_degenerated = false →
        ∃ p : Tube × Tube, x.bisect bisector t ratio = some (Except.ok p)) := by
  obtain ⟨xt, hxt⟩ := Tube.eval_defined x hx.1 t
  refine ⟨xt, hxt, ?_, ?_⟩
  · intro hdeg
    have hb := (hbis ratio hr0 hr1 xt).2 hdeg
    unfold Tube.bisect
    rw [hxt]
    simp only [hb]
  · intro hdeg
    cases hb : bisector ratio xt with
    | none =>
      have := (hbis ratio hr0 hr1 xt).1 hb
      rw [hdeg] at this
      exact absurd this (by simp)
    | some p =>
      obtain ⟨y1, h1, _⟩ := Tube.sample_gate_keeps x d ⟨hx, hd⟩ t ht p.1
      obtain ⟨y2, h2, _⟩ := Tube.sample_gate_keeps x d ⟨hx, hd⟩ t ht p.2
      refine ⟨(y1, y2), ?_⟩
      unfold Tube.bisect
      rw [hxt]
      simp only [hb, Tube.set_at, h1, h2]

/-- Witness of C16: the tube of the one slice `[0,2]` of envelope `[0,4]` and gates `[1,1]`,
bisected with the ratio `1/2`: at `t = 1` the value `[0,4]` has a positive width and the call
returns, at `t = 0` the value is the gate `[1,1]` and the call throws. -/
theorem C16_bisect_witness :
    (∃ p : Tube × Tube,
      Tube.bisect largest_first_bisect
        ⟨Interval.mk (Dbl.fin 1) (Dbl.fin 1),
          [⟨Interval.mk (Dbl.fin 0) (Dbl.fin 2), Interval.mk (Dbl.fin 0) (Dbl.fin 4),
            Interval.mk (Dbl.fin 1) (Dbl.fin 1)⟩]⟩ (Dbl.fin 1) (Dbl.fin (1/2))
        = some (Except.ok p)) ∧
      Tube.bisect largest_first_bisect
        ⟨Interval.mk (Dbl.fin 1) (Dbl.fin 1),
          [⟨Interval.mk (Dbl.fin 0) (Dbl.fin 2), Interval.mk (Dbl.fin 0) (Dbl.fin 4),
            Interval.mk (Dbl.fin 1) (Dbl.fin 1)⟩]⟩ (Dbl.fin 0) (Dbl.fin (1/2))
        = some (Except.error
          "unable to bisect, degenerated slice (ibex::NoBisectableVariableException)") := by
  obtain ⟨xt, h1, _, h3⟩ := C16_bisect largest_first_bisect
    ⟨Interval.mk (Dbl.fin 1) (Dbl.fin 1),
      [⟨Interval.mk (Dbl.fin 0) (Dbl.fin 2), Interval.mk (Dbl.fin 0) (Dbl.fin 4),
        Interval.mk (Dbl.fin 1) (Dbl.fin 1)⟩]⟩ (by decide)
    (Interval.mk (Dbl.fin 0) (Dbl.fin 2)) (by decide) (Dbl.fin 1) (by decide)
    (Dbl.fin (1/2)) (by decide!) (by decide!)
    (fun r _ _ y => largest_first_bisect_none r y)
  obtain ⟨yt, g1, g2, _⟩ := C16_bisect largest_first_bisect
    ⟨Interval.mk (Dbl.fin 1) (Dbl.fin 1),
      [⟨Interval.mk (Dbl.fin 0) (Dbl.fin 2), Interval.mk (Dbl.fin 0) (Dbl.fin 4),
        Interval.mk (Dbl.fin 1) (Dbl.fin 1)⟩]⟩ (by decide)
    (Interval.mk (Dbl.fin 0) (Dbl.fin 2)) (by decide) (Dbl.fin 0) (by decide)
    (Dbl.fin (1/2)) (by decide!) (by decide!)
    (fun r _ _ y => largest_first_bisect_none r y)
  have e1 : xt = Interval.mk (Dbl.fin 0) (Dbl.fin 4) :=
    Option.some.inj (h1.symm.trans (by decide))
  have e2 : yt = Interval.mk (Dbl.fin 1) (Dbl.fin 1) :=
    Option.some.inj (g1.symm.trans (by decide))
  exact ⟨h3 (by rw [e1]; decide), g2 (by rw [e2]; decide)⟩

/-! ## Points of exact coordinates -/

theorem Interval.sub_mk (a b c d : Dbl) :
    Interval.mk a b - Interval.mk c d = Interval.mk (a - d) (b - c) := rfl

theorem Interval.exact_sub (a b : ℚ) :
    Interval.mk (Dbl.fin a) (Dbl.fin a) - Interval.mk (Dbl.fin b) (Dbl.fin b)
      = Interval.mk (Dbl.fin (a - b)) (Dbl.fin (a - b)) := by
  rw [Interval.sub_mk, Dbl.fin_sub_fin]

theorem Interval.exact_mul (a b : ℚ) :
    Interval.mk (Dbl.fin a) (Dbl.fin a) * Interval.mk (Dbl.fin b) (Dbl.fin b)
      = Interval.mk (Dbl.fin (a * b)) (Dbl.fin (a * b)) := by
  rw [Interval.mul_mk]
  simp only [Dbl.fin_mul_fin, min_self, max_self]

theorem Interval.exact_add (a b : ℚ) :
    Interval.mk (Dbl.fin a) (Dbl.fin a) + Interval.mk (Dbl.fin b) (Dbl.fin b)
      = Interval.mk (Dbl.fin (a + b)) (Dbl.fin (a + b)) := by
  rw [Interval.add_mk, Dbl.fin_add_fin]

theorem Interval.exact_sqr (a : ℚ) :
    (Interval.mk (Dbl.fin a) (Dbl.fin a)).sqr = Interval.mk (Dbl.fin (a * a)) (Dbl.fin (a * a)) := by
  show (if Dbl.fin a ≤ 0 ∧ 0 ≤ Dbl.fin a then
      Interval.mk 0 (max (Dbl.fin a * Dbl.fin a) (Dbl.fin a * Dbl.fin a))
    else Interval.mk (min (Dbl.fin a * Dbl.fin a) (Dbl.fin a * Dbl.fin a))
      (max (Dbl.fin a * Dbl.fin a) (Dbl.fin a * Dbl.fin a))) = _
  by_cases h : Dbl.fin a ≤ 0 ∧ 0 ≤ Dbl.fin a
  · rw [if_pos h]
    have h0 : a = 0 := by
      rw [Dbl.zero_def, Dbl.fin_le_fin, Dbl.fin_le_fin] at h
      exact le_antisymm h.1 h.2
    subst h0
    simp [Dbl.zero_def]
  · rw [if_neg h]
    simp only [Dbl.fin_mul_fin, min_self, max_self]

theorem Point.coords_exact (a b : ℚ) : (Point.exact a b).coords = (a, b) := rfl

theorem Point.exact_exists (a b : ℚ) : (Point.exact a b).does_not_exist = false := rfl

theorem Point.exact_inj {a b c d : ℚ} (h : Point.exact a b = Point.exact c d) :
    a = c ∧ b = d := by
  have := congrArg Point.coords h
  rw [Point.coords_exact, Point.coords_exact] at this
  exact ⟨congrArg Prod.fst this, congrArg Prod.snd this⟩

/-- The orientation of three points of exact coordinates is the sign of their cross
product. -/
theorem GrahamScan.orientation_exact (a b c : ℚ × ℚ) :
    GrahamScan.orientation (Point.exact a.1 a.2) (Point.exact b.1 b.2) (Point.exact c.1 c.2) =
      if cross a b c = 0 then OrientationInterval.UNDEFINED
      else if cross a b c < 0 then OrientationInterval.CLOCKWISE
      else OrientationInterval.COUNTERCLOCKWISE := by
  have e : (b.2 - a.2) * (c.1 - b.1) - (b.1 - a.1) * (c.2 - b.2) = -cross a b c := by
    unfold cross
    ring
  unfold GrahamScan.orientation Point.exact
  simp only [Interval.exact_sub, Interval.exact_mul, Interval.contains, Interval.lb,
    Dbl.zero_def, Dbl.fin_le_fin, Dbl.fin_lt_fin, e]
  by_cases h0 : cross a b c = 0
  · simp [h0]
  · rw [if_neg h0]
    have h1 : ¬ (-cross a b c ≤ 0 ∧ 0 ≤ -cross a b c) := by
      intro h
      apply h0
      linarith [h.1, h.2]
    simp only [h1, decide_False, Bool.false_eq_true, if_false, Left.neg_pos_iff]

theorem GrahamScan.dist_exact (a b : ℚ × ℚ) :
    (GrahamScan.dist (Point.exact a.1 a.2) (Point.exact b.1 b.2)).mid = Dbl.fin (dist2 a b) := by
  unfold GrahamScan.dist Point.exact
  simp only [Interval.exact_sub, Interval.exact_sqr, Interval.exact_add, Interval.mid]
  congr 1
  unfold dist2
  ring

/-- The comparator of the sort on points of exact coordinates. -/
theorem GrahamScan.PointsSorter_exact (o a b : ℚ × ℚ) :
    GrahamScan.PointsSorter (Point.exact o.1 o.2) (Point.exact a.1 a.2) (Point.exact b.1 b.2)
      = true ↔ angle_le o a b := by
  unfold GrahamScan.PointsSorter angle_le
  rw [GrahamScan.orientation_exact]
  by_cases h0 : cross o a b = 0
  · simp [h0, GrahamScan.dist_exact]
  · rw [if_neg h0]
    by_cases h1 : cross o a b < 0
    · rw [if_pos h1]
      simp [h0, not_lt.2 (le_of_lt h1)]
    · rw [if_neg h1]
      have : 0 < cross o a b := lt_of_le_of_ne (not_lt.1 h1) (Ne.symm h0)
      simp [this]

/-- Three points of exact coordinates are aligned when their cross product is zero. -/
theorem Point.aligned_exact (o a b : ℚ × ℚ) :
    Point.aligned (Point.exact o.1 o.2) (Point.exact a.1 a.2) (Point.exact b.1 b.2)
      = BoolInterval.YES ↔ cross o a b = 0 := by
  unfold Point.aligned Point.exact cross
  simp only [Interval.exact_sub, Interval.exact_mul, Dbl.zero_def, Interval.point_fin,
    Interval.contains, Dbl.fin_le_fin]
  by_cases h0 : (a.1 - o.1) * (b.2 - o.2) - (a.2 - o.2) * (b.1 - o.1) = 0
  · simp [h0]
  · simp only [Interval.mk.injEq, Dbl.fin.injEq, and_self, h0, if_false]
    constructor
    · intro h
      split at h <;> simp at h
    · intro h
      exact absurd h (fun h => h)

/-! ## The order of the points around the pivot -/

theorem cross_swap (o a b : ℚ × ℚ) : cross o b a = -cross o a b := by
  unfold cross
  ring

theorem cross_self_left (o a : ℚ × ℚ) : cross o o a = 0 := by
  unfold cross
  ring

theorem cross_self_right (o a : ℚ × ℚ) : cross o a o = 0 := by
  unfold cross
  ring

theorem dist2_self (o : ℚ × ℚ) : dist2 o o = 0 := by
  unfold dist2
  ring

theorem dist2_nonneg (o a : ℚ × ℚ) : 0 ≤ dist2 o a := by
  unfold dist2
  positivity

theorem dist2_eq_zero {o a : ℚ × ℚ} (h : dist2 o a ≤ 0) : a = o := by
  unfold dist2 at h
  have h1 : (o.1 - a.1) ^ 2 = 0 := by nlinarith [sq_nonneg (o.1 - a.1), sq_nonneg (o.2 - a.2)]
  have h2 : (o.2 - a.2) ^ 2 = 0 := by nlinarith [sq_nonneg (o.1 - a.1), sq_nonneg (o.2 - a.2)]
  have h3 : o.1 - a.1 = 0 := pow_eq_zero_iff (by norm_num) |>.1 h1
  have h4 : o.2 - a.2 = 0 := pow_eq_zero_iff (by norm_num) |>.1 h2
  exact Prod.ext (by linarith) (by linarith)

theorem angle_le_total (o a b : ℚ × ℚ) : angle_le o a b ∨ angle_le o b a := by
  unfold angle_le
  rw [cross_swap o a b]
  rcases lt_trichotomy (cross o a b) 0 with h | h | h
  · exact Or.inr (Or.inl (by linarith))
  · rcases le_total (dist2 o a) (dist2 o b) with h2 | h2
    · exact Or.inl (Or.inr ⟨h, h2⟩)
    · exact Or.inr (Or.inr ⟨by linarith, h2⟩)
  · exact Or.inl (Or.inl h)

theorem angle_le_pivot (o a : ℚ × ℚ) : angle_le o o a :=
  Or.inr ⟨cross_self_left o a, by rw [dist2_self]; exact dist2_nonneg o a⟩

theorem angle_le_to_pivot {o a : ℚ × ℚ} (h : angle_le o a o) : a = o := by
  rcases h with h | ⟨_, h⟩
  · rw [cross_self_right] at h
    exact absurd h (lt_irrefl 0)
  · rw [dist2_self] at h
    exact dist2_eq_zero h

theorem angle_trans_aux (xa ya xb yb xc yc : ℚ)
    (ha : 0 < ya ∨ (ya = 0 ∧ 0 ≤ xa)) (hb : 0 < yb ∨ (yb = 0 ∧ 0 ≤ xb))
    (hc : 0 < yc ∨ (yc = 0 ∧ 0 ≤ xc))
    (hab : 0 < xa * yb - ya * xb ∨
      (xa * yb - ya * xb = 0 ∧ xa ^ 2 + ya ^ 2 ≤ xb ^ 2 + yb ^ 2))
    (hbc : 0 < xb * yc - yb * xc ∨
      (xb * yc - yb * xc = 0 ∧ xb ^ 2 + yb ^ 2 ≤ xc ^ 2 + yc ^ 2)) :
    0 < xa * yc - ya * xc ∨ (xa * yc - ya * xc = 0 ∧ xa ^ 2 + ya ^ 2 ≤ xc ^ 2 + yc ^ 2) := by
  have hya : 0 ≤ ya := by rcases ha with h | h; exact le_of_lt h; exact le_of_eq h.1.symm
  have hyc : 0 ≤ yc := by rcases hc with h | h; exact le_of_lt h; exact le_of_eq h.1.symm
  have hp : 0 ≤ xa * yb - ya * xb := by
    rcases hab with h | h; exact le_of_lt h; exact le_of_eq h.1.symm
  have hq : 0 ≤ xb * yc - yb * xc := by
    rcases hbc with h | h; exact le_of_lt h; exact le_of_eq h.1.symm
  have hid : (xa * yc - ya * xc) * yb = (xb * yc - yb * xc) * ya + (xa * yb - ya * xb) * yc := by
    ring
  rcases hb with hb | ⟨hb0, hbx⟩
  · -- `b` is strictly above the pivot
    have hr : 0 ≤ xa * yc - ya * xc := by
      by_contra hneg
      have h1 : (xa * yc - ya * xc) * yb < 0 := mul_neg_of_neg_of_pos (not_le.1 hneg) hb
      have h2 : 0 ≤ (xb * yc - yb * xc) * ya := mul_nonneg hq hya
      have h3 : 0 ≤ (xa * yb - ya * xb) * yc := mul_nonneg hp hyc
      linarith
    rcases lt_or_eq_of_le hr with hr | hr
    · exact Or.inl hr
    · right
      refine ⟨hr.symm, ?_⟩
      have h2 : 0 ≤ (xb * yc - yb * xc) * ya := mul_nonneg hq hya
      have h3 : 0 ≤ (xa * yb - ya * xb) * yc := mul_nonneg hp hyc
      have hz : (xa * yc - ya * xc) * yb = 0 := by rw [← hr]; ring
      have h4 : (xb * yc - yb * xc) * ya = 0 := by linarith
      have h5 : (xa * yb - ya * xb) * yc = 0 := by linarith
      rcases hab with hab | ⟨hab0, habd⟩
      · -- `c` is on the horizontal of the pivot: impossible
        exfalso
        have hyc0 : yc = 0 := by
          rcases mul_eq_zero.1 h5 with h | h
          · linarith
          · exact h
        have hxc : 0 ≤ xc := by
          rcases hc with h | h
          · linarith
          · exact h.2
        rw [hyc0] at hq hbc
        have hxc0 : xc = 0 := by nlinarith [mul_nonneg (le_of_lt hb) hxc]
        rcases hbc with h | ⟨_, h⟩
        · rw [hxc0] at h
          simp at h
        · rw [hxc0] at h
          nlinarith [sq_nonneg xb, sq_pos_of_pos hb]
      · rcases hbc with hbc | ⟨_, hbcd⟩
        · -- `a` is the pivot
          have hya0 : ya = 0 := by
            rcases mul_eq_zero.1 h4 with h | h
            · linarith
            · exact h
          have hxa0 : xa = 0 := by
            rw [hya0] at hab0
            have : xa * yb = 0 := by linarith
            rcases mul_eq_zero.1 this with h | h
            · exact h
            · linarith
          rw [hya0, hxa0]
          nlinarith [sq_nonneg xc, sq_nonneg yc]
        · linarith
  · -- `b` is on the horizontal of the pivot
    rw [hb0] at hab hbc hp
    rcases lt_or_eq_of_le hbx with hbx | hbx
    · have hya0 : ya = 0 := by
        have : ya * xb ≤ 0 := by linarith
        have : ya ≤ 0 := by
          by_contra h
          have := mul_pos (not_le.1 h) hbx
          linarith
        linarith
      have hxa : 0 ≤ xa := by
        rcases ha with h | h
        · linarith
        · exact h.2
      rw [hya0] at hab ⊢
      have habd : xa ^ 2 ≤ xb ^ 2 := by
        rcases hab with h | ⟨_, h⟩
        · simp at h
        · nlinarith
      rcases hc with hc | ⟨hc0, hcx⟩
      · rcases lt_or_eq_of_le hxa with h | h
        · left
          have := mul_pos h hc
          linarith
        · right
          rw [← h]
          refine ⟨by ring, ?_⟩
          nlinarith [sq_nonneg xc, sq_nonneg yc]
      · right
        rw [hc0] at hbc ⊢
        refine ⟨by ring, ?_⟩
        rcases hbc with h | ⟨_, h⟩
        · simp at h
        · nlinarith
    · -- `b` is the pivot, and so is `a`
      rw [← hbx] at hab
      rcases hab with h | ⟨_, h⟩
      · simp at h
      · have h1 : xa ^ 2 + ya ^ 2 ≤ 0 := by nlinarith
        have hxa0 : xa = 0 := by nlinarith [sq_nonneg xa, sq_nonneg ya]
        have hya0 : ya = 0 := by nlinarith [sq_nonneg xa, sq_nonneg ya]
        right
        rw [hxa0, hya0]
        refine ⟨by ring, ?_⟩
        nlinarith [sq_nonneg xc, sq_nonneg yc]

theorem above_iff (o a : ℚ × ℚ) :
    above o a ↔ 0 < a.2 - o.2 ∨ (a.2 - o.2 = 0 ∧ 0 ≤ a.1 - o.1) := by
  unfold above
  constructor
  · rintro (h | ⟨h1, h2⟩)
    · exact Or.inl (by linarith)
    · exact Or.inr ⟨by linarith, by linarith⟩
  · rintro (h | ⟨h1, h2⟩)
    · exact Or.inl (by linarith)
    · exact Or.inr ⟨by linarith, by linarith⟩

theorem angle_le_iff (o a b : ℚ × ℚ) :
    angle_le o a b ↔
      0 < (a.1 - o.1) * (b.2 - o.2) - (a.2 - o.2) * (b.1 - o.1) ∨
      ((a.1 - o.1) * (b.2 - o.2) - (a.2 - o.2) * (b.1 - o.1) = 0 ∧
        (a.1 - o.1) ^ 2 + (a.2 - o.2) ^ 2 ≤ (b.1 - o.1) ^ 2 + (b.2 - o.2) ^ 2) := by
  unfold angle_le cross dist2
  have e1 : (o.1 - a.1) ^ 2 + (o.2 - a.2) ^ 2 = (a.1 - o.1) ^ 2 + (a.2 - o.2) ^ 2 := by ring
  have e2 : (o.1 - b.1) ^ 2 + (o.2 - b.2) ^ 2 = (b.1 - o.1) ^ 2 + (b.2 - o.2) ^ 2 := by ring
  rw [e1, e2]

/-- The order of the sort is transitive on the points above the pivot. -/
theorem angle_le_trans (o a b c : ℚ × ℚ) (ha : above o a) (hb : above o b) (hc : above o c)
    (hab : angle_le o a b) (hbc : angle_le o b c) : angle_le o a c := by
  rw [angle_le_iff] at hab hbc ⊢
  rw [above_iff] at ha hb hc
  exact angle_trans_aux _ _ _ _ _ _ ha hb hc hab hbc

/-! ## The sort -/

theorem GrahamScan.unguarded_linear_insert_perm (comp : Point → Point → Bool) (val : Point) :
    ∀ (l r : List Point), GrahamScan.unguarded_linear_insert comp val l = some r →
      r.Perm (val :: l)
  | [], _, h => by simp [GrahamScan.unguarded_linear_insert] at h
  | next :: before, r, h => by
    unfold GrahamScan.unguarded_linear_insert at h
    by_cases hc : comp val next = true
    · rw [if_pos hc] at h
      cases hr : GrahamScan.unguarded_linear_insert comp val before with
      | none => rw [hr] at h; simp at h
      | some r2 =>
        rw [hr] at h
        simp only [Option.map_some', Option.some.injEq] at h
        subst h
        have ih := GrahamScan.unguarded_linear_insert_perm comp val before r2 hr
        exact (List.Perm.cons next ih).trans (List.Perm.swap val next before)
    · rw [if_neg hc] at h
      rw [← Option.some.inj h]

/-- The insertion stays in the vector when `val` does not precede one of the cells before it,
as it is after the test of `*first` in `__insertion_sort`. -/
theorem GrahamScan.unguarded_linear_insert_guarded (comp : Point → Point → Bool) (val : Point) :
    ∀ (l : List Point), (∃ e ∈ l, comp val e ≠ true) →
      ∃ r, GrahamScan.unguarded_linear_insert comp val l = some r
  | [], h => by
    obtain ⟨e, he, _⟩ := h
    exact absurd he (List.not_mem_nil e)
  | next :: before, h => by
    unfold GrahamScan.unguarded_linear_insert
    by_cases hc : comp val next = true
    · rw [if_pos hc]
      obtain ⟨e, he, hne⟩ := h
      have hb : ∃ e ∈ before, comp val e ≠ true := by
        rcases List.mem_cons.1 he with rfl | he2
        · exact absurd hc hne
        · exact ⟨e, he2, hne⟩
      obtain ⟨r, hr⟩ := GrahamScan.unguarded_linear_insert_guarded comp val before hb
      exact ⟨next :: r, by rw [hr]; rfl⟩
    · rw [if_neg hc]
      exact ⟨_, rfl⟩

theorem GrahamScan.unguarded_linear_insert_sorted (comp : Point → Point → Bool)
    (S : Point → Prop)
    (htot : ∀ a b, S a → S b → comp a b = true ∨ comp b a = true)
    (htrans : ∀ a b c, S a → S b → S c → comp a b = true → comp b c = true → comp a c = true)
    (val : Point) (hval : S val) :
    ∀ (l r : List Point), (∀ p ∈ l, S p) → l.Pairwise (fun a b => comp b a = true) →
      GrahamScan.unguarded_linear_insert comp val l = some r →
      r.Pairwise (fun a b => comp b a = true)
  | [], _, _, _, h => by simp [GrahamScan.unguarded_linear_insert] at h
  | next :: before, r, hl, hs, h => by
    have hn : S next := hl next (List.mem_cons_self _ _)
    have hb : ∀ p ∈ before, S p := fun p hp => hl p (List.mem_cons_of_mem _ hp)
    obtain ⟨h1, h2⟩ := List.pairwise_cons.1 hs
    unfold GrahamScan.unguarded_linear_insert at h
    by_cases hc : comp val next = true
    · rw [if_pos hc] at h
      cases hr : GrahamScan.unguarded_linear_insert comp val before with
      | none => rw [hr] at h; simp at h
      | some r2 =>
        rw [hr] at h
        simp only [Option.map_some', Option.some.injEq] at h
        subst h
        refine List.pairwise_cons.2
          ⟨?_, GrahamScan.unguarded_linear_insert_sorted comp S htot htrans val hval before r2 hb
            h2 hr⟩
        intro x hx
        have hx2 := (GrahamScan.unguarded_linear_insert_perm comp val before r2 hr).subset hx
        rcases List.mem_cons.1 hx2 with rfl | hx3
        · exact hc
        · exact h1 x hx3
    · rw [if_neg hc] at h
      rw [← Option.some.inj h]
      have hnv : comp next val = true := by
        rcases htot val next hval hn with h3 | h3
        · exact absurd h3 hc
        · exact h3
      refine List.pairwise_cons.2 ⟨?_, hs⟩
      intro x hx
      rcases List.mem_cons.1 hx with rfl | hx2
      · exact hnv
      · exact htrans x next val (hb x hx2) hn hval (h1 x hx2) hnv

/-- A turn of the insertion sort returns, whatever the comparator is, and it permutes the
cells. -/
theorem GrahamScan.insertion_step_perm (comp : Point → Point → Bool) (sorted : List Point)
    (val : Point) :
    ∃ r, GrahamScan.insertion_step comp sorted val = some r ∧ r.Perm (val :: sorted) := by
  cases sorted with
  | nil => exact ⟨[val], rfl, List.Perm.refl _⟩
  | cons first rest =>
    unfold GrahamScan.insertion_step
    by_cases hc : comp val first = true
    · simp only [hc, if_true]
      exact ⟨_, rfl, List.Perm.refl _⟩
    · simp only [hc, Bool.false_eq_true, if_false]
      obtain ⟨r, hr⟩ := GrahamScan.unguarded_linear_insert_guarded comp val (first :: rest).reverse
        ⟨first, List.mem_reverse.2 (List.mem_cons_self _ _), hc⟩
      refine ⟨r.reverse, by rw [hr]; rfl, ?_⟩
      have hp := GrahamScan.unguarded_linear_insert_perm comp val _ r hr
      exact (List.reverse_perm r).trans
        (hp.trans (List.Perm.cons val (List.reverse_perm (first :: rest))))

theorem GrahamScan.insertion_step_sorted (comp : Point → Point → Bool) (S : Point → Prop)
    (htot : ∀ a b, S a → S b → comp a b = true ∨ comp b a = true)
    (htrans : ∀ a b c, S a → S b → S c → comp a b = true → comp b c = true → comp a c = true)
    (val : Point) (hval : S val) (sorted r : List Point) (hl : ∀ p ∈ sorted, S p)
    (hs : sorted.Pairwise (fun a b => comp a b = true))
    (h : GrahamScan.insertion_step comp sorted val = some r) :
    r.Pairwise (fun a b => comp a b = true) := by
  cases sorted with
  | nil =>
    simp only [GrahamScan.insertion_step, Option.some.injEq] at h
    subst h
    exact List.pairwise_singleton _ _
  | cons first rest =>
    unfold GrahamScan.insertion_step at h
    by_cases hc : comp val first = true
    · simp only [hc, if_true, Option.some.injEq] at h
      subst h
      refine List.pairwise_cons.2 ⟨?_, hs⟩
      intro x hx
      rcases List.mem_cons.1 hx with rfl | hx2
      · exact hc
      · exact htrans val first x hval (hl first (List.mem_cons_self _ _))
          (hl x (List.mem_cons_of_mem _ hx2)) hc ((List.pairwise_cons.1 hs).1 x hx2)
    · simp only [hc, Bool.false_eq_true, if_false] at h
      cases hr : GrahamScan.unguarded_linear_insert comp val (first :: rest).reverse with
      | none => rw [hr] at h; simp at h
      | some r2 =>
        rw [hr] at h
        simp only [Option.map_some', Option.some.injEq] at h
        subst h
        have := GrahamScan.unguarded_linear_insert_sorted comp S htot htrans val hval
          (first :: rest).reverse r2 (fun p hp => hl p (List.mem_reverse.1 hp))
          (List.pairwise_reverse.2 hs) hr
        exact List.pairwise_reverse.2 this

theorem GrahamScan.insertion_foldlM_spec (comp : Point → Point → Bool) :
    ∀ (l acc : List Point), ∃ r, l.foldlM (GrahamScan.insertion_step comp) acc = some r ∧
      r.Perm (acc ++ l) ∧
      ∀ (S : Point → Prop),
        (∀ a b, S a → S b → comp a b = true ∨ comp b a = true) →
        (∀ a b c, S a → S b → S c → comp a b = true → comp b c = true → comp a c = true) →
        (∀ p ∈ acc ++ l, S p) → acc.Pairwise (fun a b => comp a b = true) →
        r.Pairwise (fun a b => comp a b = true)
  | [], acc => ⟨acc, rfl, by simp, fun _ _ _ _ h => h⟩
  | val :: l, acc => by
    obtain ⟨r1, h1, p1⟩ := GrahamScan.insertion_step_perm comp acc val
    obtain ⟨r, h2, p2, s2⟩ := GrahamScan.insertion_foldlM_spec comp l r1
    refine ⟨r, ?_, ?_, ?_⟩
    · rw [List.foldlM_cons, h1]
      exact h2
    · refine p2.trans ((List.Perm.append_right l p1).trans ?_)
      simpa using (List.perm_middle : (acc ++ val :: l).Perm (val :: (acc ++ l))).symm
    · intro S htot htrans hS hacc
      apply s2 S htot htrans
      · intro p hp
        rcases List.mem_append.1 hp with hp | hp
        · rcases List.mem_cons.1 (p1.subset hp) with rfl | hp2
          · exact hS p (by simp)
          · exact hS p (by simp [hp2])
        · exact hS p (by simp [hp])
      · exact GrahamScan.insertion_step_sorted comp S htot htrans val (hS val (by simp)) acc r1
          (fun p hp => hS p (by simp [hp])) hacc h1

/-- The insertion sort returns, whatever the comparator is, and it permutes the vector; the
result is in the order of a comparator that is total and transitive on the points. -/
theorem GrahamScan.insertion_sort_spec (comp : Point → Point → Bool) (l : List Point) :
    ∃ r, GrahamScan.insertion_sort comp l = some r ∧ r.Perm l ∧
      ∀ (S : Point → Prop),
        (∀ a b, S a → S b → comp a b = true ∨ comp b a = true) →
        (∀ a b c, S a → S b → S c → comp a b = true → comp b c = true → comp a c = true) →
        (∀ p ∈ l, S p) → r.Pairwise (fun a b => comp a b = true) := by
  cases l with
  | nil => exact ⟨[], rfl, List.Perm.refl _, fun _ _ _ _ => List.Pairwise.nil⟩
  | cons first rest =>
    obtain ⟨r, h, p, s⟩ := GrahamScan.insertion_foldlM_spec comp rest [first]
    exact ⟨r, h, p, fun S htot htrans hS =>
      s S htot htrans hS (List.pairwise_singleton _ _)⟩

theorem GrahamScan.write_length (v : List Point) (i : Nat) (x : Point) (r : List Point)
    (h : GrahamScan.write v i x = some r) : r.length = v.length := by
  unfold GrahamScan.write at h
  by_cases hi : i < v.length
  · rw [if_pos hi] at h
    rw [← Option.some.inj h, List.length_set]
  · rw [if_neg hi] at h
    exact absurd h (by simp)

theorem GrahamScan.iter_swap_length (v : List Point) (a b : Nat) (r : List Point)
    (h : GrahamScan.iter_swap v a b = some r) : r.length = v.length := by
  unfold GrahamScan.iter_swap at h
  cases hx : v[a]? with
  | none => simp [hx] at h
  | some x =>
    cases hy : v[b]? with
    | none => simp [hx, hy] at h
    | some y =>
      cases hw : GrahamScan.write v a y with
      | none => simp [hx, hy, hw] at h
      | some w =>
        simp only [hx, hy, hw, Option.bind_eq_bind, Option.some_bind] at h
        rw [GrahamScan.write_length w b x r h, GrahamScan.write_length v a y w hw]

/-- The first loop of the partition stops at a cell of the vector, at or after the one where it
starts. -/
theorem GrahamScan.scan_up_bounds (comp : Point → Point → Bool) (pivot : Point) :
    ∀ (l : List Point) (first j : Nat), GrahamScan.scan_up comp pivot l first = some j →
      first ≤ j ∧ j < first + l.length
  | [], _, _, h => by simp [GrahamScan.scan_up] at h
  | x :: rest, first, j, h => by
    unfold GrahamScan.scan_up at h
    by_cases hc : comp x pivot = true
    · rw [if_pos hc] at h
      have := GrahamScan.scan_up_bounds comp pivot rest (first + 1) j h
      simp only [List.length_cons]
      omega
    · rw [if_neg hc] at h
      have := Option.some.inj h
      simp only [List.length_cons]
      omega

/-- The partition has enough fuel with the length of the vector: more fuel does not change
what it returns. -/
theorem GrahamScan.unguarded_partition_fuel (comp : Point → Point → Bool) (pivot : Nat) :
    ∀ (fuel : Nat) (v : List Point) (first last : Nat), v.length ≤ fuel + first →
      GrahamScan.unguarded_partition comp (fuel + 1) v first last pivot
        = GrahamScan.unguarded_partition comp fuel v first last pivot
  | 0, v, first, last, h => by
    rw [GrahamScan.unguarded_partition, GrahamScan.unguarded_partition]
    have hd : v.drop first = [] := List.drop_eq_nil_of_le (by omega)
    rw [hd]
    cases v[pivot]? <;> rfl
  | fuel + 1, v, first, last, h => by
    rw [GrahamScan.unguarded_partition]
    conv_rhs => rw [GrahamScan.unguarded_partition]
    cases v[pivot]? with
    | none => rfl
    | some p =>
      simp only [Option.bind_eq_bind, Option.some_bind]
      cases hs : GrahamScan.scan_up comp p (v.drop first) first with
      | none => rfl
      | some f2 =>
        simp only [Option.some_bind]
        by_cases hl : v.length < last
        · simp only [hl, if_true]
        · simp only [hl, if_false]
          cases GrahamScan.scan_down comp p (v.take last).reverse (last - 1) with
          | none => rfl
          | some l2 =>
            simp only [Option.some_bind]
            by_cases hlt : f2 < l2
            · simp only [hlt, if_true]
              cases hw : GrahamScan.iter_swap v f2 l2 with
              | none => rfl
              | some w =>
                simp only [Option.some_bind]
                have hb := GrahamScan.scan_up_bounds comp p _ _ _ hs
                exact GrahamScan.unguarded_partition_fuel comp pivot fuel w (f2 + 1) l2
                  (by rw [GrahamScan.iter_swap_length v f2 l2 w hw]; omega)
            · simp only [hlt, if_false]

theorem GrahamScan.unguarded_partition_enough (comp : Point → Point → Bool)
    (v : List Point) (first last pivot : Nat) (k : Nat) :
    GrahamScan.unguarded_partition comp (v.length + k) v first last pivot
      = GrahamScan.unguarded_partition comp v.length v first last pivot := by
  induction k with
  | zero => rfl
  | succ k ih =>
    rw [← ih]
    exact GrahamScan.unguarded_partition_fuel comp pivot (v.length + k) v first last (by omega)

/-- The heap has enough fuel above the place of the hole. -/
theorem GrahamScan.push_heap_fuel (comp : Point → Point → Bool) (first topIndex : Nat)
    (value : Point) :
    ∀ (fuel : Nat) (v : List Point) (holeIndex : Nat), holeIndex ≤ fuel →
      GrahamScan.push_heap comp (fuel + 2) v first holeIndex topIndex value
        = GrahamScan.push_heap comp (fuel + 1) v first holeIndex topIndex value
  | 0, v, holeIndex, h => by
    have h0 : holeIndex = 0 := by omega
    subst h0
    rw [GrahamScan.push_heap, GrahamScan.push_heap]
    simp
  | fuel + 1, v, holeIndex, h => by
    rw [GrahamScan.push_heap]
    conv_rhs => rw [GrahamScan.push_heap]
    by_cases ht : topIndex < holeIndex
    · simp only [ht, if_true, Option.bind_eq_bind]
      cases v[first + (holeIndex - 1) / 2]? with
      | none => rfl
      | some p =>
        simp only [Option.some_bind]
        by_cases hc : comp p value = true
        · simp only [hc, if_true]
          cases GrahamScan.write v (first + holeIndex) p with
          | none => rfl
          | some w =>
            simp only [Option.some_bind]
            exact GrahamScan.push_heap_fuel comp first topIndex value fuel w _ (by omega)
        · rw [if_neg hc, if_neg hc]
    · simp only [ht, if_false]

/-- The loop of `__adjust_heap` has enough fuel above `(len - 1) / 2`. -/
theorem GrahamScan.adjust_heap_loop_fuel (comp : Point → Point → Bool) (first len : Nat) :
    ∀ (fuel : Nat) (v : List Point) (holeIndex secondChild : Nat),
      (len - 1) / 2 ≤ fuel + secondChild →
      GrahamScan.adjust_heap_loop comp first len (fuel + 2) v holeIndex secondChild
        = GrahamScan.adjust_heap_loop comp first len (fuel + 1) v holeIndex secondChild
  | 0, v, holeIndex, secondChild, h => by
    rw [GrahamScan.adjust_heap_loop, GrahamScan.adjust_heap_loop]
    rw [if_neg (by omega), if_neg (by omega)]
  | fuel + 1, v, holeIndex, secondChild, h => by
    rw [GrahamScan.adjust_heap_loop]
    conv_rhs => rw [GrahamScan.adjust_heap_loop]
    by_cases hc : secondChild < (len - 1) / 2
    · simp only [hc, if_true, Option.bind_eq_bind]
      cases v[first + 2 * (secondChild + 1)]? with
      | none => rfl
      | some a =>
        simp only [Option.some_bind]
        cases v[first + (2 * (secondChild + 1) - 1)]? with
        | none => rfl
        | some b =>
          simp only [Option.some_bind]
          cases v[first + if comp a b = true then 2 * (secondChild + 1) - 1
              else 2 * (secondChild + 1)]? with
          | none => rfl
          | some c =>
            simp only [Option.some_bind]
            cases GrahamScan.write v (first + holeIndex) c with
            | none => rfl
            | some w =>
              simp only [Option.some_bind]
              exact GrahamScan.adjust_heap_loop_fuel comp first len fuel w _ _
                (by split <;> omega)
    · simp only [hc, if_false]

theorem GrahamScan.push_heap_enough (comp : Point → Point → Bool) (v : List Point)
    (first holeIndex topIndex : Nat) (value : Point) (k : Nat) :
    GrahamScan.push_heap comp (holeIndex + 1 + k) v first holeIndex topIndex value
      = GrahamScan.push_heap comp (holeIndex + 1) v first holeIndex topIndex value := by
  induction k with
  | zero => rfl
  | succ k ih =>
    rw [← ih, show holeIndex + 1 + (k + 1) = holeIndex + k + 2 by omega,
      show holeIndex + 1 + k = holeIndex + k + 1 by omega]
    exact GrahamScan.push_heap_fuel comp first topIndex value (holeIndex + k) v holeIndex
      (by omega)

theorem GrahamScan.adjust_heap_loop_enough (comp : Point → Point → Bool) (first len : Nat)
    (v : List Point) (holeIndex secondChild : Nat) (k : Nat) :
    GrahamScan.adjust_heap_loop comp first len (len + 1 + k) v holeIndex secondChild
      = GrahamScan.adjust_heap_loop comp first len (len + 1) v holeIndex secondChild := by
  induction k with
  | zero => rfl
  | succ k ih =>
    rw [← ih, show len + 1 + (k + 1) = len + k + 2 by omega,
      show len + 1 + k = len + k + 1 by omega]
    exact GrahamScan.adjust_heap_loop_fuel comp first len (len + k) v holeIndex secondChild
      (by omega)

/-- On at most 16 points `std::sort` is `__insertion_sort` alone: `__introsort_loop` leaves a
range of at most `_S_threshold` cells as it is. -/
theorem GrahamScan.sort_eq_insertion_sort (comp : Point → Point → Bool) (l : List Point)
    (h : l.length ≤ 16) : GrahamScan.sort comp l = GrahamScan.insertion_sort comp l := by
  cases l with
  | nil => rfl
  | cons a l =>
    have h1 : ∀ d, GrahamScan.introsort_loop comp d (a :: l) 0 (a :: l).length
        = some (a :: l) := by
      intro d
      have hn : ¬ 16 < (a :: l).length - 0 := by
        rw [Nat.sub_zero]
        exact not_lt.2 h
      cases d with
      | zero => rw [GrahamScan.introsort_loop, if_neg hn]
      | succ d => rw [GrahamScan.introsort_loop, if_neg hn]
    unfold GrahamScan.sort
    rw [h1]
    show GrahamScan.final_insertion_sort comp (a :: l) = _
    rw [GrahamScan.final_insertion_sort, if_neg (not_lt.2 h)]

/-- The sort of a vector of at most 16 points returns. -/
theorem GrahamScan.sort_returns (comp : Point → Point → Bool) (l : List Point)
    (h : l.length ≤ 16) : ∃ r, GrahamScan.sort comp l = some r := by
  obtain ⟨r, hr, _⟩ := GrahamScan.insertion_sort_spec comp l
  exact ⟨r, by rw [GrahamScan.sort_eq_insertion_sort comp l h, hr]⟩

theorem GrahamScan.sort_perm (comp : Point → Point → Bool) (l r : List Point)
    (hl : l.length ≤ 16) (h : GrahamScan.sort comp l = some r) : r.Perm l := by
  obtain ⟨r2, hr, hp, _⟩ := GrahamScan.insertion_sort_spec comp l
  rw [GrahamScan.sort_eq_insertion_sort comp l hl, hr] at h
  rw [← Option.some.inj h]
  exact hp

/-- The sort returns at most 16 points in the order of a comparator that is total and
transitive on them. -/
theorem GrahamScan.sort_sorted (comp : Point → Point → Bool) (S : Point → Prop)
    (htot : ∀ a b, S a → S b → comp a b = true ∨ comp b a = true)
    (htrans : ∀ a b c, S a → S b → S c → comp a b = true → comp b c = true → comp a c = true)
    (l : List Point) (hl : ∀ p ∈ l, S p) (hlen : l.length ≤ 16) (r : List Point)
    (h : GrahamScan.sort comp l = some r) :
    r.Pairwise (fun a b => comp a b = true) := by
  obtain ⟨r2, hr, _, hs⟩ := GrahamScan.insertion_sort_spec comp l
  rw [GrahamScan.sort_eq_insertion_sort comp l hlen, hr] at h
  rw [← Option.some.inj h]
  exact hs S htot htrans hl

/-! ## The bottommost point -/

theorem GrahamScan.bottommost_loop_spec (v : List Point) (rest : List Point) :
    ∀ (done : List Point) (i min : Nat) (ymin : Interval), v = done ++ rest →
      i = done.length → min < i → ymin = (v.getD min default).y →
      (∀ q ∈ done, (v.getD min default).y.lb < q.y.lb ∨
        ((v.getD min default).y.lb = q.y.lb ∧ (v.getD min default).x.lb ≤ q.x.lb)) →
      GrahamScan.bottommost_loop v rest i min ymin < v.length ∧
      ∀ q ∈ v,
        (v.getD (GrahamScan.bottommost_loop v rest i min ymin) default).y.lb < q.y.lb ∨
        ((v.getD (GrahamScan.bottommost_loop v rest i min ymin) default).y.lb = q.y.lb ∧
          (v.getD (GrahamScan.bottommost_loop v rest i min ymin) default).x.lb ≤ q.x.lb) := by
  induction rest with
  | nil =>
    intro done i min ymin hv hi hmin _ hdone
    simp only [GrahamScan.bottommost_loop]
    rw [List.append_nil] at hv
    refine ⟨by rw [hv, ← hi]; exact hmin, ?_⟩
    intro q hq
    exact hdone q (hv ▸ hq)
  | cons p rest ih =>
    intro done i min ymin hv hi hmin hymin hdone
    have hv2 : v = (done ++ [p]) ++ rest := by rw [hv]; simp
    have hi2 : i + 1 = (done ++ [p]).length := by rw [hi]; simp
    have hpi : v.getD i default = p := by
      rw [hv, hi, List.getD_eq_getElem?_getD, List.getElem?_append_right (le_refl _)]
      simp
    unfold GrahamScan.bottommost_loop
    by_cases hc : p.y.lb < ymin.lb ∨
        (ymin.lb = p.y.lb ∧ p.x.lb < (v.getD min default).x.lb)
    · rw [if_pos hc]
      apply ih (done ++ [p]) (i + 1) i p.y hv2 hi2 (Nat.lt_succ_self i) (by rw [hpi])
      intro q hq
      rw [hpi]
      rw [hymin] at hc
      rcases List.mem_append.1 hq with hq | hq
      · rcases hdone q hq with h | ⟨h1, h2⟩
        · rcases hc with hc | ⟨hc1, hc2⟩
          · exact Or.inl (lt_trans hc h)
          · exact Or.inl (hc1 ▸ h)
        · rcases hc with hc | ⟨hc1, hc2⟩
          · exact Or.inl (h1 ▸ hc)
          · exact Or.inr ⟨hc1.symm.trans h1, le_trans (le_of_lt hc2) h2⟩
      · rw [List.mem_singleton.1 hq]
        exact Or.inr ⟨rfl, le_rfl⟩
    · rw [if_neg hc]
      apply ih (done ++ [p]) (i + 1) min ymin hv2 hi2 (Nat.lt_succ_of_lt hmin) hymin
      intro q hq
      rcases List.mem_append.1 hq with hq | hq
      · exact hdone q hq
      · rw [List.mem_singleton.1 hq]
        rw [hymin] at hc
        rcases lt_trichotomy (v.getD min default).y.lb p.y.lb with h | h | h
        · exact Or.inl h
        · refine Or.inr ⟨h, ?_⟩
          by_contra h2
          exact hc (Or.inr ⟨h, not_le.1 h2⟩)
        · exact absurd (Or.inl h) hc

/-! ## The swap -/

theorem GrahamScan.swap_zero (a : Point) (t : List Point) (j : Nat) (hj : j < (a :: t).length) :
    (GrahamScan.swap (a :: t) 0 j).Perm (a :: t) ∧
      (GrahamScan.swap (a :: t) 0 j).getD 0 default = (a :: t).getD j default := by
  cases j with
  | zero => simp [GrahamScan.swap]
  | succ k =>
    have hk : k < t.length := by simpa using hj
    have e1 : (a :: t).getD (k + 1) default = t[k] := by
      simp [List.getD_eq_getElem?_getD, List.getElem?_eq_getElem hk]
    have e2 : GrahamScan.swap (a :: t) 0 (k + 1) = t[k] :: t.set k a := by
      unfold GrahamScan.swap
      rw [e1]
      simp
    rw [e2, e1]
    refine ⟨?_, by simp⟩
    have e3 : t.set k a = t.take k ++ a :: t.drop (k + 1) := by
      rw [List.set_eq_take_append_cons_drop, if_pos hk]
    have e4 : t = t.take k ++ t[k] :: t.drop (k + 1) := by
      conv_lhs => rw [← List.take_append_drop k t]
      rw [List.drop_eq_getElem_cons hk]
    have p1 : (t[k] :: (t.take k ++ a :: t.drop (k + 1))).Perm
        (t[k] :: a :: (t.take k ++ t.drop (k + 1))) :=
      List.Perm.cons _ List.perm_middle
    have p2 : (a :: (t.take k ++ t[k] :: t.drop (k + 1))).Perm
        (a :: t[k] :: (t.take k ++ t.drop (k + 1))) :=
      List.Perm.cons _ List.perm_middle
    rw [e3]
    conv_rhs => rw [e4]
    exact p1.trans ((List.Perm.swap a t[k] _).trans p2.symm)

/-! ## Convex sets and the order around the pivot -/

theorem segment_aux (xa ya xb yb : ℚ) (ha : 0 < ya ∨ (ya = 0 ∧ 0 ≤ xa))
    (hb : 0 < yb ∨ (yb = 0 ∧ 0 ≤ xb)) (hc : xa * yb - ya * xb = 0)
    (hd : xa ^ 2 + ya ^ 2 ≤ xb ^ 2 + yb ^ 2) (hD : 0 < xb ^ 2 + yb ^ 2) :
    ∃ l : ℚ, 0 ≤ l ∧ l ≤ 1 ∧ xa = l * xb ∧ ya = l * yb := by
  have hcr : xa * yb = ya * xb := by linarith
  have hya : 0 ≤ ya := by
    rcases ha with h | h
    · exact le_of_lt h
    · exact le_of_eq h.1.symm
  have hdot : 0 ≤ xa * xb + ya * yb := by
    rcases hb with hb | ⟨hb1, hb2⟩
    · have e : (xa * xb + ya * yb) * yb = ya * (xb ^ 2 + yb ^ 2) := by
        linear_combination xb * hcr
      have h2 : 0 ≤ ya * (xb ^ 2 + yb ^ 2) := mul_nonneg hya (le_of_lt hD)
      by_contra hneg
      have := mul_neg_of_neg_of_pos (not_le.1 hneg) hb
      linarith
    · have hbx : 0 < xb := by
        rcases lt_or_eq_of_le hb2 with h | h
        · exact h
        · rw [hb1, ← h] at hD
          norm_num at hD
      have hya0 : ya = 0 := by
        rw [hb1] at hcr
        have : ya * xb = 0 := by linarith
        rcases mul_eq_zero.1 this with h | h
        · exact h
        · linarith
      have hxa : 0 ≤ xa := by
        rcases ha with h | h
        · linarith
        · exact h.2
      rw [hya0, hb1]
      have := mul_nonneg hxa (le_of_lt hbx)
      linarith
  have hlag : (xa * xb + ya * yb) ^ 2 = (xa ^ 2 + ya ^ 2) * (xb ^ 2 + yb ^ 2) := by
    linear_combination (-(xa * yb - ya * xb)) * hcr
  have hle : xa * xb + ya * yb ≤ xb ^ 2 + yb ^ 2 := by
    by_contra hneg
    have h1 := not_le.1 hneg
    have h2 : (xb ^ 2 + yb ^ 2) ^ 2 < (xa * xb + ya * yb) ^ 2 := by nlinarith
    rw [hlag] at h2
    nlinarith
  have hne : xb ^ 2 + yb ^ 2 ≠ 0 := ne_of_gt hD
  refine ⟨(xa * xb + ya * yb) / (xb ^ 2 + yb ^ 2), div_nonneg hdot (le_of_lt hD),
    (div_le_one hD).2 hle, ?_, ?_⟩
  · field_simp
    linear_combination yb * hcr
  · field_simp
    linear_combination (-xb) * hcr

/-- A point aligned with the pivot and a point at least as far, on the same side, is on the
segment from the pivot to that point. -/
theorem segment_mem (C : Set (ℚ × ℚ)) (hC : Convex ℚ C) (o a b : ℚ × ℚ) (ho : o ∈ C)
    (hb : b ∈ C) (ha1 : above o a) (hb1 : above o b) (hc : cross o a b = 0)
    (hd : dist2 o a ≤ dist2 o b) : a ∈ C := by
  by_cases hbo : dist2 o b = 0
  · have : a = o := dist2_eq_zero (by rw [← hbo]; exact hd)
    rw [this]
    exact ho
  · have hD : 0 < dist2 o b := lt_of_le_of_ne (dist2_nonneg o b) (Ne.symm hbo)
    rw [above_iff] at ha1 hb1
    have e1 : dist2 o a = (a.1 - o.1) ^ 2 + (a.2 - o.2) ^ 2 := by unfold dist2; ring
    have e2 : dist2 o b = (b.1 - o.1) ^ 2 + (b.2 - o.2) ^ 2 := by unfold dist2; ring
    rw [e1, e2] at hd
    rw [e2] at hD
    obtain ⟨l, hl0, hl1, hx, hy⟩ := segment_aux _ _ _ _ ha1 hb1 hc hd hD
    have key := hC ho hb (sub_nonneg.2 hl1) hl0 (by ring)
    have e : a = (1 - l) • o + l • b := by
      apply Prod.ext
      · simp only [Prod.fst_add, Prod.smul_fst, smul_eq_mul]
        linarith
      · simp only [Prod.snd_add, Prod.smul_snd, smul_eq_mul]
        linarith
    rw [e]
    exact key

theorem convex_three (C : Set (ℚ × ℚ)) (hC : Convex ℚ C) (x y z : ℚ × ℚ) (hx : x ∈ C)
    (hy : y ∈ C) (hz : z ∈ C) (a b c : ℚ) (ha : 0 ≤ a) (hb : 0 ≤ b) (hc : 0 ≤ c)
    (h : a + b + c = 1) : a • x + b • y + c • z ∈ C := by
  by_cases hbc : b + c = 0
  · have hb0 : b = 0 := by linarith
    have hc0 : c = 0 := by linarith
    have ha1 : a = 1 := by linarith
    rw [hb0, hc0, ha1]
    simpa using hx
  · have hpos : 0 < b + c := lt_of_le_of_ne (add_nonneg hb hc) (Ne.symm hbc)
    have hm : (b / (b + c)) • y + (c / (b + c)) • z ∈ C :=
      hC hy hz (div_nonneg hb (le_of_lt hpos)) (div_nonneg hc (le_of_lt hpos)) (by field_simp)
    have key := hC hx hm ha (le_of_lt hpos) (by linarith)
    have e : a • x + b • y + c • z
        = a • x + (b + c) • ((b / (b + c)) • y + (c / (b + c)) • z) := by
      apply Prod.ext
      · simp only [Prod.fst_add, Prod.smul_fst, smul_eq_mul]
        field_simp
        ring
      · simp only [Prod.snd_add, Prod.smul_snd, smul_eq_mul]
        field_simp
        ring
    rw [e]
    exact key

/-- A point that makes a clockwise turn between two points around the pivot is in the triangle
of the pivot and these two points. -/
theorem triangle_mem (C : Set (ℚ × ℚ)) (hC : Convex ℚ C) (o n t q : ℚ × ℚ) (ho : o ∈ C)
    (hn : n ∈ C) (hq : q ∈ C) (hnq : 0 < cross o n q) (htq : 0 ≤ cross o t q)
    (hnt : 0 ≤ cross o n t) (hturn : cross n t q ≤ 0) : t ∈ C := by
  have hsum : cross n t q = cross o t q + cross o n t - cross o n q := by
    unfold cross
    ring
  have hne : cross o n q ≠ 0 := ne_of_gt hnq
  have key := convex_three C hC o n q ho hn hq
    (1 - cross o t q / cross o n q - cross o n t / cross o n q)
    (cross o t q / cross o n q) (cross o n t / cross o n q)
    (by
      have : cross o t q / cross o n q + cross o n t / cross o n q ≤ 1 := by
        rw [← add_div, div_le_one hnq]
        linarith
      linarith)
    (div_nonneg htq (le_of_lt hnq)) (div_nonneg hnt (le_of_lt hnq)) (by ring)
  have e : t = (1 - cross o t q / cross o n q - cross o n t / cross o n q) • o
      + (cross o t q / cross o n q) • n + (cross o n t / cross o n q) • q := by
    apply Prod.ext
    · simp only [Prod.fst_add, Prod.smul_fst, smul_eq_mul]
      field_simp
      unfold cross
      ring
    · simp only [Prod.snd_add, Prod.smul_snd, smul_eq_mul]
      field_simp
      unfold cross
      ring
  rw [e]
  exact key

/-! ## The scan on points of exact coordinates -/

theorem Point.is_exact_exact (a b : ℚ) : (Point.exact a b).is_exact := rfl

theorem Point.is_exact.exists {p : Point} (h : p.is_exact) : p.does_not_exist = false := by
  rw [h]
  rfl

theorem Point.is_exact.eq_of_coords {p q : Point} (hp : p.is_exact) (hq : q.is_exact)
    (h : p.coords = q.coords) : p = q := by
  rw [hp, hq, h]

theorem GrahamScan.orientation_clockwise {a b c : Point} (ha : a.is_exact) (hb : b.is_exact)
    (hc : c.is_exact) :
    GrahamScan.orientation a b c = OrientationInterval.CLOCKWISE ↔
      cross a.coords b.coords c.coords < 0 := by
  rw [ha, hb, hc, GrahamScan.orientation_exact]
  simp only [Point.coords_exact]
  by_cases h0 : cross a.coords b.coords c.coords = 0
  · simp [h0]
  · rw [if_neg h0]
    by_cases h1 : cross a.coords b.coords c.coords < 0
    · simp [h1]
    · simp [h1]

theorem GrahamScan.PointsSorter_iff {o a b : Point} (ho : o.is_exact) (ha : a.is_exact)
    (hb : b.is_exact) :
    GrahamScan.PointsSorter o a b = true ↔ angle_le o.coords a.coords b.coords := by
  rw [ho, ha, hb, GrahamScan.PointsSorter_exact]
  simp only [Point.coords_exact]

theorem Point.aligned_iff {o a b : Point} (ho : o.is_exact) (ha : a.is_exact)
    (hb : b.is_exact) :
    Point.aligned o a b = BoolInterval.YES ↔ cross o.coords a.coords b.coords = 0 := by
  rw [ho, ha, hb, Point.aligned_exact]
  simp only [Point.coords_exact]

/-- After a point strictly on the left of `a`, every later point of the sort is strictly on the
left of `a`. -/
theorem cross_pos_trans (o a b x : ℚ × ℚ) (ha : above o a) (hb : above o b) (hx : above o x)
    (hab : 0 < cross o a b) (hbx : angle_le o b x) : 0 < cross o a x := by
  have hxo : x ≠ o := by
    intro h
    rw [h] at hbx
    have := angle_le_to_pivot hbx
    rw [this, cross_self_right] at hab
    exact lt_irrefl 0 hab
  have hq : 0 ≤ cross o b x := by
    rcases hbx with h | h
    · exact le_of_lt h
    · exact le_of_eq h.1.symm
  rw [above_iff] at ha hb hx
  unfold cross at hab hq ⊢
  have hya : 0 ≤ a.2 - o.2 := by
    rcases ha with h | h
    · exact le_of_lt h
    · exact le_of_eq h.1.symm
  have hyb : 0 < b.2 - o.2 := by
    rcases hb with h | ⟨h1, h2⟩
    · exact h
    · rw [h1] at hab
      have := mul_nonneg hya h2
      linarith
  have hid : ((a.1 - o.1) * (x.2 - o.2) - (a.2 - o.2) * (x.1 - o.1)) * (b.2 - o.2)
      = ((b.1 - o.1) * (x.2 - o.2) - (b.2 - o.2) * (x.1 - o.1)) * (a.2 - o.2)
        + ((a.1 - o.1) * (b.2 - o.2) - (a.2 - o.2) * (b.1 - o.1)) * (x.2 - o.2) := by
    ring
  have hyx : 0 < x.2 - o.2 := by
    rcases hx with h | ⟨h1, h2⟩
    · exact h
    · exfalso
      rw [h1] at hq
      have h3 := mul_nonneg (le_of_lt hyb) h2
      have h4 : x.1 - o.1 = 0 := by
        have : (b.2 - o.2) * (x.1 - o.1) = 0 := by linarith
        rcases mul_eq_zero.1 this with h | h
        · linarith
        · exact h
      exact hxo (Prod.ext (by linarith) (by linarith))
  have h1 := mul_nonneg hq hya
  have h2 := mul_pos hab hyx
  by_contra hneg
  have := mul_nonpos_of_nonpos_of_nonneg (not_lt.1 hneg) (le_of_lt hyb)
  linarith

theorem GrahamScan.remove_aligned_sublist (p0 : Point) (w : List Point) :
    (GrahamScan.remove_aligned p0 w).Sublist w := by
  induction w with
  | nil => exact List.Sublist.refl _
  | cons a w ih =>
    cases w with
    | nil => exact List.Sublist.refl _
    | cons b rest =>
      unfold GrahamScan.remove_aligned
      by_cases h : Point.aligned p0 a b = BoolInterval.YES
      · rw [if_pos h]
        exact List.Sublist.cons a ih
      · rw [if_neg h]
        exact List.Sublist.cons₂ a ih

theorem GrahamScan.remove_aligned_ne_nil (p0 : Point) (w : List Point) (hw : w ≠ []) :
    GrahamScan.remove_aligned p0 w ≠ [] := by
  induction w with
  | nil => exact absurd rfl hw
  | cons a w ih =>
    cases w with
    | nil => simp [GrahamScan.remove_aligned]
    | cons b rest =>
      unfold GrahamScan.remove_aligned
      by_cases h : Point.aligned p0 a b = BoolInterval.YES
      · rw [if_pos h]
        exact ih (List.cons_ne_nil _ _)
      · rw [if_neg h]
        exact List.cons_ne_nil _ _

/-- The points removed are on the segments from the pivot to the points kept. -/
theorem GrahamScan.remove_aligned_covers (p0 : Point) (hp0 : p0.is_exact) (w : List Point)
    (hex : ∀ p ∈ w, p.is_exact) (hab : ∀ p ∈ w, above p0.coords p.coords)
    (hs : w.Pairwise (fun a b => angle_le p0.coords a.coords b.coords))
    (C : Set (ℚ × ℚ)) (hC : Convex ℚ C) (h0 : p0.coords ∈ C)
    (hk : ∀ q ∈ GrahamScan.remove_aligned p0 w, q.coords ∈ C) :
    ∀ p ∈ w, p.coords ∈ C := by
  induction w with
  | nil => intro p hp; exact absurd hp (List.not_mem_nil _)
  | cons a w ih =>
    cases w with
    | nil =>
      intro p hp
      exact hk p (by simpa [GrahamScan.remove_aligned] using hp)
    | cons b rest =>
      have hex2 : ∀ p ∈ b :: rest, p.is_exact := fun p hp => hex p (List.mem_cons_of_mem _ hp)
      have hab2 : ∀ p ∈ b :: rest, above p0.coords p.coords :=
        fun p hp => hab p (List.mem_cons_of_mem _ hp)
      obtain ⟨hs1, hs2⟩ := List.pairwise_cons.1 hs
      unfold GrahamScan.remove_aligned at hk
      by_cases h : Point.aligned p0 a b = BoolInterval.YES
      · rw [if_pos h] at hk
        have ih2 := ih hex2 hab2 hs2 hk
        intro p hp
        rcases List.mem_cons.1 hp with rfl | hp
        · have hb : b.coords ∈ C := ih2 b (List.mem_cons_self _ _)
          have hc : cross p0.coords p.coords b.coords = 0 :=
            (Point.aligned_iff hp0 (hex p (List.mem_cons_self _ _))
              (hex2 b (List.mem_cons_self _ _))).1 h
          have hle := hs1 b (List.mem_cons_self _ _)
          rcases hle with hle | ⟨_, hle⟩
          · rw [hc] at hle
            exact absurd hle (lt_irrefl 0)
          · exact segment_mem C hC _ _ _ h0 hb (hab p (List.mem_cons_self _ _))
              (hab2 b (List.mem_cons_self _ _)) hc hle
        · exact ih2 p hp
      · rw [if_neg h] at hk
        have ih2 := ih hex2 hab2 hs2 (fun q hq => hk q (List.mem_cons_of_mem _ hq))
        intro p hp
        rcases List.mem_cons.1 hp with rfl | hp
        · exact hk p (List.mem_cons_self _ _)
        · exact ih2 p hp

/-- The points kept are in the strict order of the angles around the pivot. -/
theorem GrahamScan.remove_aligned_strict (p0 : Point) (hp0 : p0.is_exact) (w : List Point)
    (hex : ∀ p ∈ w, p.is_exact) (hab : ∀ p ∈ w, above p0.coords p.coords)
    (hs : w.Pairwise (fun a b => angle_le p0.coords a.coords b.coords)) :
    (GrahamScan.remove_aligned p0 w).Pairwise
      (fun a b => 0 < cross p0.coords a.coords b.coords) := by
  induction w with
  | nil => exact List.Pairwise.nil
  | cons a w ih =>
    cases w with
    | nil => simp [GrahamScan.remove_aligned]
    | cons b rest =>
      have hex2 : ∀ p ∈ b :: rest, p.is_exact := fun p hp => hex p (List.mem_cons_of_mem _ hp)
      have hab2 : ∀ p ∈ b :: rest, above p0.coords p.coords :=
        fun p hp => hab p (List.mem_cons_of_mem _ hp)
      obtain ⟨hs1, hs2⟩ := List.pairwise_cons.1 hs
      have ih2 := ih hex2 hab2 hs2
      unfold GrahamScan.remove_aligned
      by_cases h : Point.aligned p0 a b = BoolInterval.YES
      · rw [if_pos h]
        exact ih2
      · rw [if_neg h]
        refine List.pairwise_cons.2 ⟨?_, ih2⟩
        have hb := hex2 b (List.mem_cons_self _ _)
        have hne : cross p0.coords a.coords b.coords ≠ 0 :=
          fun hc => h ((Point.aligned_iff hp0 (hex a (List.mem_cons_self _ _)) hb).2 hc)
        have hpos : 0 < cross p0.coords a.coords b.coords := by
          rcases hs1 b (List.mem_cons_self _ _) with h1 | ⟨h1, _⟩
          · exact h1
          · exact absurd h1 hne
        intro x hx
        have hx2 := (GrahamScan.remove_aligned_sublist p0 (b :: rest)).subset hx
        rcases List.mem_cons.1 hx2 with rfl | hx3
        · exact hpos
        · exact cross_pos_trans _ _ _ _ (hab a (List.mem_cons_self _ _))
            (hab2 b (List.mem_cons_self _ _)) (hab2 x hx2) hpos
            ((List.pairwise_cons.1 hs2).1 x hx3)

/-- The `while` loop of the scan on a stack `l ++ [p0]` whose points are in the strict order of
the angles, before `q`: it leaves a stack of the same kind, and a convex set that holds `q` and
the stack left holds every point of the stack before. -/
theorem GrahamScan.pop_loop_spec (p0 q : Point) (hp0 : p0.is_exact) (hq : q.is_exact)
    (l : List Point) :
    l ≠ [] → (∀ a ∈ l, a.is_exact) →
    l.Pairwise (fun a b => 0 < cross p0.coords b.coords a.coords) →
    (∀ a ∈ l, 0 < cross p0.coords a.coords q.coords) →
    ∃ l2 : List Point, l2 ≠ [] ∧ l2 <:+ l ∧ GrahamScan.pop_loop q (l ++ [p0]) = l2 ++ [p0] ∧
      ∀ C : Set (ℚ × ℚ), Convex ℚ C → q.coords ∈ C → (∀ a ∈ l2 ++ [p0], a.coords ∈ C) →
        ∀ a ∈ l ++ [p0], a.coords ∈ C := by
  induction l with
  | nil => intro h; exact absurd rfl h
  | cons t r ih =>
    intro _ hex hs hlq
    have ht : t.is_exact := hex t (List.mem_cons_self _ _)
    cases r with
    | nil =>
      refine ⟨[t], List.cons_ne_nil _ _, List.suffix_refl _, ?_, fun C _ _ h => h⟩
      have hno : ¬ GrahamScan.orientation p0 t q = OrientationInterval.CLOCKWISE := by
        rw [GrahamScan.orientation_clockwise hp0 ht hq]
        exact not_lt.2 (le_of_lt (hlq t (List.mem_cons_self _ _)))
      simp [GrahamScan.pop_loop, hno]
    | cons n r2 =>
      have hn : n.is_exact := hex n (List.mem_cons_of_mem _ (List.mem_cons_self _ _))
      by_cases hcw : GrahamScan.orientation n t q = OrientationInterval.CLOCKWISE
      · obtain ⟨l2, h1, h2, h3, h4⟩ := ih (List.cons_ne_nil _ _)
          (fun a ha => hex a (List.mem_cons_of_mem _ ha)) (List.pairwise_cons.1 hs).2
          (fun a ha => hlq a (List.mem_cons_of_mem _ ha))
        refine ⟨l2, h1, h2.trans (List.suffix_cons t _), ?_, ?_⟩
        · rw [← h3]
          simp [GrahamScan.pop_loop, hcw]
        · intro C hC hqC hl2 a ha
          have hrest := h4 C hC hqC hl2
          have ha1 : a ∈ t :: (n :: r2 ++ [p0]) := ha
          rcases List.mem_cons.1 ha1 with rfl | ha2
          · have hnC : n.coords ∈ C := hrest n (by simp)
            have h0C : p0.coords ∈ C := hrest p0 (by simp)
            exact triangle_mem C hC _ _ _ _ h0C hnC hqC
              (hlq n (List.mem_cons_of_mem _ (List.mem_cons_self _ _)))
              (le_of_lt (hlq a (List.mem_cons_self _ _)))
              (le_of_lt ((List.pairwise_cons.1 hs).1 n (List.mem_cons_self _ _)))
              (le_of_lt ((GrahamScan.orientation_clockwise hn ht hq).1 hcw))
          · exact hrest a ha2
      · refine ⟨t :: n :: r2, List.cons_ne_nil _ _, List.suffix_refl _, ?_, fun C _ _ h => h⟩
        simp [GrahamScan.pop_loop, hcw]

/-- The `for` loop of the scan: a convex set that holds the stack left holds every point of the
stack before and every point scanned. -/
theorem GrahamScan.scan_loop_spec (p0 : Point) (hp0 : p0.is_exact) (R : List Point) :
    ∀ l : List Point, l ≠ [] → (∀ a ∈ l, a.is_exact) → (∀ a ∈ R, a.is_exact) →
      l.Pairwise (fun a b => 0 < cross p0.coords b.coords a.coords) →
      R.Pairwise (fun a b => 0 < cross p0.coords a.coords b.coords) →
      (∀ a ∈ l, ∀ q ∈ R, 0 < cross p0.coords a.coords q.coords) →
      ∀ C : Set (ℚ × ℚ), Convex ℚ C →
        (∀ a ∈ GrahamScan.scan_loop R (l ++ [p0]), a.coords ∈ C) →
        (∀ a ∈ l ++ [p0], a.coords ∈ C) ∧ ∀ a ∈ R, a.coords ∈ C := by
  induction R with
  | nil =>
    intro l _ _ _ _ _ _ C _ h
    exact ⟨h, fun a ha => absurd ha (List.not_mem_nil _)⟩
  | cons q R ih =>
    intro l hl hexl hexR hsl hsR hlR C hC hfin
    have hq : q.is_exact := hexR q (List.mem_cons_self _ _)
    obtain ⟨l2, h1, h2, h3, h4⟩ := GrahamScan.pop_loop_spec p0 q hp0 hq l hl hexl hsl
      (fun a ha => hlR a ha q (List.mem_cons_self _ _))
    have hsub : ∀ a ∈ l2, a ∈ l := fun a ha => h2.subset ha
    have hstep : GrahamScan.scan_loop (q :: R) (l ++ [p0])
        = GrahamScan.scan_loop R ((q :: l2) ++ [p0]) := by
      simp [GrahamScan.scan_loop, h3]
    rw [hstep] at hfin
    obtain ⟨k1, k2⟩ := ih (q :: l2) (List.cons_ne_nil _ _)
      (fun a ha => by
        rcases List.mem_cons.1 ha with rfl | ha
        · exact hq
        · exact hexl a (hsub a ha))
      (fun a ha => hexR a (List.mem_cons_of_mem _ ha))
      (List.pairwise_cons.2 ⟨fun a ha => hlR a (hsub a ha) q (List.mem_cons_self _ _),
        hsl.sublist h2.sublist⟩)
      (List.pairwise_cons.1 hsR).2
      (fun a ha x hx => by
        rcases List.mem_cons.1 ha with rfl | ha
        · exact (List.pairwise_cons.1 hsR).1 x hx
        · exact hlR a (hsub a ha) x (List.mem_cons_of_mem _ hx))
      C hC hfin
    have hqC : q.coords ∈ C := k1 q (by simp)
    refine ⟨h4 C hC hqC (fun a ha => k1 a (by
      rcases List.mem_append.1 ha with ha | ha
      · exact List.mem_append_left _ (List.mem_cons_of_mem _ ha)
      · exact List.mem_append_right _ ha)), ?_⟩
    intro a ha
    rcases List.mem_cons.1 ha with rfl | ha
    · exact hqC
    · exact k2 a ha

/-! ## The convex hull of points of exact coordinates -/

theorem Point.is_exact.y_lb {p : Point} (h : p.is_exact) : p.y.lb = Dbl.fin p.coords.2 := by
  conv_lhs => rw [h]
  rfl

theorem Point.is_exact.x_lb {p : Point} (h : p.is_exact) : p.x.lb = Dbl.fin p.coords.1 := by
  conv_lhs => rw [h]
  rfl

theorem GrahamScan.bottommost_spec (v : List Point) (hv : v ≠ []) :
    GrahamScan.bottommost_loop v (v.drop 1) 1 0 (v.getD 0 default).y < v.length ∧
    ∀ q ∈ v,
      (v.getD (GrahamScan.bottommost_loop v (v.drop 1) 1 0 (v.getD 0 default).y) default).y.lb
          < q.y.lb ∨
      ((v.getD (GrahamScan.bottommost_loop v (v.drop 1) 1 0 (v.getD 0 default).y) default).y.lb
          = q.y.lb ∧
        (v.getD (GrahamScan.bottommost_loop v (v.drop 1) 1 0 (v.getD 0 default).y) default).x.lb
          ≤ q.x.lb) := by
  cases v with
  | nil => exact absurd rfl hv
  | cons a t =>
    apply GrahamScan.bottommost_loop_spec (a :: t) ((a :: t).drop 1) [a] 1 0 _ (by simp)
      (by simp) (by norm_num) rfl
    intro q hq
    rw [List.mem_singleton.1 hq]
    exact Or.inr ⟨rfl, le_rfl⟩

/-- The shape of the computation of `convex_hull` on more than three existing points, all of
exact coordinates: the pivot `p0`, the other points `w` in the order of the sort, all above the
pivot, and the scan of the points kept. -/
theorem GrahamScan.convex_hull_shape (v_points : List Point)
    (hex : ∀ p ∈ v_points, p.does_not_exist = true ∨ p.is_exact)
    (hn : 3 < (v_points.filter (fun p => !p.does_not_exist)).length)
    (hn16 : (v_points.filter (fun p => !p.does_not_exist)).length ≤ 16) :
    ∃ (p0 : Point) (w : List Point),
      p0.is_exact ∧ (∀ p ∈ w, p.is_exact) ∧
      (p0 :: w).Perm (v_points.filter (fun p => !p.does_not_exist)) ∧
      (∀ p ∈ w, above p0.coords p.coords) ∧
      w.Pairwise (fun a b => angle_le p0.coords a.coords b.coords) ∧
      GrahamScan.convex_hull v_points =
        some (GrahamScan.scan_loop
          ((p0 :: GrahamScan.remove_aligned p0 w).drop 3)
          [(p0 :: (GrahamScan.remove_aligned p0 w
              ++ w.drop (GrahamScan.remove_aligned p0 w).length)).getD 2 default,
            (p0 :: (GrahamScan.remove_aligned p0 w
              ++ w.drop (GrahamScan.remove_aligned p0 w).length)).getD 1 default,
            p0]).reverse := by
  generalize hv : v_points.filter (fun p => !p.does_not_exist) = v at hn hn16
  have hvex : ∀ p ∈ v, p.is_exact := by
    intro p hp
    rw [← hv] at hp
    obtain ⟨h1, h2⟩ := List.mem_filter.1 hp
    rcases hex p h1 with h | h
    · rw [h] at h2
      simp at h2
    · exact h
  have hvne : v ≠ [] := by
    intro h
    rw [h] at hn
    simp at hn
  obtain ⟨hmin, hlex⟩ := GrahamScan.bottommost_spec v hvne
  generalize hm : GrahamScan.bottommost_loop v (v.drop 1) 1 0 (v.getD 0 default).y = min
    at hmin hlex
  -- the swap
  obtain ⟨a, t, hat⟩ := List.exists_cons_of_ne_nil hvne
  obtain ⟨hsw1, hsw2⟩ := GrahamScan.swap_zero a t min (hat ▸ hmin)
  rw [← hat] at hsw1 hsw2
  generalize hp0 : v.getD min default = p0 at hlex hsw2
  have hp0v : p0 ∈ v := by
    rw [← hp0, List.getD_eq_getElem?_getD, List.getElem?_eq_getElem hmin]
    exact List.getElem_mem _
  have hp0e : p0.is_exact := hvex p0 hp0v
  have habove : ∀ q ∈ v, above p0.coords q.coords := by
    intro q hq
    have hqe := hvex q hq
    have := hlex q hq
    rw [hp0e.y_lb, hp0e.x_lb, hqe.y_lb, hqe.x_lb] at this
    simpa [above] using this
  -- the sort
  obtain ⟨v2, hv2⟩ := GrahamScan.sort_returns (GrahamScan.PointsSorter p0)
    (GrahamScan.swap v 0 min) (by rw [hsw1.length_eq]; exact hn16)
  have hperm2 := GrahamScan.sort_perm (GrahamScan.PointsSorter p0) (GrahamScan.swap v 0 min)
    v2 (by rw [hsw1.length_eq]; exact hn16) hv2
  have hS : ∀ p ∈ GrahamScan.swap v 0 min, p.is_exact ∧ above p0.coords p.coords :=
    fun p hp => ⟨hvex p (hsw1.subset hp), habove p (hsw1.subset hp)⟩
  have hsorted := GrahamScan.sort_sorted (GrahamScan.PointsSorter p0)
    (fun p => p.is_exact ∧ above p0.coords p.coords)
    (fun a b ha hb => by
      rw [GrahamScan.PointsSorter_iff hp0e ha.1 hb.1, GrahamScan.PointsSorter_iff hp0e hb.1 ha.1]
      exact angle_le_total _ _ _)
    (fun a b c ha hb hc => by
      rw [GrahamScan.PointsSorter_iff hp0e ha.1 hb.1, GrahamScan.PointsSorter_iff hp0e hb.1 hc.1,
        GrahamScan.PointsSorter_iff hp0e ha.1 hc.1]
      exact angle_le_trans _ _ _ _ ha.2 hb.2 hc.2)
    (GrahamScan.swap v 0 min) hS (by rw [hsw1.length_eq]; exact hn16) v2 hv2
  have hpermv : v2.Perm v := hperm2.trans hsw1
  have hv2ex : ∀ p ∈ v2, p.is_exact := fun p hp => hvex p (hpermv.subset hp)
  have hv2ab : ∀ p ∈ v2, above p0.coords p.coords := fun p hp => habove p (hpermv.subset hp)
  have hlen : v2.length = v.length := hpermv.length_eq
  -- the first point of the sort is the pivot
  cases v2 with
  | nil =>
    rw [List.length_nil] at hlen
    omega
  | cons h w =>
    have hh : h = p0 := by
      have hmem : p0 ∈ h :: w := hpermv.symm.subset hp0v
      rcases List.mem_cons.1 hmem with e | hw
      · exact e.symm
      · have hc := (List.pairwise_cons.1 hsorted).1 p0 hw
        rw [GrahamScan.PointsSorter_iff hp0e (hv2ex h (List.mem_cons_self _ _)) hp0e] at hc
        exact Point.is_exact.eq_of_coords (hv2ex h (List.mem_cons_self _ _)) hp0e
          (angle_le_to_pivot hc)
    subst hh
    have hwex : ∀ p ∈ w, p.is_exact := fun p hp => hv2ex p (List.mem_cons_of_mem _ hp)
    have hws : w.Pairwise (fun a b => angle_le h.coords a.coords b.coords) := by
      refine ((List.pairwise_cons.1 hsorted).2).imp_of_mem ?_
      intro a b ha hb hab
      exact (GrahamScan.PointsSorter_iff hp0e (hwex a ha) (hwex b hb)).1 hab
    refine ⟨h, w, hp0e, hwex, hpermv, fun p hp => hv2ab p (List.mem_cons_of_mem _ hp), hws, ?_⟩
    unfold GrahamScan.convex_hull
    simp only [hv]
    rw [if_neg (by omega), hm, hsw2, hv2]
    simp only [Option.map_some', List.drop_succ_cons, List.drop_zero, List.take_succ_cons,
      List.take_zero, List.singleton_append, List.cons_append, List.getD_cons_zero,
      List.take_append_eq_append_take, List.take_length, List.length_cons]
    simp

/-- On a list of points of which at most 16 exist, all of exact coordinates, every input point
that exists is in the convex hull of the points that `GrahamScan::convex_hull` returns, that is
inside or on the boundary of the polygon of these vertices. -/
theorem GrahamScan.hull_contains_points (v_points : List Point)
    (hex : ∀ p ∈ v_points, p.does_not_exist = true ∨ p.is_exact)
    (hn16 : (v_points.filter (fun p => !p.does_not_exist)).length ≤ 16)
    (hull : List Point) (hh : GrahamScan.convex_hull v_points = some hull) :
    ∀ p ∈ v_points, p.does_not_exist = false →
      p.coords ∈ convexHull ℚ (Set.image Point.coords {q | q ∈ hull}) := by
  intro p hp hpe
  have hpf : p ∈ v_points.filter (fun p => !p.does_not_exist) :=
    List.mem_filter.2 ⟨hp, by simp [hpe]⟩
  by_cases hn : (v_points.filter (fun p => !p.does_not_exist)).length ≤ 3
  · -- at most three points: they are the vertices
    apply subset_convexHull
    refine ⟨p, ?_, rfl⟩
    show p ∈ hull
    unfold GrahamScan.convex_hull at hh
    simp only [hn, if_true, Option.some.injEq] at hh
    rw [← hh]
    exact hpf
  · obtain ⟨p0, w, hp0, hwex, hperm, hab, hs, hshape0⟩ :=
      GrahamScan.convex_hull_shape v_points hex (not_le.1 hn) hn16
    have hshape := Option.some.inj (hh.symm.trans hshape0)
    have hlen : 3 < (p0 :: w).length := by
      rw [hperm.length_eq]
      exact not_le.1 hn
    have hwne : w ≠ [] := by
      intro h
      rw [h] at hlen
      simp at hlen
    generalize hC : convexHull ℚ
      (Set.image Point.coords {q | q ∈ hull}) = C
    have hconv : Convex ℚ C := by
      rw [← hC]
      exact convex_convexHull ℚ _
    have hout : ∀ q ∈ hull, q.coords ∈ C := by
      intro q hq
      rw [← hC]
      exact subset_convexHull ℚ _ ⟨q, hq, rfl⟩
    have hstrict := GrahamScan.remove_aligned_strict p0 hp0 w hwex hab hs
    have hsub := GrahamScan.remove_aligned_sublist p0 w
    have hkne := GrahamScan.remove_aligned_ne_nil p0 w hwne
    generalize hk : GrahamScan.remove_aligned p0 w = kept at hshape hstrict hsub hkne
    -- the pivot and the points kept are in the convex set
    have hkept : p0.coords ∈ C ∧ ∀ q ∈ kept, q.coords ∈ C := by
      cases kept with
      | nil => exact absurd rfl hkne
      | cons q1 r1 =>
        cases r1 with
        | nil =>
          -- one point kept: the stack is not scanned
          simp only [List.drop_succ_cons, List.drop_nil, GrahamScan.scan_loop,
            List.length_singleton, List.singleton_append, List.getD_cons_succ,
            List.getD_cons_zero] at hshape
          have h0 : p0 ∈ hull := by rw [hshape]; simp
          have h1 : q1 ∈ hull := by rw [hshape]; simp
          refine ⟨hout p0 h0, ?_⟩
          intro q hq
          rw [List.mem_singleton.1 hq]
          exact hout q1 h1
        | cons q2 R =>
          simp only [List.drop_succ_cons, List.drop_zero, List.cons_append, List.getD_cons_succ,
            List.getD_cons_zero] at hshape
          have hkex : ∀ a ∈ q1 :: q2 :: R, a.is_exact := fun a ha => hwex a (hsub.subset ha)
          obtain ⟨s1, s2⟩ := List.pairwise_cons.1 hstrict
          obtain ⟨s3, s4⟩ := List.pairwise_cons.1 s2
          have key := GrahamScan.scan_loop_spec p0 hp0 R [q2, q1] (List.cons_ne_nil _ _)
            (fun a ha => by
              rcases List.mem_cons.1 ha with rfl | ha
              · exact hkex a (by simp)
              · rw [List.mem_singleton.1 ha]
                exact hkex q1 (by simp))
            (fun a ha => hkex a (by simp [ha]))
            (List.pairwise_cons.2 ⟨fun a ha => by
              rw [List.mem_singleton.1 ha]
              exact s1 q2 (List.mem_cons_self _ _), List.pairwise_singleton _ _⟩)
            s4
            (fun a ha x hx => by
              rcases List.mem_cons.1 ha with rfl | ha
              · exact s3 x hx
              · rw [List.mem_singleton.1 ha]
                exact s1 x (List.mem_cons_of_mem _ hx))
            C hconv
            (fun a ha => hout a (by
              rw [hshape]
              exact List.mem_reverse.2 ha))
          refine ⟨key.1 p0 (by simp), ?_⟩
          intro q hq
          rcases List.mem_cons.1 hq with rfl | hq
          · exact key.1 q (by simp)
          · rcases List.mem_cons.1 hq with rfl | hq
            · exact key.1 q (by simp)
            · exact key.2 q hq
    -- the other points are on segments from the pivot to the points kept
    have hall := GrahamScan.remove_aligned_covers p0 hp0 w hwex hab hs C hconv hkept.1
      (by rw [hk]; exact hkept.2)
    rcases List.mem_cons.1 (hperm.symm.subset hpf) with rfl | hpw
    · exact hkept.1
    · exact hall p hpw

/-- C17, at seventeen copies of the point `(0,0)`: they all exist and have exact coordinates,
and the comparator of the sort answers `true` on the pivot and itself, so that it is not the
strict ordering that `std::sort` requires. The vector has more than 16 cells: the sort takes the
median of the cells 1, 8 and 16 for pivot, which leaves the vector as it is, and the first loop
of `__unguarded_partition`, in which every cell precedes the pivot, reads the cell after the
last one. The sort has no result, and `convex_hull` returns no polygon for the input points to
lie in. -/
theorem C17_no_hull_of_equal_points :
    (∀ p ∈ List.replicate 17 (Point.exact 0 0), p.does_not_exist = false ∧ p.is_exact) ∧
    GrahamScan.PointsSorter (Point.exact 0 0) (Point.exact 0 0) (Point.exact 0 0) = true ∧
    GrahamScan.move_median_to_first (GrahamScan.PointsSorter (Point.exact 0 0))
        (List.replicate 17 (Point.exact 0 0)) 0 1 8 16
      = some (List.replicate 17 (Point.exact 0 0)) ∧
    GrahamScan.scan_up (GrahamScan.PointsSorter (Point.exact 0 0)) (Point.exact 0 0)
        ((List.replicate 17 (Point.exact 0 0)).drop 1) 1 = none ∧
    GrahamScan.sort (GrahamScan.PointsSorter (Point.exact 0 0))
        (List.replicate 17 (Point.exact 0 0)) = none ∧
    GrahamScan.convex_hull (List.replicate 17 (Point.exact 0 0)) = none := by
  refine ⟨?_, by decide!, by decide!, by decide!, by decide!, by decide!⟩
  intro p hp
  rw [List.eq_of_mem_replicate hp]
  exact ⟨rfl, rfl⟩

/-! ## The points returned are input points -/

theorem GrahamScan.pop_loop_suffix (q : Point) (s : List Point) :
    GrahamScan.pop_loop q s <:+ s := by
  induction s with
  | nil => exact List.suffix_refl _
  | cons t r ih =>
    cases r with
    | nil => exact List.suffix_refl _
    | cons n r2 =>
      unfold GrahamScan.pop_loop
      by_cases h : GrahamScan.orientation n t q = OrientationInterval.CLOCKWISE
      · rw [if_pos h]
        exact ih.trans (List.suffix_cons t _)
      · rw [if_neg h]

theorem GrahamScan.scan_loop_subset (R : List Point) :
    ∀ s : List Point, (∀ p ∈ GrahamScan.scan_loop R s, p ∈ R ∨ p ∈ s) ∧
      (GrahamScan.scan_loop R s).length ≤ R.length + s.length := by
  induction R with
  | nil =>
    intro s
    exact ⟨fun p hp => Or.inr hp, by simp [GrahamScan.scan_loop]⟩
  | cons q R ih =>
    intro s
    obtain ⟨h1, h2⟩ := ih (q :: GrahamScan.pop_loop q s)
    have hsuf := GrahamScan.pop_loop_suffix q s
    constructor
    · intro p hp
      rcases h1 p hp with h | h
      · exact Or.inl (List.mem_cons_of_mem _ h)
      · rcases List.mem_cons.1 h with rfl | h
        · exact Or.inl (List.mem_cons_self _ _)
        · exact Or.inr (hsuf.subset h)
    · have := hsuf.length_le
      simp only [GrahamScan.scan_loop, List.length_cons] at h2 ⊢
      omega

theorem mem_of_getD (l : List Point) (i : Nat) (h : i < l.length) : l.getD i default ∈ l := by
  rw [List.getD_eq_getElem?_getD, List.getElem?_eq_getElem h]
  exact List.getElem_mem _

/-- On a list of points of which at most 16 exist, every point that `GrahamScan::convex_hull`
returns is a point of the input that exists, and the points returned are at most as many as the
existing points of the input. -/
theorem GrahamScan.hull_points_from_input (v_points hull : List Point)
    (hn16 : (v_points.filter (fun p => !p.does_not_exist)).length ≤ 16)
    (hh : GrahamScan.convex_hull v_points = some hull) :
    (∀ p ∈ hull, p ∈ v_points ∧ p.does_not_exist = false) ∧
      hull.length ≤ (v_points.filter (fun p => !p.does_not_exist)).length := by
  have hfilter : ∀ p ∈ v_points.filter (fun p => !p.does_not_exist),
      p ∈ v_points ∧ p.does_not_exist = false := by
    intro p hp
    obtain ⟨h1, h2⟩ := List.mem_filter.1 hp
    exact ⟨h1, by simpa using h2⟩
  suffices h : (∀ p ∈ hull, p ∈ v_points.filter (fun p => !p.does_not_exist)) ∧
      hull.length ≤ (v_points.filter (fun p => !p.does_not_exist)).length from
    ⟨fun p hp => hfilter p (h.1 p hp), h.2⟩
  unfold GrahamScan.convex_hull at hh
  generalize v_points.filter (fun p => !p.does_not_exist) = v at hh hn16 ⊢
  by_cases hn : v.length ≤ 3
  · simp only [hn, if_true, Option.some.injEq] at hh
    subst hh
    exact ⟨fun p hp => hp, le_rfl⟩
  · simp only [hn, if_false] at hh
    have hvne : v ≠ [] := by
      intro h
      rw [h] at hn
      simp at hn
    obtain ⟨hmin, _⟩ := GrahamScan.bottommost_spec v hvne
    generalize GrahamScan.bottommost_loop v (v.drop 1) 1 0 (v.getD 0 default).y = min
      at hmin hh
    obtain ⟨a, t, hat⟩ := List.exists_cons_of_ne_nil hvne
    obtain ⟨hsw1, _⟩ := GrahamScan.swap_zero a t min (hat ▸ hmin)
    rw [← hat] at hsw1
    generalize (GrahamScan.swap v 0 min).getD 0 default = p0 at hh
    cases hv2 : GrahamScan.sort (GrahamScan.PointsSorter p0) (GrahamScan.swap v 0 min) with
    | none =>
      rw [hv2] at hh
      simp at hh
    | some v2 =>
      rw [hv2, Option.map_some'] at hh
      have hh2 := Option.some.inj hh
      have hperm2 := GrahamScan.sort_perm (GrahamScan.PointsSorter p0) (GrahamScan.swap v 0 min)
        v2 (by rw [hsw1.length_eq]; exact hn16) hv2
      have hpermv : v2.Perm v := hperm2.trans hsw1
      have hlen : v2.length = v.length := hpermv.length_eq
      have hsub := GrahamScan.remove_aligned_sublist p0 (v2.drop 1)
      generalize GrahamScan.remove_aligned p0 (v2.drop 1) = kept at hsub hh2
      have hklen : kept.length + 1 ≤ v2.length := by
        have := hsub.length_le
        simp only [List.length_drop] at this
        omega
      -- the vector after the removal of the aligned points
      have hkeptmem : ∀ p ∈ v2.take 1 ++ kept ++ v2.drop (kept.length + 1), p ∈ v2 := by
        intro p hp
        rcases List.mem_append.1 hp with hp | hp
        · rcases List.mem_append.1 hp with hp | hp
          · exact List.mem_of_mem_take hp
          · exact List.mem_of_mem_drop (hsub.subset hp)
        · exact List.mem_of_mem_drop hp
      have hkeptlen : (v2.take 1 ++ kept ++ v2.drop (kept.length + 1)).length = v2.length := by
        simp only [List.length_append, List.length_take, List.length_drop]
        omega
      generalize v2.take 1 ++ kept ++ v2.drop (kept.length + 1) = v3 at hkeptmem hkeptlen hh2
      obtain ⟨h1, h2⟩ := GrahamScan.scan_loop_subset ((v3.take (kept.length + 1)).drop 3)
        [v3.getD 2 default, v3.getD 1 default, v3.getD 0 default]
      subst hh2
      constructor
      · intro p hp
        apply hpermv.subset
        apply hkeptmem
        rcases h1 p (List.mem_reverse.1 hp) with h | h
        · exact List.mem_of_mem_take (List.mem_of_mem_drop h)
        · simp only [List.mem_cons, List.mem_singleton, List.not_mem_nil, or_false] at h
          rcases h with rfl | rfl | rfl
          · exact mem_of_getD v3 2 (by omega)
          · exact mem_of_getD v3 1 (by omega)
          · exact mem_of_getD v3 0 (by omega)
      · rw [List.length_reverse]
        simp only [List.length_drop, List.length_take, List.length_cons, List.length_nil] at h2
        omega

/-- C18, at seventeen copies of the point `(0,0)` followed by `(1,0)` and `(0,1)`: the
nineteen points exist, and the comparator of the sort answers `true` on the pivot `(0,0)` and
itself. The vector has more than 16 cells: the sort takes the median of the cells 1, 9 and 18
for pivot, which leaves the vector as it is, the first loop of `__unguarded_partition` stops at
the cell 17, and the second loop, in which the pivot precedes every cell, reads the cell before
the first one. The sort has no result, and `convex_hull` has no list of input points to
return. -/
theorem C18_no_points_returned :
    (List.replicate 17 (Point.exact 0 0) ++ [Point.exact 1 0, Point.exact 0 1]).length = 19 ∧
    (∀ p ∈ List.replicate 17 (Point.exact 0 0) ++ [Point.exact 1 0, Point.exact 0 1],
      p.does_not_exist = false) ∧
    GrahamScan.PointsSorter (Point.exact 0 0) (Point.exact 0 0) (Point.exact 0 0) = true ∧
    GrahamScan.move_median_to_first (GrahamScan.PointsSorter (Point.exact 0 0))
        (List.replicate 17 (Point.exact 0 0) ++ [Point.exact 1 0, Point.exact 0 1]) 0 1 9 18
      = some (List.replicate 17 (Point.exact 0 0) ++ [Point.exact 1 0, Point.exact 0 1]) ∧
    GrahamScan.scan_up (GrahamScan.PointsSorter (Point.exact 0 0)) (Point.exact 0 0)
        ((List.replicate 17 (Point.exact 0 0) ++ [Point.exact 1 0, Point.exact 0 1]).drop 1) 1
      = some 17 ∧
    GrahamScan.scan_down (GrahamScan.PointsSorter (Point.exact 0 0)) (Point.exact 0 0)
        ((List.replicate 17 (Point.exact 0 0) ++ [Point.exact 1 0, Point.exact 0 1]).take
          19).reverse 18 = none ∧
    GrahamScan.sort (GrahamScan.PointsSorter (Point.exact 0 0))
        (List.replicate 17 (Point.exact 0 0) ++ [Point.exact 1 0, Point.exact 0 1]) = none ∧
    GrahamScan.convex_hull
      (List.replicate 17 (Point.exact 0 0) ++ [Point.exact 1 0, Point.exact 0 1]) = none := by
  refine ⟨by decide, by decide!, by decide!, by decide!, by decide!, by decide!, by decide!,
    by decide!⟩

/-! ## The order of the vertices returned -/

/-- C20: `GrahamScan::convex_hull` works on the existing points of the input, kept in their
order; when at most three points exist, it returns exactly them, in the order of the input. -/
theorem C20_at_most_three_points (v_points : List Point)
    (h : (v_points.filter (fun p => !p.does_not_exist)).length ≤ 3) :
    ∃ hull, GrahamScan.convex_hull v_points = some hull ∧
      hull = v_points.filter (fun p => !p.does_not_exist) ∧
      hull.Sublist v_points ∧
      ∀ p ∈ v_points, (p ∈ hull ↔ p.does_not_exist = false) := by
  have e : GrahamScan.convex_hull v_points
      = some (v_points.filter (fun p => !p.does_not_exist)) := by
    unfold GrahamScan.convex_hull
    simp only [h, if_true]
  refine ⟨_, e, rfl, List.filter_sublist _, ?_⟩
  intro p hp
  rw [List.mem_filter]
  simp [hp]

/-- Witness of C20: of the four points given, the second one does not exist; the three others
are returned in the order of the input, here a clockwise one. -/
theorem C20_at_most_three_points_witness :
    GrahamScan.convex_hull
        [Point.exact 0 0, ⟨Interval.EMPTY_SET, Interval.mk (Dbl.fin 0) (Dbl.fin 1)⟩,
          Point.exact 0 1, Point.exact 1 0]
      = some [Point.exact 0 0, Point.exact 0 1, Point.exact 1 0] := by
  obtain ⟨hull, h1, h2, _⟩ := C20_at_most_three_points
    [Point.exact 0 0, ⟨Interval.EMPTY_SET, Interval.mk (Dbl.fin 0) (Dbl.fin 1)⟩,
      Point.exact 0 1, Point.exact 1 0] (by decide)
  rw [h1, h2]
  decide

/-! ## Real points of the intervals of a difference and of a product -/

theorem Dbl.le_real_mono {p q : Dbl} {z : ℝ} (h : p ≤ q) (hq : q.le_real z) : p.le_real z := by
  cases p with
  | ninf => trivial
  | fin a =>
    cases q with
    | ninf => exact absurd h (by simp [Dbl.le_def, Dbl.le])
    | fin b =>
      have h1 : a ≤ b := (Dbl.fin_le_fin a b).1 h
      have h2 : (a : ℝ) ≤ b := by exact_mod_cast h1
      exact le_trans h2 hq
    | pinf => exact hq.elim
  | pinf =>
    cases q with
    | ninf => exact absurd h (by simp [Dbl.le_def, Dbl.le])
    | fin b => exact absurd h (by simp [Dbl.le_def, Dbl.le])
    | pinf => exact hq.elim

theorem Dbl.real_le_mono {p q : Dbl} {z : ℝ} (h : p ≤ q) (hp : Dbl.real_le z p) :
    Dbl.real_le z q := by
  cases q with
  | pinf => trivial
  | fin b =>
    cases p with
    | pinf => exact absurd h (by simp [Dbl.le_def, Dbl.le])
    | fin a =>
      have h1 : a ≤ b := (Dbl.fin_le_fin a b).1 h
      have h2 : (a : ℝ) ≤ b := by exact_mod_cast h1
      exact le_trans hp h2
    | ninf => exact hp.elim
  | ninf =>
    cases p with
    | pinf => exact absurd h (by simp [Dbl.le_def, Dbl.le])
    | fin a => exact absurd h (by simp [Dbl.le_def, Dbl.le])
    | ninf => exact hp.elim

theorem Dbl.le_real_min {p q : Dbl} {z : ℝ} (h : p.le_real z ∨ q.le_real z) :
    (min p q).le_real z := by
  rcases h with h | h
  · exact Dbl.le_real_mono (min_le_left p q) h
  · exact Dbl.le_real_mono (min_le_right p q) h

theorem Dbl.real_le_max {p q : Dbl} {z : ℝ} (h : Dbl.real_le z p ∨ Dbl.real_le z q) :
    Dbl.real_le z (max p q) := by
  rcases h with h | h
  · exact Dbl.real_le_mono (le_max_left p q) h
  · exact Dbl.real_le_mono (le_max_right p q) h

theorem Dbl.fin_mul_pinf (a : ℚ) :
    Dbl.fin a * Dbl.pinf = if a = 0 then Dbl.fin 0 else if 0 < a then Dbl.pinf else Dbl.ninf :=
  rfl

theorem Dbl.fin_mul_ninf (a : ℚ) :
    Dbl.fin a * Dbl.ninf = if a = 0 then Dbl.fin 0 else if 0 < a then Dbl.ninf else Dbl.pinf :=
  rfl

theorem Dbl.pinf_mul_fin (b : ℚ) :
    Dbl.pinf * Dbl.fin b = if b = 0 then Dbl.fin 0 else if 0 < b then Dbl.pinf else Dbl.ninf :=
  rfl

theorem Dbl.ninf_mul_fin (b : ℚ) :
    Dbl.ninf * Dbl.fin b = if b = 0 then Dbl.fin 0 else if 0 < b then Dbl.ninf else Dbl.pinf :=
  rfl

/-- A lower bound of `x * y` among the products of the bounds, for `y` not negative. -/
theorem Dbl.mul_lower_nonneg {a c d : Dbl} {x y : ℝ} (ha : a.le_real x) (hc : c.le_real y)
    (hd : Dbl.real_le y d) (hy : 0 ≤ y) :
    (a * c).le_real (x * y) ∨ (a * d).le_real (x * y) := by
  cases a with
  | pinf => exact ha.elim
  | ninf =>
    right
    cases d with
    | ninf => exact hd.elim
    | pinf => trivial
    | fin d =>
      have hd1 : y ≤ (d : ℝ) := hd
      rw [Dbl.ninf_mul_fin]
      by_cases h0 : d = 0
      · rw [if_pos h0]
        subst h0
        have : y = 0 := le_antisymm (by simpa using hd1) hy
        subst this
        show ((0 : ℚ) : ℝ) ≤ x * 0
        simp
      · rw [if_neg h0]
        have hpos : 0 < d := by
          have : (0 : ℝ) ≤ d := le_trans hy hd1
          have h1 : (0 : ℚ) ≤ d := by exact_mod_cast this
          exact lt_of_le_of_ne h1 (Ne.symm h0)
        rw [if_pos hpos]
        trivial
  | fin a =>
    have ha1 : (a : ℝ) ≤ x := ha
    by_cases h0 : 0 ≤ a
    · left
      have h0r : (0 : ℝ) ≤ a := by exact_mod_cast h0
      cases c with
      | pinf => exact hc.elim
      | fin c =>
        have hc1 : (c : ℝ) ≤ y := hc
        rw [Dbl.fin_mul_fin]
        show ((a * c : ℚ) : ℝ) ≤ x * y
        push_cast
        nlinarith [mul_le_mul_of_nonneg_left hc1 h0r, mul_le_mul_of_nonneg_right ha1 hy]
      | ninf =>
        rw [Dbl.fin_mul_ninf]
        by_cases h1 : a = 0
        · rw [if_pos h1]
          show ((0 : ℚ) : ℝ) ≤ x * y
          have : 0 ≤ x := le_trans h0r ha1
          simpa using mul_nonneg this hy
        · rw [if_neg h1, if_pos (lt_of_le_of_ne h0 (Ne.symm h1))]
          trivial
    · right
      have hneg : a < 0 := not_le.1 h0
      have hnegr : (a : ℝ) < 0 := by exact_mod_cast hneg
      cases d with
      | ninf => exact hd.elim
      | fin d =>
        have hd1 : y ≤ (d : ℝ) := hd
        rw [Dbl.fin_mul_fin]
        show ((a * d : ℚ) : ℝ) ≤ x * y
        push_cast
        nlinarith [mul_le_mul_of_nonpos_left hd1 hnegr.le, mul_le_mul_of_nonneg_right ha1 hy]
      | pinf =>
        rw [Dbl.fin_mul_pinf, if_neg (ne_of_lt hneg), if_neg (not_lt.2 hneg.le)]
        trivial

/-- A lower bound of `x * y` among the products of the bounds, for `y` not positive. -/
theorem Dbl.mul_lower_nonpos {b c d : Dbl} {x y : ℝ} (hb : Dbl.real_le x b) (hc : c.le_real y)
    (hd : Dbl.real_le y d) (hy : y ≤ 0) :
    (b * c).le_real (x * y) ∨ (b * d).le_real (x * y) := by
  cases b with
  | ninf => exact hb.elim
  | pinf =>
    left
    cases c with
    | pinf => exact hc.elim
    | ninf => trivial
    | fin c =>
      have hc1 : (c : ℝ) ≤ y := hc
      rw [Dbl.pinf_mul_fin]
      by_cases h0 : c = 0
      · rw [if_pos h0]
        subst h0
        have : y = 0 := le_antisymm hy (by simpa using hc1)
        subst this
        show ((0 : ℚ) : ℝ) ≤ x * 0
        simp
      · rw [if_neg h0]
        have hneg : c < 0 := by
          have : (c : ℝ) ≤ 0 := le_trans hc1 hy
          have h1 : c ≤ (0 : ℚ) := by exact_mod_cast this
          exact lt_of_le_of_ne h1 h0
        rw [if_neg (not_lt.2 hneg.le)]
        trivial
  | fin b =>
    have hb1 : x ≤ (b : ℝ) := hb
    by_cases h0 : 0 ≤ b
    · left
      have h0r : (0 : ℝ) ≤ b := by exact_mod_cast h0
      cases c with
      | pinf => exact hc.elim
      | fin c =>
        have hc1 : (c : ℝ) ≤ y := hc
        rw [Dbl.fin_mul_fin]
        show ((b * c : ℚ) : ℝ) ≤ x * y
        push_cast
        nlinarith [mul_le_mul_of_nonneg_left hc1 h0r, mul_le_mul_of_nonpos_right hb1 hy]
      | ninf =>
        rw [Dbl.fin_mul_ninf]
        by_cases h1 : b = 0
        · rw [if_pos h1]
          show ((0 : ℚ) : ℝ) ≤ x * y
          subst h1
          have : x ≤ 0 := by simpa using hb1
          simpa using mul_nonneg_of_nonpos_of_nonpos this hy
        · rw [if_neg h1, if_pos (lt_of_le_of_ne h0 (Ne.symm h1))]
          trivial
    · right
      have hneg : b < 0 := not_le.1 h0
      have hnegr : (b : ℝ) < 0 := by exact_mod_cast hneg
      cases d with
      | ninf => exact hd.elim
      | fin d =>
        have hd1 : y ≤ (d : ℝ) := hd
        rw [Dbl.fin_mul_fin]
        show ((b * d : ℚ) : ℝ) ≤ x * y
        push_cast
        nlinarith [mul_le_mul_of_nonpos_left hd1 hnegr.le, mul_le_mul_of_nonpos_right hb1 hy]
      | pinf =>
        rw [Dbl.fin_mul_pinf, if_neg (ne_of_lt hneg), if_neg (not_lt.2 hneg.le)]
        trivial

/-- An upper bound of `x * y` among the products of the bounds, for `y` not negative. -/
theorem Dbl.mul_upper_nonneg {b c d : Dbl} {x y : ℝ} (hb : Dbl.real_le x b) (hc : c.le_real y)
    (hd : Dbl.real_le y d) (hy : 0 ≤ y) :
    Dbl.real_le (x * y) (b * c) ∨ Dbl.real_le (x * y) (b * d) := by
  cases b with
  | ninf => exact hb.elim
  | pinf =>
    right
    cases d with
    | ninf => exact hd.elim
    | pinf => trivial
    | fin d =>
      have hd1 : y ≤ (d : ℝ) := hd
      rw [Dbl.pinf_mul_fin]
      by_cases h0 : d = 0
      · rw [if_pos h0]
        subst h0
        have : y = 0 := le_antisymm (by simpa using hd1) hy
        subst this
        show x * 0 ≤ ((0 : ℚ) : ℝ)
        simp
      · rw [if_neg h0]
        have hpos : 0 < d := by
          have : (0 : ℝ) ≤ d := le_trans hy hd1
          have h1 : (0 : ℚ) ≤ d := by exact_mod_cast this
          exact lt_of_le_of_ne h1 (Ne.symm h0)
        rw [if_pos hpos]
        trivial
  | fin b =>
    have hb1 : x ≤ (b : ℝ) := hb
    by_cases h0 : 0 ≤ b
    · right
      have h0r : (0 : ℝ) ≤ b := by exact_mod_cast h0
      cases d with
      | ninf => exact hd.elim
      | fin d =>
        have hd1 : y ≤ (d : ℝ) := hd
        rw [Dbl.fin_mul_fin]
        show x * y ≤ ((b * d : ℚ) : ℝ)
        push_cast
        nlinarith [mul_le_mul_of_nonneg_left hd1 h0r, mul_le_mul_of_nonneg_right hb1 hy]
      | pinf =>
        rw [Dbl.fin_mul_pinf]
        by_cases h1 : b = 0
        · rw [if_pos h1]
          show x * y ≤ ((0 : ℚ) : ℝ)
          subst h1
          have : x ≤ 0 := by simpa using hb1
          simpa using mul_nonpos_of_nonpos_of_nonneg this hy
        · rw [if_neg h1, if_pos (lt_of_le_of_ne h0 (Ne.symm h1))]
          trivial
    · left
      have hneg : b < 0 := not_le.1 h0
      have hnegr : (b : ℝ) < 0 := by exact_mod_cast hneg
      cases c with
      | pinf => exact hc.elim
      | fin c =>
        have hc1 : (c : ℝ) ≤ y := hc
        rw [Dbl.fin_mul_fin]
        show x * y ≤ ((b * c : ℚ) : ℝ)
        push_cast
        nlinarith [mul_le_mul_of_nonpos_left hc1 hnegr.le, mul_le_mul_of_nonneg_right hb1 hy]
      | ninf =>
        rw [Dbl.fin_mul_ninf, if_neg (ne_of_lt hneg), if_neg (not_lt.2 hneg.le)]
        trivial

/-- An upper bound of `x * y` among the products of the bounds, for `y` not positive. -/
theorem Dbl.mul_upper_nonpos {a c d : Dbl} {x y : ℝ} (ha : a.le_real x) (hc : c.le_real y)
    (hd : Dbl.real_le y d) (hy : y ≤ 0) :
    Dbl.real_le (x * y) (a * c) ∨ Dbl.real_le (x * y) (a * d) := by
  cases a with
  | pinf => exact ha.elim
  | ninf =>
    left
    cases c with
    | pinf => exact hc.elim
    | ninf => trivial
    | fin c =>
      have hc1 : (c : ℝ) ≤ y := hc
      rw [Dbl.ninf_mul_fin]
      by_cases h0 : c = 0
      · rw [if_pos h0]
        subst h0
        have : y = 0 := le_antisymm hy (by simpa using hc1)
        subst this
        show x * 0 ≤ ((0 : ℚ) : ℝ)
        simp
      · rw [if_neg h0]
        have hneg : c < 0 := by
          have : (c : ℝ) ≤ 0 := le_trans hc1 hy
          have h1 : c ≤ (0 : ℚ) := by exact_mod_cast this
          exact lt_of_le_of_ne h1 h0
        rw [if_neg (not_lt.2 hneg.le)]
        trivial
  | fin a =>
    have ha1 : (a : ℝ) ≤ x := ha
    by_cases h0 : 0 ≤ a
    · right
      have h0r : (0 : ℝ) ≤ a := by exact_mod_cast h0
      cases d with
      | ninf => exact hd.elim
      | fin d =>
        have hd1 : y ≤ (d : ℝ) := hd
        rw [Dbl.fin_mul_fin]
        show x * y ≤ ((a * d : ℚ) : ℝ)
        push_cast
        nlinarith [mul_le_mul_of_nonneg_left hd1 h0r, mul_le_mul_of_nonpos_right ha1 hy]
      | pinf =>
        rw [Dbl.fin_mul_pinf]
        by_cases h1 : a = 0
        · rw [if_pos h1]
          show x * y ≤ ((0 : ℚ) : ℝ)
          have : 0 ≤ x := le_trans h0r ha1
          simpa using mul_nonpos_of_nonneg_of_nonpos this hy
        · rw [if_neg h1, if_pos (lt_of_le_of_ne h0 (Ne.symm h1))]
          trivial
    · left
      have hneg : a < 0 := not_le.1 h0
      have hnegr : (a : ℝ) < 0 := by exact_mod_cast hneg
      cases c with
      | pinf => exact hc.elim
      | fin c =>
        have hc1 : (c : ℝ) ≤ y := hc
        rw [Dbl.fin_mul_fin]
        show x * y ≤ ((a * c : ℚ) : ℝ)
        push_cast
        nlinarith [mul_le_mul_of_nonpos_left hc1 hnegr.le, mul_le_mul_of_nonpos_right ha1 hy]
      | ninf =>
        rw [Dbl.fin_mul_ninf, if_neg (ne_of_lt hneg), if_neg (not_lt.2 hneg.le)]
        trivial

/-- The product of a point of `X` and a point of `Y` is a point of `X * Y`. -/
theorem Interval.mem_mul {X Y : Interval} {x y : ℝ} (hx : X.mem x) (hy : Y.mem y) :
    (X * Y).mem (x * y) := by
  cases X with
  | empty => exact hx.elim
  | mk a b =>
    cases Y with
    | empty => exact hy.elim
    | mk c d =>
      rw [Interval.mul_mk]
      rcases le_total 0 y with h0 | h0
      · refine ⟨?_, ?_⟩
        · apply Dbl.le_real_min
          left
          exact Dbl.le_real_min (Dbl.mul_lower_nonneg hx.1 hy.1 hy.2 h0)
        · apply Dbl.real_le_max
          right
          exact Dbl.real_le_max (Dbl.mul_upper_nonneg hx.2 hy.1 hy.2 h0)
      · refine ⟨?_, ?_⟩
        · apply Dbl.le_real_min
          right
          exact Dbl.le_real_min (Dbl.mul_lower_nonpos hx.2 hy.1 hy.2 h0)
        · apply Dbl.real_le_max
          left
          exact Dbl.real_le_max (Dbl.mul_upper_nonpos hx.1 hy.1 hy.2 h0)

/-- The difference of a point of `X` and a point of `Y` is a point of `X - Y`. -/
theorem Interval.mem_sub {X Y : Interval} {x y : ℝ} (hx : X.mem x) (hy : Y.mem y) :
    (X - Y).mem (x - y) := by
  cases X with
  | empty => exact hx.elim
  | mk a b =>
    cases Y with
    | empty => exact hy.elim
    | mk c d =>
      rw [Interval.sub_mk]
      obtain ⟨ha, hb⟩ := hx
      obtain ⟨hc, hd⟩ := hy
      refine ⟨?_, ?_⟩
      · cases a with
        | pinf => exact ha.elim
        | ninf =>
          have h : Dbl.ninf - d = Dbl.ninf := by cases d <;> rfl
          rw [h]
          trivial
        | fin a =>
          cases d with
          | ninf => exact hd.elim
          | pinf => trivial
          | fin d =>
            have h1 : (a : ℝ) ≤ x := ha
            have h2 : y ≤ (d : ℝ) := hd
            rw [Dbl.fin_sub_fin]
            show ((a - d : ℚ) : ℝ) ≤ x - y
            push_cast
            linarith
      · cases b with
        | ninf => exact hb.elim
        | pinf =>
          cases c with
          | pinf => exact hc.elim
          | ninf => trivial
          | fin c => trivial
        | fin b =>
          cases c with
          | pinf => exact hc.elim
          | ninf => trivial
          | fin c =>
            have h1 : x ≤ (b : ℝ) := hb
            have h2 : (c : ℝ) ≤ y := hc
            rw [Dbl.fin_sub_fin]
            show x - y ≤ ((b - c : ℚ) : ℝ)
            push_cast
            linarith

theorem Interval.mem_bounds {X : Interval} {x : ℝ} (hx : X.mem x) :
    X.is_empty = false ∧ X.lb.le_real x ∧ Dbl.real_le x X.ub ∧ X.lb ≤ X.ub := by
  cases X with
  | empty => exact hx.elim
  | mk a b =>
    refine ⟨rfl, hx.1, hx.2, ?_⟩
    obtain ⟨ha, hb⟩ := hx
    cases a with
    | pinf => exact ha.elim
    | ninf => exact trivial
    | fin a =>
      cases b with
      | ninf => exact hb.elim
      | pinf => exact trivial
      | fin b =>
        have h1 : (a : ℝ) ≤ x := ha
        have h2 : x ≤ (b : ℝ) := hb
        have : (a : ℝ) ≤ b := le_trans h1 h2
        exact (Dbl.fin_le_fin a b).2 (by exact_mod_cast this)

theorem Dbl.sub_le_sub_all {a b c d : Dbl} (hab : a ≤ b) (hcd : c ≤ d) : a - d ≤ b - c := by
  cases a <;> cases b <;> cases c <;> cases d <;>
    simp only [Dbl.le_def, Dbl.le, HSub.hSub, Sub.sub, Dbl.sub, Dbl.add, Dbl.neg] at *
  linarith

theorem Interval.mul_wf {X Y : Interval} (hX : X.is_empty = false) (hY : Y.is_empty = false) :
    (X * Y).is_empty = false ∧ (X * Y).lb ≤ (X * Y).ub := by
  cases X with
  | empty => exact absurd hX (by decide)
  | mk a b =>
    cases Y with
    | empty => exact absurd hY (by decide)
    | mk c d =>
      rw [Interval.mul_mk]
      refine ⟨rfl, ?_⟩
      show min (min (a * c) (a * d)) (min (b * c) (b * d))
        ≤ max (max (a * c) (a * d)) (max (b * c) (b * d))
      exact le_trans (le_trans (min_le_left _ _) (min_le_left _ _))
        (le_trans (le_max_left _ _) (le_max_left _ _))

theorem Interval.sub_wf {P Q : Interval} (hP : P.is_empty = false) (hQ : Q.is_empty = false)
    (hPle : P.lb ≤ P.ub) (hQle : Q.lb ≤ Q.ub) :
    (P - Q).is_empty = false ∧ (P - Q).lb ≤ (P - Q).ub := by
  cases P with
  | empty => exact absurd hP (by decide)
  | mk a b =>
    cases Q with
    | empty => exact absurd hQ (by decide)
    | mk c d =>
      rw [Interval.sub_mk]
      exact ⟨rfl, Dbl.sub_le_sub_all hPle hQle⟩

theorem Interval.sub_is_empty {P Q : Interval} (hP : P.is_empty = false)
    (hQ : Q.is_empty = false) : (P - Q).is_empty = false := by
  cases P with
  | empty => exact absurd hP (by decide)
  | mk a b =>
    cases Q with
    | empty => exact absurd hQ (by decide)
    | mk c d => rfl

theorem Dbl.real_lt_of_le_of_lt {z : ℝ} {u : Dbl} (h : Dbl.real_le z u) (hu : u < 0) :
    z < 0 := by
  cases u with
  | ninf => exact h.elim
  | pinf => exact absurd hu (by decide)
  | fin u =>
    have h1 : z ≤ (u : ℝ) := h
    have h2 : u < 0 := (Dbl.fin_lt_fin u 0).1 hu
    have h3 : (u : ℝ) < 0 := by exact_mod_cast h2
    linarith

theorem Dbl.real_gt_of_lt_of_le {z : ℝ} {l : Dbl} (h : l.le_real z) (hl : 0 < l) :
    0 < z := by
  cases l with
  | pinf => exact h.elim
  | ninf => exact absurd hl (by decide)
  | fin l =>
    have h1 : (l : ℝ) ≤ z := h
    have h2 : 0 < l := (Dbl.fin_lt_fin 0 l).1 hl
    have h3 : (0 : ℝ) < l := by exact_mod_cast h2
    linarith

/-- The value tested by `orientation` is a non-empty interval whose bounds are in order, for
points that exist. -/
theorem GrahamScan.orientation_value_wf (a b c : Point) (ha : a.does_not_exist = false)
    (hb : b.does_not_exist = false) (hc : c.does_not_exist = false) :
    ((b.y - a.y) * (c.x - b.x) - (b.x - a.x) * (c.y - b.y)).is_empty = false ∧
    ((b.y - a.y) * (c.x - b.x) - (b.x - a.x) * (c.y - b.y)).lb
      ≤ ((b.y - a.y) * (c.x - b.x) - (b.x - a.x) * (c.y - b.y)).ub := by
  simp only [Point.does_not_exist, Bool.or_eq_false_iff] at ha hb hc
  have h1 := Interval.mul_wf (Interval.sub_is_empty hb.2 ha.2) (Interval.sub_is_empty hc.1 hb.1)
  have h2 := Interval.mul_wf (Interval.sub_is_empty hb.1 ha.1) (Interval.sub_is_empty hc.2 hb.2)
  exact Interval.sub_wf h1.1 h2.1 h1.2 h2.2

theorem Interval.contains_iff_of_not_empty {X : Interval} (h : X.is_empty = false) (t : Dbl) :
    X.contains t = true ↔ X.lb ≤ t ∧ t ≤ X.ub := by
  cases X with
  | empty => exact absurd h (by decide)
  | mk a b => simp [Interval.contains, Interval.lb, Interval.ub]

/-- C21: for points `a`, `b`, `c` that exist, with interval coordinates, `orientation(a,b,c)`
is `UNDEFINED` exactly when the interval `(b.y-a.y)*(c.x-b.x) - (b.x-a.x)*(c.y-b.y)` contains
zero, `CLOCKWISE` exactly when the lower bound of that interval is positive, and
`COUNTERCLOCKWISE` otherwise; and for every choice of real points in `a`, `b` and `c`, the
answer `COUNTERCLOCKWISE` means a strict left turn (a positive cross product of `b - a` and
`c - a`) and the answer `CLOCKWISE` a strict right turn (a negative one). -/
theorem C21_orientation_sound (a b c : Point) (ha : a.does_not_exist = false)
    (hb : b.does_not_exist = false) (hc : c.does_not_exist = false) :
    (GrahamScan.orientation a b c = OrientationInterval.UNDEFINED ↔
      ((b.y - a.y) * (c.x - b.x) - (b.x - a.x) * (c.y - b.y)).contains 0 = true) ∧
    (GrahamScan.orientation a b c = OrientationInterval.CLOCKWISE ↔
      0 < ((b.y - a.y) * (c.x - b.x) - (b.x - a.x) * (c.y - b.y)).lb) ∧
    (GrahamScan.orientation a b c = OrientationInterval.COUNTERCLOCKWISE ↔
      (((b.y - a.y) * (c.x - b.x) - (b.x - a.x) * (c.y - b.y)).contains 0 = false ∧
        ¬ 0 < ((b.y - a.y) * (c.x - b.x) - (b.x - a.x) * (c.y - b.y)).lb)) ∧
    ∀ xa ya xb yb xc yc : ℝ, a.x.mem xa → a.y.mem ya → b.x.mem xb → b.y.mem yb →
      c.x.mem xc → c.y.mem yc →
      (GrahamScan.orientation a b c = OrientationInterval.COUNTERCLOCKWISE →
        0 < (xb - xa) * (yc - ya) - (yb - ya) * (xc - xa)) ∧
      (GrahamScan.orientation a b c = OrientationInterval.CLOCKWISE →
        (xb - xa) * (yc - ya) - (yb - ya) * (xc - xa) < 0) := by
  obtain ⟨hne, hle⟩ := GrahamScan.orientation_value_wf a b c ha hb hc
  have hcont := Interval.contains_iff_of_not_empty hne 0
  have hU : GrahamScan.orientation a b c = OrientationInterval.UNDEFINED ↔
      ((b.y - a.y) * (c.x - b.x) - (b.x - a.x) * (c.y - b.y)).contains 0 = true := by
    unfold GrahamScan.orientation
    by_cases h1 : ((b.y - a.y) * (c.x - b.x) - (b.x - a.x) * (c.y - b.y)).contains 0 = true
    · simp [h1]
    · simp only [h1, Bool.false_eq_true, if_false, iff_false]
      by_cases h2 : 0 < ((b.y - a.y) * (c.x - b.x) - (b.x - a.x) * (c.y - b.y)).lb
      · simp [h2]
      · simp [h2]
  have hC : GrahamScan.orientation a b c = OrientationInterval.CLOCKWISE ↔
      0 < ((b.y - a.y) * (c.x - b.x) - (b.x - a.x) * (c.y - b.y)).lb := by
    unfold GrahamScan.orientation
    by_cases h2 : 0 < ((b.y - a.y) * (c.x - b.x) - (b.x - a.x) * (c.y - b.y)).lb
    · have h1 : ¬ ((b.y - a.y) * (c.x - b.x) - (b.x - a.x) * (c.y - b.y)).contains 0 = true := by
        rw [hcont]
        exact fun h => absurd h.1 (not_le.2 h2)
      simp [h1, h2]
    · by_cases h1 : ((b.y - a.y) * (c.x - b.x) - (b.x - a.x) * (c.y - b.y)).contains 0 = true
      · simp [h1, h2]
      · simp [h1, h2]
  have hCC : GrahamScan.orientation a b c = OrientationInterval.COUNTERCLOCKWISE ↔
      (((b.y - a.y) * (c.x - b.x) - (b.x - a.x) * (c.y - b.y)).contains 0 = false ∧
        ¬ 0 < ((b.y - a.y) * (c.x - b.x) - (b.x - a.x) * (c.y - b.y)).lb) := by
    unfold GrahamScan.orientation
    by_cases h1 : ((b.y - a.y) * (c.x - b.x) - (b.x - a.x) * (c.y - b.y)).contains 0 = true
    · simp [h1]
    · by_cases h2 : 0 < ((b.y - a.y) * (c.x - b.x) - (b.x - a.x) * (c.y - b.y)).lb
      · simp [h1, h2]
      · simp [h1, h2]
  refine ⟨hU, hC, hCC, ?_⟩
  intro xa ya xb yb xc yc hxa hya hxb hyb hxc hyc
  have hmem : ((b.y - a.y) * (c.x - b.x) - (b.x - a.x) * (c.y - b.y)).mem
      ((yb - ya) * (xc - xb) - (xb - xa) * (yc - yb)) :=
    Interval.mem_sub (Interval.mem_mul (Interval.mem_sub hyb hya) (Interval.mem_sub hxc hxb))
      (Interval.mem_mul (Interval.mem_sub hxb hxa) (Interval.mem_sub hyc hyb))
  obtain ⟨_, hlo, hup, _⟩ := Interval.mem_bounds hmem
  refine ⟨?_, ?_⟩
  · intro ho
    obtain ⟨h1, h2⟩ := hCC.1 ho
    have h3 : ((b.y - a.y) * (c.x - b.x) - (b.x - a.x) * (c.y - b.y)).ub < 0 := by
      by_contra h4
      have : ((b.y - a.y) * (c.x - b.x) - (b.x - a.x) * (c.y - b.y)).contains 0 = true :=
        hcont.2 ⟨not_lt.1 h2, not_lt.1 h4⟩
      rw [h1] at this
      exact absurd this (by decide)
    have := Dbl.real_lt_of_le_of_lt hup h3
    linarith
  · intro ho
    have := Dbl.real_gt_of_lt_of_le hlo (hC.1 ho)
    linarith

theorem C21_orientation_sound_witness :
    Point.does_not_exist ⟨Interval.mk (Dbl.fin 0) (Dbl.fin 1), Interval.mk (Dbl.fin 0) (Dbl.fin 1)⟩
      = false ∧
    (GrahamScan.orientation
        ⟨Interval.mk (Dbl.fin 0) (Dbl.fin 1), Interval.mk (Dbl.fin 0) (Dbl.fin 1)⟩
        ⟨Interval.mk (Dbl.fin 3) (Dbl.fin 4), Interval.mk (Dbl.fin 0) (Dbl.fin 1)⟩
        ⟨Interval.mk (Dbl.fin 3) (Dbl.fin 4), Interval.mk (Dbl.fin 3) (Dbl.fin 4)⟩
      = OrientationInterval.COUNTERCLOCKWISE) ∧
    (0 : ℝ) < (3 - 1) * (3 - 0) - (1 - 0) * (4 - 1) :=
  ⟨by decide, by decide!,
    ((C21_orientation_sound
      ⟨Interval.mk (Dbl.fin 0) (Dbl.fin 1), Interval.mk (Dbl.fin 0) (Dbl.fin 1)⟩
      ⟨Interval.mk (Dbl.fin 3) (Dbl.fin 4), Interval.mk (Dbl.fin 0) (Dbl.fin 1)⟩
      ⟨Interval.mk (Dbl.fin 3) (Dbl.fin 4), Interval.mk (Dbl.fin 3) (Dbl.fin 4)⟩
      (by decide) (by decide) (by decide)).2.2.2 1 0 3 1 4 3
      (by simp [Interval.mem, Dbl.le_real, Dbl.real_le])
      (by simp [Interval.mem, Dbl.le_real, Dbl.real_le])
      (by norm_num [Interval.mem, Dbl.le_real, Dbl.real_le])
      (by simp [Interval.mem, Dbl.le_real, Dbl.real_le])
      (by norm_num [Interval.mem, Dbl.le_real, Dbl.real_le])
      (by norm_num [Interval.mem, Dbl.le_real, Dbl.real_le])).1
      (by decide!)⟩

/-! ## Edges of exact endpoints -/

theorem Dbl.le_real_max {p q : Dbl} {z : ℝ} (hp : p.le_real z) (hq : q.le_real z) :
    (max p q).le_real z := by
  rcases le_total p q with h | h
  · rw [max_eq_right h]; exact hq
  · rw [max_eq_left h]; exact hp

theorem Dbl.real_le_min {p q : Dbl} {z : ℝ} (hp : Dbl.real_le z p) (hq : Dbl.real_le z q) :
    Dbl.real_le z (min p q) := by
  rcases le_total p q with h | h
  · rw [min_eq_left h]; exact hp
  · rw [min_eq_right h]; exact hq

theorem Interval.make_mem {a b : Dbl} {z : ℝ} (ha : a.le_real z) (hb : Dbl.real_le z b) :
    (Interval.make a b).mem z := by
  have h := Interval.mem_bounds (show (Interval.mk a b).mem z from ⟨ha, hb⟩)
  have h1 : a ≠ Dbl.pinf := by
    rintro rfl
    exact ha
  have h2 : b ≠ Dbl.ninf := by
    rintro rfl
    exact hb
  unfold Interval.make
  rw [if_pos ⟨h.2.2.2, h1, h2⟩]
  exact ⟨ha, hb⟩

/-- A real point of two intervals is a point of their intersection. -/
theorem Interval.mem_inter {X Y : Interval} {z : ℝ} (hx : X.mem z) (hy : Y.mem z) :
    (X.inter Y).mem z := by
  cases X with
  | empty => exact hx.elim
  | mk a b =>
    cases Y with
    | empty => exact hy.elim
    | mk c d =>
      exact Interval.make_mem (Dbl.le_real_max hx.1 hy.1) (Dbl.real_le_min hx.2 hy.2)

theorem Interval.mem_fin (a b : ℚ) (z : ℝ) :
    (Interval.mk (Dbl.fin a) (Dbl.fin b)).mem z ↔ (a : ℝ) ≤ z ∧ z ≤ (b : ℝ) := Iff.rfl

theorem Interval.mem_exact (r : ℚ) (z : ℝ) :
    (Interval.mk (Dbl.fin r) (Dbl.fin r)).mem z ↔ z = (r : ℝ) := by
  rw [Interval.mem_fin]
  constructor
  · intro h
    exact le_antisymm h.2 h.1
  · intro h
    rw [h]
    exact ⟨le_rfl, le_rfl⟩

theorem Dbl.one_div_fin {d : ℚ} (hd : d ≠ 0) : Dbl.fin 1 / Dbl.fin d = Dbl.fin (1 / d) := by
  show Dbl.div (Dbl.fin 1) (Dbl.fin d) = _
  simp only [Dbl.div, hd, if_false]

/-- The quotient of two intervals reduced to a rational, the second one not to zero. -/
theorem Interval.exact_div (n d : ℚ) (hd : d ≠ 0) :
    Interval.mk (Dbl.fin n) (Dbl.fin n) / Interval.mk (Dbl.fin d) (Dbl.fin d)
      = Interval.mk (Dbl.fin (n / d)) (Dbl.fin (n / d)) := by
  show Interval.div _ _ = _
  have h0 : ¬ (Dbl.fin d = 0 ∧ Dbl.fin d = 0) := fun h => Dbl.fin_ne_zero hd h.1
  have h1 : (0 : Dbl) < Dbl.fin d ∨ Dbl.fin d < 0 := by
    rw [Dbl.zero_def, Dbl.fin_lt_fin, Dbl.fin_lt_fin]
    rcases lt_or_gt_of_ne hd with h | h
    · exact Or.inr h
    · exact Or.inl h
  simp only [Interval.div, h0, if_false, h1, if_true]
  rw [Dbl.one_div_fin hd, Interval.exact_mul]
  congr 2 <;> field_simp

/-- The quotient by the interval reduced to zero is empty. -/
theorem Interval.div_zero (x : Interval) :
    x / Interval.mk (Dbl.fin 0) (Dbl.fin 0) = Interval.empty := by
  show Interval.div _ _ = _
  cases x with
  | empty => rfl
  | mk a b =>
    have h0 : Dbl.fin 0 = (0 : Dbl) ∧ Dbl.fin 0 = (0 : Dbl) := ⟨rfl, rfl⟩
    simp only [Interval.div, h0, and_self, if_true]

theorem Edge.exact_box (x1 y1 x2 y2 : ℚ) :
    (Edge.exact x1 y1 x2 y2).box =
      ⟨Interval.mk (Dbl.fin (min x1 x2)) (Dbl.fin (max x1 x2)),
        Interval.mk (Dbl.fin (min y1 y2)) (Dbl.fin (max y1 y2))⟩ := by
  simp only [Edge.box, Edge.exact, Point.exact, Point.box, IntervalVector.hull,
    IntervalVector.is_empty, Interval.is_empty, Bool.false_eq_true, if_false, Interval.hull,
    Dbl.min_fin, Dbl.max_fin]

theorem Interval.is_degenerated_fin (a b : ℚ) :
    (Interval.mk (Dbl.fin a) (Dbl.fin b)).is_degenerated = true ↔ a = b := by
  simp [Interval.is_degenerated]

theorem min_eq_max_iff_eq (a b : ℚ) : min a b = max a b ↔ a = b := by
  constructor
  · intro h
    exact le_antisymm (le_trans (le_max_left a b) (h ▸ min_le_right a b))
      (le_trans (le_max_right a b) (h ▸ min_le_left a b))
  · rintro rfl
    simp

theorem Edge.exact_vertical (x1 y1 x2 y2 : ℚ) :
    (Edge.exact x1 y1 x2 y2).box.c0.is_degenerated = true ↔ x1 = x2 := by
  rw [Edge.exact_box, Interval.is_degenerated_fin, min_eq_max_iff_eq]

theorem Edge.exact_horizontal (x1 y1 x2 y2 : ℚ) :
    (Edge.exact x1 y1 x2 y2).box.c1.is_degenerated = true ↔ y1 = y2 := by
  rw [Edge.exact_box, Interval.is_degenerated_fin, min_eq_max_iff_eq]

theorem Edge.exact_flat (x1 y1 x2 y2 : ℚ) :
    (Edge.exact x1 y1 x2 y2).box.is_flat = true ↔ (x1 = x2 ∨ y1 = y2) := by
  have h1 := Edge.exact_vertical x1 y1 x2 y2
  have h2 := Edge.exact_horizontal x1 y1 x2 y2
  have h3 : (Edge.exact x1 y1 x2 y2).box.is_empty = false := by
    rw [Edge.exact_box]; rfl
  simp only [IntervalVector.is_flat, h3, Bool.false_or, Bool.or_eq_true, h1, h2]

theorem Edge.inter_divisors_flat (x1 y1 x2 y2 x3 y3 x4 y4 : ℚ) (h2 : x3 = x4 ∨ y3 = y4)
    (h1 : x1 = x2 ∨ y1 = y2) :
    Edge.inter_divisors (Edge.exact x1 y1 x2 y2) (Edge.exact x3 y3 x4 y4) =
      (⟨(Edge.exact x1 y1 x2 y2).box.c0.inter (Edge.exact x3 y3 x4 y4).box.c0,
        (Edge.exact x1 y1 x2 y2).box.c1.inter (Edge.exact x3 y3 x4 y4).box.c1⟩, []) := by
  unfold Edge.inter_divisors
  by_cases hv : x3 = x4
  · rw [if_pos ((Edge.exact_vertical x3 y3 x4 y4).2 hv),
      if_pos ((Edge.exact_flat x1 y1 x2 y2).2 h1)]
  · have hh : y3 = y4 := h2.resolve_left hv
    rw [if_neg (fun h => hv ((Edge.exact_vertical x3 y3 x4 y4).1 h)),
      if_pos ((Edge.exact_horizontal x3 y3 x4 y4).2 hh),
      if_pos ((Edge.exact_flat x1 y1 x2 y2).2 h1)]

theorem Edge.exact_not_flat {x1 y1 x2 y2 : ℚ} (hx : x1 ≠ x2) (hy : y1 ≠ y2) :
    ¬ (Edge.exact x1 y1 x2 y2).box.is_flat = true := by
  rw [Edge.exact_flat]
  rintro (h | h)
  · exact hx h
  · exact hy h

theorem Edge.inter_divisors_vertical (x1 y1 x2 y2 x3 y3 x4 y4 : ℚ) (hv : x3 = x4)
    (hx : x1 ≠ x2) (hy : y1 ≠ y2) :
    Edge.inter_divisors (Edge.exact x1 y1 x2 y2) (Edge.exact x3 y3 x4 y4) =
      (⟨(Edge.exact x3 y3 x4 y4).box.c0.inter (Edge.exact x1 y1 x2 y2).box.c0,
        (Edge.exact x3 y3 x4 y4).box.c1.inter
          (Interval.mk (Dbl.fin (y1 + (y2 - y1) / (x2 - x1) * (x3 - x1)))
            (Dbl.fin (y1 + (y2 - y1) / (x2 - x1) * (x3 - x1))))⟩,
        [Interval.mk (Dbl.fin (x2 - x1)) (Dbl.fin (x2 - x1))]) := by
  unfold Edge.inter_divisors
  rw [if_pos ((Edge.exact_vertical x3 y3 x4 y4).2 hv), if_neg (Edge.exact_not_flat hx hy)]
  have hd : x2 - x1 ≠ 0 := sub_ne_zero.2 (Ne.symm hx)
  subst hv
  simp only [Edge.exact_box, min_self, max_self]
  simp only [Edge.exact, Point.exact, Interval.exact_sub, Interval.exact_div _ _ hd,
    Interval.exact_mul, Interval.exact_add]

theorem Edge.inter_divisors_horizontal (x1 y1 x2 y2 x3 y3 x4 y4 : ℚ) (hv : x3 ≠ x4)
    (hh : y3 = y4) (hx : x1 ≠ x2) (hy : y1 ≠ y2) :
    Edge.inter_divisors (Edge.exact x1 y1 x2 y2) (Edge.exact x3 y3 x4 y4) =
      (⟨(Edge.exact x3 y3 x4 y4).box.c0.inter
          (Interval.mk (Dbl.fin (x1 + (y3 - y1) / ((y2 - y1) / (x2 - x1))))
            (Dbl.fin (x1 + (y3 - y1) / ((y2 - y1) / (x2 - x1))))),
        (Edge.exact x3 y3 x4 y4).box.c1.inter (Edge.exact x1 y1 x2 y2).box.c1⟩,
        [Interval.mk (Dbl.fin (x2 - x1)) (Dbl.fin (x2 - x1)),
          Interval.mk (Dbl.fin ((y2 - y1) / (x2 - x1))) (Dbl.fin ((y2 - y1) / (x2 - x1)))]) := by
  unfold Edge.inter_divisors
  rw [if_neg (fun h => hv ((Edge.exact_vertical x3 y3 x4 y4).1 h)),
    if_pos ((Edge.exact_horizontal x3 y3 x4 y4).2 hh), if_neg (Edge.exact_not_flat hx hy)]
  have hd : x2 - x1 ≠ 0 := sub_ne_zero.2 (Ne.symm hx)
  have ha : (y2 - y1) / (x2 - x1) ≠ 0 := div_ne_zero (sub_ne_zero.2 (Ne.symm hy)) hd
  subst hh
  simp only [Edge.exact_box, min_self, max_self]
  simp only [Edge.exact, Point.exact, Interval.exact_sub, Interval.exact_div _ _ hd,
    Interval.exact_div _ _ ha, Interval.exact_mul, Interval.exact_add]

theorem Edge.inter_divisors_oblique (x1 y1 x2 y2 x3 y3 x4 y4 : ℚ) (hv : x3 ≠ x4)
    (hh : y3 ≠ y4) (hD : (x1 - x2) * (y3 - y4) - (y1 - y2) * (x3 - x4) ≠ 0) :
    Edge.inter_divisors (Edge.exact x1 y1 x2 y2) (Edge.exact x3 y3 x4 y4) =
      (⟨((Interval.mk
            (Dbl.fin (((x1 * y2 - y1 * x2) * (x3 - x4) - (x1 - x2) * (x3 * y4 - y3 * x4))
              / ((x1 - x2) * (y3 - y4) - (y1 - y2) * (x3 - x4))))
            (Dbl.fin (((x1 * y2 - y1 * x2) * (x3 - x4) - (x1 - x2) * (x3 * y4 - y3 * x4))
              / ((x1 - x2) * (y3 - y4) - (y1 - y2) * (x3 - x4))))).inter
            (Edge.exact x1 y1 x2 y2).box.c0).inter (Edge.exact x3 y3 x4 y4).box.c0,
        ((Interval.mk
            (Dbl.fin (((x1 * y2 - y1 * x2) * (y3 - y4) - (y1 - y2) * (x3 * y4 - y3 * x4))
              / ((x1 - x2) * (y3 - y4) - (y1 - y2) * (x3 - x4))))
            (Dbl.fin (((x1 * y2 - y1 * x2) * (y3 - y4) - (y1 - y2) * (x3 * y4 - y3 * x4))
              / ((x1 - x2) * (y3 - y4) - (y1 - y2) * (x3 - x4))))).inter
            (Edge.exact x1 y1 x2 y2).box.c1).inter (Edge.exact x3 y3 x4 y4).box.c1⟩,
        [Interval.mk (Dbl.fin ((x1 - x2) * (y3 - y4) - (y1 - y2) * (x3 - x4)))
            (Dbl.fin ((x1 - x2) * (y3 - y4) - (y1 - y2) * (x3 - x4))),
          Interval.mk (Dbl.fin ((x1 - x2) * (y3 - y4) - (y1 - y2) * (x3 - x4)))
            (Dbl.fin ((x1 - x2) * (y3 - y4) - (y1 - y2) * (x3 - x4)))]) := by
  unfold Edge.inter_divisors
  rw [if_neg (fun h => hv ((Edge.exact_vertical x3 y3 x4 y4).1 h)),
    if_neg (fun h => hh ((Edge.exact_horizontal x3 y3 x4 y4).1 h))]
  simp only [Edge.exact, Point.exact, Interval.exact_sub, Interval.exact_mul,
    Interval.exact_div _ _ hD]

theorem Edge.inter_oblique_parallel (x1 y1 x2 y2 x3 y3 x4 y4 : ℚ) (hv : x3 ≠ x4)
    (hh : y3 ≠ y4) (hD : (x1 - x2) * (y3 - y4) - (y1 - y2) * (x3 - x4) = 0) :
    Edge.inter (Edge.exact x1 y1 x2 y2) (Edge.exact x3 y3 x4 y4) =
      ⟨Interval.empty, Interval.empty⟩ := by
  unfold Edge.inter Edge.inter_divisors
  rw [if_neg (fun h => hv ((Edge.exact_vertical x3 y3 x4 y4).1 h)),
    if_neg (fun h => hh ((Edge.exact_horizontal x3 y3 x4 y4).1 h))]
  simp only [Edge.exact, Point.exact, Interval.exact_sub, Interval.exact_mul, hD,
    Interval.div_zero]
  rfl

/-- A point of the segment is in the box of the edge. -/
theorem Edge.exact_box_mem (x1 y1 x2 y2 : ℚ) (q : ℝ × ℝ)
    (h : on_segment (x1, y1) (x2, y2) q) :
    (Edge.exact x1 y1 x2 y2).box.c0.mem q.1 ∧ (Edge.exact x1 y1 x2 y2).box.c1.mem q.2 := by
  obtain ⟨s, hs0, hs1, hq1, hq2⟩ := h
  simp only at hq1 hq2
  rw [Edge.exact_box]
  simp only [Interval.mem_fin, Rat.cast_min, Rat.cast_max]
  have key : ∀ a b : ℝ, min a b ≤ a + s * (b - a) ∧ a + s * (b - a) ≤ max a b := by
    intro a b
    rcases le_total a b with hab | hab
    · rw [min_eq_left hab, max_eq_right hab]
      constructor <;> nlinarith
    · rw [min_eq_right hab, max_eq_left hab]
      constructor <;> nlinarith
  rw [hq1, hq2]
  exact ⟨key _ _, key _ _⟩

/-- For edges `e1`, `e2` of exact endpoints and every point `q` common to their segments (so
for the one point where they meet), the point `e1 & e2` contains `q` in both coordinates, when
`e2` is vertical, when it is horizontal, and when it is oblique provided that the lines of `e1`
and `e2` are then not parallel. -/
theorem Edge.inter_contains_common_point (x1 y1 x2 y2 x3 y3 x4 y4 : ℚ) (q : ℝ × ℝ)
    (h1 : on_segment (x1, y1) (x2, y2) q) (h2 : on_segment (x3, y3) (x4, y4) q)
    (hD : x3 ≠ x4 → y3 ≠ y4 → (x1 - x2) * (y3 - y4) - (y1 - y2) * (x3 - x4) ≠ 0) :
    (Edge.inter (Edge.exact x1 y1 x2 y2) (Edge.exact x3 y3 x4 y4)).x.mem q.1 ∧
    (Edge.inter (Edge.exact x1 y1 x2 y2) (Edge.exact x3 y3 x4 y4)).y.mem q.2 := by
  have hb1 := Edge.exact_box_mem x1 y1 x2 y2 q h1
  have hb2 := Edge.exact_box_mem x3 y3 x4 y4 q h2
  obtain ⟨s, _, _, hq1, hq2⟩ := h1
  obtain ⟨t, _, _, hq3, hq4⟩ := h2
  simp only at hq1 hq2 hq3 hq4
  unfold Edge.inter
  by_cases hflat : x1 = x2 ∨ y1 = y2
  · by_cases hv : x3 = x4
    · rw [Edge.inter_divisors_flat _ _ _ _ _ _ _ _ (Or.inl hv) hflat]
      dsimp only
      exact ⟨Interval.mem_inter hb1.1 hb2.1, Interval.mem_inter hb1.2 hb2.2⟩
    · by_cases hh : y3 = y4
      · rw [Edge.inter_divisors_flat _ _ _ _ _ _ _ _ (Or.inr hh) hflat]
        dsimp only
        exact ⟨Interval.mem_inter hb1.1 hb2.1, Interval.mem_inter hb1.2 hb2.2⟩
      · have hDq := hD hv hh
        have hDr : ((x1 : ℝ) - x2) * (y3 - y4) - (y1 - y2) * (x3 - x4) ≠ 0 := by
          exact_mod_cast hDq
        have hsD : s * (((x1 : ℝ) - x2) * (y3 - y4) - (y1 - y2) * (x3 - x4))
            = (y1 - y3) * (x4 - x3) - (x1 - x3) * (y4 - y3) := by
          linear_combination ((y4 : ℝ) - y3) * (hq1.symm.trans hq3)
            - ((x4 : ℝ) - x3) * (hq2.symm.trans hq4)
        rw [Edge.inter_divisors_oblique _ _ _ _ _ _ _ _ hv hh hDq]
        dsimp only
        refine ⟨?_, ?_⟩
        · show Interval.mem q.1 (Interval.inter (Interval.inter _ _) _)
          refine Interval.mem_inter (Interval.mem_inter ?_ hb1.1) hb2.1
          rw [Interval.mem_exact, hq1]
          push_cast
          rw [eq_div_iff hDr]
          linear_combination ((x2 : ℝ) - x1) * hsD
        · show Interval.mem q.2 (Interval.inter (Interval.inter _ _) _)
          refine Interval.mem_inter (Interval.mem_inter ?_ hb1.2) hb2.2
          rw [Interval.mem_exact, hq2]
          push_cast
          rw [eq_div_iff hDr]
          linear_combination ((y2 : ℝ) - y1) * hsD
  · have hx : x1 ≠ x2 := fun h => hflat (Or.inl h)
    have hy : y1 ≠ y2 := fun h => hflat (Or.inr h)
    have hxr : (x2 : ℝ) - x1 ≠ 0 := by
      have : x2 - x1 ≠ 0 := sub_ne_zero.2 (Ne.symm hx)
      exact_mod_cast this
    have hyr : (y2 : ℝ) - y1 ≠ 0 := by
      have : y2 - y1 ≠ 0 := sub_ne_zero.2 (Ne.symm hy)
      exact_mod_cast this
    by_cases hv : x3 = x4
    · rw [Edge.inter_divisors_vertical _ _ _ _ _ _ _ _ hv hx hy]
      dsimp only
      refine ⟨Interval.mem_inter hb2.1 hb1.1, ?_⟩
      refine Interval.mem_inter hb2.2 ?_
      rw [Interval.mem_exact, hq2]
      push_cast
      have h3 : s * ((x2 : ℝ) - x1) = x3 - x1 := by
        have : (x4 : ℝ) = x3 := by exact_mod_cast hv.symm
        rw [this] at hq3
        linear_combination hq3 - hq1
      field_simp
      linear_combination ((y2 : ℝ) - y1) * h3
    · by_cases hh : y3 = y4
      · rw [Edge.inter_divisors_horizontal _ _ _ _ _ _ _ _ hv hh hx hy]
        dsimp only
        refine ⟨?_, Interval.mem_inter hb2.2 hb1.2⟩
        refine Interval.mem_inter hb2.1 ?_
        rw [Interval.mem_exact, hq1]
        push_cast
        have h3 : s * ((y2 : ℝ) - y1) = y3 - y1 := by
          have : (y4 : ℝ) = y3 := by exact_mod_cast hh.symm
          rw [this] at hq4
          linear_combination hq4 - hq2
        field_simp
        linear_combination ((x2 : ℝ) - x1) * h3
      · have hDq := hD hv hh
        have hDr : ((x1 : ℝ) - x2) * (y3 - y4) - (y1 - y2) * (x3 - x4) ≠ 0 := by
          exact_mod_cast hDq
        have hsD : s * (((x1 : ℝ) - x2) * (y3 - y4) - (y1 - y2) * (x3 - x4))
            = (y1 - y3) * (x4 - x3) - (x1 - x3) * (y4 - y3) := by
          linear_combination ((y4 : ℝ) - y3) * (hq1.symm.trans hq3)
            - ((x4 : ℝ) - x3) * (hq2.symm.trans hq4)
        rw [Edge.inter_divisors_oblique _ _ _ _ _ _ _ _ hv hh hDq]
        dsimp only
        refine ⟨?_, ?_⟩
        · show Interval.mem q.1 (Interval.inter (Interval.inter _ _) _)
          refine Interval.mem_inter (Interval.mem_inter ?_ hb1.1) hb2.1
          rw [Interval.mem_exact, hq1]
          push_cast
          rw [eq_div_iff hDr]
          linear_combination ((x2 : ℝ) - x1) * hsD
        · show Interval.mem q.2 (Interval.inter (Interval.inter _ _) _)
          refine Interval.mem_inter (Interval.mem_inter ?_ hb1.2) hb2.2
          rw [Interval.mem_exact, hq2]
          push_cast
          rw [eq_div_iff hDr]
          linear_combination ((y2 : ℝ) - y1) * hsD

/-- C22, at the edges from `(0,0)` to `(1,1)` and from `(1,1)` to `(2,2)`: the two segments
meet in the one point `(1,1)`, and `e1 & e2` is the point of empty coordinates, which does not
contain it: the two edges are on one line, and the oblique branch divides by the determinant,
which is the interval `[0,0]`. The sibling branch of the flat edges intersects the boxes, and
returns the point `(1,0)` for the edges from `(0,0)` to `(1,0)` and from `(1,0)` to `(2,0)`;
`Edge::parallel`, which expects an unbounded point from edges on parallel lines, answers
`NO`. -/
theorem C22_collinear_edges_meet :
    on_segment (0, 0) (1, 1) (1, 1) ∧ on_segment (1, 1) (2, 2) (1, 1) ∧
    (∀ q : ℝ × ℝ, on_segment (0, 0) (1, 1) q → on_segment (1, 1) (2, 2) q → q = (1, 1)) ∧
    (Edge.inter_divisors (Edge.exact 0 0 1 1) (Edge.exact 1 1 2 2)).2
      = [Interval.mk (Dbl.fin 0) (Dbl.fin 0), Interval.mk (Dbl.fin 0) (Dbl.fin 0)] ∧
    Edge.inter (Edge.exact 0 0 1 1) (Edge.exact 1 1 2 2) = ⟨Interval.empty, Interval.empty⟩ ∧
    ¬ ((Edge.inter (Edge.exact 0 0 1 1) (Edge.exact 1 1 2 2)).x.mem 1 ∧
      (Edge.inter (Edge.exact 0 0 1 1) (Edge.exact 1 1 2 2)).y.mem 1) ∧
    Edge.inter (Edge.exact 0 0 1 0) (Edge.exact 1 0 2 0) = Point.exact 1 0 ∧
    Edge.parallel (Edge.exact 0 0 1 1) (Edge.exact 1 1 2 2) = BoolInterval.NO := by
  have he : Edge.inter (Edge.exact 0 0 1 1) (Edge.exact 1 1 2 2)
      = ⟨Interval.empty, Interval.empty⟩ :=
    Edge.inter_oblique_parallel 0 0 1 1 1 1 2 2 (by norm_num) (by norm_num) (by norm_num)
  refine ⟨⟨1, by norm_num, by norm_num, by norm_num, by norm_num⟩,
    ⟨0, by norm_num, by norm_num, by norm_num, by norm_num⟩, ?_, by decide!, he, ?_, by decide!,
    by decide!⟩
  · rintro ⟨u, v⟩ ⟨s, hs0, hs1, h1, h2⟩ ⟨t, ht0, ht1, h3, h4⟩
    simp only [Rat.cast_zero, Rat.cast_one, Rat.cast_ofNat] at h1 h2 h3 h4
    have hu : u = 1 := by nlinarith
    have hv : v = 1 := by nlinarith
    rw [hu, hv]
  · rw [he]
    exact fun h => h.1

/-- C25, at the edges from `(0,0)` to `(1,1)` and from `(0,1)` to `(1,2)`: both exist, their
lines are parallel, and `parallel` answers `NO`. -/
theorem C25_parallel_oblique_edges :
    (Edge.exact 0 0 1 1).does_not_exist = false ∧
    (Edge.exact 0 1 1 2).does_not_exist = false ∧
    ((1 : ℚ) - 0) * (2 - 1) - (1 - 0) * (1 - 0) = 0 ∧
    (Edge.exact 0 0 1 1).inter (Edge.exact 0 1 1 2) = ⟨Interval.empty, Interval.empty⟩ ∧
    Edge.parallel (Edge.exact 0 0 1 1) (Edge.exact 0 1 1 2) = BoolInterval.NO := by
  refine ⟨by decide, by decide, by norm_num, by decide!, by decide!⟩

/-- C23, at the edge from `(0,-1)` to `(1,2)` and the box of all reals by `[0,1]`: the box is
not empty, the four edges that `push_edges` makes of it do not exist, `edge & x` is the empty
box, and `(1/2, 1/2)` is a point of the segment that lies in the box. -/
theorem C23_box_unbounded_in_abscissa :
    IntervalVector.is_empty ⟨Interval.ALL_REALS, Interval.mk (Dbl.fin 0) (Dbl.fin 1)⟩ = false ∧
    (push_edges ⟨Interval.ALL_REALS, Interval.mk (Dbl.fin 0) (Dbl.fin 1)⟩ []).length = 4 ∧
    (∀ b ∈ push_edges ⟨Interval.ALL_REALS, Interval.mk (Dbl.fin 0) (Dbl.fin 1)⟩ [],
      b.does_not_exist = true) ∧
    Edge.inter_box (Edge.exact 0 (-1) 1 2)
        ⟨Interval.ALL_REALS, Interval.mk (Dbl.fin 0) (Dbl.fin 1)⟩ = IntervalVector.EMPTY ∧
    on_segment (0, -1) (1, 2) (1 / 2, 1 / 2) ∧
    Interval.ALL_REALS.mem (1 / 2) ∧ (Interval.mk (Dbl.fin 0) (Dbl.fin 1)).mem (1 / 2) ∧
    ¬ IntervalVector.EMPTY.c0.mem (1 / 2) := by
  refine ⟨by decide, by decide!, by decide!, by decide!,
    ⟨1 / 2, by norm_num, by norm_num, by norm_num, by norm_num⟩, ?_, ?_, ?_⟩
  · exact ⟨trivial, trivial⟩
  · rw [Interval.mem_fin]
    norm_num
  · exact fun h => h

/-! ## Binary files: intervals -/

theorem serializeInterval_append (before : List Field) (i : Interval) :
    serializeInterval before i = before ++ serializeInterval [] i := by
  unfold serializeInterval
  by_cases h : intv_type i = IntervalType.BOUNDED
  · simp [h]
  · simp [h]

theorem serializeInterval_fields (i : Interval) :
    serializeInterval [] i = Field.short (intv_type i) ::
      (if intv_type i = IntervalType.BOUNDED then [Field.double i.lb, Field.double i.ub]
        else []) := by
  unfold serializeInterval
  by_cases h : intv_type i = IntervalType.BOUNDED
  · simp [h]
  · simp [h]

theorem intv_type_bounded (i : Interval) :
    intv_type i = IntervalType.BOUNDED ↔
      (i ≠ Interval.EMPTY_SET ∧ i ≠ Interval.ALL_REALS ∧ i ≠ Interval.POS_REALS ∧
        i ≠ Interval.NEG_REALS) := by
  by_cases h1 : i = Interval.EMPTY_SET
  · subst h1
    decide
  · by_cases h2 : i = Interval.ALL_REALS
    · subst h2
      decide
    · by_cases h3 : i = Interval.POS_REALS
      · subst h3
        decide
      · by_cases h4 : i = Interval.NEG_REALS
        · subst h4
          decide
        · unfold intv_type
          simp [h1, h2, h3, h4]

/-- Reading back the fields of an interval gives the interval and leaves what follows. -/
theorem deserialize_serialize (i : Interval) (hwf : Interval.make i.lb i.ub = i)
    (rest : List Field) (intv : Interval) :
    deserializeInterval (serializeInterval [] i ++ rest) intv = some (i, rest, []) := by
  rw [serializeInterval_fields]
  unfold deserializeInterval
  by_cases h1 : i = Interval.EMPTY_SET
  · subst h1
    rfl
  · by_cases h2 : i = Interval.ALL_REALS
    · subst h2
      rfl
    · by_cases h3 : i = Interval.POS_REALS
      · subst h3
        rfl
      · by_cases h4 : i = Interval.NEG_REALS
        · subst h4
          rfl
        · have hb : intv_type i = IntervalType.BOUNDED :=
            (intv_type_bounded i).2 ⟨h1, h2, h3, h4⟩
          rw [hb, if_pos rfl]
          simp only [List.cons_append, List.nil_append, read_short, read_double]
          rw [hwf]
          rfl

/-- C27: for every interval `i` (an `ibex::Interval`: the empty set or bounds in order),
`serializeInterval` appends to the file the type of `i` and, exactly when the type is
`BOUNDED`, the two bounds; `deserializeInterval` applied to these fields followed by anything
returns `i` and leaves what follows them, so that it consumes exactly the bytes written, 2 or
18 of them; and the type is that of the empty set, all reals, the positive reals or the
negative reals exactly for these four intervals, and `BOUNDED` for any other. -/
theorem C27_interval_round_trip (i : Interval) (hwf : Interval.make i.lb i.ub = i)
    (before rest : List Field) (intv : Interval) :
    serializeInterval before i = before ++ serializeInterval [] i ∧
    deserializeInterval (serializeInterval [] i ++ rest) intv = some (i, rest, []) ∧
    serializeInterval [] i = Field.short (intv_type i) ::
      (if intv_type i = IntervalType.BOUNDED then [Field.double i.lb, Field.double i.ub]
        else []) ∧
    Field.bytes (serializeInterval [] i)
      = (if intv_type i = IntervalType.BOUNDED then 18 else 2) ∧
    (intv_type i = IntervalType.EMPTY_SET ↔ i = Interval.EMPTY_SET) ∧
    (intv_type i = IntervalType.ALL_REALS ↔ i = Interval.ALL_REALS) ∧
    (intv_type i = IntervalType.POS_REALS ↔ i = Interval.POS_REALS) ∧
    (intv_type i = IntervalType.NEG_REALS ↔ i = Interval.NEG_REALS) ∧
    (intv_type i = IntervalType.BOUNDED ↔
      (i ≠ Interval.EMPTY_SET ∧ i ≠ Interval.ALL_REALS ∧ i ≠ Interval.POS_REALS ∧
        i ≠ Interval.NEG_REALS)) := by
  refine ⟨serializeInterval_append before i, deserialize_serialize i hwf rest intv,
    serializeInterval_fields i, ?_, ?_, ?_, ?_, ?_, intv_type_bounded i⟩
  · rw [serializeInterval_fields]
    by_cases h : intv_type i = IntervalType.BOUNDED
    · simp [h, Field.bytes, Field.size]
    · simp [h, Field.bytes, Field.size]
  all_goals
    unfold intv_type
    by_cases h1 : i = Interval.EMPTY_SET
    · subst h1
      decide
    · by_cases h2 : i = Interval.ALL_REALS
      · subst h2
        decide
      · by_cases h3 : i = Interval.POS_REALS
        · subst h3
          decide
        · by_cases h4 : i = Interval.NEG_REALS
          · subst h4
            decide
          · simp [h1, h2, h3, h4, IntervalType.EMPTY_SET, IntervalType.ALL_REALS,
              IntervalType.POS_REALS, IntervalType.NEG_REALS, IntervalType.BOUNDED]

theorem C27_interval_round_trip_witness :
    Interval.make (Interval.mk (Dbl.fin 1) Dbl.pinf).lb (Interval.mk (Dbl.fin 1) Dbl.pinf).ub
      = Interval.mk (Dbl.fin 1) Dbl.pinf ∧
    serializeInterval [] (Interval.mk (Dbl.fin 1) Dbl.pinf)
      = [Field.short 0, Field.double (Dbl.fin 1), Field.double Dbl.pinf] ∧
    deserializeInterval
        (serializeInterval [] (Interval.mk (Dbl.fin 1) Dbl.pinf) ++ [Field.short 7])
        Interval.ALL_REALS
      = some (Interval.mk (Dbl.fin 1) Dbl.pinf, [Field.short 7], []) :=
  ⟨by decide, by decide,
    (C27_interval_round_trip (Interval.mk (Dbl.fin 1) Dbl.pinf) (by decide) []
      [Field.short 7] Interval.ALL_REALS).2.1⟩

/-! ## Binary files: tubes -/

/-- C28, amended: for every file whose first field is a version number other than 1, and
whatever follows it, the constructor `Tube(binary_file_name)` writes the message that the
version is not supported and returns: it reads no field after the version number and neither
`createFromSpecifications` nor `set` is called, so that no tube is built. -/
theorem C28_unsupported_version (version_number : Int) (hv : version_number ≠ 1)
    (rest : List Field) (fuel : Nat) :
    TubeLib.Tube_from_file fuel (some (Field.short version_number :: rest)) =
      some ⟨none, rest, [Message.version_not_supported version_number],
        Completion.returned⟩ := by
  simp only [TubeLib.Tube_from_file, read_short, hv, if_false]

theorem C28_unsupported_version_witness :
    (2 : Int) ≠ 1 ∧
    TubeLib.Tube_from_file 0 (some [Field.short 2, Field.int 3, Field.short 2]) =
      some ⟨none, [Field.int 3, Field.short 2], [Message.version_not_supported 2],
        Completion.returned⟩ :=
  ⟨by decide, C28_unsupported_version 2 (by decide) [Field.int 3, Field.short 2] 0⟩

/-- C28, as stated, fails: on the file of the one field `version 2` the constructor returns
to its caller as it does for a file that it accepts; it does not leave by an exception. -/
theorem C28_returns_to_caller_counterexample :
    TubeLib.Tube_from_file 0 (some [Field.short 2]) =
      some ⟨none, [], [Message.version_not_supported 2], Completion.returned⟩ ∧
    ¬ ∃ c, TubeLib.Tube_from_file 0 (some [Field.short 2]) = some c ∧
      c.completion = Completion.thrown := by
  refine ⟨by decide, ?_⟩
  rintro ⟨c, h1, h2⟩
  have h3 : TubeLib.Tube_from_file 0 (some [Field.short 2]) =
      some ⟨none, [], [Message.version_not_supported 2], Completion.returned⟩ := by decide
  rw [h3] at h1
  cases h1
  exact absurd h2 (by decide)

/-- C29, at the trajectory of samples `0 ↦ 0`, `1 ↦ 1`, `2 ↦ 0` and `t = 1/2`, which lies
between the sample times `0` and `1`: `lower_bound(t)` is the sample at `1`, the value
returned is `3/2`, computed from the samples at `1` and `2`, and the interpolation between
the samples at `0` and `1` is `1/2`. -/
theorem C29_interpolation_from_next_samples :
    Trajectory.domain ⟨[(Dbl.fin 0, Dbl.fin 0), (Dbl.fin 1, Dbl.fin 1), (Dbl.fin 2, Dbl.fin 0)]⟩
      = some (Interval.mk (Dbl.fin 0) (Dbl.fin 2)) ∧
    Trajectory.lower_bound (Dbl.fin (1 / 2))
        [(Dbl.fin 0, Dbl.fin 0), (Dbl.fin 1, Dbl.fin 1), (Dbl.fin 2, Dbl.fin 0)]
      = [(Dbl.fin 1, Dbl.fin 1), (Dbl.fin 2, Dbl.fin 0)] ∧
    Trajectory.eval
        ⟨[(Dbl.fin 0, Dbl.fin 0), (Dbl.fin 1, Dbl.fin 1), (Dbl.fin 2, Dbl.fin 0)]⟩
        (Dbl.fin (1 / 2))
      = some (Value.num (Dbl.fin (3 / 2))) ∧
    Dbl.fin 0 + (Dbl.fin (1 / 2) - Dbl.fin 0) * (Dbl.fin 1 - Dbl.fin 0) / (Dbl.fin 1 - Dbl.fin 0)
      = Dbl.fin (1 / 2) := by
  refine ⟨by decide!, by decide!, by decide!, by decide!⟩

/-- At the trajectory of samples `0 ↦ 0`, `1 ↦ 1` and `t = 1/2`: the domain is `[0,1]` and
contains `t`, `lower_bound(t)` is the last sample, `it_upper` is `end()`, and the statement
that dereferences it gives no result. -/
theorem Trajectory.eval_past_the_last_sample :
    Trajectory.domain ⟨[(Dbl.fin 0, Dbl.fin 0), (Dbl.fin 1, Dbl.fin 1)]⟩
      = some (Interval.mk (Dbl.fin 0) (Dbl.fin 1)) ∧
    (Interval.mk (Dbl.fin 0) (Dbl.fin 1)).contains (Dbl.fin (1 / 2)) = true ∧
    Trajectory.lower_bound (Dbl.fin (1 / 2)) [(Dbl.fin 0, Dbl.fin 0), (Dbl.fin 1, Dbl.fin 1)]
      = [(Dbl.fin 1, Dbl.fin 1)] ∧
    Trajectory.eval ⟨[(Dbl.fin 0, Dbl.fin 0), (Dbl.fin 1, Dbl.fin 1)]⟩ (Dbl.fin (1 / 2))
      = none := by
  refine ⟨by decide!, by decide!, by decide!, by decide!⟩

theorem Trajectory.map_at_of_mem (l : List (Dbl × Dbl)) (p : Dbl × Dbl) (hp : p ∈ l) :
    ∃ v, Trajectory.map_at p.1 l = some v := by
  induction l with
  | nil => simp at hp
  | cons a rest ih =>
    by_cases h : a.1 = p.1
    · exact ⟨a.2, by simp [Trajectory.map_at, h]⟩
    · rcases List.mem_cons.1 hp with rfl | h2
      · exact absurd rfl h
      · obtain ⟨v, hv⟩ := ih h2
        exact ⟨v, by simp [Trajectory.map_at, h, hv]⟩

theorem Trajectory.lower_bound_two (t : Dbl) (p last : Dbl × Dbl) (h : t ≤ p.1) :
    ∀ pre : List (Dbl × Dbl),
      ∃ s, Trajectory.lower_bound t (pre ++ [p, last]) = s ++ [p, last] := by
  intro pre
  induction pre with
  | nil =>
    refine ⟨[], ?_⟩
    simp [Trajectory.lower_bound, not_lt.2 h]
  | cons a pre ih =>
    by_cases ha : a.1 < t
    · obtain ⟨s, hs⟩ := ih
      exact ⟨s, by simp [Trajectory.lower_bound, ha, hs]⟩
    · exact ⟨a :: pre, by simp [Trajectory.lower_bound, ha]⟩

theorem Trajectory.lower_bound_last (t : Dbl) (last : Dbl × Dbl) (h : t ≤ last.1) :
    ∀ pre : List (Dbl × Dbl), (∀ a ∈ pre, a.1 < t) →
      Trajectory.lower_bound t (pre ++ [last]) = [last] := by
  intro pre
  induction pre with
  | nil =>
    intro _
    simp [Trajectory.lower_bound, not_lt.2 h]
  | cons a pre ih =>
    intro hpre
    have ha : a.1 < t := hpre a (List.mem_cons_self a pre)
    simp only [List.cons_append, Trajectory.lower_bound, ha, if_true]
    exact ih (fun b hb => hpre b (List.mem_cons_of_mem a hb))

/-- The keys of a sorted map lie between the first and the last one. -/
theorem Trajectory.keys_between (l : List (Dbl × Dbl))
    (hs : l.Pairwise (fun p q => p.1 < q.1)) (first last : Dbl × Dbl)
    (hf : l.head? = some first) (hl : l.getLast? = some last) :
    ∀ p ∈ l, first.1 ≤ p.1 ∧ p.1 ≤ last.1 := by
  intro p hp
  constructor
  · cases l with
    | nil => simp at hp
    | cons a rest =>
      simp only [List.head?_cons, Option.some.injEq] at hf
      subst hf
      rcases List.mem_cons.1 hp with rfl | h2
      · exact le_rfl
      · exact le_of_lt ((List.pairwise_cons.1 hs).1 p h2)
  · rcases List.eq_nil_or_concat l with rfl | ⟨init, z, h0⟩
    · simp at hp
    · rw [List.concat_eq_append] at h0
      subst h0
      have hl2 : z = last := by
        rw [List.getLast?_concat] at hl
        exact Option.some.inj hl
      subst hl2
      rcases List.mem_append.1 hp with h2 | h2
      · exact le_of_lt ((List.pairwise_append.1 hs).2.2 p h2 z (List.mem_singleton_self z))
      · rw [List.mem_singleton.1 h2]

/-- For every non-empty trajectory, the samples in the order of their times, which are
rationals: every sample time lies between the first and the last one, `domain()` is the
interval from the first to the last sample time, and `operator[](t)` returns the NaN
sentinel when `t` is not in that domain. -/
theorem Trajectory.domain_and_nan_outside (x : Trajectory) (first last : Dbl × Dbl)
    (hf : x.m_map_values.head? = some first) (hl : x.m_map_values.getLast? = some last)
    (hs : x.m_map_values.Pairwise (fun p q => p.1 < q.1))
    (hfin : ∀ p ∈ x.m_map_values, ∃ k : ℚ, p.1 = Dbl.fin k) :
    (∀ p ∈ x.m_map_values, first.1 ≤ p.1 ∧ p.1 ≤ last.1) ∧
    x.domain = some (Interval.mk first.1 last.1) ∧
    (∀ t, (Interval.mk first.1 last.1).contains t = false → x.eval t = some Value.nan) := by
  have hbetween := Trajectory.keys_between x.m_map_values hs first last hf hl
  have hfm : first ∈ x.m_map_values := List.mem_of_mem_head? hf
  have hlm : last ∈ x.m_map_values := List.mem_of_getLast?_eq_some hl
  have hdom : x.domain = some (Interval.mk first.1 last.1) := by
    obtain ⟨a, ha⟩ := hfin first hfm
    obtain ⟨b, hb⟩ := hfin last hlm
    have hab : a ≤ b := by
      have := (hbetween last hlm).1
      rw [ha, hb] at this
      exact (Dbl.fin_le_fin a b).1 this
    simp only [Trajectory.domain, hf, hl, ha, hb, Interval.make_fin hab]
  refine ⟨hbetween, hdom, ?_⟩
  intro t hc
  unfold Trajectory.eval
  rw [hdom]
  simp [hc]

/-- C30, at the trajectory of samples `0 ↦ 0`, `1 ↦ +oo` and `t = 0`: the domain is `[0,1]`
and contains `t`, and `operator[](t)` computes `0 + (0 - 0) * (+oo - 0) / (1 - 0)`, zero times
an infinity: it returns a NaN inside the domain. So it does with the finite samples `0 ↦ -M`,
`1 ↦ M`, where `M = 2^1024 - 2^971` is the largest `double` and `M - (-M)` overflows. Outside
the domain, at `t = 2`, the NaN is the one that the claim expects. -/
theorem C30_nan_inside_the_domain :
    Trajectory.domain ⟨[(Dbl.fin 0, Dbl.fin 0), (Dbl.fin 1, Dbl.pinf)]⟩
      = some (Interval.mk (Dbl.fin 0) (Dbl.fin 1)) ∧
    (Interval.mk (Dbl.fin 0) (Dbl.fin 1)).contains (Dbl.fin 0) = true ∧
    Trajectory.eval ⟨[(Dbl.fin 0, Dbl.fin 0), (Dbl.fin 1, Dbl.pinf)]⟩ (Dbl.fin 0)
      = some Value.nan ∧
    Trajectory.eval
        ⟨[(Dbl.fin 0, Dbl.fin (-((2 ^ 1024 - 2 ^ 971 : ℕ) : ℚ))),
          (Dbl.fin 1, Dbl.fin ((2 ^ 1024 - 2 ^ 971 : ℕ) : ℚ))]⟩ (Dbl.fin 0)
      = some Value.nan ∧
    Trajectory.eval ⟨[(Dbl.fin 0, Dbl.fin 0), (Dbl.fin 1, Dbl.pinf)]⟩ (Dbl.fin 2)
      = some Value.nan := by
  refine ⟨by decide!, by decide!, by decide!, by decide!, by decide!⟩

/-! ## The comparator of the sort -/

/-- C37, against the claim: for every pivot and every point with exact coordinates the
comparator answers `true` on the point and itself, as the orientation is `UNDEFINED` and the
two distances are equal; at the pivot `(0,0)` it also answers `true` both ways on the points
`(1,0)` and `(-1,0)`. -/
theorem C37_comparator_not_strict :
    (∀ a b c d : ℚ,
      GrahamScan.PointsSorter (Point.exact a b) (Point.exact c d) (Point.exact c d) = true) ∧
    GrahamScan.PointsSorter (Point.exact 0 0) (Point.exact 1 1) (Point.exact 1 1) = true ∧
    GrahamScan.PointsSorter (Point.exact 0 0) (Point.exact 1 0) (Point.exact (-1) 0) = true ∧
    GrahamScan.PointsSorter (Point.exact 0 0) (Point.exact (-1) 0) (Point.exact 1 0) = true := by
  refine ⟨?_, by decide!, by decide!, by decide!⟩
  intro a b c d
  rw [GrahamScan.PointsSorter_exact (a, b) (c, d) (c, d)]
  right
  exact ⟨by simp [cross]; ring, le_rfl⟩

/-! ## Thickness of the gates -/

/-- C35, at the tube of one slice `[0,1]` with the input gate `[0,5]`, the envelope `[0,5]`
and the output gate `[0,1]`: its gates are bounded, of diameters 5 at `t = 0` and 1 at
`t = 1`, and `max_gate_thickness` returns 1 and leaves 1 in `t`. -/
theorem C35_max_gate_thickness_misses_input_gate :
    Tube.gates ⟨Interval.mk (Dbl.fin 0) (Dbl.fin 5),
        [⟨Interval.mk (Dbl.fin 0) (Dbl.fin 1), Interval.mk (Dbl.fin 0) (Dbl.fin 5),
          Interval.mk (Dbl.fin 0) (Dbl.fin 1)⟩]⟩
      = [(Dbl.fin 0, Interval.mk (Dbl.fin 0) (Dbl.fin 5)),
          (Dbl.fin 1, Interval.mk (Dbl.fin 0) (Dbl.fin 1))] ∧
    (Interval.mk (Dbl.fin 0) (Dbl.fin 5)).diam = Dbl.fin 5 ∧
    (Interval.mk (Dbl.fin 0) (Dbl.fin 1)).diam = Dbl.fin 1 ∧
    Tube.max_gate_thickness ⟨Interval.mk (Dbl.fin 0) (Dbl.fin 5),
        [⟨Interval.mk (Dbl.fin 0) (Dbl.fin 1), Interval.mk (Dbl.fin 0) (Dbl.fin 5),
          Interval.mk (Dbl.fin 0) (Dbl.fin 1)⟩]⟩ (Dbl.fin 7)
      = some (Dbl.fin 1, Dbl.fin 1) := by
  refine ⟨by decide!, by decide!, by decide!, by decide!⟩

/-! ## Bounds of a tube over an interval outside its domain -/

/-- C36, at the tube of one slice `[0,1]` and `t = [2,3]`: `t` is not empty, its intersection
with the domain is, the lower bound that `get_slice` is called with is not in the domain, which
`get_slice` and `input2index` assert, and without the assertions the call gives the slice
`[0,1]`, whose domain the test of the loop reads before the pair of empty sets is returned. -/
theorem C36_eval_outside_domain
    (slice_eval : SliceRef → Interval → Interval × Interval) :
    Tube.domain ⟨Interval.ALL_REALS,
        [Slice.new (Interval.mk (Dbl.fin 0) (Dbl.fin 1)) Interval.ALL_REALS]⟩
      = some (Interval.mk (Dbl.fin 0) (Dbl.fin 1)) ∧
    (Interval.mk (Dbl.fin 2) (Dbl.fin 3)).is_empty = false ∧
    ((Interval.mk (Dbl.fin 2) (Dbl.fin 3)).inter (Interval.mk (Dbl.fin 0) (Dbl.fin 1))).is_empty
      = true ∧
    (Interval.mk (Dbl.fin 0) (Dbl.fin 1)).contains
      ((Interval.mk (Dbl.fin 2) (Dbl.fin 3)).inter (Interval.mk (Dbl.fin 0) (Dbl.fin 1))).lb
      = false ∧
    Tube.eval_bounds_slice slice_eval
        ⟨Interval.ALL_REALS, [Slice.new (Interval.mk (Dbl.fin 0) (Dbl.fin 1)) Interval.ALL_REALS]⟩
        (Interval.mk (Dbl.fin 2) (Dbl.fin 3))
      = some ((Interval.EMPTY_SET, Interval.EMPTY_SET),
          some ⟨Interval.ALL_REALS,
            Slice.new (Interval.mk (Dbl.fin 0) (Dbl.fin 1)) Interval.ALL_REALS, []⟩) ∧
    Tube.eval_bounds slice_eval
        ⟨Interval.ALL_REALS, [Slice.new (Interval.mk (Dbl.fin 0) (Dbl.fin 1)) Interval.ALL_REALS]⟩
        (Interval.mk (Dbl.fin 2) (Dbl.fin 3))
      = some (Interval.EMPTY_SET, Interval.EMPTY_SET) := by
  suffices h : Tube.eval_bounds_slice slice_eval
        ⟨Interval.ALL_REALS, [Slice.new (Interval.mk (Dbl.fin 0) (Dbl.fin 1)) Interval.ALL_REALS]⟩
        (Interval.mk (Dbl.fin 2) (Dbl.fin 3))
      = some ((Interval.EMPTY_SET, Interval.EMPTY_SET),
          some ⟨Interval.ALL_REALS,
            Slice.new (Interval.mk (Dbl.fin 0) (Dbl.fin 1)) Interval.ALL_REALS, []⟩) by
    refine ⟨by decide!, by decide!, by decide!, by decide!, h, ?_⟩
    unfold Tube.eval_bounds
    rw [h]
    rfl
  have hd : Tube.domain ⟨Interval.ALL_REALS,
        [Slice.new (Interval.mk (Dbl.fin 0) (Dbl.fin 1)) Interval.ALL_REALS]⟩
      = some (Interval.mk (Dbl.fin 0) (Dbl.fin 1)) := by decide!
  have hi : (Interval.mk (Dbl.fin 2) (Dbl.fin 3)).inter (Interval.mk (Dbl.fin 0) (Dbl.fin 1))
      = Interval.empty := by decide!
  have hg : Tube.get_slice ⟨Interval.ALL_REALS,
        [Slice.new (Interval.mk (Dbl.fin 0) (Dbl.fin 1)) Interval.ALL_REALS]⟩ Interval.empty.lb
      = some ⟨Interval.ALL_REALS,
            Slice.new (Interval.mk (Dbl.fin 0) (Dbl.fin 1)) Interval.ALL_REALS, []⟩ := by decide!
  have hl : ¬ (Slice.new (Interval.mk (Dbl.fin 0) (Dbl.fin 1)) Interval.ALL_REALS).domain.lb
      ≤ Interval.empty.ub := by decide!
  simp only [Tube.eval_bounds_slice, hd, hi, hg, eval_bounds_loop, hl, if_false,
    Interval.is_empty, Bool.false_eq_true]

/-! ## Evaluation of a trajectory at a sample, truncation -/

theorem Trajectory.map_at_sorted (l : List (Dbl × Dbl))
    (hs : l.Pairwise (fun p q => p.1 < q.1)) (p : Dbl × Dbl) (hp : p ∈ l) :
    Trajectory.map_at p.1 l = some p.2 := by
  induction l with
  | nil => simp at hp
  | cons a rest ih =>
    rcases List.mem_cons.1 hp with rfl | h2
    · simp [Trajectory.map_at]
    · have hlt : a.1 < p.1 := (List.pairwise_cons.1 hs).1 p h2
      have hne : ¬ a.1 = p.1 := ne_of_lt hlt
      simp only [Trajectory.map_at, hne, if_false]
      exact ih (List.pairwise_cons.1 hs).2 h2

theorem Trajectory.lower_bound_at_key (l : List (Dbl × Dbl))
    (hs : l.Pairwise (fun p q => p.1 < q.1)) (p : Dbl × Dbl) (hp : p ∈ l) :
    ∃ pre post, l = pre ++ p :: post ∧ Trajectory.lower_bound p.1 l = p :: post := by
  induction l with
  | nil => simp at hp
  | cons a rest ih =>
    rcases List.mem_cons.1 hp with rfl | h2
    · exact ⟨[], rest, rfl, by simp [Trajectory.lower_bound]⟩
    · have hlt : a.1 < p.1 := (List.pairwise_cons.1 hs).1 p h2
      obtain ⟨pre, post, h3, h4⟩ := ih (List.pairwise_cons.1 hs).2 h2
      refine ⟨a :: pre, post, by rw [h3]; rfl, ?_⟩
      simp only [Trajectory.lower_bound, hlt, if_true]
      exact h4

/-- C38, at the trajectory of samples `0 ↦ 0`, `1 ↦ +oo`: the sample `(0, 0)` is stored and
`operator[](0)` returns a NaN, not `0`; the value is computed from the sample and the next one,
as `0 + (0 - 0) * (+oo - 0) / (1 - 0)`, zero times an infinity. So it is with the finite
samples `0 ↦ -M`, `1 ↦ M`, where `M = 2^1024 - 2^971` is the largest `double` and `M - (-M)`
overflows. At the last sample time the value stored is returned, by `m_map_values.at`. -/
theorem C38_sample_not_reproduced :
    (Dbl.fin 0, Dbl.fin 0) ∈ (Trajectory.mk
      [(Dbl.fin 0, Dbl.fin 0), (Dbl.fin 1, Dbl.pinf)]).m_map_values ∧
    Trajectory.eval ⟨[(Dbl.fin 0, Dbl.fin 0), (Dbl.fin 1, Dbl.pinf)]⟩ (Dbl.fin 0)
      ≠ some (Value.num (Dbl.fin 0)) ∧
    Value.num (Dbl.fin 0)
        + (Value.num (Dbl.fin 0) - Value.num (Dbl.fin 0))
          * (Value.num Dbl.pinf - Value.num (Dbl.fin 0))
          / (Value.num (Dbl.fin 1) - Value.num (Dbl.fin 0))
      = Value.nan ∧
    Trajectory.eval
        ⟨[(Dbl.fin 0, Dbl.fin (-((2 ^ 1024 - 2 ^ 971 : ℕ) : ℚ))),
          (Dbl.fin 1, Dbl.fin ((2 ^ 1024 - 2 ^ 971 : ℕ) : ℚ))]⟩ (Dbl.fin 0)
      ≠ some (Value.num (Dbl.fin (-((2 ^ 1024 - 2 ^ 971 : ℕ) : ℚ)))) ∧
    Trajectory.eval ⟨[(Dbl.fin 0, Dbl.fin 0), (Dbl.fin 1, Dbl.pinf)]⟩ (Dbl.fin 1)
      = some (Value.num Dbl.pinf) := by
  refine ⟨by simp, by decide!, by decide!, by decide!, by decide!⟩

theorem Trajectory.truncate_loop_eq_filter (d : Interval) (l : List (Dbl × Dbl)) :
    Trajectory.truncate_loop d l = l.filter (fun p => d.contains p.1) := by
  induction l with
  | nil => rfl
  | cons a rest ih =>
    by_cases h : d.contains a.1 = true
    · simp [Trajectory.truncate_loop, h, ih]
    · simp [Trajectory.truncate_loop, h, ih]

/-- C39: for every trajectory and every interval `d`, after `truncateDomain(d)` the samples
are the samples held before whose time is in `d`, with their values and in their order (a
sample is held after the call exactly when it was held before and its time is in `d`), and
a second `truncateDomain(d)` changes nothing. -/
theorem C39_truncate_domain (x : Trajectory) (d : Interval) :
    (x.truncateDomain d).m_map_values = x.m_map_values.filter (fun p => d.contains p.1) ∧
    (∀ p, p ∈ (x.truncateDomain d).m_map_values ↔ p ∈ x.m_map_values ∧ d.contains p.1 = true) ∧
    (x.truncateDomain d).m_map_values.Sublist x.m_map_values ∧
    (x.truncateDomain d).truncateDomain d = x.truncateDomain d := by
  have h : (x.truncateDomain d).m_map_values
      = x.m_map_values.filter (fun p => d.contains p.1) :=
    Trajectory.truncate_loop_eq_filter d x.m_map_values
  refine ⟨h, ?_, ?_, ?_⟩
  · intro p
    rw [h, List.mem_filter]
  · rw [h]
    exact List.filter_sublist x.m_map_values
  · show Trajectory.mk _ = Trajectory.mk _
    congr 1
    show Trajectory.truncate_loop d (Trajectory.truncate_loop d x.m_map_values)
      = Trajectory.truncate_loop d x.m_map_values
    rw [Trajectory.truncate_loop_eq_filter, Trajectory.truncate_loop_eq_filter,
      List.filter_filter]
    simp

/-! ## Volume of a tube and sampling -/

theorem Dbl.add_assoc_all (a b c : Dbl) : a + b + c = a + (b + c) := by
  cases a <;> cases b <;> cases c <;>
    simp only [HAdd.hAdd, Add.add, Dbl.add]
  congr 1
  exact add_assoc _ _ _

theorem Tube.volume_foldl_add (l : List Slice) (a b : Dbl) :
    l.foldl (fun volume s => volume + s.volume) (a + b)
      = a + l.foldl (fun volume s => volume + s.volume) b := by
  induction l generalizing b with
  | nil => rfl
  | cons s rest ih =>
    simp only [List.foldl_cons]
    rw [Dbl.add_assoc_all, ih]

theorem middle_first_perm : ∀ (fuel : Nat) (v : List Dbl), v.length ≤ fuel →
    (middle_first fuel v).Perm v := by
  intro fuel
  induction fuel with
  | zero =>
    intro v hv
    have : v = [] := List.length_eq_zero.1 (Nat.le_zero.1 hv)
    subst this
    simp [middle_first]
  | succ f ih =>
    intro v hv
    by_cases hnil : v = []
    · subst hnil
      simp [middle_first]
    · have hpos : 0 < v.length := List.length_pos.2 hnil
      have hmid : v.length / 2 < v.length := Nat.div_lt_self hpos (by norm_num)
      have hget : v[v.length / 2]? = some (v[v.length / 2]) := List.getElem?_eq_getElem hmid
      have h1 : (v.take (v.length / 2)).length ≤ f := by
        rw [List.length_take]; omega
      have h2 : (v.drop (v.length / 2 + 1)).length ≤ f := by
        rw [List.length_drop]; omega
      have hsplit : v = v.take (v.length / 2) ++ v[v.length / 2] :: v.drop (v.length / 2 + 1) := by
        conv_lhs => rw [← List.take_append_drop (v.length / 2) v]
        rw [List.drop_eq_getElem_cons hmid]
      simp only [middle_first, hget]
      have hp := (ih _ h1).append (ih _ h2)
      have hq : (v[v.length / 2] :: (middle_first f (v.take (v.length / 2))
          ++ middle_first f (v.drop (v.length / 2 + 1)))).Perm
          (v[v.length / 2] :: (v.take (v.length / 2) ++ v.drop (v.length / 2 + 1))) :=
        List.Perm.cons _ hp
      refine hq.trans ?_
      conv_rhs => rw [hsplit]
      exact List.perm_middle.symm

theorem sample_vector_eq_foldlM {σ : Type} (sample : σ → Dbl → Option σ) :
    ∀ (fuel : Nat) (x : σ) (v : List Dbl), v.length < fuel →
      sample_vector sample fuel x v = List.foldlM sample x (middle_first fuel v) := by
  intro fuel
  induction fuel with
  | zero => intro x v hv; omega
  | succ f ih =>
    intro x v hv
    by_cases hnil : v = []
    · subst hnil
      simp [sample_vector, middle_first]
    · have hpos : 0 < v.length := List.length_pos.2 hnil
      have hmid : v.length / 2 < v.length := Nat.div_lt_self hpos (by norm_num)
      have hget : v[v.length / 2]? = some (v[v.length / 2]) := List.getElem?_eq_getElem hmid
      have h1 : (v.take (v.length / 2)).length < f := by
        rw [List.length_take]; omega
      have h2 : (v.drop (v.length / 2 + 1)).length < f := by
        rw [List.length_drop]; omega
      simp only [sample_vector, middle_first, hget, if_neg hnil, List.foldlM_cons,
        List.foldlM_append]
      cases hs : sample x v[v.length / 2] with
      | none => rfl
      | some x1 =>
        simp only [Option.bind_eq_bind, Option.some_bind]
        rw [← ih x1 _ h1]
        cases hs2 : sample_vector sample f x1 (v.take (v.length / 2)) with
        | none => rfl
        | some x2 =>
          simp only [Option.some_bind]
          rw [← ih x2 _ h2]

theorem Interval.contains_fin_fin {a b : ℚ} {t : Dbl}
    (h : (Interval.mk (Dbl.fin a) (Dbl.fin b)).contains t = true) :
    ∃ τ : ℚ, t = Dbl.fin τ ∧ a ≤ τ ∧ τ ≤ b := by
  simp only [Interval.contains, decide_eq_true_eq] at h
  cases t with
  | ninf => exact absurd h.1 (Dbl.not_fin_le_ninf a)
  | pinf => exact absurd h.2 (Dbl.not_pinf_le_fin b)
  | fin τ => exact ⟨τ, rfl, (Dbl.fin_le_fin _ _).1 h.1, (Dbl.fin_le_fin _ _).1 h.2⟩

namespace Tree

theorem TubeComponent.domain_valid : ∀ (c : TubeComponent), c.well_formed →
    c.domain.valid_domain = true
  | TubeComponent.TubeSlice d _, h => h
  | TubeComponent.TubeNode a b, h => by
    obtain ⟨ha, hb, hab⟩ := h
    obtain ⟨a1, a2, h12, hda⟩ := (Interval.valid_domain_iff _).1 (TubeComponent.domain_valid a ha)
    obtain ⟨b1, b2, h34, hdb⟩ := (Interval.valid_domain_iff _).1 (TubeComponent.domain_valid b hb)
    rw [hda, hdb] at hab
    simp only [Interval.ub, Interval.lb, Dbl.fin.injEq] at hab
    subst hab
    have hlt : a1 < b2 := lt_trans h12 h34
    simp only [TubeComponent.domain, hda, hdb, Interval.lb, Interval.ub]
    rw [Interval.make_fin hlt.le]
    simpa [Interval.valid_domain] using hlt

theorem TubeComponent.is_slice_bound_node (a b : TubeComponent) (t : Dbl) :
    (TubeComponent.TubeNode a b).is_slice_bound t ↔ a.is_slice_bound t ∨ b.is_slice_bound t := by
  simp only [TubeComponent.is_slice_bound, TubeComponent.slice_domains, List.mem_append]
  constructor
  · rintro ⟨d, hd | hd, h⟩
    · exact Or.inl ⟨d, hd, h⟩
    · exact Or.inr ⟨d, hd, h⟩
  · rintro (⟨d, hd, h⟩ | ⟨d, hd, h⟩)
    · exact ⟨d, Or.inl hd, h⟩
    · exact ⟨d, Or.inr hd, h⟩

theorem TubeComponent.sample_spec : ∀ (c : TubeComponent), c.well_formed → ∀ t : Dbl,
    c.domain.contains t = true →
    (c.sample t).well_formed ∧ (c.sample t).domain = c.domain ∧ (c.sample t).is_slice_bound t
      ∧ ∀ u, c.is_slice_bound u → (c.sample t).is_slice_bound u
  | TubeComponent.TubeSlice d c, h, t, ht => by
    obtain ⟨a, b, hab, rfl⟩ := (Interval.valid_domain_iff _).1 h
    obtain ⟨τ, rfl, h1, h2⟩ := Interval.contains_fin_fin ht
    simp only [TubeComponent.sample, Interval.lb, Interval.ub, Dbl.fin.injEq]
    by_cases hb : a = τ ∨ b = τ
    · rw [if_pos hb]
      refine ⟨h, rfl, ?_, fun u hu => hu⟩
      refine ⟨_, List.mem_singleton.2 rfl, ?_⟩
      simpa [Interval.lb, Interval.ub] using hb
    · rw [if_neg hb]
      have ha1 : a < τ := lt_of_le_of_ne h1 (fun e => hb (Or.inl e))
      have hb1 : τ < b := lt_of_le_of_ne h2 (fun e => hb (Or.inr e.symm))
      rw [Interval.make_fin ha1.le, Interval.make_fin hb1.le]
      refine ⟨⟨?_, ?_, rfl⟩, ?_, ?_, ?_⟩
      · simpa [TubeComponent.well_formed, Interval.valid_domain] using ha1
      · simpa [TubeComponent.well_formed, Interval.valid_domain] using hb1
      · simp only [TubeComponent.domain, Interval.lb, Interval.ub]
        exact Interval.make_fin hab.le
      · exact ⟨Interval.mk (Dbl.fin a) (Dbl.fin τ), by simp [TubeComponent.slice_domains],
          Or.inr rfl⟩
      · rintro u ⟨d, hd, hu⟩
        simp only [TubeComponent.slice_domains, List.mem_singleton] at hd
        subst hd
        rcases hu with hu | hu
        · exact ⟨Interval.mk (Dbl.fin a) (Dbl.fin τ), by simp [TubeComponent.slice_domains],
            Or.inl hu⟩
        · exact ⟨Interval.mk (Dbl.fin τ) (Dbl.fin b), by simp [TubeComponent.slice_domains],
            Or.inr hu⟩
  | TubeComponent.TubeNode a b, h, t, ht => by
    obtain ⟨ha, hb, hab⟩ := h
    obtain ⟨a1, a2, h12, hda⟩ := (Interval.valid_domain_iff _).1 (TubeComponent.domain_valid a ha)
    obtain ⟨b1, b2, h34, hdb⟩ := (Interval.valid_domain_iff _).1 (TubeComponent.domain_valid b hb)
    have hab2 := hab
    rw [hda, hdb] at hab2
    simp only [Interval.ub, Interval.lb, Dbl.fin.injEq] at hab2
    subst hab2
    have hlt : a1 < b2 := lt_trans h12 h34
    have hdom : (TubeComponent.TubeNode a b).domain = Interval.mk (Dbl.fin a1) (Dbl.fin b2) := by
      simp only [TubeComponent.domain, hda, hdb, Interval.lb, Interval.ub]
      exact Interval.make_fin hlt.le
    rw [hdom] at ht
    obtain ⟨τ, rfl, h1, h2⟩ := Interval.contains_fin_fin ht
    simp only [TubeComponent.sample]
    by_cases hc : Dbl.fin τ ≤ a.domain.ub
    · rw [if_pos hc]
      have hta : a.domain.contains (Dbl.fin τ) = true := by
        rw [hda] at hc ⊢
        simp only [Interval.ub] at hc
        simp only [Interval.contains, decide_eq_true_eq]
        exact ⟨(Dbl.fin_le_fin _ _).2 h1, hc⟩
      obtain ⟨i1, i2, i3, i4⟩ := TubeComponent.sample_spec a ha _ hta
      refine ⟨⟨i1, hb, by rw [i2]; exact hab⟩, ?_, ?_, ?_⟩
      · simp only [TubeComponent.domain, i2]
      · exact (TubeComponent.is_slice_bound_node _ _ _).2 (Or.inl i3)
      · intro u hu
        rcases (TubeComponent.is_slice_bound_node _ _ _).1 hu with hu | hu
        · exact (TubeComponent.is_slice_bound_node _ _ _).2 (Or.inl (i4 u hu))
        · exact (TubeComponent.is_slice_bound_node _ _ _).2 (Or.inr hu)
    · rw [if_neg hc]
      have htb : b.domain.contains (Dbl.fin τ) = true := by
        rw [hda] at hc
        rw [hdb]
        simp only [Interval.ub] at hc
        simp only [Interval.contains, decide_eq_true_eq]
        exact ⟨le_of_lt (not_le.1 hc), (Dbl.fin_le_fin _ _).2 h2⟩
      obtain ⟨i1, i2, i3, i4⟩ := TubeComponent.sample_spec b hb _ htb
      refine ⟨⟨ha, i1, by rw [i2]; exact hab⟩, ?_, ?_, ?_⟩
      · simp only [TubeComponent.domain, i2]
      · exact (TubeComponent.is_slice_bound_node _ _ _).2 (Or.inr i3)
      · intro u hu
        rcases (TubeComponent.is_slice_bound_node _ _ _).1 hu with hu | hu
        · exact (TubeComponent.is_slice_bound_node _ _ _).2 (Or.inl hu)
        · exact (TubeComponent.is_slice_bound_node _ _ _).2 (Or.inr (i4 u hu))

theorem Tube.foldlM_sample_spec : ∀ (l : List Dbl) (x : Tube), x.m_component.well_formed →
    (∀ t ∈ l, x.m_component.domain.contains t = true) →
    ∃ y, List.foldlM Tube.sample x l = some y ∧ y.m_component.well_formed
      ∧ y.m_component.domain = x.m_component.domain
      ∧ (∀ t ∈ l, y.m_component.is_slice_bound t)
      ∧ ∀ u, x.m_component.is_slice_bound u → y.m_component.is_slice_bound u
  | [], x, hx, _ => ⟨x, rfl, hx, rfl, fun _ h => absurd h (List.not_mem_nil _), fun _ h => h⟩
  | t :: l, x, hx, hl => by
    have ht := hl t (List.mem_cons_self _ _)
    obtain ⟨i1, i2, i3, i4⟩ := TubeComponent.sample_spec x.m_component hx t ht
    obtain ⟨y, hy, j1, j2, j3, j4⟩ := Tube.foldlM_sample_spec l ⟨x.m_component.sample t⟩ i1
      (fun u hu => by rw [i2]; exact hl u (List.mem_cons_of_mem _ hu))
    refine ⟨y, ?_, j1, j2.trans i2, ?_, fun u hu => j4 u (i4 u hu)⟩
    · rw [List.foldlM_cons]
      simp only [Tube.sample, ht, if_true]
      exact hy
    · intro u hu
      rcases List.mem_cons.1 hu with rfl | hu
      · exact j4 _ i3
      · exact j3 u hu

end Tree

/-- C40: the tube kept as a tree, well formed, sampled at a vector of times of its domain with
more fuel than the vector has elements. The recursion ends; whatever `sample(double)` is, it is
called on the elements in the order middle first, then the left half, then the right half,
which holds each element of the vector exactly as often as the vector does; the tube that
results has every element of the vector as a bound of one of its slices, it keeps its domain
and the bounds it had; and the empty vector leaves the tube as it is. -/
theorem C40_sample_vector (x : Tree.Tube) (hx : x.m_component.well_formed)
    (v_bounds : List Dbl) (hv : ∀ t ∈ v_bounds, x.m_component.domain.contains t = true)
    (fuel : Nat) (hf : v_bounds.length < fuel) :
    (∀ (σ : Type) (sample : σ → Dbl → Option σ) (s : σ),
        sample_vector sample fuel s v_bounds
          = List.foldlM sample s (middle_first fuel v_bounds)
        ∧ sample_vector sample fuel s [] = some s)
      ∧ (middle_first fuel v_bounds).Perm v_bounds
      ∧ (∀ t, (middle_first fuel v_bounds).count t = v_bounds.count t)
      ∧ (∀ h : v_bounds.length / 2 < v_bounds.length,
          middle_first fuel v_bounds = v_bounds[v_bounds.length / 2]
            :: (middle_first (fuel - 1) (v_bounds.take (v_bounds.length / 2))
              ++ middle_first (fuel - 1) (v_bounds.drop (v_bounds.length / 2 + 1))))
      ∧ ∃ y, sample_vector Tree.Tube.sample fuel x v_bounds = some y
          ∧ y.m_component.well_formed
          ∧ y.m_component.domain = x.m_component.domain
          ∧ (∀ t ∈ v_bounds, y.m_component.is_slice_bound t)
          ∧ ∀ u, x.m_component.is_slice_bound u → y.m_component.is_slice_bound u := by
  have hperm := middle_first_perm fuel v_bounds hf.le
  refine ⟨fun σ sample s => ⟨sample_vector_eq_foldlM sample fuel s v_bounds hf, ?_⟩, hperm,
    fun t => hperm.count_eq t, ?_, ?_⟩
  · obtain ⟨f, rfl⟩ : ∃ f, fuel = f + 1 := ⟨fuel - 1, by omega⟩
    simp [sample_vector]
  · intro h
    obtain ⟨f, rfl⟩ : ∃ f, fuel = f + 1 := ⟨fuel - 1, by omega⟩
    simp only [middle_first, List.getElem?_eq_getElem h, Nat.add_sub_cancel]
  · obtain ⟨y, hy, j1, j2, j3, j4⟩ := Tree.Tube.foldlM_sample_spec (middle_first fuel v_bounds) x hx
      (fun t ht => hv t (hperm.mem_iff.1 ht))
    refine ⟨y, ?_, j1, j2, fun t ht => j3 t (hperm.mem_iff.2 ht), j4⟩
    rw [sample_vector_eq_foldlM Tree.Tube.sample fuel x v_bounds hf]
    exact hy

theorem C40_sample_vector_witness :
    (Tree.Tube.mk (Tree.TubeComponent.TubeSlice (Interval.mk (Dbl.fin 0) (Dbl.fin 4))
        Interval.ALL_REALS)).m_component.well_formed
      ∧ sample_vector Tree.Tube.sample 4
          (Tree.Tube.mk (Tree.TubeComponent.TubeSlice (Interval.mk (Dbl.fin 0) (Dbl.fin 4))
            Interval.ALL_REALS)) [Dbl.fin 1, Dbl.fin 2, Dbl.fin 3]
        = List.foldlM Tree.Tube.sample
          (Tree.Tube.mk (Tree.TubeComponent.TubeSlice (Interval.mk (Dbl.fin 0) (Dbl.fin 4))
            Interval.ALL_REALS)) (middle_first 4 [Dbl.fin 1, Dbl.fin 2, Dbl.fin 3])
      ∧ middle_first 4 [Dbl.fin 1, Dbl.fin 2, Dbl.fin 3] = [Dbl.fin 2, Dbl.fin 1, Dbl.fin 3] :=
  ⟨by decide,
    ((C40_sample_vector
      (Tree.Tube.mk (Tree.TubeComponent.TubeSlice (Interval.mk (Dbl.fin 0) (Dbl.fin 4))
        Interval.ALL_REALS)) (by decide) [Dbl.fin 1, Dbl.fin 2, Dbl.fin 3]
      (by decide) 4 (by decide)).1 Tree.Tube Tree.Tube.sample _).1,
    by decide⟩

/-! ## Setting the envelope over an interval of time -/

theorem Interval.is_subset_fin (a b c e : ℚ) :
    (Interval.mk (Dbl.fin a) (Dbl.fin b)).is_subset (Interval.mk (Dbl.fin c) (Dbl.fin e)) = true
      ↔ c ≤ a ∧ b ≤ e := by
  simp [Interval.is_subset, Interval.is_superset]

theorem Interval.is_subset_trans {x y z : Interval} (h1 : x.is_subset y = true)
    (h2 : y.is_subset z = true) : x.is_subset z = true := by
  cases x with
  | empty => cases z <;> rfl
  | mk a b =>
    cases y with
    | empty => simp [Interval.is_subset, Interval.is_superset] at h1
    | mk c e =>
      cases z with
      | empty => simp [Interval.is_subset, Interval.is_superset] at h2
      | mk f g =>
        simp only [Interval.is_subset, Interval.is_superset, decide_eq_true_eq] at h1 h2 ⊢
        exact ⟨le_trans h2.1 h1.1, le_trans h1.2 h2.2⟩

theorem Interval.is_subset_rfl (x : Interval) : x.is_subset x = true := by
  cases x with
  | empty => rfl
  | mk a b => simp [Interval.is_subset, Interval.is_superset]

theorem partition_trichotomy (l : List Slice) (hv : ∀ s ∈ l, s.domain.valid_domain = true)
    (hc : l.Chain' (fun s1 s2 => s1.domain.ub = s2.domain.lb)) (p q : Slice)
    (hp : p ∈ l) (hq : q ∈ l) :
    p = q ∨ p.domain.ub ≤ q.domain.lb ∨ q.domain.ub ≤ p.domain.lb := by
  have h : l.Pairwise
      (fun p q => p = q ∨ p.domain.ub ≤ q.domain.lb ∨ q.domain.ub ≤ p.domain.lb) :=
    (chain_pairwise l hv hc).imp (fun h => Or.inr (Or.inl h))
  have hsymm : Symmetric
      (fun p q : Slice => p = q ∨ p.domain.ub ≤ q.domain.lb ∨ q.domain.ub ≤ p.domain.lb) := by
    intro a b hab
    rcases hab with h | h | h
    · exact Or.inl h.symm
    · exact Or.inr (Or.inr h)
    · exact Or.inr (Or.inl h)
  exact List.Pairwise.forall_of_forall hsymm (fun x _ => Or.inl rfl) h hp hq

theorem partition_no_straddle (l : List Slice) (hv : ∀ s ∈ l, s.domain.valid_domain = true)
    (hc : l.Chain' (fun s1 s2 => s1.domain.ub = s2.domain.lb)) (u : Dbl)
    (hu : ∃ r ∈ l, r.domain.lb = u ∨ r.domain.ub = u) (q : Slice) (hq : q ∈ l) :
    ¬ (q.domain.lb < u ∧ u < q.domain.ub) := by
  rintro ⟨g1, g2⟩
  obtain ⟨r, hr, hru⟩ := hu
  have vr := Interval.valid_domain_lt (hv r hr)
  rcases partition_trichotomy l hv hc r q hr hq with rfl | h | h
  · rcases hru with e | e
    · rw [e] at g1; exact lt_irrefl _ g1
    · rw [e] at g2; exact lt_irrefl _ g2
  · rcases hru with e | e
    · rw [e] at vr
      exact lt_irrefl _ (lt_trans (lt_of_lt_of_le vr h) g1)
    · rw [e] at h
      exact lt_irrefl _ (lt_of_le_of_lt h g1)
  · rcases hru with e | e
    · rw [e] at h
      exact lt_irrefl _ (lt_of_lt_of_le g2 h)
    · rw [e] at vr
      exact lt_irrefl _ (lt_trans (lt_of_lt_of_le g2 h) vr)

theorem Tube.sample_frame (x : Tube) (hx : x.partition_invariant) (d : Interval)
    (hd : x.domain = some d) (t : Dbl) (ht : d.contains t = true) :
    ∃ y, x.sample t = some y ∧ y.partition_invariant ∧ y.domain = some d
      ∧ (∃ s ∈ y.slices, s.domain.lb = t ∨ s.domain.ub = t)
      ∧ (∀ u, (∃ s ∈ x.slices, s.domain.lb = u ∨ s.domain.ub = u) →
          ∃ s ∈ y.slices, s.domain.lb = u ∨ s.domain.ub = u)
      ∧ ∀ s ∈ y.slices, ∃ s0 ∈ x.slices,
          s.domain.is_subset s0.domain = true ∧ s.codomain = s0.codomain := by
  obtain ⟨y, hy, k1, k2⟩ := Tube.sample_keeps x d ⟨hx, hd⟩ t ht
  refine ⟨y, hy, k1, k2, ?_⟩
  rcases Tube.sample_cases x hx d hd t ht with
    ⟨h, hb⟩ | ⟨pre, s0, post, a, b, τ, rfl, e, es, h1, h2, _, h⟩
  · have hyx : y = x := Option.some.inj (hy.symm.trans h)
    subst hyx
    exact ⟨hb, fun u hu => hu, fun s hs => ⟨s, hs, Interval.is_subset_rfl _, rfl⟩⟩
  · have hyx := Option.some.inj (hy.symm.trans h)
    subst hyx
    refine ⟨⟨⟨Interval.mk (Dbl.fin a) (Dbl.fin τ), s0.codomain, s0.codomain⟩, by simp,
      Or.inr rfl⟩, ?_, ?_⟩
    · rintro u ⟨s, hs, hu⟩
      rw [e] at hs
      rcases List.mem_append.1 hs with hs | hs
      · exact ⟨s, by simp [hs], hu⟩
      · rcases List.mem_cons.1 hs with rfl | hs
        · rw [es] at hu
          rcases hu with hu | hu
          · exact ⟨⟨Interval.mk (Dbl.fin a) (Dbl.fin τ), s.codomain, s.codomain⟩, by simp,
              Or.inl hu⟩
          · exact ⟨⟨Interval.mk (Dbl.fin τ) (Dbl.fin b), s.codomain, s.output_gate⟩, by simp,
              Or.inr hu⟩
        · exact ⟨s, by simp [hs], hu⟩
    · intro s hs
      simp only [List.mem_append, List.mem_cons] at hs
      rcases hs with hs | rfl | rfl | hs
      · exact ⟨s, by rw [e]; simp [hs], Interval.is_subset_rfl _, rfl⟩
      · refine ⟨s0, by rw [e]; simp, ?_, rfl⟩
        rw [es]
        exact (Interval.is_subset_fin _ _ _ _).2 ⟨le_rfl, h2.le⟩
      · refine ⟨s0, by rw [e]; simp, ?_, rfl⟩
        rw [es]
        exact (Interval.is_subset_fin _ _ _ _).2 ⟨h1.le, le_rfl⟩
      · exact ⟨s, by rw [e]; simp [hs], Interval.is_subset_rfl _, rfl⟩

theorem set_loop_spec (y : Interval) (τ1 τ2 : ℚ) : ∀ l : List Slice,
    (∀ q ∈ l, q.domain.valid_domain = true) →
    l.Chain' (fun s1 s2 => s1.domain.ub = s2.domain.lb) →
    (∀ q ∈ l, Dbl.fin τ1 ≤ q.domain.lb) →
    (∀ q ∈ l, ¬ (q.domain.lb < Dbl.fin τ2 ∧ Dbl.fin τ2 < q.domain.ub)) →
    set_loop y (Interval.mk (Dbl.fin τ1) (Dbl.fin τ2)) l
      = l.map (fun q => if q.domain.ub ≤ Dbl.fin τ2 then q.set y else q)
  | [], _, _, _, _ => rfl
  | q :: rest, hv, hc, hlb, hst => by
    obtain ⟨a, b, hab, hq⟩ := (Interval.valid_domain_iff _).1 (hv q (List.mem_cons_self _ _))
    have h1 : τ1 ≤ a := by
      have := hlb q (List.mem_cons_self _ _)
      rw [hq] at this
      exact (Dbl.fin_le_fin _ _).1 this
    have hs := hst q (List.mem_cons_self _ _)
    rw [hq] at hs
    simp only [Interval.lb, Interval.ub, Dbl.fin_lt_fin] at hs
    have hinter : (Interval.mk (Dbl.fin τ1) (Dbl.fin τ2)).inter q.domain
        = if a ≤ min τ2 b then Interval.mk (Dbl.fin a) (Dbl.fin (min τ2 b))
          else Interval.empty := by
      rw [hq, Interval.inter_fin, max_eq_right h1]
    by_cases hb : b ≤ τ2
    · have hdeg : ((Interval.mk (Dbl.fin τ1) (Dbl.fin τ2)).inter q.domain).is_degenerated
          = false := by
        rw [hinter, min_eq_right hb, if_pos hab.le]
        simpa [Interval.is_degenerated] using hab.ne
      have ih := set_loop_spec y τ1 τ2 rest (fun r hr => hv r (List.mem_cons_of_mem _ hr))
        hc.tail (fun r hr => hlb r (List.mem_cons_of_mem _ hr))
        (fun r hr => hst r (List.mem_cons_of_mem _ hr))
      have hub : q.domain.ub ≤ Dbl.fin τ2 := by
        rw [hq]; exact (Dbl.fin_le_fin _ _).2 hb
      simp only [set_loop, hdeg, List.map_cons, if_pos hub, ih]
      simp
    · have hb2 : τ2 < b := not_le.1 hb
      have ha : τ2 ≤ a := by
        by_contra hc2
        exact hs ⟨not_le.1 hc2, hb2⟩
      have hdeg : ((Interval.mk (Dbl.fin τ1) (Dbl.fin τ2)).inter q.domain).is_degenerated
          = true := by
        rw [hinter, min_eq_left hb2.le]
        by_cases hc2 : a ≤ τ2
        · rw [if_pos hc2]
          simpa [Interval.is_degenerated] using le_antisymm hc2 ha
        · rw [if_neg hc2]
          rfl
      have hpw := chain_pairwise (q :: rest) hv hc
      have hall : ∀ r ∈ q :: rest, ¬ r.domain.ub ≤ Dbl.fin τ2 := by
        intro r hr
        rcases List.mem_cons.1 hr with rfl | hr2
        · rw [hq]
          simpa [Interval.ub] using hb2
        · have i1 : q.domain.ub ≤ r.domain.lb := (List.pairwise_cons.1 hpw).1 r hr2
          have i2 := Interval.valid_domain_lt (hv r hr)
          rw [hq] at i1
          simp only [Interval.ub] at i1
          intro hle
          have : Dbl.fin b < Dbl.fin τ2 := lt_of_le_of_lt i1 (lt_of_lt_of_le i2 hle)
          exact absurd ((Dbl.fin_lt_fin _ _).1 this) (not_lt.2 hb2.le)
      have hmap : (q :: rest).map (fun q => if q.domain.ub ≤ Dbl.fin τ2 then q.set y else q)
          = q :: rest := by
        conv_rhs => rw [← List.map_id (q :: rest)]
        apply List.map_congr_left
        intro r hr
        rw [if_neg (hall r hr)]
        rfl
      rw [hmap]
      simp only [set_loop, hdeg, if_true]

/-- C34: a tube that satisfies the partition invariant, of domain `d`, an interval `y`, and
two times `t1 < t2` of `d`. The call `set(y, [t1,t2])` returns; afterwards the tube has the
same domain and satisfies the invariant, `t1` and `t2` are bounds of slices, every slice whose
domain is a subset of `[t1,t2]` has the envelope `y`, and every other slice is a part of a
slice of the tube before the call and has the envelope of that slice. -/
theorem C34_set_on_interval (x : Tube) (hx : x.partition_invariant) (d : Interval)
    (hd : x.domain = some d) (y : Interval) (t1 t2 : Dbl)
    (h1 : d.contains t1 = true) (h2 : d.contains t2 = true) (h12 : t1 < t2) :
    ∃ z, x.set_on y (Interval.make t1 t2) = some z
      ∧ z.partition_invariant ∧ z.domain = some d
      ∧ (∃ s ∈ z.slices, s.domain.lb = t1 ∨ s.domain.ub = t1)
      ∧ (∃ s ∈ z.slices, s.domain.lb = t2 ∨ s.domain.ub = t2)
      ∧ (∀ s ∈ z.slices, s.domain.is_subset (Interval.make t1 t2) = true → s.codomain = y)
      ∧ ∀ s ∈ z.slices, s.domain.is_subset (Interval.make t1 t2) = false →
          ∃ s0 ∈ x.slices, s.domain.is_subset s0.domain = true ∧ s.codomain = s0.codomain := by
  obtain ⟨a0, b0, hab0, hdom, _⟩ := Tube.domain_spec x hx
  have hd0 : d = Interval.mk (Dbl.fin a0) (Dbl.fin b0) := Option.some.inj (hd.symm.trans hdom)
  subst hd0
  obtain ⟨τ1, rfl, m1, m2⟩ := Interval.contains_fin_fin h1
  obtain ⟨τ2, rfl, m3, m4⟩ := Interval.contains_fin_fin h2
  have hlt : τ1 < τ2 := (Dbl.fin_lt_fin _ _).1 h12
  rw [Interval.make_fin hlt.le]
  obtain ⟨x1, e1, p1, d1, b1, f1, g1⟩ := Tube.sample_frame x hx _ hd _ h1
  obtain ⟨x2, e2, p2, d2, b2, f2, g2⟩ := Tube.sample_frame x1 p1 _ d1 _ h2
  have bt1 := f2 _ b1
  obtain ⟨pre, s, post, a, b, e, hpre, hs, sdom, hab, la, lb⟩ :=
    Tube.locate x2 p2 _ d2 (Dbl.fin τ1) h1
  have hv2 := p2.2.1
  have hc2 := p2.2.2
  have hsm : s ∈ x2.slices := by rw [e]; simp
  have hsub : τ1 < b := by
    rcases hs with hs | hs
    · rw [sdom] at hs
      exact (Dbl.fin_lt_fin _ _).1 hs
    · subst hs
      have := Tube.last_ub x2 p2 _ d2 pre s e
      rw [sdom] at this
      simp only [Interval.ub, Dbl.fin.injEq] at this
      rw [this]
      exact lt_of_lt_of_le hlt m4
  have hsa : a = τ1 := by
    have ns := partition_no_straddle x2.slices hv2 hc2 _ bt1 s hsm
    rw [sdom] at ns
    simp only [Interval.lb, Interval.ub, Dbl.fin_lt_fin] at ns
    have la2 : a ≤ τ1 := (Dbl.fin_le_fin _ _).1 la
    by_contra hne
    exact ns ⟨lt_of_le_of_ne la2 hne, hsub⟩
  subst hsa
  have hvl : ∀ q ∈ s :: post, q.domain.valid_domain = true := by
    intro q hq
    apply hv2
    rw [e]
    exact List.mem_append_right _ hq
  have hcl : (s :: post).Chain' (fun s1 s2 => s1.domain.ub = s2.domain.lb) := by
    rw [e] at hc2
    exact hc2.right_of_append
  have hlbl : ∀ q ∈ s :: post, Dbl.fin a ≤ q.domain.lb := by
    intro q hq
    rcases List.mem_cons.1 hq with rfl | hq2
    · rw [sdom]; exact le_rfl
    · have i1 : s.domain.ub ≤ q.domain.lb :=
        (List.pairwise_cons.1 (chain_pairwise _ hvl hcl)).1 q hq2
      have i2 := Interval.valid_domain_lt (hvl s (List.mem_cons_self _ _))
      rw [sdom] at i1 i2
      simp only [Interval.lb, Interval.ub] at i1 i2
      exact le_trans i2.le i1
  have hstl : ∀ q ∈ s :: post,
      ¬ (q.domain.lb < Dbl.fin τ2 ∧ Dbl.fin τ2 < q.domain.ub) := by
    intro q hq
    apply partition_no_straddle x2.slices hv2 hc2 _ b2
    rw [e]
    exact List.mem_append_right _ hq
  have hloop := set_loop_spec y a τ2 (s :: post) hvl hcl hlbl hstl
  have hprel : ∀ p ∈ pre, p.domain.ub ≤ Dbl.fin a := by
    intro p hp
    have := decomp_ub_le pre s post (by rw [← e]; exact hv2) (by rw [← e]; exact hc2) p hp
    rw [sdom] at this
    exact this
  have hdeg : (Interval.mk (Dbl.fin a) (Dbl.fin τ2)).is_degenerated = false := by
    simpa [Interval.is_degenerated] using hlt.ne
  have hz : x.set_on y (Interval.mk (Dbl.fin a) (Dbl.fin τ2))
      = some ⟨x2.first_gate, pre ++ (s :: post).map
          (fun q => if q.domain.ub ≤ Dbl.fin τ2 then q.set y else q)⟩ := by
    unfold Tube.set_on
    rw [hdeg]
    simp only [show (Interval.mk (Dbl.fin a) (Dbl.fin τ2)).lb = Dbl.fin a from rfl,
      show (Interval.mk (Dbl.fin a) (Dbl.fin τ2)).ub = Dbl.fin τ2 from rfl, e1, e2,
      Bool.false_eq_true, if_false]
    rw [Tube.input2index_decomp x2 _ pre s post e hpre hs, e, take_decomp, drop_decomp_self,
      hloop]
  have hmapdom : (pre ++ (s :: post).map
      (fun q => if q.domain.ub ≤ Dbl.fin τ2 then q.set y else q)).map (fun s => s.domain)
        = x2.slices.map (fun s => s.domain) := by
    rw [e, List.map_append, List.map_append, List.map_map]
    congr 1
    apply List.map_congr_left
    intro q _
    simp only [Function.comp]
    split <;> rfl
  have hbound : ∀ u, (∃ r ∈ x2.slices, r.domain.lb = u ∨ r.domain.ub = u) →
      ∃ r ∈ pre ++ (s :: post).map
        (fun q => if q.domain.ub ≤ Dbl.fin τ2 then q.set y else q),
        r.domain.lb = u ∨ r.domain.ub = u := by
    rintro u ⟨r, hr, hu⟩
    have : r.domain ∈ x2.slices.map (fun s => s.domain) := List.mem_map.2 ⟨r, hr, rfl⟩
    rw [← hmapdom] at this
    obtain ⟨r2, hr2, er⟩ := List.mem_map.1 this
    exact ⟨r2, hr2, by rw [er]; exact hu⟩
  have hparent : ∀ r ∈ x2.slices, ∃ s0 ∈ x.slices,
      r.domain.is_subset s0.domain = true ∧ r.codomain = s0.codomain := by
    intro r hr
    obtain ⟨r1, hr1, i1, i2⟩ := g2 r hr
    obtain ⟨r0, hr0, j1, j2⟩ := g1 r1 hr1
    exact ⟨r0, hr0, Interval.is_subset_trans i1 j1, i2.trans j2⟩
  have hkeep := Tube.keeps_of_map_eq x2
    ⟨x2.first_gate, pre ++ (s :: post).map
      (fun q => if q.domain.ub ≤ Dbl.fin τ2 then q.set y else q)⟩ _ hmapdom ⟨p2, d2⟩
  refine ⟨_, hz, hkeep.1, hkeep.2, hbound _ bt1, hbound _ b2, ?_, ?_⟩
  · intro r hr hsubset
    rcases List.mem_append.1 hr with hr | hr
    · exfalso
      have v := hv2 r (by rw [e]; exact List.mem_append_left _ hr)
      obtain ⟨c, g, hcg, hrd⟩ := (Interval.valid_domain_iff _).1 v
      have i1 := hprel r hr
      rw [hrd] at i1 hsubset
      have i2 := (Interval.is_subset_fin _ _ _ _).1 hsubset
      have i3 : g ≤ a := (Dbl.fin_le_fin _ _).1 i1
      linarith [i2.1]
    · obtain ⟨q, hq, rfl⟩ := List.mem_map.1 hr
      by_cases hc : q.domain.ub ≤ Dbl.fin τ2
      · rw [if_pos hc]
        rfl
      · exfalso
        rw [if_neg hc] at hsubset
        obtain ⟨c, g, hcg, hrd⟩ := (Interval.valid_domain_iff _).1 (hvl q hq)
        rw [hrd] at hsubset hc
        exact hc ((Dbl.fin_le_fin _ _).2 ((Interval.is_subset_fin _ _ _ _).1 hsubset).2)
  · intro r hr hsubset
    rcases List.mem_append.1 hr with hr | hr
    · exact hparent r (by rw [e]; exact List.mem_append_left _ hr)
    · obtain ⟨q, hq, rfl⟩ := List.mem_map.1 hr
      by_cases hc : q.domain.ub ≤ Dbl.fin τ2
      · exfalso
        rw [if_pos hc] at hsubset
        obtain ⟨c, g, hcg, hrd⟩ := (Interval.valid_domain_iff _).1 (hvl q hq)
        have i1 := hlbl q hq
        have hsd : (q.set y).domain = q.domain := rfl
        rw [hsd, hrd] at hsubset
        rw [hrd] at hc i1
        have : (Interval.mk (Dbl.fin c) (Dbl.fin g)).is_subset
            (Interval.mk (Dbl.fin a) (Dbl.fin τ2)) = true :=
          (Interval.is_subset_fin _ _ _ _).2
            ⟨(Dbl.fin_le_fin _ _).1 i1, (Dbl.fin_le_fin _ _).1 hc⟩
        rw [this] at hsubset
        exact Bool.noConfusion hsubset
      · rw [if_neg hc]
        exact hparent q (by rw [e]; exact List.mem_append_right _ hq)

theorem C34_set_on_interval_witness :
    ∃ z, (Tube.mk (Interval.mk (Dbl.fin 0) (Dbl.fin 1))
        [⟨Interval.mk (Dbl.fin 0) (Dbl.fin 2), Interval.mk (Dbl.fin 0) (Dbl.fin 1),
            Interval.mk (Dbl.fin 0) (Dbl.fin 1)⟩,
          ⟨Interval.mk (Dbl.fin 2) (Dbl.fin 4), Interval.mk (Dbl.fin 3) (Dbl.fin 5),
            Interval.mk (Dbl.fin 3) (Dbl.fin 5)⟩]).set_on
          (Interval.mk (Dbl.fin 7) (Dbl.fin 8)) (Interval.make (Dbl.fin 1) (Dbl.fin 3)) = some z
      ∧ z.partition_invariant ∧ z.domain = some (Interval.mk (Dbl.fin 0) (Dbl.fin 4))
      ∧ (∃ s ∈ z.slices, s.domain.lb = Dbl.fin 1 ∨ s.domain.ub = Dbl.fin 1)
      ∧ (∃ s ∈ z.slices, s.domain.lb = Dbl.fin 3 ∨ s.domain.ub = Dbl.fin 3)
      ∧ (∀ s ∈ z.slices, s.domain.is_subset (Interval.make (Dbl.fin 1) (Dbl.fin 3)) = true →
          s.codomain = Interval.mk (Dbl.fin 7) (Dbl.fin 8))
      ∧ ∀ s ∈ z.slices, s.domain.is_subset (Interval.make (Dbl.fin 1) (Dbl.fin 3)) = false →
          ∃ s0 ∈ (Tube.mk (Interval.mk (Dbl.fin 0) (Dbl.fin 1))
            [⟨Interval.mk (Dbl.fin 0) (Dbl.fin 2), Interval.mk (Dbl.fin 0) (Dbl.fin 1),
                Interval.mk (Dbl.fin 0) (Dbl.fin 1)⟩,
              ⟨Interval.mk (Dbl.fin 2) (Dbl.fin 4), Interval.mk (Dbl.fin 3) (Dbl.fin 5),
                Interval.mk (Dbl.fin 3) (Dbl.fin 5)⟩]).slices,
            s.domain.is_subset s0.domain = true ∧ s.codomain = s0.codomain :=
  C34_set_on_interval _ (by decide) (Interval.mk (Dbl.fin 0) (Dbl.fin 4)) (by decide) _ _ _
    (by decide) (by decide) (by decide)

/-! ## Soundness of the contractor by the derivative -/

/-- The sum of a point of `X` and a point of `Y` is a point of `X + Y`. -/
theorem Interval.mem_add {X Y : Interval} {x y : ℝ} (hx : X.mem x) (hy : Y.mem y) :
    (X + Y).mem (x + y) := by
  cases X with
  | empty => exact hx.elim
  | mk a b =>
    cases Y with
    | empty => exact hy.elim
    | mk c d =>
      rw [Interval.add_mk]
      obtain ⟨ha, hb⟩ := hx
      obtain ⟨hc, hd⟩ := hy
      refine ⟨?_, ?_⟩
      · cases a with
        | pinf => exact ha.elim
        | ninf =>
          have h : Dbl.ninf + c = Dbl.ninf := by cases c <;> rfl
          rw [h]
          trivial
        | fin a =>
          cases c with
          | pinf => exact hc.elim
          | ninf => trivial
          | fin c =>
            have h1 : (a : ℝ) ≤ x := ha
            have h2 : (c : ℝ) ≤ y := hc
            rw [Dbl.fin_add_fin]
            show ((a + c : ℚ) : ℝ) ≤ x + y
            push_cast
            linarith
      · cases b with
        | ninf => exact hb.elim
        | pinf =>
          cases d with
          | ninf => exact hd.elim
          | pinf => trivial
          | fin d => trivial
        | fin b =>
          cases d with
          | ninf => exact hd.elim
          | pinf => trivial
          | fin d =>
            have h1 : x ≤ (b : ℝ) := hb
            have h2 : y ≤ (d : ℝ) := hd
            rw [Dbl.fin_add_fin]
            show x + y ≤ ((b + d : ℚ) : ℝ)
            push_cast
            linarith

theorem Interval.mem_of_is_subset {X Y : Interval} {z : ℝ} (h : X.is_subset Y = true)
    (hz : X.mem z) : Y.mem z := by
  cases X with
  | empty => exact hz.elim
  | mk a b =>
    cases Y with
    | empty => simp [Interval.is_subset, Interval.is_superset] at h
    | mk c d =>
      simp only [Interval.is_subset, Interval.is_superset, decide_eq_true_eq] at h
      obtain ⟨h1, h2⟩ := h
      obtain ⟨z1, z2⟩ := hz
      refine ⟨?_, ?_⟩
      · cases c with
        | ninf => trivial
        | pinf =>
          cases a with
          | pinf => exact z1.elim
          | ninf => exact absurd h1 (by decide)
          | fin a => exact absurd h1 (Dbl.not_pinf_le_fin a)
        | fin c =>
          cases a with
          | pinf => exact z1.elim
          | ninf => exact absurd h1 (Dbl.not_fin_le_ninf c)
          | fin a =>
            have i1 : (c : ℝ) ≤ a := by exact_mod_cast (Dbl.fin_le_fin _ _).1 h1
            exact le_trans i1 z1
      · cases d with
        | pinf => trivial
        | ninf =>
          cases b with
          | ninf => exact z2.elim
          | pinf => exact absurd h2 (by decide)
          | fin b => exact absurd h2 (Dbl.not_fin_le_ninf b)
        | fin d =>
          cases b with
          | ninf => exact z2.elim
          | pinf => exact absurd h2 (Dbl.not_pinf_le_fin d)
          | fin b =>
            have i1 : (b : ℝ) ≤ d := by exact_mod_cast (Dbl.fin_le_fin _ _).1 h2
            exact le_trans z2 i1

theorem Interval.inter_is_subset_left (X Y : Interval) : (X.inter Y).is_subset X = true := by
  cases X with
  | empty => cases Y <;> rfl
  | mk a b =>
    cases Y with
    | empty => rfl
    | mk c d =>
      show (Interval.make (max a c) (min b d)).is_subset (Interval.mk a b) = true
      unfold Interval.make
      split
      · simp [Interval.is_subset, Interval.is_superset]
      · rfl

theorem Dbl.eq_real_fin (a : ℚ) (t : ℝ) : (Dbl.fin a).eq_real t ↔ t = (a : ℝ) :=
  ⟨fun h => le_antisymm h.2 h.1, fun h => by rw [h]; exact ⟨le_rfl, le_rfl⟩⟩

/-- The mean value theorem, for a derivative enclosed by an interval. -/
theorem mvt_enclosure (f f' : ℝ → ℝ) (V : Interval) (a b : ℝ)
    (hf : ∀ t, a ≤ t → t ≤ b → HasDerivAt f (f' t) t)
    (hV : ∀ t, a ≤ t → t ≤ b → V.mem (f' t))
    (t1 t2 : ℝ) (h1 : a ≤ t1) (h12 : t1 ≤ t2) (h2 : t2 ≤ b) :
    ∃ w, V.mem w ∧ f t2 = f t1 + (t2 - t1) * w := by
  rcases eq_or_lt_of_le h12 with rfl | hlt
  · exact ⟨f' t1, hV t1 h1 h2, by simp⟩
  · have hc : ContinuousOn f (Set.Icc t1 t2) := fun x hx =>
      (hf x (le_trans h1 hx.1) (le_trans hx.2 h2)).continuousAt.continuousWithinAt
    obtain ⟨c, hc1, hc2⟩ := exists_hasDerivAt_eq_slope f f' hlt hc
      (fun x hx => hf x (le_trans h1 hx.1.le) (le_trans hx.2.le h2))
    refine ⟨f' c, hV c (le_trans h1 hc1.1.le) (le_trans hc1.2.le h2), ?_⟩
    rw [hc2]
    have hne : t2 - t1 ≠ 0 := by linarith
    field_simp

/-- The relation of the contractor on one slice, between two instants of its domain. -/
theorem CtcDeriv.slice_step (f f' : ℝ → ℝ) (s sv : Slice) (a b : ℚ)
    (hd : s.domain = Interval.mk (Dbl.fin a) (Dbl.fin b)) (hdv : sv.domain = s.domain)
    (hf : ∀ t, s.domain.mem t → HasDerivAt f (f' t) t)
    (hv : ∀ t, sv.domain.mem t → sv.codomain.mem (f' t))
    (D G : Interval) (t1 t2 : ℝ) (h1 : (a : ℝ) ≤ t1) (h12 : t1 ≤ t2) (h2 : t2 ≤ (b : ℝ))
    (hD : D.mem (t2 - t1)) :
    (G.mem (f t1) → (G + D * sv.codomain).mem (f t2))
      ∧ (G.mem (f t2) → (G - D * sv.codomain).mem (f t1)) := by
  rw [hdv] at hv
  rw [hd] at hf hv
  obtain ⟨w, hw, e⟩ := mvt_enclosure f f' sv.codomain a b
    (fun t i1 i2 => hf t ⟨i1, i2⟩) (fun t i1 i2 => hv t ⟨i1, i2⟩) t1 t2 h1 h12 h2
  constructor
  · intro hG
    rw [e]
    exact Interval.mem_add hG (Interval.mem_mul hD hw)
  · intro hG
    have e2 : f t1 = f t2 - (t2 - t1) * w := by linarith
    rw [e2]
    exact Interval.mem_sub hG (Interval.mem_mul hD hw)

theorem Slice.diam_point_mem (s : Slice) (a b : ℚ)
    (hd : s.domain = Interval.mk (Dbl.fin a) (Dbl.fin b)) :
    (Interval.point s.domain.diam).mem ((b : ℝ) - (a : ℝ)) := by
  have h : s.domain.diam = Dbl.fin (b - a) := by
    rw [hd]
    simp [Interval.diam, Dbl.fin_sub_fin]
  rw [h, Interval.point_fin]
  refine (Interval.mem_exact _ _).2 ?_
  push_cast
  rfl

theorem Slice.diam_range_mem (s : Slice) (a b : ℚ)
    (hd : s.domain = Interval.mk (Dbl.fin a) (Dbl.fin b)) (z : ℝ) (h0 : 0 ≤ z)
    (h1 : z ≤ (b : ℝ) - (a : ℝ)) :
    (Interval.make 0 s.domain.diam).mem z := by
  have h : s.domain.diam = Dbl.fin (b - a) := by
    rw [hd]
    simp [Interval.diam, Dbl.fin_sub_fin]
  rw [h]
  apply Interval.make_mem
  · show ((0 : ℚ) : ℝ) ≤ z
    simpa using h0
  · show z ≤ ((b - a : ℚ) : ℝ)
    push_cast
    exact h1

theorem encloses_chain_gate (f : ℝ → ℝ) (g g2 : Interval) (l : List Slice)
    (h : encloses_chain f g l)
    (hg : ∀ s rest, l = s :: rest → ∀ t, s.domain.lb.eq_real t → g2.mem (f t)) :
    encloses_chain f g2 l := by
  cases l with
  | nil => trivial
  | cons s rest => exact ⟨hg s rest rfl, h.2⟩

theorem CtcDeriv.forward_sweep_encloses (f f' : ℝ → ℝ) : ∀ (l lv : List Slice) (g : Interval),
    l.map (fun s => s.domain) = lv.map (fun s => s.domain) →
    (∀ s ∈ l, s.domain.valid_domain = true) →
    l.Chain' (fun s1 s2 => s1.domain.ub = s2.domain.lb) →
    (∀ s ∈ l, ∀ t, s.domain.mem t → HasDerivAt f (f' t) t) →
    (∀ s ∈ lv, ∀ t, s.domain.mem t → s.codomain.mem (f' t)) →
    encloses_chain f g l → encloses_chain f g (CtcDeriv.forward_sweep g l lv)
  | [], _, _, _, _, _, _, _, _ => trivial
  | _ :: _, [], _, h1, _, _, _, _, _ => by simp at h1
  | s :: rest, sv :: restv, g, h1, h2, h3, h4, h5, h6 => by
    obtain ⟨a, b, hab, hd⟩ := (Interval.valid_domain_iff _).1 (h2 s (List.mem_cons_self _ _))
    simp only [List.map_cons, List.cons.injEq] at h1
    obtain ⟨e1, e2, e3, e4⟩ := h6
    have habr : (a : ℝ) ≤ (b : ℝ) := by exact_mod_cast hab.le
    have step := CtcDeriv.slice_step f f' s sv a b hd h1.1.symm
      (h4 s (List.mem_cons_self _ _)) (h5 sv (List.mem_cons_self _ _))
      (Interval.point s.domain.diam) g a b le_rfl habr le_rfl (Slice.diam_point_mem s a b hd)
    have ea : g.mem (f a) := e1 a (by rw [hd]; exact (Dbl.eq_real_fin a a).2 rfl)
    have hout : ∀ t, s.domain.ub.eq_real t →
        (s.output_gate.inter (g + Interval.point s.domain.diam * sv.codomain)).mem (f t) := by
      intro t ht
      have hb := e3 t ht
      rw [hd] at ht
      have : t = (b : ℝ) := (Dbl.eq_real_fin b t).1 ht
      subst this
      exact Interval.mem_inter hb (step.1 ea)
    have hrest : encloses_chain f
        (s.output_gate.inter (g + Interval.point s.domain.diam * sv.codomain)) rest := by
      apply encloses_chain_gate f _ _ rest e4
      intro q r hq t ht
      subst hq
      have hc : s.domain.ub = q.domain.lb := (List.chain'_cons.1 h3).1
      rw [← hc] at ht
      exact hout t ht
    exact ⟨e1, e2, hout,
      CtcDeriv.forward_sweep_encloses f f' rest restv _ h1.2
        (fun q hq => h2 q (List.mem_cons_of_mem _ hq)) h3.tail
        (fun q hq => h4 q (List.mem_cons_of_mem _ hq))
        (fun q hq => h5 q (List.mem_cons_of_mem _ hq)) hrest⟩

theorem CtcDeriv.backward_sweep_encloses (f f' : ℝ → ℝ) :
    ∀ (l lv : List Slice) (g : Interval),
    l.map (fun s => s.domain) = lv.map (fun s => s.domain) →
    (∀ s ∈ l, s.domain.valid_domain = true) →
    l.Chain' (fun s1 s2 => s1.domain.ub = s2.domain.lb) →
    (∀ s ∈ l, ∀ t, s.domain.mem t → HasDerivAt f (f' t) t) →
    (∀ s ∈ lv, ∀ t, s.domain.mem t → s.codomain.mem (f' t)) →
    encloses_chain f g l →
    encloses_chain f (CtcDeriv.backward_sweep g l lv).1 (CtcDeriv.backward_sweep g l lv).2
  | [], _, _, _, _, _, _, _, _ => trivial
  | _ :: _, [], _, h1, _, _, _, _, _ => by simp at h1
  | s :: rest, sv :: restv, g, h1, h2, h3, h4, h5, h6 => by
    obtain ⟨a, b, hab, hd⟩ := (Interval.valid_domain_iff _).1 (h2 s (List.mem_cons_self _ _))
    simp only [List.map_cons, List.cons.injEq] at h1
    obtain ⟨e1, e2, e3, e4⟩ := h6
    have habr : (a : ℝ) ≤ (b : ℝ) := by exact_mod_cast hab.le
    have ih := CtcDeriv.backward_sweep_encloses f f' rest restv s.output_gate h1.2
      (fun q hq => h2 q (List.mem_cons_of_mem _ hq)) h3.tail
      (fun q hq => h4 q (List.mem_cons_of_mem _ hq))
      (fun q hq => h5 q (List.mem_cons_of_mem _ hq)) e4
    have step := CtcDeriv.slice_step f f' s sv a b hd h1.1.symm
      (h4 s (List.mem_cons_self _ _)) (h5 sv (List.mem_cons_self _ _))
      (Interval.point s.domain.diam) (CtcDeriv.backward_sweep s.output_gate rest restv).1
      a b le_rfl habr le_rfl (Slice.diam_point_mem s a b hd)
    have ea : g.mem (f a) := e1 a (by rw [hd]; exact (Dbl.eq_real_fin a a).2 rfl)
    have hout : ∀ t, s.domain.ub.eq_real t →
        (CtcDeriv.backward_sweep s.output_gate rest restv).1.mem (f t) := by
      intro t ht
      cases rest with
      | nil => exact e3 t ht
      | cons q r =>
        cases restv with
        | nil => simp at h1
        | cons qv rv =>
          have hc : s.domain.ub = q.domain.lb := (List.chain'_cons.1 h3).1
          rw [hc] at ht
          exact ih.1 t ht
    have hb : (CtcDeriv.backward_sweep s.output_gate rest restv).1.mem (f b) :=
      hout b (by rw [hd]; exact (Dbl.eq_real_fin b b).2 rfl)
    refine ⟨?_, e2, hout, ih⟩
    intro t ht
    have ht2 : s.domain.lb.eq_real t := ht
    have hg := e1 t ht2
    rw [hd] at ht2
    have : t = (a : ℝ) := (Dbl.eq_real_fin a t).1 ht2
    subst this
    show (g.inter ((CtcDeriv.backward_sweep s.output_gate rest restv).1
        - Interval.point s.domain.diam * sv.codomain)).mem (f a)
    exact Interval.mem_inter hg (step.2 hb)

theorem CtcDeriv.envelopes_encloses (f f' : ℝ → ℝ) : ∀ (l lv : List Slice) (g : Interval),
    l.map (fun s => s.domain) = lv.map (fun s => s.domain) →
    (∀ s ∈ l, s.domain.valid_domain = true) →
    (∀ s ∈ l, ∀ t, s.domain.mem t → HasDerivAt f (f' t) t) →
    (∀ s ∈ lv, ∀ t, s.domain.mem t → s.codomain.mem (f' t)) →
    encloses_chain f g l → encloses_chain f g (CtcDeriv.envelopes g l lv)
  | [], _, _, _, _, _, _, _ => trivial
  | _ :: _, [], _, h1, _, _, _, _ => by simp at h1
  | s :: rest, sv :: restv, g, h1, h2, h4, h5, h6 => by
    obtain ⟨a, b, hab, hd⟩ := (Interval.valid_domain_iff _).1 (h2 s (List.mem_cons_self _ _))
    simp only [List.map_cons, List.cons.injEq] at h1
    obtain ⟨e1, e2, e3, e4⟩ := h6
    have ea : g.mem (f a) := e1 a (by rw [hd]; exact (Dbl.eq_real_fin a a).2 rfl)
    have eb : s.output_gate.mem (f b) := e3 b (by rw [hd]; exact (Dbl.eq_real_fin b b).2 rfl)
    refine ⟨e1, ?_, e3,
      CtcDeriv.envelopes_encloses f f' rest restv _ h1.2
        (fun q hq => h2 q (List.mem_cons_of_mem _ hq))
        (fun q hq => h4 q (List.mem_cons_of_mem _ hq))
        (fun q hq => h5 q (List.mem_cons_of_mem _ hq)) e4⟩
    intro t ht
    have ht0 := e2 t ht
    have ht2 : s.domain.mem t := ht
    rw [hd] at ht2
    obtain ⟨t1, t2⟩ := (Interval.mem_fin a b t).1 ht2
    have step1 := CtcDeriv.slice_step f f' s sv a b hd h1.1.symm
      (h4 s (List.mem_cons_self _ _)) (h5 sv (List.mem_cons_self _ _))
      (Interval.make 0 s.domain.diam) g a t le_rfl t1 t2
      (Slice.diam_range_mem s a b hd _ (by linarith) (by linarith))
    have step2 := CtcDeriv.slice_step f f' s sv a b hd h1.1.symm
      (h4 s (List.mem_cons_self _ _)) (h5 sv (List.mem_cons_self _ _))
      (Interval.make 0 s.domain.diam) s.output_gate t b t1 t2 le_rfl
      (Slice.diam_range_mem s a b hd _ (by linarith) (by linarith))
    exact Interval.mem_inter ht0 (Interval.mem_inter (step1.1 ea) (step2.2 eb))

/-! ## The contractor never widens, and keeps the slicing -/

theorem narrowed_refl : ∀ l : List Slice,
    List.Forall₂ (fun sy sx : Slice => sy.domain = sx.domain
      ∧ sy.codomain.is_subset sx.codomain = true
      ∧ sy.output_gate.is_subset sx.output_gate = true) l l
  | [] => List.Forall₂.nil
  | _ :: rest =>
    List.Forall₂.cons ⟨rfl, Interval.is_subset_rfl _, Interval.is_subset_rfl _⟩
      (narrowed_refl rest)

theorem narrowed_trans : ∀ (l1 l2 l3 : List Slice),
    List.Forall₂ (fun sy sx : Slice => sy.domain = sx.domain
      ∧ sy.codomain.is_subset sx.codomain = true
      ∧ sy.output_gate.is_subset sx.output_gate = true) l1 l2 →
    List.Forall₂ (fun sy sx : Slice => sy.domain = sx.domain
      ∧ sy.codomain.is_subset sx.codomain = true
      ∧ sy.output_gate.is_subset sx.output_gate = true) l2 l3 →
    List.Forall₂ (fun sy sx : Slice => sy.domain = sx.domain
      ∧ sy.codomain.is_subset sx.codomain = true
      ∧ sy.output_gate.is_subset sx.output_gate = true) l1 l3
  | [], _, _, h1, h2 => by
    cases h1
    cases h2
    exact List.Forall₂.nil
  | s1 :: r1, _, _, h1, h2 => by
    cases h1 with
    | cons a1 b1 =>
      cases h2 with
      | cons a2 b2 =>
        exact List.Forall₂.cons
          ⟨a1.1.trans a2.1, Interval.is_subset_trans a1.2.1 a2.2.1,
            Interval.is_subset_trans a1.2.2 a2.2.2⟩
          (narrowed_trans _ _ _ b1 b2)

theorem narrowed_map_domain : ∀ (l1 l2 : List Slice),
    List.Forall₂ (fun sy sx : Slice => sy.domain = sx.domain
      ∧ sy.codomain.is_subset sx.codomain = true
      ∧ sy.output_gate.is_subset sx.output_gate = true) l1 l2 →
    l1.map (fun s => s.domain) = l2.map (fun s => s.domain)
  | [], _, h => by
    cases h
    rfl
  | s1 :: r1, _, h => by
    cases h with
    | cons a b =>
      simp only [List.map_cons, a.1, narrowed_map_domain _ _ b]

theorem CtcDeriv.forward_sweep_narrows : ∀ (l lv : List Slice) (g : Interval),
    List.Forall₂ (fun sy sx : Slice => sy.domain = sx.domain
      ∧ sy.codomain.is_subset sx.codomain = true
      ∧ sy.output_gate.is_subset sx.output_gate = true) (CtcDeriv.forward_sweep g l lv) l
  | [], _, _ => List.Forall₂.nil
  | s :: rest, [], _ => narrowed_refl (s :: rest)
  | _ :: rest, _ :: restv, _ =>
    List.Forall₂.cons
      ⟨rfl, Interval.is_subset_rfl _, Interval.inter_is_subset_left _ _⟩
      (CtcDeriv.forward_sweep_narrows rest restv _)

theorem CtcDeriv.backward_sweep_narrows : ∀ (l lv : List Slice) (g : Interval),
    (CtcDeriv.backward_sweep g l lv).1.is_subset g = true ∧
    List.Forall₂ (fun sy sx : Slice => sy.domain = sx.domain
      ∧ sy.codomain.is_subset sx.codomain = true
      ∧ sy.output_gate.is_subset sx.output_gate = true) (CtcDeriv.backward_sweep g l lv).2 l
  | [], _, g => ⟨Interval.is_subset_rfl g, List.Forall₂.nil⟩
  | s :: rest, [], g => ⟨Interval.is_subset_rfl g, narrowed_refl (s :: rest)⟩
  | s :: rest, _ :: restv, _ =>
    ⟨Interval.inter_is_subset_left _ _,
      List.Forall₂.cons
        ⟨rfl, Interval.is_subset_rfl _,
          (CtcDeriv.backward_sweep_narrows rest restv s.output_gate).1⟩
        (CtcDeriv.backward_sweep_narrows rest restv s.output_gate).2⟩

theorem CtcDeriv.envelopes_narrows : ∀ (l lv : List Slice) (g : Interval),
    List.Forall₂ (fun sy sx : Slice => sy.domain = sx.domain
      ∧ sy.codomain.is_subset sx.codomain = true
      ∧ sy.output_gate.is_subset sx.output_gate = true) (CtcDeriv.envelopes g l lv) l
  | [], _, _ => List.Forall₂.nil
  | s :: rest, [], _ => narrowed_refl (s :: rest)
  | _ :: rest, _ :: restv, _ =>
    List.Forall₂.cons
      ⟨rfl, Interval.inter_is_subset_left _ _, Interval.is_subset_rfl _⟩
      (CtcDeriv.envelopes_narrows rest restv _)

theorem Tube.subset_of_self (x : Tube) : x.is_subset x :=
  ⟨Interval.is_subset_rfl _, narrowed_refl _⟩

theorem Tube.subset_chain {x y z : Tube} (h1 : x.is_subset y) (h2 : y.is_subset z) :
    x.is_subset z :=
  ⟨Interval.is_subset_trans h1.1 h2.1, narrowed_trans _ _ _ h1.2 h2.2⟩

theorem hyps_of_map_eq (f f' : ℝ → ℝ) (l lv : List Slice)
    (h1 : l.map (fun s => s.domain) = lv.map (fun s => s.domain))
    (h2 : ∀ s ∈ lv, s.domain.valid_domain = true)
    (h3 : lv.Chain' (fun s1 s2 => s1.domain.ub = s2.domain.lb))
    (h4 : ∀ s ∈ lv, ∀ t, s.domain.mem t → HasDerivAt f (f' t) t) :
    (∀ s ∈ l, s.domain.valid_domain = true)
      ∧ l.Chain' (fun s1 s2 => s1.domain.ub = s2.domain.lb)
      ∧ ∀ s ∈ l, ∀ t, s.domain.mem t → HasDerivAt f (f' t) t := by
  have key : ∀ s ∈ l, ∃ q ∈ lv, q.domain = s.domain := by
    intro s hs
    have : s.domain ∈ l.map (fun s => s.domain) := List.mem_map.2 ⟨s, hs, rfl⟩
    rw [h1] at this
    exact List.mem_map.1 this
  refine ⟨?_, ?_, ?_⟩
  · intro s hs
    obtain ⟨q, hq, e⟩ := key s hs
    rw [← e]
    exact h2 q hq
  · have c1 : (lv.map (fun s => s.domain)).Chain' (fun d1 d2 : Interval => d1.ub = d2.lb) :=
      (List.chain'_map (fun s : Slice => s.domain)).2 h3
    rw [← h1] at c1
    exact (List.chain'_map (fun s : Slice => s.domain)).1 c1
  · intro s hs
    obtain ⟨q, hq, e⟩ := key s hs
    rw [← e]
    exact h4 q hq

/-- The three steps of the contractor keep the enclosure of `f`, the slicing, and never widen:
the state after the sweeps asked for, then after the envelopes are derived again. -/
theorem CtcDeriv.contract_tube_sound (x v : Tube) (f f' : ℝ → ℝ)
    (h1 : x.slices.map (fun s => s.domain) = v.slices.map (fun s => s.domain))
    (h2 : ∀ s ∈ v.slices, s.domain.valid_domain = true)
    (h3 : v.slices.Chain' (fun s1 s2 => s1.domain.ub = s2.domain.lb))
    (h4 : ∀ s ∈ v.slices, ∀ t, s.domain.mem t → HasDerivAt f (f' t) t)
    (h5 : v.envelopes_enclose f') (h6 : x.encloses f) (t_propa : TPropagation) :
    (Tube.mk (CtcDeriv.contract_gates x v t_propa).first_gate
        (CtcDeriv.envelopes (CtcDeriv.contract_gates x v t_propa).first_gate
          (CtcDeriv.contract_gates x v t_propa).slices v.slices)).encloses f
      ∧ (Tube.mk (CtcDeriv.contract_gates x v t_propa).first_gate
        (CtcDeriv.envelopes (CtcDeriv.contract_gates x v t_propa).first_gate
          (CtcDeriv.contract_gates x v t_propa).slices v.slices)).is_subset x := by
  have gates : (CtcDeriv.contract_gates x v t_propa).encloses f
      ∧ (CtcDeriv.contract_gates x v t_propa).is_subset x := by
    obtain ⟨k2, k3, k4⟩ := hyps_of_map_eq f f' x.slices v.slices h1 h2 h3 h4
    cases t_propa with
    | FORWARD =>
      exact ⟨CtcDeriv.forward_sweep_encloses f f' x.slices v.slices x.first_gate h1 k2 k3 k4
          h5 h6,
        Interval.is_subset_rfl _, CtcDeriv.forward_sweep_narrows _ _ _⟩
    | BACKWARD =>
      exact ⟨CtcDeriv.backward_sweep_encloses f f' x.slices v.slices x.first_gate h1 k2 k3 k4
          h5 h6,
        (CtcDeriv.backward_sweep_narrows _ _ _).1, (CtcDeriv.backward_sweep_narrows _ _ _).2⟩
    | FORWARD_BACKWARD =>
      have n1 := CtcDeriv.forward_sweep_narrows x.slices v.slices x.first_gate
      have m1 := (narrowed_map_domain _ _ n1).trans h1
      obtain ⟨j2, j3, j4⟩ := hyps_of_map_eq f f' _ v.slices m1 h2 h3 h4
      have e1 := CtcDeriv.forward_sweep_encloses f f' x.slices v.slices x.first_gate h1 k2 k3
        k4 h5 h6
      have n2 := CtcDeriv.backward_sweep_narrows
        (CtcDeriv.forward_sweep x.first_gate x.slices v.slices) v.slices x.first_gate
      exact ⟨CtcDeriv.backward_sweep_encloses f f' _ v.slices x.first_gate m1 j2 j3 j4 h5 e1,
        n2.1, narrowed_trans _ _ _ n2.2 n1⟩
  obtain ⟨g1, g2⟩ := gates
  have m1 := (narrowed_map_domain _ _ g2.2).trans h1
  obtain ⟨j2, _, j4⟩ := hyps_of_map_eq f f' _ v.slices m1 h2 h3 h4
  refine ⟨CtcDeriv.envelopes_encloses f f' _ v.slices _ m1 j2 j4 h5 g1, ?_⟩
  exact Tube.subset_chain
    (⟨Interval.is_subset_rfl _, CtcDeriv.envelopes_narrows _ _ _⟩ :
      (Tube.mk (CtcDeriv.contract_gates x v t_propa).first_gate
        (CtcDeriv.envelopes (CtcDeriv.contract_gates x v t_propa).first_gate
          (CtcDeriv.contract_gates x v t_propa).slices v.slices)).is_subset
        (CtcDeriv.contract_gates x v t_propa)) g2

theorem CtcDeriv.contract_sound (x v : Tube) (f f' : ℝ → ℝ)
    (hs : x.same_slicing v = true)
    (h2 : ∀ s ∈ v.slices, s.domain.valid_domain = true)
    (h3 : v.slices.Chain' (fun s1 s2 => s1.domain.ub = s2.domain.lb))
    (h4 : ∀ s ∈ v.slices, ∀ t, s.domain.mem t → HasDerivAt f (f' t) t)
    (h5 : v.envelopes_enclose f') (h6 : x.encloses f) (t_propa : TPropagation) :
    ∃ y b, CtcDeriv.contract x v t_propa = some (y, b) ∧ y.same_slicing v = true
      ∧ y.encloses f ∧ y.is_subset x := by
  have h1 := (Tube.same_slicing_iff x v).1 hs
  obtain ⟨k1, k2⟩ := CtcDeriv.contract_tube_sound x v f f' h1 h2 h3 h4 h5 h6 t_propa
  unfold CtcDeriv.contract
  rw [if_pos hs]
  exact ⟨_, _, rfl,
    (Tube.same_slicing_iff _ v).2 ((narrowed_map_domain _ _ k2.2).trans h1), k1, k2⟩

theorem CtcDeriv.contract_all_sound (v : Tube) (f f' : ℝ → ℝ)
    (h2 : ∀ s ∈ v.slices, s.domain.valid_domain = true)
    (h3 : v.slices.Chain' (fun s1 s2 => s1.domain.ub = s2.domain.lb))
    (h4 : ∀ s ∈ v.slices, ∀ t, s.domain.mem t → HasDerivAt f (f' t) t)
    (h5 : v.envelopes_enclose f') : ∀ (modes : List TPropagation) (x : Tube),
    x.same_slicing v = true → x.encloses f →
    ∃ y, CtcDeriv.contract_all x v modes = some y ∧ y.same_slicing v = true
      ∧ y.encloses f ∧ y.is_subset x
  | [], x, hs, h6 => ⟨x, rfl, hs, h6, Tube.subset_of_self x⟩
  | m :: ms, x, hs, h6 => by
    obtain ⟨y, b, e, k1, k2, k3⟩ := CtcDeriv.contract_sound x v f f' hs h2 h3 h4 h5 h6 m
    obtain ⟨z, ez, j1, j2, j3⟩ := CtcDeriv.contract_all_sound v f f' h2 h3 h4 h5 ms y k1 k2
    refine ⟨z, ?_, j1, j2, Tube.subset_chain j3 k3⟩
    simp only [CtcDeriv.contract_all, e]
    exact ez

theorem Tube.slice_mem_domain (x : Tube) (hx : x.partition_invariant) (d : Interval)
    (hd : x.domain = some d) (s : Slice) (hs : s ∈ x.slices) (t : ℝ) (ht : s.domain.mem t) :
    d.mem t := by
  obtain ⟨a0, b0, _, hdom, hall, _⟩ := Tube.domain_spec x hx
  have hd0 : d = Interval.mk (Dbl.fin a0) (Dbl.fin b0) := Option.some.inj (hd.symm.trans hdom)
  subst hd0
  obtain ⟨a, b, _, e⟩ := (Interval.valid_domain_iff _).1 (hx.2.1 s hs)
  have i := hall s hs
  rw [e] at i ht
  have i1 : (a0 : ℝ) ≤ a := by exact_mod_cast (Dbl.fin_le_fin _ _).1 i.1
  have i2 : (b : ℝ) ≤ b0 := by exact_mod_cast (Dbl.fin_le_fin _ _).1 i.2
  obtain ⟨t1, t2⟩ := (Interval.mem_fin a b t).1 ht
  exact (Interval.mem_fin a0 b0 t).2 ⟨le_trans i1 t1, le_trans t2 i2⟩

/-- C31: a tube `x` that satisfies the partition invariant, of domain `d`, a tube `v` with the
same slicing, and a function `f` with a derivative `f'` at every instant of `d`, such that `f'`
is in the envelopes of `v` and `f` is in the envelopes and gates of `x` at every instant. After
any number of applications of the contractor, in any directions, and after `ctcFwd`, `ctcBwd`
and `ctcFwdBwd`, the call has returned, `f` is still in the envelopes and gates of the tube
at every instant, and every envelope and gate is a subset of its value before. -/
theorem C31_ctc_deriv_sound (x v : Tube) (hx : x.partition_invariant) (d : Interval)
    (hd : x.domain = some d) (hs : x.same_slicing v = true) (f f' : ℝ → ℝ)
    (hf : ∀ t, d.mem t → HasDerivAt f (f' t) t) (hv : v.envelopes_enclose f')
    (hxf : x.encloses f) :
    (∀ modes : List TPropagation, ∃ y, CtcDeriv.contract_all x v modes = some y
        ∧ y.same_slicing v = true ∧ y.encloses f ∧ y.is_subset x)
      ∧ (∃ y b, x.ctcFwd v = some (y, b) ∧ y.encloses f ∧ y.is_subset x)
      ∧ (∃ y b, x.ctcBwd v = some (y, b) ∧ y.encloses f ∧ y.is_subset x)
      ∧ (∃ y b, x.ctcFwdBwd v = some (y, b) ∧ y.encloses f ∧ y.is_subset x) := by
  have h1 := (Tube.same_slicing_iff x v).1 hs
  have hxs : ∀ s ∈ x.slices, ∀ t, s.domain.mem t → HasDerivAt f (f' t) t :=
    fun s hs2 t ht => hf t (Tube.slice_mem_domain x hx d hd s hs2 t ht)
  obtain ⟨k2, k3, k4⟩ := hyps_of_map_eq f f' v.slices x.slices h1.symm hx.2.1 hx.2.2 hxs
  refine ⟨fun modes => CtcDeriv.contract_all_sound v f f' k2 k3 k4 hv modes x hs hxf, ?_, ?_, ?_⟩
  · obtain ⟨y, b, e, _, j2, j3⟩ :=
      CtcDeriv.contract_sound x v f f' hs k2 k3 k4 hv hxf TPropagation.FORWARD
    exact ⟨y, b, e, j2, j3⟩
  · obtain ⟨y, b, e, _, j2, j3⟩ :=
      CtcDeriv.contract_sound x v f f' hs k2 k3 k4 hv hxf TPropagation.BACKWARD
    exact ⟨y, b, e, j2, j3⟩
  · obtain ⟨y, b, e, _, j2, j3⟩ :=
      CtcDeriv.contract_sound x v f f' hs k2 k3 k4 hv hxf TPropagation.FORWARD_BACKWARD
    exact ⟨y, b, e, j2, j3⟩

theorem C31_ctc_deriv_sound_witness :
    ∃ y, CtcDeriv.contract_all
        (Tube.mk (Interval.mk (Dbl.fin 0) (Dbl.fin 0))
          [⟨Interval.mk (Dbl.fin 0) (Dbl.fin 1), Interval.mk (Dbl.fin 0) (Dbl.fin 2),
              Interval.mk (Dbl.fin 0) (Dbl.fin 2)⟩,
            ⟨Interval.mk (Dbl.fin 1) (Dbl.fin 2), Interval.mk (Dbl.fin 0) (Dbl.fin 3),
              Interval.mk (Dbl.fin 0) (Dbl.fin 3)⟩])
        (Tube.mk (Interval.mk (Dbl.fin 1) (Dbl.fin 1))
          [⟨Interval.mk (Dbl.fin 0) (Dbl.fin 1), Interval.mk (Dbl.fin 1) (Dbl.fin 1),
              Interval.mk (Dbl.fin 1) (Dbl.fin 1)⟩,
            ⟨Interval.mk (Dbl.fin 1) (Dbl.fin 2), Interval.mk (Dbl.fin 1) (Dbl.fin 1),
              Interval.mk (Dbl.fin 1) (Dbl.fin 1)⟩])
        [TPropagation.FORWARD, TPropagation.BACKWARD] = some y
      ∧ y.same_slicing
        (Tube.mk (Interval.mk (Dbl.fin 1) (Dbl.fin 1))
          [⟨Interval.mk (Dbl.fin 0) (Dbl.fin 1), Interval.mk (Dbl.fin 1) (Dbl.fin 1),
              Interval.mk (Dbl.fin 1) (Dbl.fin 1)⟩,
            ⟨Interval.mk (Dbl.fin 1) (Dbl.fin 2), Interval.mk (Dbl.fin 1) (Dbl.fin 1),
              Interval.mk (Dbl.fin 1) (Dbl.fin 1)⟩]) = true
      ∧ y.encloses (fun t => t)
      ∧ y.is_subset
        (Tube.mk (Interval.mk (Dbl.fin 0) (Dbl.fin 0))
          [⟨Interval.mk (Dbl.fin 0) (Dbl.fin 1), Interval.mk (Dbl.fin 0) (Dbl.fin 2),
              Interval.mk (Dbl.fin 0) (Dbl.fin 2)⟩,
            ⟨Interval.mk (Dbl.fin 1) (Dbl.fin 2), Interval.mk (Dbl.fin 0) (Dbl.fin 3),
              Interval.mk (Dbl.fin 0) (Dbl.fin 3)⟩]) :=
  (C31_ctc_deriv_sound _ _ (by decide) (Interval.mk (Dbl.fin 0) (Dbl.fin 2)) (by decide)
    (by decide) (fun t => t) (fun _ => 1) (fun t _ => hasDerivAt_id' t)
    (by
      intro s hs t _
      simp only [List.mem_cons, List.mem_singleton, List.not_mem_nil, or_false] at hs
      rcases hs with rfl | rfl <;> exact (Interval.mem_exact 1 1).2 (by norm_num))
    (by
      refine ⟨fun t ht => ?_, fun t ht => ?_, fun t ht => ?_, fun t ht => ?_, fun t ht => ?_,
        fun t ht => ?_, trivial⟩
      · have e := (Dbl.eq_real_fin 0 t).1 ht
        exact (Interval.mem_fin 0 0 t).2 (by rw [e]; norm_num)
      · obtain ⟨h1, h2⟩ := (Interval.mem_fin 0 1 t).1 ht
        exact (Interval.mem_fin 0 2 t).2 ⟨h1, by push_cast at h2 ⊢; linarith⟩
      · have e := (Dbl.eq_real_fin 1 t).1 ht
        exact (Interval.mem_fin 0 2 t).2 (by rw [e]; norm_num)
      · have e := (Dbl.eq_real_fin 1 t).1 ht
        exact (Interval.mem_fin 0 2 t).2 (by rw [e]; norm_num)
      · obtain ⟨h1, h2⟩ := (Interval.mem_fin 1 2 t).1 ht
        exact (Interval.mem_fin 0 3 t).2
          ⟨by push_cast at h1 ⊢; linarith, by push_cast at h2 ⊢; linarith⟩
      · have e := (Dbl.eq_real_fin 2 t).1 ht
        exact (Interval.mem_fin 0 3 t).2 (by rw [e]; norm_num))).1
    [TPropagation.FORWARD, TPropagation.BACKWARD]

end Tubex
